import Mathlib

/-!
# himongo: the byte-pack codec (`utils.c`) and the async controller (`async.c`)

A shallow embedding of the pack/unpack functions `mongoSdscatpack`,
`mongoSnpack`, `mongoSnunpack`, of the callback queue of the async
controller with its connect operations (as a list, and as linked records on
a heap), and of the timeout conversion and the TCP connect loop of `net.c`,
followed by theorems about them.

Conventions of the embedding.
* A byte is a natural number below 256; memory objects are lists of bytes.
* `size_t` and `long` are 64 bits wide, `int` is 32 bits wide.
* A C format string is a `List Char`; the end of the list (or a NUL
  character) is the terminator.
* A variadic argument list is a `List Arg` (resp. `List UArg`).  Fetching an
  argument of the wrong kind, or from an exhausted list, is undefined
  behaviour, as is reading or writing outside a memory object.
-/

namespace Himongo

/-! ## Machine arithmetic -/

/-- Modulus of `size_t`. -/
def SIZE_MOD : Nat := 2 ^ 64

/-- Subtraction of two `size_t` values (wraps around). -/
def sizeSub (a b : Nat) : Nat := (a % SIZE_MOD + SIZE_MOD - b % SIZE_MOD) % SIZE_MOD

/-- The conversion `(int)x` of a `size_t` value: keep the low 32 bits, read
as two's complement. -/
def toInt32 (n : Nat) : Int :=
  if n % 2 ^ 32 < 2 ^ 31 then ((n % 2 ^ 32 : Nat) : Int) else ((n % 2 ^ 32 : Nat) : Int) - 2 ^ 32

/-- Byte order of the host: the value of the `BYTE_ORDER` macro. -/
inductive ByteOrder where
  | little
  | big
  deriving DecidableEq, Repr

/-- The `w` low-order bytes of `v`, least significant first. -/
def leBytes : Nat → Nat → List Nat
  | 0, _ => []
  | w + 1, v => v % 256 :: leBytes w (v / 256)

/-- The number whose bytes, least significant first, are the given ones. -/
def ofLeBytes : List Nat → Nat
  | [] => 0
  | b :: bs => b % 256 + 256 * ofLeBytes bs

/-- Modelled from the spec: `intrev16`, `intrev32`, `intrev64` of
`endianconv.h`, which is not among the sources.  The spec calls the operation
"endian-converted": the `w` bytes of the value are reversed. -/
def intrev (w v : Nat) : Nat := ofLeBytes (leBytes w v).reverse

/-- Object representation of a `w`-byte unsigned integer on the host: what
`memcpy(ptr, &u, w)` copies. -/
def objBytes (host : ByteOrder) (w v : Nat) : List Nat :=
  match host with
  | .little => leBytes w v
  | .big => (leBytes w v).reverse

/-- Value of a `w`-byte unsigned integer whose object representation is
`bs`: what `memcpy(u, ptr, w)` leaves in `*u`. -/
def objValue (host : ByteOrder) (bs : List Nat) : Nat :=
  match host with
  | .little => ofLeBytes bs
  | .big => ofLeBytes bs.reverse

/-- The function `strlen` on the bytes of an object, starting at the pointer:
`none` when the object holds no NUL (the scan leaves the object). -/
def strlen : List Nat → Option Nat
  | [] => none
  | b :: bs => if b = 0 then some 0 else (strlen bs).map (· + 1)

/-- The call `memcpy(buf + pos, bs, bs.length)`: `none` when the
destination range leaves the object `buf`. -/
def memWrite (buf : List Nat) (pos : Nat) (bs : List Nat) : Option (List Nat) :=
  if pos + bs.length ≤ buf.length then
    some (buf.take pos ++ bs ++ buf.drop (pos + bs.length))
  else none

/-- Reading `n` bytes at `buf + pos`: `none` when the source range leaves
the object `buf`. -/
def memRead (buf : List Nat) (pos n : Nat) : Option (List Nat) :=
  if pos + n ≤ buf.length then some ((buf.drop pos).take n) else none

/-! ## Outcomes and arguments -/

/-- How a call of a codec function ends. -/
inductive Outcome (α : Type) where
  | ret (v : α)
  | abort
  | undef
  deriving DecidableEq, Repr

/-- How one pass through the data switch (or the whole loop) ends: `next` is
a `break` out of the switch (resp. the loop condition failing), `error` is
`goto error`. -/
inductive Step (σ α : Type) where
  | next (st : σ) (args : List α)
  | error (st : σ)
  | abort
  | undef
  deriving DecidableEq, Repr

/-- A variadic argument of the packers. -/
inductive Arg where
  | num (v : Nat)
  | ptr (mem : List Nat)
  | size (n : Nat)
  deriving DecidableEq, Repr

/-- A variadic argument of the unpacker: a destination pointer or a length. -/
inductive UArg where
  | dst
  | size (n : Nat)
  deriving DecidableEq, Repr

/-- What the unpacker leaves in one destination. -/
inductive Val where
  | num (v : Nat)
  | ptr (off : Nat)
  | dup (bytes : List Nat)
  | untouched
  deriving DecidableEq, Repr

/-- The first switch of `mongoSnpack` and `mongoSnunpack`: the new value of
`need_rev` when `c` is an endianness selector, `none` for the `default`
branch. -/
def selector (host : ByteOrder) (c : Char) : Option Bool :=
  if c = '=' then some false
  else if c = '<' then some (decide (host = ByteOrder.big))
  else if c = '>' ∨ c = '!' then some (decide (host = ByteOrder.little))
  else none

/-- The first switch of `mongoSdscatpack`.  Its `>`/`!` branch for a host
that is not little-endian assigns to the undeclared name `meed_rev`, so the
function is a program only where `BYTE_ORDER == LITTLE_ENDIAN`; that
instance is the one embedded. -/
def sdsSelector (c : Char) : Option Bool :=
  if c = '=' then some false
  else if c = '<' then some false
  else if c = '>' ∨ c = '!' then some true
  else none

/-- The case labels of the data switch, which are the same in the three
functions: `b`/`B`, then `h`/`H`, `i`/`I`, `q`/`Q` (with the width of the
integer), `s`/`S` and `m`/`M` (with whether the letter is the upper-case one). -/
inductive Code where
  | byte
  | int (w : Nat)
  | str (upper : Bool)
  | mem (upper : Bool)
  deriving DecidableEq, Repr

/-- The case label that the character `c` selects in the data switch; `none`
is the `default` label. -/
def dataCode (c : Char) : Option Code :=
  if c = 'b' ∨ c = 'B' then some Code.byte
  else if c = 'h' ∨ c = 'H' then some (Code.int 2)
  else if c = 'i' ∨ c = 'I' then some (Code.int 4)
  else if c = 'q' ∨ c = 'Q' then some (Code.int 8)
  else if c = 's' then some (Code.str false)
  else if c = 'S' then some (Code.str true)
  else if c = 'm' then some (Code.mem false)
  else if c = 'M' then some (Code.mem true)
  else none

/-- The length that the packers copy for a string of `strlen` `n`:
`*f == 's' ? strlen(ss) : strlen(ss)+1`. -/
def strFieldLen (upper : Bool) (n : Nat) : Nat := if upper then n + 1 else n

/-! ## mongoSdscatpack -/

/-- Local state of `mongoSdscatpack`. -/
structure SdsSt where
  need_rev : Bool
  s : List Nat
  deriving DecidableEq, Repr

/-- Modelled from the spec: `sdscatlen` of `sds.c`, which is not among the
sources; the spec's "append-pack into a growable byte sequence": the bytes are
appended to the sequence. -/
def sdscatlen (s t : List Nat) : List Nat := s ++ t

/-- The cases `h`, `i`, `q` of `mongoSdscatpack`, for width `w`. -/
def sdsInt (w : Nat) (st : SdsSt) (args : List Arg) : Step SdsSt Arg :=
  match args with
  | Arg.num v :: args' =>
    let u := v % 256 ^ w
    let u := if st.need_rev then intrev w u else u
    Step.next { st with s := sdscatlen st.s (objBytes ByteOrder.little w u) } args'
  | _ => Step.undef

/-- The data switch of `mongoSdscatpack`. -/
def sdsCode (c : Char) (st : SdsSt) (args : List Arg) : Step SdsSt Arg :=
  match dataCode c with
  | some Code.byte =>
    match args with
    | Arg.num v :: args' => Step.next { st with s := sdscatlen st.s [v % 256] } args'
    | _ => Step.undef
  | some (Code.int w) => sdsInt w st args
  | some (Code.str upper) =>
    match args with
    | Arg.ptr mem :: args' =>
      match strlen mem with
      | some n =>
        Step.next { st with s := sdscatlen st.s (mem.take (strFieldLen upper n)) } args'
      | none => Step.undef
    | _ => Step.undef
  | some (Code.mem _) =>
    match args with
    | Arg.ptr mem :: Arg.size mem_len :: args' =>
      if mem_len = 0 then Step.next st args'
      else if mem_len ≤ mem.length then
        Step.next { st with s := sdscatlen st.s (mem.take mem_len) } args'
      else Step.undef
    | _ => Step.undef
  | none => Step.abort

/-- The loop of `mongoSdscatpack`.  The flag tells where control is: `false`
at the loop condition `while(*f)`, `true` just after the first switch has
consumed a selector (so the data switch reads the next character without
the loop condition being tested). -/
def sdsLoop : List Char → Bool → SdsSt → List Arg → Step SdsSt Arg
  | [], false, st, args => Step.next st args
  | [], true, _, _ => Step.abort
  | c :: f, false, st, args =>
    if c = Char.ofNat 0 then Step.next st args
    else
      match sdsSelector c with
      | some r => sdsLoop f true { st with need_rev := r } args
      | none =>
        match sdsCode c st args with
        | Step.next st' args' => sdsLoop f false st' args'
        | e => e
  | c :: f, true, st, args =>
    match sdsCode c st args with
    | Step.next st' args' => sdsLoop f false st' args'
    | e => e

/-- The function `mongoSdscatpack(s, fmt, ...)`: the new sds. -/
def mongoSdscatpack (s : List Nat) (fmt : List Char) (args : List Arg) : Outcome (List Nat) :=
  match sdsLoop fmt false { need_rev := false, s := s } args with
  | Step.next st _ => Outcome.ret st.s
  | Step.error st => Outcome.ret st.s
  | Step.abort => Outcome.abort
  | Step.undef => Outcome.undef

/-! ## mongoSnpack -/

/-- Local state of `mongoSnpack`: `pos` is `ptr - buf`. -/
structure PackSt where
  need_rev : Bool
  pos : Nat
  remain : Nat
  buf : List Nat
  deriving DecidableEq, Repr

/-- The statements `memcpy(ptr, bs, n); ptr += n; remain -= n;`. -/
def packStore (st : PackSt) (bs : List Nat) (args : List Arg) : Step PackSt Arg :=
  match memWrite st.buf st.pos bs with
  | some buf' =>
    Step.next { st with pos := st.pos + bs.length,
                        remain := sizeSub st.remain bs.length, buf := buf' } args
  | none => Step.undef

/-- The cases `h`, `i`, `q` of `mongoSnpack`, for width `w`. -/
def packInt (host : ByteOrder) (w : Nat) (st : PackSt) (args : List Arg) : Step PackSt Arg :=
  if st.remain < w then Step.error st
  else
    match args with
    | Arg.num v :: args' =>
      let u := v % 256 ^ w
      let u := if st.need_rev then intrev w u else u
      packStore st (objBytes host w u) args'
    | _ => Step.undef

/-- The data switch of `mongoSnpack`. -/
def packCode (host : ByteOrder) (c : Char) (st : PackSt) (args : List Arg) : Step PackSt Arg :=
  match dataCode c with
  | some Code.byte =>
    if st.remain < 1 then Step.error st
    else
      match args with
      | Arg.num v :: args' => packStore st [v % 256] args'
      | _ => Step.undef
  | some (Code.int w) => packInt host w st args
  | some (Code.str upper) =>
    match args with
    | Arg.ptr mem :: args' =>
      match strlen mem with
      | some n =>
        if st.remain < strFieldLen upper n then Step.error st
        else packStore st (mem.take (strFieldLen upper n)) args'
      | none => Step.undef
    | _ => Step.undef
  | some (Code.mem _) =>
    match args with
    | Arg.ptr mem :: Arg.size mem_len :: args' =>
      if st.remain < mem_len then Step.error st
      else if mem_len = 0 then Step.next st args'
      else if mem_len ≤ mem.length then packStore st (mem.take mem_len) args'
      else Step.undef
    | _ => Step.undef
  | none => Step.abort

/-- The loop of `mongoSnpack`; the flag is as in `sdsLoop`. -/
def packLoop (host : ByteOrder) : List Char → Bool → PackSt → List Arg → Step PackSt Arg
  | [], false, st, args => Step.next st args
  | [], true, _, _ => Step.abort
  | c :: f, false, st, args =>
    if c = Char.ofNat 0 then Step.next st args
    else
      match selector host c with
      | some r => packLoop host f true { st with need_rev := r } args
      | none =>
        match packCode host c st args with
        | Step.next st' args' => packLoop host f false st' args'
        | e => e
  | c :: f, true, st, args =>
    match packCode host c st args with
    | Step.next st' args' => packLoop host f false st' args'
    | e => e

/-- Initial state of the loops of `mongoSnpack`. -/
def packInit (buf : List Nat) (offset size : Nat) : PackSt :=
  { need_rev := false, pos := offset, remain := sizeSub size offset, buf := buf }

/-- The function `mongoSnpack(buf, offset, size, fmt, ...)`: the returned
`int` and the buffer as the call leaves it. -/
def mongoSnpack (host : ByteOrder) (buf : List Nat) (offset size : Nat) (fmt : List Char)
    (args : List Arg) : Outcome (Int × List Nat) :=
  match packLoop host fmt false (packInit buf offset size) args with
  | Step.next st _ => Outcome.ret (toInt32 (sizeSub size st.remain), st.buf)
  | Step.error st => Outcome.ret (-1, st.buf)
  | Step.abort => Outcome.abort
  | Step.undef => Outcome.undef

/-! ## mongoSnunpack -/

/-- Local state of `mongoSnunpack`; `out` collects what has been stored
through the destination pointers, in argument order. -/
structure UnpackSt where
  need_rev : Bool
  pos : Nat
  remain : Nat
  out : List Val
  deriving DecidableEq, Repr

/-- The statements `ptr += n; remain -= n;` after a destination received `v`. -/
def unpackAdvance (st : UnpackSt) (n : Nat) (v : Val) (args : List UArg) : Step UnpackSt UArg :=
  Step.next { st with pos := st.pos + n, remain := sizeSub st.remain n, out := st.out ++ [v] } args

/-- The cases `h`, `i`, `q` of `mongoSnunpack`, for width `w`. -/
def unpackInt (host : ByteOrder) (buf : List Nat) (w : Nat) (st : UnpackSt) (args : List UArg) :
    Step UnpackSt UArg :=
  if st.remain < w then Step.error st
  else
    match args with
    | UArg.dst :: args' =>
      match memRead buf st.pos w with
      | some bs =>
        let u := objValue host bs
        let u := if st.need_rev then intrev w u else u
        unpackAdvance st w (Val.num u) args'
      | none => Step.undef
    | _ => Step.undef

/-- The data switch of `mongoSnunpack`. -/
def unpackCode (host : ByteOrder) (buf : List Nat) (c : Char) (st : UnpackSt)
    (args : List UArg) : Step UnpackSt UArg :=
  match dataCode c with
  | some Code.byte =>
    if st.remain < 1 then Step.error st
    else
      match args with
      | UArg.dst :: args' =>
        match memRead buf st.pos 1 with
        | some bs => unpackAdvance st 1 (Val.num (objValue host bs)) args'
        | none => Step.undef
      | _ => Step.undef
  | some (Code.int w) => unpackInt host buf w st args
  | some (Code.str upper) =>
    match args with
    | UArg.dst :: args' =>
      match strlen (buf.drop st.pos) with
      | some n =>
        unpackAdvance st (n + 1)
          (if upper then Val.dup ((buf.drop st.pos).take (n + 1)) else Val.ptr st.pos) args'
      | none => Step.undef
    | _ => Step.undef
  | some (Code.mem upper) =>
    match args with
    | UArg.dst :: UArg.size mem_len :: args' =>
      if st.remain < mem_len then Step.error st
      else if mem_len = 0 then Step.next { st with out := st.out ++ [Val.untouched] } args'
      else if upper then
        match memRead buf st.pos mem_len with
        | some bs => unpackAdvance st mem_len (Val.dup bs) args'
        | none => Step.undef
      else unpackAdvance st mem_len (Val.ptr st.pos) args'
    | _ => Step.undef
  | none => Step.abort

/-- The loop of `mongoSnunpack`; the flag is as in `sdsLoop`. -/
def unpackLoop (host : ByteOrder) (buf : List Nat) :
    List Char → Bool → UnpackSt → List UArg → Step UnpackSt UArg
  | [], false, st, args => Step.next st args
  | [], true, _, _ => Step.abort
  | c :: f, false, st, args =>
    if c = Char.ofNat 0 then Step.next st args
    else
      match selector host c with
      | some r => unpackLoop host buf f true { st with need_rev := r } args
      | none =>
        match unpackCode host buf c st args with
        | Step.next st' args' => unpackLoop host buf f false st' args'
        | e => e
  | c :: f, true, st, args =>
    match unpackCode host buf c st args with
    | Step.next st' args' => unpackLoop host buf f false st' args'
    | e => e

/-- Initial state of the loop of `mongoSnunpack`. -/
def unpackInit (offset size : Nat) : UnpackSt :=
  { need_rev := false, pos := offset, remain := sizeSub size offset, out := [] }

/-- The function `mongoSnunpack(buf, offset, size, fmt, ...)`: the returned
`int` and what the destinations hold. -/
def mongoSnunpack (host : ByteOrder) (buf : List Nat) (offset size : Nat) (fmt : List Char)
    (args : List UArg) : Outcome (Int × List Val) :=
  match unpackLoop host buf fmt false (unpackInit offset size) args with
  | Step.next st _ => Outcome.ret (toInt32 (sizeSub size st.remain), st.out)
  | Step.error st => Outcome.ret (-1, st.out)
  | Step.abort => Outcome.abort
  | Step.undef => Outcome.undef

/-! ## The format grammar -/

/-- The endianness selectors. -/
def isSelector (c : Char) : Bool := decide (c ∈ ['=', '<', '>', '!'])

/-- The numeric data codes `b B h H i I q Q`. -/
def isNumCode (c : Char) : Bool :=
  match dataCode c with
  | some Code.byte => true
  | some (Code.int _) => true
  | _ => false

/-- The data codes `b B h H i I q Q s S m M`. -/
def isDataCode (c : Char) : Bool := (dataCode c).isSome

/-- The format in which the selector `e` is written before every code of `cs`. -/
def selEach (e : Char) : List Char → List Char
  | [] => []
  | c :: cs => e :: c :: selEach e cs

/-- What a `break` out of the data switch of `mongoSnpack` has done to the
state: nothing, or one `memcpy` of `bs` at `ptr` followed by `ptr += n` and
`remain -= n`, where the bytes fitted in `remain`. -/
def PackStep (st st' : PackSt) : Prop :=
  st' = st ∨ ∃ bs, memWrite st.buf st.pos bs = some st'.buf ∧ st'.pos = st.pos + bs.length
    ∧ st'.remain = sizeSub st.remain bs.length ∧ st'.need_rev = st.need_rev
    ∧ bs.length ≤ st.remain

/-- Two format characters that are equal or are both one of the big-endian
selectors `>` and `!`. -/
def bigAlias (a b : Char) : Prop := a = b ∨ ((a = '>' ∨ a = '!') ∧ (b = '>' ∨ b = '!'))

/-- The formats that are a sequence of items, each item being one data code
optionally preceded by one selector.  The flag is `true` when a selector has
just been read and the data code of its item is due. -/
def itemFormat : List Char → Bool → Bool
  | [], after => !after
  | c :: f, false => if isSelector c then itemFormat f true else isDataCode c && itemFormat f false
  | c :: f, true => isDataCode c && itemFormat f false

/-! ## Widths and values of the fields -/

/-- Width of the field that a data code emits for the arguments at the head
of the list (the table of the codec: 1, 2, 4, 8, `strlen`, `strlen+1`, the
explicit length), with the arguments that remain; `none` when the arguments
at the head are not the ones the code fetches. -/
def fieldWidth : Code → List Arg → Option (Nat × List Arg)
  | Code.byte, Arg.num _ :: a => some (1, a)
  | Code.int w, Arg.num _ :: a => some (w, a)
  | Code.str upper, Arg.ptr mem :: a => (strlen mem).map (fun n => (strFieldLen upper n, a))
  | Code.mem _, Arg.ptr mem :: Arg.size n :: a => if n ≤ mem.length then some (n, a) else none
  | _, _ => none

/-- Sum of the widths of the data directives of a format, for the given
arguments; `none` when the format is not a sequence of items (a data code
optionally preceded by one selector) or the arguments do not match it.  The
flag is `true` when a selector has just been read. -/
def fmtWidth : List Char → Bool → List Arg → Option Nat
  | [], false, _ => some 0
  | [], true, _ => none
  | c :: f, false, args =>
    if isSelector c then fmtWidth f true args
    else
      match dataCode c with
      | some k =>
        match fieldWidth k args with
        | some (w, args') => (fmtWidth f false args').map (w + ·)
        | none => none
      | none => none
  | c :: f, true, args =>
    match dataCode c with
    | some k =>
      match fieldWidth k args with
      | some (w, args') => (fmtWidth f false args').map (w + ·)
      | none => none
    | none => none

/-- The bytes that a data code emits for the arguments at the head of the
list, on the given host and with the given value of `need_rev`. -/
def fieldBytes (host : ByteOrder) (need_rev : Bool) : Code → List Arg → Option (List Nat × List Arg)
  | Code.byte, Arg.num v :: a => some ([v % 256], a)
  | Code.int w, Arg.num v :: a =>
    some (objBytes host w (if need_rev then intrev w (v % 256 ^ w) else v % 256 ^ w), a)
  | Code.str upper, Arg.ptr mem :: a =>
    (strlen mem).map (fun n => (mem.take (strFieldLen upper n), a))
  | Code.mem _, Arg.ptr mem :: Arg.size n :: a =>
    if n ≤ mem.length then some (mem.take n, a) else none
  | _, _ => none

/-- The argument list for `mongoSnunpack` that matches an argument list of
the packers: a destination for each value or pointer, the same lengths. -/
def unpackArgs : List Arg → List UArg
  | [] => []
  | Arg.num _ :: a => UArg.dst :: unpackArgs a
  | Arg.ptr _ :: a => UArg.dst :: unpackArgs a
  | Arg.size n :: a => UArg.size n :: unpackArgs a

/-- The `n` bytes that a destination of the unpacker designates: the bytes at
the pointer into the buffer, or of the copy; a destination left untouched
designates no byte. -/
def valBytes (buf : List Nat) (n : Nat) : Val → List Nat
  | Val.ptr off => (buf.drop off).take n
  | Val.dup bs => bs.take n
  | Val.num _ => []
  | Val.untouched => []

/-- The values `vals` left by the unpacker are the packed arguments: for each
numeric code the argument reduced to an unsigned value of the width of the
code, for each `m`/`M` code the first `n` bytes of the blob. -/
def Recovered (buf : List Nat) : List Code → List Arg → List Val → Prop
  | [], _, [] => True
  | Code.byte :: ks, Arg.num v :: a, Val.num u :: vs => u = v % 256 ∧ Recovered buf ks a vs
  | Code.int w :: ks, Arg.num v :: a, Val.num u :: vs => u = v % 256 ^ w ∧ Recovered buf ks a vs
  | Code.mem _ :: ks, Arg.ptr mem :: Arg.size n :: a, x :: vs =>
    valBytes buf n x = mem.take n ∧ Recovered buf ks a vs
  | _, _, _ => False

/-! ## The async controller (`async.c`)

The controller is a record; each C function is a function on that record.
User code (the bodies of reply callbacks and of the connect/disconnect
hooks) is a list of calls of the API, `Act`, given by a `Prog`.  The functions
that may run user code take as parameter `api` the interpretation of the
calls that this user code makes; `apiCall` closes the recursion with a bound
on the nesting depth and on the iterations of `while` loops (`none`: bound
reached).  The hooks of the event loop (`ev.addRead`, ...) are adapter code
and are taken not to call back into the controller.  `malloc` is taken to
succeed.  Every observable action is appended to `trace`. -/

/-- Modelled from the spec: the status codes of `read.h`, which is not among
the sources ("returns an error" / the submit-error signal). -/
def MONGO_OK : Int := 0

/-- Modelled from the spec: see `MONGO_OK`. -/
def MONGO_ERR : Int := -1

/-- Modelled from the spec: the query flag `EXHAUST (1<<6)` of `proto.h`, which
is not among the sources. -/
def QUERY_FLAG_EXHAUST : Nat := 64

/-- Modelled from the spec: the five error kinds that the error slot `c->err`
can hold (`read.h` is not among the sources); the slot is `none` when it is 0. -/
inductive ErrKind where
  | io
  | eof
  | protocol
  | oom
  | other
  deriving DecidableEq, Repr

/-- Modelled from the spec: a reply object (its type is declared in a header
that is not among the sources): the cursor identifier and the documents,
the latter abstracted to a number. -/
structure mongoReply where
  cursorID : Int
  docs : Nat
  deriving DecidableEq, Repr

/-- Modelled from the spec: the record `mongoCallback` of `async.h`, which is
not among the sources (the spec's PendingCallback `{fn, privdata, flags}`, the
fields that `async.c` uses).  `fn` is `none` for a NULL function pointer, else
the number of a user function; the field `next` is the position in the
queue. -/
structure mongoCallback where
  fn : Option Nat
  flags : Nat
  privdata : Nat
  deriving DecidableEq, Repr

/-- The bits of `c->flags` that `async.c` uses. -/
structure Flags where
  block : Bool
  connected : Bool
  disconnecting : Bool
  freeing : Bool
  in_callback : Bool
  deriving DecidableEq, Repr

/-- Which hooks of the event loop are registered (non-NULL) in `ac->ev`. -/
structure EvHooks where
  addRead : Bool
  delRead : Bool
  addWrite : Bool
  delWrite : Bool
  cleanup : Bool
  deriving DecidableEq, Repr

/-- Observable actions.  `push` and `unsolicited` are bookkeeping: a record
entered the queue; a reply was yielded while the queue was empty. -/
inductive Event where
  | push (cb : mongoCallback)
  | callback (cb : mongoCallback) (reply : Option mongoReply)
  | unsolicited (reply : mongoReply)
  | freeObject (reply : mongoReply)
  | addRead
  | delRead
  | addWrite
  | delWrite
  | cleanup
  | onConnect (status : Int)
  | onDisconnect (status : Int)
  | mongoFree
  deriving DecidableEq, Repr

/-- Modelled from the spec: the struct `mongoAsyncContext` of `async.h`, which
is not among the sources, with the fields that `async.c` uses (the spec's
AsyncController), and the embedded `mongoContext` (`err`, `flags`, `obuf`);
`acErr` is `ac->err`.  `freed` is set by `mongoFree`; `aborted` is set when an
`assert` fails. -/
structure mongoAsyncContext where
  err : Option ErrKind
  flags : Flags
  obuf : List Nat
  acErr : Option ErrKind
  ev : EvHooks
  onConnect : Option Nat
  onDisconnect : Option Nat
  replies : List mongoCallback
  trace : List Event
  freed : Bool
  aborted : Bool
  deriving DecidableEq, Repr

/-- What a frame builder of the write operations (`mongoAppendInsertMsg` and
the like, `mongoAppendGetLastErrorRequest`; `himongo.c`, not among the
sources) does: it appends the bytes of a frame to the output buffer, or it
fails with a status other than `MONGO_OK`. -/
inductive Built where
  | ok (bytes : List Nat)
  | failed (status : Int)
  deriving DecidableEq, Repr

/-- A call of the API made by user code: a submit operation of the shape of
`mongoAsyncQuery`/`mongoAsyncGetMore` (with the record to enqueue and the
frame that the builder appends, `none` when the builder fails); a write
operation `mongoAsyncInsert`/`Update`/`Delete`/`KillCursors` (with `fn`,
`privdata`, the frame of the write and the frame of the `getLastError`
request); `mongoAsyncFree`; `mongoAsyncDisconnect`. -/
inductive Act where
  | query (cb : mongoCallback) (frame : Option (List Nat))
  | write (fn : Option Nat) (privdata : Nat) (frame gle : Built)
  | asyncFree
  | asyncDisconnect
  deriving DecidableEq, Repr

/-- User code: the body of reply callback number `fn` called with a reply and
`privdata`, and the body of hook number `fn` called with a status. -/
structure Prog where
  callback : Nat → Option mongoReply → Nat → List Act
  hook : Nat → Int → List Act

/-- Appending an observable action to the trace. -/
def emit (ac : mongoAsyncContext) (e : Event) : mongoAsyncContext :=
  { ac with trace := ac.trace ++ [e] }

/-- The macro `_EL_ADD_READ`. -/
def _EL_ADD_READ (ac : mongoAsyncContext) : mongoAsyncContext :=
  if ac.ev.addRead then emit ac Event.addRead else ac

/-- The macro `_EL_ADD_WRITE`. -/
def _EL_ADD_WRITE (ac : mongoAsyncContext) : mongoAsyncContext :=
  if ac.ev.addWrite then emit ac Event.addWrite else ac

/-- The macro `_EL_DEL_WRITE`. -/
def _EL_DEL_WRITE (ac : mongoAsyncContext) : mongoAsyncContext :=
  if ac.ev.delWrite then emit ac Event.delWrite else ac

/-- The macro `_EL_CLEANUP`. -/
def _EL_CLEANUP (ac : mongoAsyncContext) : mongoAsyncContext :=
  if ac.ev.cleanup then emit ac Event.cleanup else ac

/-- The function `__mongoAsyncCopyError`. -/
def __mongoAsyncCopyError (ac : mongoAsyncContext) : mongoAsyncContext :=
  { ac with acErr := ac.err }

/-- The function `__mongoPushCallback`: the copy of `source` becomes the tail
of the list. -/
def __mongoPushCallback (ac : mongoAsyncContext) (source : mongoCallback) : mongoAsyncContext :=
  emit { ac with replies := ac.replies ++ [source] } (Event.push source)

/-- The function `__mongoShiftCallback`: the status, the contents of
`*target` afterwards, and the context. -/
def __mongoShiftCallback (ac : mongoAsyncContext) (rpl : Option mongoReply)
    (target : mongoCallback) : Int × mongoCallback × mongoAsyncContext :=
  match ac.replies with
  | cb :: rest =>
    let no_remove : Bool :=
      decide (cb.flags &&& QUERY_FLAG_EXHAUST ≠ 0) &&
        (match rpl with
          | some r => decide (r.cursorID ≠ 0)
          | none => false)
    (MONGO_OK, cb, if no_remove then ac else { ac with replies := rest })
  | [] => (MONGO_ERR, target, ac)

/-- Running user code: the calls are made one after the other. -/
def userCode (api : Act → mongoAsyncContext → Option mongoAsyncContext) :
    List Act → mongoAsyncContext → Option mongoAsyncContext
  | [], ac => some ac
  | a :: rest, ac =>
    match api a ac with
    | some ac' => userCode api rest ac'
    | none => none

/-- The function `__mongoRunCallback`. -/
def __mongoRunCallback (api : Act → mongoAsyncContext → Option mongoAsyncContext) (prog : Prog)
    (ac : mongoAsyncContext) (cb : mongoCallback) (reply : Option mongoReply) :
    Option mongoAsyncContext :=
  match cb.fn with
  | some f =>
    let ac1 := emit { ac with flags := { ac.flags with in_callback := true } }
      (Event.callback cb reply)
    match userCode api (prog.callback f reply cb.privdata) ac1 with
    | some ac2 => some { ac2 with flags := { ac2.flags with in_callback := false } }
    | none => none
  | none => some ac

/-- The loop `while (__mongoShiftCallback(ac,NULL,&cb) == MONGO_OK)
__mongoRunCallback(ac,&cb,NULL);` of `__mongoAsyncFree`, at most `n`
iterations. -/
def flushLoop (api : Act → mongoAsyncContext → Option mongoAsyncContext) (prog : Prog) :
    Nat → mongoCallback → mongoAsyncContext → Option mongoAsyncContext
  | 0, _, _ => none
  | n + 1, cb, ac =>
    match __mongoShiftCallback ac none cb with
    | (status, cb', ac1) =>
      if status = MONGO_OK then
        match __mongoRunCallback api prog ac1 cb' none with
        | some ac2 => flushLoop api prog n cb' ac2
        | none => none
      else some ac1

/-- A call `ac->onDisconnect(ac, status)` or `ac->onConnect(ac, status)` of
the user hook number `f`. -/
def callHook (api : Act → mongoAsyncContext → Option mongoAsyncContext) (prog : Prog)
    (e : Event) (f : Nat) (status : Int) (ac : mongoAsyncContext) : Option mongoAsyncContext :=
  userCode api (prog.hook f status) (emit ac e)

/-- The function `__mongoAsyncFree`. -/
def __mongoAsyncFree (api : Act → mongoAsyncContext → Option mongoAsyncContext) (prog : Prog)
    (n : Nat) (ac : mongoAsyncContext) : Option mongoAsyncContext :=
  match flushLoop api prog n { fn := none, flags := 0, privdata := 0 } ac with
  | some ac1 =>
    let ac2 := _EL_CLEANUP ac1
    let r :=
      match ac2.onDisconnect with
      | some f =>
        if ac2.flags.connected then
          if ac2.flags.freeing then callHook api prog (Event.onDisconnect MONGO_OK) f MONGO_OK ac2
          else
            let status := if ac2.acErr = none then MONGO_OK else MONGO_ERR
            callHook api prog (Event.onDisconnect status) f status ac2
        else some ac2
      | none => some ac2
    match r with
    | some ac3 => some { emit ac3 Event.mongoFree with freed := true }
    | none => none
  | none => none

/-- The function `mongoAsyncFree`. -/
def mongoAsyncFree (api : Act → mongoAsyncContext → Option mongoAsyncContext) (prog : Prog)
    (n : Nat) (ac : mongoAsyncContext) : Option mongoAsyncContext :=
  let ac := { ac with flags := { ac.flags with freeing := true } }
  if ac.flags.in_callback then some ac else __mongoAsyncFree api prog n ac

/-- The function `__mongoAsyncDisconnect`; a failing `assert` ends the
process. -/
def __mongoAsyncDisconnect (api : Act → mongoAsyncContext → Option mongoAsyncContext)
    (prog : Prog) (n : Nat) (ac : mongoAsyncContext) : Option mongoAsyncContext :=
  let ac := __mongoAsyncCopyError ac
  if ac.acErr = none then
    if ac.replies = [] then __mongoAsyncFree api prog n ac
    else some { ac with aborted := true }
  else
    __mongoAsyncFree api prog n { ac with flags := { ac.flags with disconnecting := true } }

/-- The function `mongoAsyncDisconnect`. -/
def mongoAsyncDisconnect (api : Act → mongoAsyncContext → Option mongoAsyncContext)
    (prog : Prog) (n : Nat) (ac : mongoAsyncContext) : Option mongoAsyncContext :=
  let ac := { ac with flags := { ac.flags with disconnecting := true } }
  if !ac.flags.in_callback && decide (ac.replies = []) then __mongoAsyncDisconnect api prog n ac
  else some ac

/-- How the reader ends a pass of `mongoProcessCallbacks`, after the replies
it yields: no further reply (`mongoGetReply` returns `MONGO_OK` with a NULL
reply), or a failure that leaves its kind in `c->err`. -/
inductive ReaderEnd where
  | idle
  | error (k : ErrKind)
  deriving DecidableEq, Repr

/-- The loop of `mongoProcessCallbacks` over the replies that `mongoGetReply`
yields, with the local variable `cb`, and the statement after the loop. -/
def processLoop (api : Act → mongoAsyncContext → Option mongoAsyncContext) (prog : Prog)
    (n : Nat) (last : ReaderEnd) :
    List mongoReply → mongoCallback → mongoAsyncContext → Option mongoAsyncContext
  | [], _, ac =>
    match last with
    | ReaderEnd.idle =>
      if ac.flags.disconnecting && decide (ac.obuf = []) && decide (ac.replies = []) then
        __mongoAsyncDisconnect api prog n ac
      else some ac
    | ReaderEnd.error k => __mongoAsyncDisconnect api prog n { ac with err := some k }
  | reply :: rs, cb, ac =>
    match __mongoShiftCallback ac (some reply) cb with
    | (status, cb', ac1) =>
      let ac1 := if status = MONGO_OK then ac1 else emit ac1 (Event.unsolicited reply)
      if cb'.fn ≠ none then
        match __mongoRunCallback api prog ac1 cb' (some reply) with
        | some ac2 =>
          let ac3 := emit ac2 (Event.freeObject reply)
          if ac3.flags.freeing then __mongoAsyncFree api prog n ac3
          else processLoop api prog n last rs cb' ac3
        | none => none
      else processLoop api prog n last rs cb' (emit ac1 (Event.freeObject reply))

/-- The function `mongoProcessCallbacks`, for a reader that yields the
replies `rs` and then ends with `last`. -/
def mongoProcessCallbacks (api : Act → mongoAsyncContext → Option mongoAsyncContext)
    (prog : Prog) (n : Nat) (rs : List mongoReply) (last : ReaderEnd)
    (ac : mongoAsyncContext) : Option mongoAsyncContext :=
  processLoop api prog n last rs { fn := none, flags := 0, privdata := 0 } ac

/-- The function `mongoAsyncQuery`, where the flags of the record are the
query flags (and `mongoAsyncGetMore`, where they are 0): the status and the
context.

Modelled from the spec: the frame builder (`proto.c` is not among the
sources) either appends the frame to the output buffer and reports success,
or reports failure. -/
def mongoAsyncQuery (ac : mongoAsyncContext) (cb : mongoCallback) (frame : Option (List Nat)) :
    Int × mongoAsyncContext :=
  if ac.flags.disconnecting || ac.flags.freeing then (MONGO_ERR, ac)
  else
    match frame with
    | some bytes =>
      (MONGO_OK, _EL_ADD_WRITE (__mongoPushCallback { ac with obuf := ac.obuf ++ bytes } cb))
    | none => (MONGO_ERR, ac)

/-- The functions `mongoAsyncInsert`, `mongoAsyncUpdate`, `mongoAsyncDelete` and
`mongoAsyncKillCursors`, which differ in the frame only: the status and the
context.  The outcomes of the builder of the write frame and of the builder
of the `getLastError` request are parameters. -/
def mongoAsyncWrite (ac : mongoAsyncContext) (fn : Option Nat) (privdata : Nat)
    (frame gle : Built) : Int × mongoAsyncContext :=
  if ac.flags.disconnecting || ac.flags.freeing then (MONGO_ERR, ac)
  else
    match frame with
    | Built.failed status => (status, ac)
    | Built.ok bytes =>
      let ac1 := { ac with obuf := ac.obuf ++ bytes }
      match fn with
      | some f =>
        match gle with
        | Built.failed status => (status, ac1)
        | Built.ok bytes' =>
          (MONGO_OK, _EL_ADD_WRITE (__mongoPushCallback { ac1 with obuf := ac1.obuf ++ bytes' }
            { fn := some f, flags := 0, privdata := privdata }))
      | none => (MONGO_OK, _EL_ADD_WRITE ac1)

/-- The function `mongoAsyncSetConnectCallback`. -/
def mongoAsyncSetConnectCallback (ac : mongoAsyncContext) (fn : Option Nat) :
    Int × mongoAsyncContext :=
  if ac.onConnect = none then (MONGO_OK, _EL_ADD_WRITE { ac with onConnect := fn })
  else (MONGO_ERR, ac)

/-- The function `mongoAsyncSetDisconnectCallback`. -/
def mongoAsyncSetDisconnectCallback (ac : mongoAsyncContext) (fn : Option Nat) :
    Int × mongoAsyncContext :=
  if ac.onDisconnect = none then (MONGO_OK, { ac with onDisconnect := fn })
  else (MONGO_ERR, ac)

/-- What `getsockopt(SO_ERROR)` reports when `mongoCheckSocketError` runs: no
error, or an error, with whether `errno` is then `EINPROGRESS`. -/
inductive SockCheck where
  | ok
  | failed (einprogress : Bool)
  deriving DecidableEq, Repr

/-- The function `mongoCheckSocketError` of `net.c`: on an error the slot
`c->err` is set to `MONGO_ERR_IO`. -/
def mongoCheckSocketError (chk : SockCheck) (ac : mongoAsyncContext) :
    Int × mongoAsyncContext :=
  match chk with
  | SockCheck.ok => (MONGO_OK, ac)
  | SockCheck.failed _ => (MONGO_ERR, { ac with err := some ErrKind.io })

/-- The function `__mongoAsyncHandleConnect`: the status and the context. -/
def __mongoAsyncHandleConnect (api : Act → mongoAsyncContext → Option mongoAsyncContext)
    (prog : Prog) (n : Nat) (chk : SockCheck) (ac : mongoAsyncContext) :
    Option (Int × mongoAsyncContext) :=
  match mongoCheckSocketError chk ac with
  | (status, ac1) =>
    if status = MONGO_ERR then
      if chk = SockCheck.failed true then some (MONGO_OK, ac1)
      else
        let r :=
          match ac1.onConnect with
          | some f => callHook api prog (Event.onConnect MONGO_ERR) f MONGO_ERR ac1
          | none => some ac1
        match r with
        | some ac2 =>
          match __mongoAsyncDisconnect api prog n ac2 with
          | some ac3 => some (MONGO_ERR, ac3)
          | none => none
        | none => none
    else
      let ac2 := { ac1 with flags := { ac1.flags with connected := true } }
      match ac2.onConnect with
      | some f =>
        match callHook api prog (Event.onConnect MONGO_OK) f MONGO_OK ac2 with
        | some ac3 => some (MONGO_OK, ac3)
        | none => none
      | none => some (MONGO_OK, ac2)

/-- The first statement of `mongoAsyncHandleRead` and `mongoAsyncHandleWrite`:
the connect confirmation; the Boolean tells whether the handler goes on. -/
def handleConnectFirst (api : Act → mongoAsyncContext → Option mongoAsyncContext)
    (prog : Prog) (n : Nat) (chk : SockCheck) (ac : mongoAsyncContext) :
    Option (Bool × mongoAsyncContext) :=
  if ac.flags.connected then some (true, ac)
  else
    match __mongoAsyncHandleConnect api prog n chk ac with
    | some (status, ac1) =>
      if status ≠ MONGO_OK then some (false, ac1)
      else if ac1.flags.connected then some (true, ac1)
      else some (false, ac1)
    | none => none

/-- The function `mongoAsyncHandleRead`.  The functions `mongoBufferRead` and
`mongoGetReply` (`himongo.c`, not among the sources) are parameters: `rd` is
`none` when the read succeeds and else the kind that the failing read leaves
in `c->err`; the reader then yields the replies `rs` and ends with `last`. -/
def mongoAsyncHandleRead (api : Act → mongoAsyncContext → Option mongoAsyncContext)
    (prog : Prog) (n : Nat) (chk : SockCheck) (rd : Option ErrKind) (rs : List mongoReply)
    (last : ReaderEnd) (ac : mongoAsyncContext) : Option mongoAsyncContext :=
  match handleConnectFirst api prog n chk ac with
  | some (true, ac1) =>
    match rd with
    | some k => __mongoAsyncDisconnect api prog n { ac1 with err := some k }
    | none => mongoProcessCallbacks api prog n rs last (_EL_ADD_READ ac1)
  | some (false, ac1) => some ac1
  | none => none

/-- Modelled from the spec: the function `mongoBufferWrite` of `himongo.c`,
which is not among the sources ("drain as much output buffer as the socket
accepts"): the socket accepts the first `n` bytes of the output buffer. -/
def mongoBufferWrite (n : Nat) (ac : mongoAsyncContext) : mongoAsyncContext :=
  { ac with obuf := ac.obuf.drop n }

/-- The function `mongoAsyncHandleWrite`.  The outcome of the write is a
parameter: `Except.error k` when `mongoBufferWrite` fails and leaves the kind
`k` in `c->err`, `Except.ok m` when the socket accepts `m` bytes. -/
def mongoAsyncHandleWrite (api : Act → mongoAsyncContext → Option mongoAsyncContext)
    (prog : Prog) (n : Nat) (chk : SockCheck) (wr : Except ErrKind Nat)
    (ac : mongoAsyncContext) : Option mongoAsyncContext :=
  match handleConnectFirst api prog n chk ac with
  | some (true, ac1) =>
    match wr with
    | Except.error k => __mongoAsyncDisconnect api prog n { ac1 with err := some k }
    | Except.ok m =>
      let ac2 := mongoBufferWrite m ac1
      let done : Bool := decide (ac2.obuf = [])
      let ac3 := if !done then _EL_ADD_WRITE ac2 else _EL_DEL_WRITE ac2
      some (_EL_ADD_READ ac3)
  | some (false, ac1) => some ac1
  | none => none

/-- A call of the API by user code, with nesting depth and loop iterations
bounded by the first argument. -/
def apiCall (prog : Prog) : Nat → Act → mongoAsyncContext → Option mongoAsyncContext
  | 0, _, _ => none
  | _ + 1, Act.query cb frame, ac => some (mongoAsyncQuery ac cb frame).2
  | _ + 1, Act.write fn privdata frame gle, ac =>
    some (mongoAsyncWrite ac fn privdata frame gle).2
  | fuel + 1, Act.asyncFree, ac => mongoAsyncFree (apiCall prog fuel) prog (fuel + 1) ac
  | fuel + 1, Act.asyncDisconnect, ac =>
    mongoAsyncDisconnect (apiCall prog fuel) prog (fuel + 1) ac

/-- What happens to the controller from outside a callback: user code calls
the API, or the event loop calls a handler (with what the socket and the
reader then deliver), or `mongoProcessCallbacks` is run over the replies the
reader yields. -/
inductive Call where
  | act (a : Act)
  | processCallbacks (rs : List mongoReply) (last : ReaderEnd)
  | handleRead (chk : SockCheck) (rd : Option ErrKind) (rs : List mongoReply) (last : ReaderEnd)
  | handleWrite (chk : SockCheck) (wr : Except ErrKind Nat)

/-- One call from outside. -/
def callStep (prog : Prog) (fuel : Nat) : Call → mongoAsyncContext → Option mongoAsyncContext
  | Call.act a, ac => apiCall prog (fuel + 1) a ac
  | Call.processCallbacks rs last, ac =>
    mongoProcessCallbacks (apiCall prog fuel) prog (fuel + 1) rs last ac
  | Call.handleRead chk rd rs last, ac =>
    mongoAsyncHandleRead (apiCall prog fuel) prog (fuel + 1) chk rd rs last ac
  | Call.handleWrite chk wr, ac =>
    mongoAsyncHandleWrite (apiCall prog fuel) prog (fuel + 1) chk wr ac

/-- A lifetime of the controller: the calls are made in order until the
context has been freed (or the process has aborted); no call can be made on a
context that no longer exists. -/
def runCalls (prog : Prog) (fuel : Nat) : List Call → mongoAsyncContext → Option mongoAsyncContext
  | [], ac => some ac
  | c :: cs, ac =>
    if ac.freed || ac.aborted then some ac
    else
      match callStep prog fuel c ac with
      | some ac' => runCalls prog fuel cs ac'
      | none => none

/-- The controller as `mongoAsyncInitialize` leaves it, for a connection
created non-blocking, with the given hooks registered. -/
def mongoAsyncInitialize (ev : EvHooks) (onConnect onDisconnect : Option Nat) :
    mongoAsyncContext :=
  { err := none,
    flags := { block := false, connected := false, disconnecting := false, freeing := false,
               in_callback := false },
    obuf := [], acErr := none, ev := ev, onConnect := onConnect, onDisconnect := onDisconnect,
    replies := [], trace := [], freed := false, aborted := false }

/-- Number of invocations of the callback record `cb` in a trace. -/
def invocations (cb : mongoCallback) : List Event → Nat
  | [] => 0
  | Event.callback cb' _ :: es => (if cb' = cb then 1 else 0) + invocations cb es
  | _ :: es => invocations cb es

/-- Number of times the callback record `cb` was enqueued in a trace. -/
def enqueues (cb : mongoCallback) : List Event → Nat
  | [] => 0
  | Event.push cb' :: es => (if cb' = cb then 1 else 0) + enqueues cb es
  | _ :: es => enqueues cb es

/-- No reply was yielded while the callback queue was empty. -/
def noUnsolicited : List Event → Bool
  | [] => true
  | Event.unsolicited _ :: _ => false
  | _ :: es => noUnsolicited es

/-- Whether `__mongoShiftCallback` leaves the record `cb` at the head of the
queue when it is called with the reply `rpl`: its local `no_remove`. -/
def retains (cb : mongoCallback) (rpl : Option mongoReply) : Bool :=
  decide (cb.flags &&& QUERY_FLAG_EXHAUST ≠ 0) &&
    (match rpl with
      | some r => decide (r.cursorID ≠ 0)
      | none => false)

/-- Number of invocations of the callback record `cb` in a trace with a final
reply: one for which `__mongoShiftCallback` removes the record (every reply
and the NULL reply for a record without `EXHAUST`; a reply whose cursor is
zero and the NULL reply for a record with `EXHAUST`). -/
def finals (cb : mongoCallback) : List Event → Nat
  | [] => 0
  | Event.callback cb' rpl :: es =>
    (if cb' = cb ∧ retains cb' rpl = false then 1 else 0) + finals cb es
  | _ :: es => finals cb es

/-- Number of invocations of the callback record `cb` in a trace with a reply
for which `__mongoShiftCallback` keeps the record at the head: a record with
`EXHAUST` and a reply whose cursor is not zero. -/
def retained (cb : mongoCallback) : List Event → Nat
  | [] => 0
  | Event.callback cb' rpl :: es =>
    (if cb' = cb ∧ retains cb' rpl = true then 1 else 0) + retained cb es
  | _ :: es => retained cb es

/-- Whether the event `e`, followed by the events `es`, is a reply yielded
while the queue was empty that `mongoProcessCallbacks` passes to the callback
left in its local variable `cb` by an earlier reply: the bookkeeping event is
then directly followed by the invocation (and else by `freeObject`). -/
def staleAt : Event → List Event → Bool
  | Event.unsolicited _, Event.callback _ _ :: _ => true
  | _, _ => false

/-- No reply yielded while the callback queue was empty was passed to the
callback of an earlier reply. -/
def noStale : List Event → Bool
  | [] => true
  | e :: es => !staleAt e es && noStale es

/-- Shutdown has begun: `c->flags & (MONGO_DISCONNECTING | MONGO_FREEING)`. -/
def Closing (ac : mongoAsyncContext) : Prop :=
  ac.flags.disconnecting = true ∨ ac.flags.freeing = true

/-- What every function of the controller guarantees between the context
`ac` it is called with and the context `ac'` it leaves: the trace is
extended, and unless a reply without a queued callback was passed to the
callback of an earlier reply in the extension, every record with a non-NULL
function has been invoked with a final reply as often as it left the queue;
shutdown once begun stays begun and then an empty queue stays empty; the
context is only freed with an empty queue during shutdown; no `assert` fails;
and a set error slot stays set. -/
structure Rel (ac ac' : mongoAsyncContext) : Prop where
  trace : ∃ t, ac'.trace = ac.trace ++ t ∧
    (noStale t = true → ∀ cb : mongoCallback, cb.fn ≠ none →
      finals cb t + ac'.replies.count cb = enqueues cb t + ac.replies.count cb)
  closing : Closing ac → Closing ac'
  empty : Closing ac → ac.replies = [] → ac'.replies = []
  freed : ac'.freed = true → ac.freed = true ∨ (ac'.replies = [] ∧ Closing ac')
  aborted : ac'.aborted = true → ac.aborted = true
  err : ac.err ≠ none → ac'.err ≠ none

/-- User code that makes no call of the API. -/
def idleProg : Prog := { callback := fun _ _ _ => [], hook := fun _ _ => [] }

/-- The hooks of the user code only submit: they call neither
`mongoAsyncFree` nor `mongoAsyncDisconnect`. -/
def HooksSubmitOnly (prog : Prog) : Prop :=
  ∀ f status, ∀ a ∈ prog.hook f status, a ≠ Act.asyncFree ∧ a ≠ Act.asyncDisconnect

/-- The function `mongoAsyncGetMore`: the body of `mongoAsyncQuery` with the
frame of `mongoAppendGetMoreMsg` and a record whose flags are 0. -/
def mongoAsyncGetMore (ac : mongoAsyncContext) (fn : Option Nat) (privdata : Nat)
    (frame : Option (List Nat)) : Int × mongoAsyncContext :=
  mongoAsyncQuery ac { fn := fn, flags := 0, privdata := privdata } frame

/-- The function `mongoAsyncInsert`: the body `mongoAsyncWrite` with the frame
of `mongoAppendInsertMsg`; the request for the last error is built by
`mongoAppendGetLastErrorRequest(c, 0, db)`.  That builder is the parameter
`gle`, a function of its database argument (`none` for a NULL pointer). -/
def mongoAsyncInsert (ac : mongoAsyncContext) (fn : Option Nat) (privdata : Nat) (db : Nat)
    (frame : Built) (gle : Option Nat → Built) : Int × mongoAsyncContext :=
  mongoAsyncWrite ac fn privdata frame (gle (some db))

/-- The function `mongoAsyncUpdate`: as `mongoAsyncInsert`, with the frame of
`mongoAppendUpdateMsg`. -/
def mongoAsyncUpdate (ac : mongoAsyncContext) (fn : Option Nat) (privdata : Nat) (db : Nat)
    (frame : Built) (gle : Option Nat → Built) : Int × mongoAsyncContext :=
  mongoAsyncWrite ac fn privdata frame (gle (some db))

/-- The function `mongoAsyncDelete`: as `mongoAsyncInsert`, with the frame of
`mongoAppendDeleteMsg`. -/
def mongoAsyncDelete (ac : mongoAsyncContext) (fn : Option Nat) (privdata : Nat) (db : Nat)
    (frame : Built) (gle : Option Nat → Built) : Int × mongoAsyncContext :=
  mongoAsyncWrite ac fn privdata frame (gle (some db))

/-- The function `mongoAsyncKillCursors`: the body `mongoAsyncWrite` with the
frame of `mongoAppendKillCursorsMsg`; it has no database parameter and the
request for the last error is built by
`mongoAppendGetLastErrorRequest(c, 0, NULL)`. -/
def mongoAsyncKillCursors (ac : mongoAsyncContext) (fn : Option Nat) (privdata : Nat)
    (frame : Built) (gle : Option Nat → Built) : Int × mongoAsyncContext :=
  mongoAsyncWrite ac fn privdata frame (gle none)

/-- A sample builder of the `getLastError` request: the request names its
database, with 0 for the request built from a NULL database. -/
def gleOnDatabase : Option Nat → Built
  | some db => Built.ok [db + 1]
  | none => Built.ok [0]

/-- The invocations of reply callbacks in a trace, in order: the record and
the reply it was invoked with. -/
def callbacks : List Event → List (mongoCallback × Option mongoReply)
  | [] => []
  | Event.callback cb reply :: es => (cb, reply) :: callbacks es
  | _ :: es => callbacks es

/-- The records that entered the queue in a trace, in order. -/
def pushed : List Event → List mongoCallback
  | [] => []
  | Event.push cb :: es => cb :: pushed es
  | _ :: es => pushed es

/-- The invocations of the user's disconnect hook in a trace, in order: the
statuses. -/
def disconnects : List Event → List Int
  | [] => []
  | Event.onDisconnect status :: es => status :: disconnects es
  | _ :: es => disconnects es

/-- What a call of the API does when it does not reach `__mongoAsyncFree`:
the submit operations at any time, and `mongoAsyncFree` and
`mongoAsyncDisconnect` while a reply callback runs (`MONGO_IN_CALLBACK` is
set), where they only set their flag. -/
def deferred (a : Act) (ac : mongoAsyncContext) : mongoAsyncContext :=
  match a with
  | Act.query cb frame => (mongoAsyncQuery ac cb frame).2
  | Act.write fn privdata frame gle => (mongoAsyncWrite ac fn privdata frame gle).2
  | Act.asyncFree => { ac with flags := { ac.flags with freeing := true } }
  | Act.asyncDisconnect => { ac with flags := { ac.flags with disconnecting := true } }

/-- A run of user code whose calls are all of that kind. -/
def runDeferred (acts : List Act) (ac : mongoAsyncContext) : mongoAsyncContext :=
  acts.foldl (fun s a => deferred a s) ac

/-- The context `ac` after the flags `DISCONNECTING` and `FREEING` were
possibly set, bytes were appended to the output buffer, records to the queue
and events to the trace. -/
def extended (ac : mongoAsyncContext) (d g : Bool) (bytes : List Nat)
    (extra : List mongoCallback) (t : List Event) : mongoAsyncContext :=
  ⟨ac.err, ⟨ac.flags.block, ac.flags.connected, ac.flags.disconnecting || d,
      ac.flags.freeing || g, ac.flags.in_callback⟩,
    ac.obuf ++ bytes, ac.acErr, ac.ev, ac.onConnect, ac.onDisconnect, ac.replies ++ extra,
    ac.trace ++ t, ac.freed, ac.aborted⟩

/-- What user code that only makes deferred calls can do to the context: it
sets shutdown flags, appends frames, enqueues records (each marked in the
trace) and arms the write hook; once shutdown has begun it only sets
flags. -/
def Deferred (ac ac' : mongoAsyncContext) : Prop :=
  ∃ d g bytes extra t, ac' = extended ac d g bytes extra t
    ∧ callbacks t = [] ∧ disconnects t = [] ∧ pushed t = extra
    ∧ (∀ status, Event.onConnect status ∉ t)
    ∧ (Closing ac → bytes = [] ∧ extra = [] ∧ t = [])

/-- The invocations that flush the queue `q`: every record with a non-NULL
function, in the order of the queue, with a NULL reply. -/
def flushEvents (q : List mongoCallback) : List Event :=
  (q.filter (fun cb => cb.fn.isSome)).map (fun cb => Event.callback cb none)

/-- The context `ac` after its queue was flushed: the queue is empty, the
trace has the invocations, callbacks may have set shutdown flags, and `i` is
the flag `MONGO_IN_CALLBACK`. -/
def flushed (ac : mongoAsyncContext) (d g i : Bool) : mongoAsyncContext :=
  ⟨ac.err, ⟨ac.flags.block, ac.flags.connected, ac.flags.disconnecting || d,
      ac.flags.freeing || g, i⟩,
    ac.obuf, ac.acErr, ac.ev, ac.onConnect, ac.onDisconnect, [],
    ac.trace ++ flushEvents ac.replies, ac.freed, ac.aborted⟩

/-- Between `ac` and `ac'` shutdown goes on with an empty queue: no reply
callback is invoked and no record is enqueued. -/
def Quiet (ac ac' : mongoAsyncContext) : Prop :=
  Closing ac' ∧ ac'.replies = [] ∧
    ∃ t, ac'.trace = ac.trace ++ t ∧ callbacks t = [] ∧ pushed t = []

/-- Between `ac` and `ac'` the disconnect hook is not invoked and the context
is not freed. -/
def Calm (ac ac' : mongoAsyncContext) : Prop :=
  ∃ t, ac'.trace = ac.trace ++ t ∧ disconnects t = [] ∧ ac'.freed = ac.freed

/-- Between `ac` and `ac'` the disconnect hook is invoked at most once, and if
it is invoked the context is freed. -/
def Once (ac ac' : mongoAsyncContext) : Prop :=
  ∃ t, ac'.trace = ac.trace ++ t ∧
    ((disconnects t = [] ∧ ac'.freed = ac.freed)
      ∨ ((disconnects t).length ≤ 1 ∧ ac'.freed = true))

/-- The deliveries of the replies `rs` to the queue `q`, in order: the i-th
reply goes to the i-th record, which is invoked if its function is not
NULL. -/
def deliveries : List mongoCallback → List mongoReply → List (mongoCallback × Option mongoReply)
  | c :: q, r :: rs => (if c.fn.isSome then [(c, some r)] else []) ++ deliveries q rs
  | _, _ => []

/-- Between `ac` and `ac'` the queue of `ac` was flushed: since `ac` exactly
the records of its queue that have a non-NULL function were invoked, once
each, in the order of the queue, with a NULL reply, and the queue of `ac'`
is empty. -/
def Flushes (ac ac' : mongoAsyncContext) : Prop :=
  ac'.replies = [] ∧
    callbacks (ac'.trace.drop ac.trace.length)
      = (ac.replies.filter (fun cb => cb.fn.isSome)).map (fun cb => (cb, none))

/-- User code whose reply callback number 1 calls `mongoAsyncFree`, and whose
other callbacks and hooks make no call. -/
def freeingProg : Prog :=
  { callback := fun f _ _ => if f = 1 then [Act.asyncFree] else [], hook := fun _ _ => [] }

/-- What every function of the controller guarantees about the flag
`MONGO_CONNECTED`: once set it stays set, and `onConnect` is invoked with
`MONGO_OK` only on a context on which the flag is set. -/
structure Conn (ac ac' : mongoAsyncContext) : Prop where
  connected : ac.flags.connected = true → ac'.flags.connected = true
  invoked : Event.onConnect MONGO_OK ∈ ac'.trace →
    Event.onConnect MONGO_OK ∈ ac.trace ∨ ac'.flags.connected = true

/-- User code whose hook number 5 calls `mongoAsyncDisconnect`, whose hook
number 9 calls `mongoAsyncFree` when its status is `MONGO_ERR`, and that
makes no other call. -/
def reenteringProg : Prog :=
  { callback := fun _ _ _ => [],
    hook := fun f status =>
      if f = 5 then [Act.asyncDisconnect]
      else if f = 9 ∧ status = MONGO_ERR then [Act.asyncFree]
      else [] }

/-- In the trace `t` no record is enqueued after a reply callback was invoked
with a NULL reply. -/
def NoEnqueueAfterFlush (t : List Event) : Prop :=
  ∀ t1 cb t2, t = t1 ++ Event.callback cb none :: t2 → pushed t2 = []

/-- The fields of the struct `mongoContext` (`himongo.h`) that `async.c` uses:
the error slot, the flags and the output buffer. -/
structure mongoContext where
  err : Option ErrKind
  flags : Flags
  obuf : List Nat
  deriving DecidableEq, Repr

/-- What the allocator does in the call `realloc(c, sizeof(mongoAsyncContext))`
of `mongoAsyncInitialize`: it fails (`oom`), or it returns a block that begins
with the contents of `c`; for a NULL `c` the call is a `malloc` and the block
holds indeterminate contents, `junk`. -/
structure Heap where
  oom : Bool
  junk : mongoContext
  deriving DecidableEq, Repr

/-- The function `mongoAsyncInitialize` called with the pointer `c` (`none` for
NULL): `none` when `realloc` fails, else the controller it returns. -/
def mongoAsyncInitializeAt (heap : Heap) (c : Option mongoContext) : Option mongoAsyncContext :=
  if heap.oom then none
  else
    let c0 : mongoContext :=
      match c with
      | some c0 => c0
      | none => heap.junk
    some { err := c0.err, flags := { c0.flags with connected := false }, obuf := c0.obuf,
           acErr := none,
           ev := { addRead := false, delRead := false, addWrite := false, delWrite := false,
                   cleanup := false },
           onConnect := none, onDisconnect := none, replies := [], trace := [],
           freed := false, aborted := false }

/-- The function `mongoAsyncConnect`; `c` is what `mongoConnectNonBlock`
(`himongo.c`, not among the sources) returns, `none` for NULL.  The result is
`none` for a NULL controller. -/
def mongoAsyncConnect (heap : Heap) (c : Option mongoContext) : Option mongoAsyncContext :=
  match c with
  | none => none
  | some c0 =>
    match mongoAsyncInitializeAt heap (some c0) with
    | none => none
    | some ac => some (__mongoAsyncCopyError ac)

/-- The function `mongoAsyncConnectBind`; `c` is what `mongoConnectBindNonBlock`
returns.  There is no test of `c`; `__mongoAsyncCopyError` returns at once on
a NULL controller. -/
def mongoAsyncConnectBind (heap : Heap) (c : Option mongoContext) : Option mongoAsyncContext :=
  match mongoAsyncInitializeAt heap c with
  | none => none
  | some ac => some (__mongoAsyncCopyError ac)

/-- The function `mongoAsyncConnectBindWithReuse`; `c` is what
`mongoConnectBindNonBlockWithReuse` returns. -/
def mongoAsyncConnectBindWithReuse (heap : Heap) (c : Option mongoContext) :
    Option mongoAsyncContext :=
  match mongoAsyncInitializeAt heap c with
  | none => none
  | some ac => some (__mongoAsyncCopyError ac)

/-- The function `mongoAsyncConnectUnix`; `c` is what `mongoConnectUnixNonBlock`
returns. -/
def mongoAsyncConnectUnix (heap : Heap) (c : Option mongoContext) : Option mongoAsyncContext :=
  match c with
  | none => none
  | some c0 =>
    match mongoAsyncInitializeAt heap (some c0) with
    | none => none
    | some ac => some (__mongoAsyncCopyError ac)

/-- The constant `INT_MAX` of `limits.h`, for a 32-bit `int`. -/
def INT_MAX : Int := 2147483647

/-- The constant `LONG_MAX` of `limits.h`, for a 64-bit `long` (LP64). -/
def LONG_MAX : Int := 9223372036854775807

/-- A value of type `long` after an arithmetic operation: the result wraps
around modulo `2^64`. -/
def toLong (x : Int) : Int := (x + 2 ^ 63) % 2 ^ 64 - 2 ^ 63

/-- The macro `__MAX_MSEC` of `net.c`; the division of C truncates. -/
def __MAX_MSEC : Int := Int.tdiv (LONG_MAX - 999) 1000

/-- The function `mongoContextTimeoutMsec` of `net.c`: the status and the
value stored in `*result`.  The timeout `c->timeout` is `none` for NULL, else
the pair `(tv_sec, tv_usec)` of two `long` values. -/
def mongoContextTimeoutMsec (timeout : Option (Int × Int)) : Int × Int :=
  match timeout with
  | none => (MONGO_OK, -1)
  | some (tv_sec, tv_usec) =>
    if tv_usec > 1000000 ∨ tv_sec > __MAX_MSEC then (MONGO_ERR, -1)
    else
      let msec : Int :=
        toLong (toLong (tv_sec * 1000) + Int.tdiv (toLong (tv_usec + 999)) 1000)
      if msec < 0 ∨ msec > INT_MAX then (MONGO_OK, INT_MAX) else (MONGO_OK, msec)

/-- Modelled from the spec: the timeout in milliseconds, "with ceil on the
sub-ms remainder" and "clamped to the 32-bit poll range". -/
def timeoutMsecSpec (tv_sec tv_usec : Int) : Int :=
  min (tv_sec * 1000 + ⌈(tv_usec : ℚ) / 1000⌉) INT_MAX

/-- The calls of the hooks `addRead`, `addWrite` and `delWrite` of the event
loop in a trace, in order. -/
def arms : List Event → List Event
  | [] => []
  | Event.addRead :: es => Event.addRead :: arms es
  | Event.addWrite :: es => Event.addWrite :: arms es
  | Event.delWrite :: es => Event.delWrite :: arms es
  | _ :: es => arms es

/-- Between `ac` and `ac'` shutdown goes on and none of the hooks `addRead`,
`addWrite`, `delWrite` is called. -/
def Unarmed (ac ac' : mongoAsyncContext) : Prop :=
  Closing ac' ∧ ∃ t, ac'.trace = ac.trace ++ t ∧ arms t = []

/-- The constant `MONGO_CONNECT_RETRIES` of `himongo.h`. -/
def MONGO_CONNECT_RETRIES : Nat := 10

/-- What `errno` holds after a failed `connect(2)`, as far as
`_mongoContextConnectTcp` tells the values apart. -/
inductive ConnectErrno where
  | ehostunreach
  | einprogress
  | eaddrnotavail
  | other
  deriving DecidableEq, Repr

/-- What the system calls of one pass through the body of the loop over the
candidate addresses deliver: whether `socket` returns a descriptor, whether
`mongoSetBlocking(c,0)` succeeds, whether `getaddrinfo` on the source address
succeeds, whether `setsockopt(SO_REUSEADDR)` succeeds, whether some `bind`
succeeds, the outcome of `connect` (`none` when it returns 0), and whether
`mongoContextWaitReady`, `mongoSetBlocking(c,1)` and `mongoSetTcpNoDelay`
succeed. -/
structure Pass where
  socket : Bool
  nonBlocking : Bool
  sourceInfo : Bool
  setReuse : Bool
  bound : Bool
  connect : Option ConnectErrno
  waitReady : Bool
  blocking : Bool
  noDelay : Bool
  deriving DecidableEq, Repr

/-- Bookkeeping of the loop: the candidate address of each pass, in order, and
the number of times `goto addrretry` was taken. -/
structure TcpGhost where
  passes : List Nat
  retries : Nat
  deriving DecidableEq, Repr

/-- How `_mongoContextConnectTcp` ends: the returned status, the address the
socket is connected to (when the status is `MONGO_OK`), the final value of
the local variable `reuses`, and the bookkeeping. -/
structure TcpRun where
  status : Int
  connectedTo : Option Nat
  reuses : Nat
  ghost : TcpGhost
  deriving DecidableEq, Repr

/-- The statements after the `connect` of a pass on the address `p`, from
`if (blocking && mongoSetBlocking(c,1) != MONGO_OK)` on. -/
def connectFinish (blocking : Bool) (o : Pass) (p reuses : Nat) (g : TcpGhost) : TcpRun :=
  if blocking && !o.blocking then ⟨MONGO_ERR, none, reuses, g⟩
  else if !o.noDelay then ⟨MONGO_ERR, none, reuses, g⟩
  else ⟨MONGO_OK, some p, reuses, g⟩

/-- How one pass through the body of the loop ends: with `continue` (the
loop goes on with the next candidate), with `goto addrretry` (the body is run
again on the same candidate), or by leaving the loop for `error:` or `end:`. -/
inductive PassEnd where
  | next
  | retry
  | done (run : TcpRun)
  deriving DecidableEq, Repr

/-- The body of the loop `for (p = servinfo; p != NULL; p = p->ai_next)` of
`_mongoContextConnectTcp`, from the label `addrretry` on, for the candidate
address `p`, the value `reuses` of the counter and what the system calls
deliver in this pass; `blocking` and `reuseaddr` are the flags `MONGO_BLOCK`
and `MONGO_REUSEADDR`, `source` tells whether `c->tcp.source_addr` is set. -/
def connectPass (blocking reuseaddr source : Bool) (o : Pass) (p reuses : Nat) (g : TcpGhost) :
    PassEnd :=
  if !o.socket then PassEnd.next
  else if !o.nonBlocking then PassEnd.done ⟨MONGO_ERR, none, reuses, g⟩
  else if source && !o.sourceInfo then PassEnd.done ⟨MONGO_ERR, none, reuses, g⟩
  else if source && reuseaddr && !o.setReuse then PassEnd.done ⟨MONGO_ERR, none, reuses, g⟩
  else if source && !o.bound then PassEnd.done ⟨MONGO_ERR, none, reuses, g⟩
  else
    match o.connect with
    | none => PassEnd.done (connectFinish blocking o p reuses g)
    | some e =>
      if e = ConnectErrno.ehostunreach then PassEnd.next
      else if e = ConnectErrno.einprogress ∧ blocking = false then
        PassEnd.done (connectFinish blocking o p reuses g)
      else if e = ConnectErrno.eaddrnotavail ∧ reuseaddr = true then
        if reuses + 1 ≥ MONGO_CONNECT_RETRIES then PassEnd.done ⟨MONGO_ERR, none, reuses + 1, g⟩
        else PassEnd.retry
      else if !o.waitReady then PassEnd.done ⟨MONGO_ERR, none, reuses, g⟩
      else PassEnd.done (connectFinish blocking o p reuses g)

/-- The loop over the candidate addresses with its label `addrretry`, and
the statements that follow it (with no candidate left the function fails).
The candidate addresses are numbers; `outs` holds what the system calls
deliver, pass by pass (the result is `none` when the loop asks for a pass
that `outs` does not describe).  `goto addrretry` is taken after `++reuses`. -/
def connectLoop (blocking reuseaddr source : Bool) :
    List Nat → List Pass → Nat → TcpGhost → Option TcpRun
  | [], _, reuses, g => some ⟨MONGO_ERR, none, reuses, g⟩
  | _ :: _, [], _, _ => none
  | p :: ps, o :: os, reuses, g =>
    match connectPass blocking reuseaddr source o p reuses ⟨g.passes ++ [p], g.retries⟩ with
    | PassEnd.next =>
      connectLoop blocking reuseaddr source ps os reuses ⟨g.passes ++ [p], g.retries⟩
    | PassEnd.retry =>
      connectLoop blocking reuseaddr source (p :: ps) os (reuses + 1)
        ⟨g.passes ++ [p], g.retries + 1⟩
    | PassEnd.done run => some run

/-- The function `_mongoContextConnectTcp`: the timeout is `c->timeout` after
the parameter was stored; `servinfo` is the list of candidate addresses that
`getaddrinfo` returns (`none` when both calls fail). -/
def _mongoContextConnectTcp (blocking reuseaddr source : Bool) (timeout : Option (Int × Int))
    (servinfo : Option (List Nat)) (outs : List Pass) : Option TcpRun :=
  if (mongoContextTimeoutMsec timeout).1 ≠ MONGO_OK then some ⟨MONGO_ERR, none, 0, ⟨[], 0⟩⟩
  else
    match servinfo with
    | none => some ⟨MONGO_ERR, none, 0, ⟨[], 0⟩⟩
    | some cands => connectLoop blocking reuseaddr source cands outs 0 ⟨[], 0⟩

/-- A pass in which every call succeeds except that `connect` fails with `e`. -/
def passFailing (e : ConnectErrno) : Pass :=
  ⟨true, true, true, true, true, some e, true, true, true⟩

/-- A pass in which every call succeeds. -/
def passOk : Pass := ⟨true, true, true, true, true, none, true, true, true⟩

/-- Whether the integer `x` is a value of the type `long` (64 bits). -/
def fitsLong (x : Int) : Bool := decide (-LONG_MAX - 1 ≤ x ∧ x ≤ LONG_MAX)

/-- Modelled from the spec: the status `MONGO_ERR_OOM` of `read.h`, which is
not among the sources (the error kind "OOM", "allocation failure while ...
cloning a callback record"); a value other than `MONGO_OK` and `MONGO_ERR`. -/
def MONGO_ERR_OOM : Int := 5

/-- A record of the callback list on the heap: the fields of `mongoCallback`
that the controller uses, and the pointer `next` (`none` for NULL). -/
structure Node where
  cb : mongoCallback
  next : Option Nat
  deriving DecidableEq, Repr

/-- The struct `mongoCallbackList` (`ac->replies`) with the heap that holds
its records: `heap a` is the record allocated at the address `a`, `none`
when nothing is allocated there. -/
structure CallbackList where
  heap : Nat → Option Node
  head : Option Nat
  tail : Option Nat

/-- The heap after the record at address `a` was written. -/
def heapStore (heap : Nat → Option Node) (a : Nat) (n : Node) : Nat → Option Node :=
  fun x => if x = a then some n else heap x

/-- The heap after `free` of the record at address `a`. -/
def heapFree (heap : Nat → Option Node) (a : Nat) : Nat → Option Node :=
  fun x => if x = a then none else heap x

/-- The function `__mongoPushCallback` on the records themselves.  The result
of `malloc` is the parameter `cb` (`none` for NULL, else an address at which
nothing is allocated); `source` is `none` for a NULL pointer, in which case
the new record keeps the indeterminate contents `junk` of the fresh block. -/
def Linked.__mongoPushCallback (l : CallbackList) (cb : Option Nat) (junk : Node)
    (source : Option mongoCallback) : Int × CallbackList :=
  match cb with
  | none => (MONGO_ERR_OOM, l)
  | some a =>
    let node : Node :=
      match source with
      | some s => { cb := s, next := none }
      | none => junk
    let heap1 := heapStore l.heap a node
    let head1 := if l.head = none then some a else l.head
    let heap2 :=
      match l.tail with
      | some t =>
        match heap1 t with
        | some tn => heapStore heap1 t { tn with next := some a }
        | none => heap1
      | none => heap1
    (MONGO_OK, { heap := heap2, head := head1, tail := some a })

/-- The function `__mongoShiftCallback` on the records themselves, called with
a non-NULL `target`: the status, the contents of `*target` afterwards, and
the list.  Reading through a `head` at which nothing is allocated is
undefined; the embedding then leaves target and list as they are. -/
def Linked.__mongoShiftCallback (l : CallbackList) (rpl : Option mongoReply)
    (target : mongoCallback) : Int × mongoCallback × CallbackList :=
  match l.head with
  | some a =>
    match l.heap a with
    | some node =>
      let no_remove : Bool :=
        decide (node.cb.flags &&& QUERY_FLAG_EXHAUST ≠ 0) &&
          (match rpl with
            | some r => decide (r.cursorID ≠ 0)
            | none => false)
      if no_remove then (MONGO_OK, node.cb, l)
      else
        (MONGO_OK, node.cb,
          { heap := heapFree l.heap a, head := node.next,
            tail := if l.tail = some a then none else l.tail })
    | none => (MONGO_OK, target, l)
  | none => (MONGO_ERR, target, l)

/-- The records reachable from the pointer `p` by following `next` are
exactly those at the addresses `addrs`, in order, holding the records `q`,
and the last `next` is NULL. -/
def Chain (heap : Nat → Option Node) : Option Nat → List Nat → List mongoCallback → Prop
  | p, [], [] => p = none
  | p, a :: addrs, c :: q =>
    p = some a ∧ ∃ nxt, heap a = some { cb := c, next := nxt } ∧ Chain heap nxt addrs q
  | _, _, _ => False

/-- The list `l` is well formed and holds the queue `q`: the records
reachable from `head` are distinct, they hold the records of `q` in order,
and `tail` points to the last of them (`head` and `tail` are both NULL when
there is none). -/
def Represents (l : CallbackList) (q : List mongoCallback) : Prop :=
  ∃ addrs : List Nat, Chain l.heap l.head addrs q ∧ addrs.Nodup ∧ l.tail = addrs.getLast?

/-- The empty list: `ac->replies.head = NULL; ac->replies.tail = NULL;` with
nothing allocated. -/
def emptyCallbackList : CallbackList := { heap := fun _ => none, head := none, tail := none }

/-- The records reachable from `p`, read off the heap by following `next` at
most `n` times. -/
def walk (heap : Nat → Option Node) : Nat → Option Nat → List mongoCallback
  | 0, _ => []
  | _, none => []
  | n + 1, some a =>
    match heap a with
    | some node => node.cb :: walk heap n node.next
    | none => []

/-- One call on the callback list, as `async.c` makes them: `source` and
`target` are never NULL there.  For a push, `cb` is the result of `malloc` and
`junk` the contents of the fresh block. -/
inductive QueueCall where
  | push (cb : Option Nat) (junk : Node) (source : mongoCallback)
  | shift (rpl : Option mongoReply) (target : mongoCallback)

/-- The list after one call. -/
def Linked.call (l : CallbackList) : QueueCall → CallbackList
  | QueueCall.push cb junk source => (Linked.__mongoPushCallback l cb junk (some source)).2
  | QueueCall.shift rpl target => (Linked.__mongoShiftCallback l rpl target).2.2

/-- The list after a sequence of calls. -/
def Linked.calls : CallbackList → List QueueCall → CallbackList
  | l, [] => l
  | l, c :: cs => Linked.calls (Linked.call l c) cs

/-- Whether every `malloc` of the sequence returns NULL or an address at which
nothing is allocated at the time of the call. -/
def mallocFresh : CallbackList → List QueueCall → Bool
  | _, [] => true
  | l, c :: cs =>
    (match c with
      | QueueCall.push (some a) _ _ => (l.heap a).isNone
      | _ => true) && mallocFresh (Linked.call l c) cs

/-- Modelled from the spec: the callback queue as a FIFO list.  A push that
gets memory appends the record at the back, a removing shift takes the record
at the front; a shift of a record with `EXHAUST` for a reply whose cursor is
not zero keeps the record, and so does a shift of the empty queue. -/
def fifoCall (q : List mongoCallback) : QueueCall → List mongoCallback
  | QueueCall.push (some _) _ source => q ++ [source]
  | QueueCall.push none _ _ => q
  | QueueCall.shift rpl _ =>
    match q with
    | [] => []
    | c :: rest =>
      if decide (c.flags &&& QUERY_FLAG_EXHAUST ≠ 0) &&
          (match rpl with
            | some r => decide (r.cursorID ≠ 0)
            | none => false)
      then c :: rest else rest

/-- Modelled from the spec: the bytes of a format under the rule "an endian
selector, once set, persists for all subsequent codes until another selector
is seen".  Every data code emits its field in the byte order of the most
recent selector before it (`rev` tells whether that order is the reverse of
the host's; it is the native order before any selector), and a selector
replaces the one in force.  The result is `none` when a character is neither
a selector nor a data code, or when the arguments do not match. -/
def stickyBytes (host : ByteOrder) : Bool → List Char → List Arg → Option (List Nat)
  | _, [], _ => some []
  | rev, c :: f, args =>
    match selector host c with
    | some r => stickyBytes host r f args
    | none =>
      match dataCode c with
      | some k =>
        match fieldBytes host rev k args with
        | some (bs, a) => (stickyBytes host rev f a).map (bs ++ ·)
        | none => none
      | none => none

/-! ## Byte-level lemmas -/

theorem leBytes_length (w v : Nat) : (leBytes w v).length = w := by
  induction w generalizing v with
  | zero => rfl
  | succ w ih => simp [leBytes, ih]

theorem leBytes_lt (w v b : Nat) (h : b ∈ leBytes w v) : b < 256 := by
  induction w generalizing v with
  | zero => simp [leBytes] at h
  | succ w ih =>
    simp only [leBytes, List.mem_cons] at h
    rcases h with h | h
    · omega
    · exact ih _ h

theorem ofLeBytes_leBytes (w v : Nat) : ofLeBytes (leBytes w v) = v % 256 ^ w := by
  induction w generalizing v with
  | zero => simp [leBytes, ofLeBytes, Nat.mod_one]
  | succ w ih =>
    simp only [leBytes, ofLeBytes, ih, Nat.mod_mod]
    rw [pow_succ, mul_comm (256 ^ w) 256, Nat.mod_mul]

theorem leBytes_ofLeBytes (l : List Nat) (h : ∀ b ∈ l, b < 256) :
    leBytes l.length (ofLeBytes l) = l := by
  induction l with
  | nil => rfl
  | cons b bs ih =>
    have hb : b < 256 := h b (List.mem_cons_self _ _)
    have ih' := ih (fun x hx => h x (List.mem_cons_of_mem _ hx))
    simp only [List.length_cons, leBytes, ofLeBytes]
    rw [Nat.mod_eq_of_lt hb]
    have h1 : (b + 256 * ofLeBytes bs) % 256 = b := by omega
    have h2 : (b + 256 * ofLeBytes bs) / 256 = ofLeBytes bs := by omega
    rw [h1, h2, ih']

theorem ofLeBytes_lt (l : List Nat) : ofLeBytes l < 256 ^ l.length := by
  induction l with
  | nil => simp [ofLeBytes]
  | cons b bs ih =>
    simp only [ofLeBytes, List.length_cons, pow_succ]
    have : b % 256 < 256 := Nat.mod_lt _ (by decide)
    omega

theorem leBytes_getElem? (w v k : Nat) (hk : k < w) :
    (leBytes w v)[k]? = some (v / 256 ^ k % 256) := by
  induction w generalizing v k with
  | zero => omega
  | succ w ih =>
    cases k with
    | zero => simp [leBytes]
    | succ k =>
      simp only [leBytes, List.getElem?_cons_succ]
      rw [ih (v / 256) k (by omega), Nat.div_div_eq_div_mul, pow_succ, mul_comm]

theorem leBytes_intrev (w v : Nat) : leBytes w (intrev w v) = (leBytes w v).reverse := by
  unfold intrev
  have h := leBytes_ofLeBytes (leBytes w v).reverse
    (fun b hb => leBytes_lt w v b (List.mem_reverse.mp hb))
  simpa [leBytes_length] using h

theorem intrev_lt (w v : Nat) : intrev w v < 256 ^ w := by
  unfold intrev
  have h := ofLeBytes_lt (leBytes w v).reverse
  simpa [leBytes_length] using h

theorem intrev_intrev (w v : Nat) : intrev w (intrev w v) = v % 256 ^ w := by
  have h : intrev w (intrev w v) = ofLeBytes (leBytes w (intrev w v)).reverse := rfl
  rw [h, leBytes_intrev, List.reverse_reverse, ofLeBytes_leBytes]

theorem objValue_objBytes (host : ByteOrder) (w v : Nat) :
    objValue host (objBytes host w v) = v % 256 ^ w := by
  cases host <;> simp [objValue, objBytes, ofLeBytes_leBytes]

theorem objBytes_length (host : ByteOrder) (w v : Nat) : (objBytes host w v).length = w := by
  cases host <;> simp [objBytes, leBytes_length]




theorem leBytes_mod (w v : Nat) : leBytes w (v % 256 ^ w) = leBytes w v := by
  have h := leBytes_ofLeBytes (leBytes w v) (fun b hb => leBytes_lt w v b hb)
  rwa [leBytes_length, ofLeBytes_leBytes] at h

theorem sizeSub_of_le (a b : Nat) (ha : a < SIZE_MOD) (hb : b ≤ a) : sizeSub a b = a - b := by
  unfold sizeSub
  have hb' : b < SIZE_MOD := lt_of_le_of_lt hb ha
  rw [Nat.mod_eq_of_lt ha, Nat.mod_eq_of_lt hb']
  have : a + SIZE_MOD - b = (a - b) + SIZE_MOD := by omega
  rw [this, Nat.add_mod_right, Nat.mod_eq_of_lt (by omega)]

theorem getElem?_splice (pre bs post : List Nat) (k : Nat) (hk : k < bs.length) :
    (pre ++ bs ++ post)[pre.length + k]? = bs[k]? := by
  rw [List.append_assoc, List.getElem?_append_right (by omega)]
  simp [List.getElem?_append_left hk]

theorem dataCode_int_of_mem (c : Char) (w : Nat)
    (hc : (c, w) ∈ [('h', 2), ('H', 2), ('i', 4), ('I', 4), ('q', 8), ('Q', 8)]) :
    dataCode c = some (Code.int w) := by
  simp only [List.mem_cons, Prod.mk.injEq, List.mem_singleton, List.not_mem_nil, or_false] at hc
  rcases hc with ⟨rfl, rfl⟩ | ⟨rfl, rfl⟩ | ⟨rfl, rfl⟩ | ⟨rfl, rfl⟩ | ⟨rfl, rfl⟩ | ⟨rfl, rfl⟩ <;>
    decide

theorem selector_ne_nul (host : ByteOrder) (e : Char) (r : Bool) (h : selector host e = some r) :
    e ≠ Char.ofNat 0 := by
  rintro rfl
  simp [selector] at h

theorem sdsSelector_ne_nul (e : Char) (r : Bool) (h : sdsSelector e = some r) :
    e ≠ Char.ofNat 0 := by
  rintro rfl
  simp [sdsSelector] at h

/-- Packing `[e, c]` for an integer code of width `w`. -/
theorem packLoop_sel_int (host : ByteOrder) (e c : Char) (w : Nat) (r : Bool) (v : Nat)
    (st : PackSt) (post : List Char) (args : List Arg)
    (hc : dataCode c = some (Code.int w))
    (he : selector host e = some r) (hrem : w ≤ st.remain) (hrem2 : st.remain < SIZE_MOD)
    (hlen : st.pos + w ≤ st.buf.length) :
    packLoop host (e :: c :: post) false st (Arg.num v :: args) =
      packLoop host post false
        { need_rev := r, pos := st.pos + w, remain := st.remain - w,
          buf := st.buf.take st.pos ++ objBytes host w (if r then intrev w (v % 256 ^ w) else v % 256 ^ w)
            ++ st.buf.drop (st.pos + w) } args := by
  have he0 : e ≠ Char.ofNat 0 := selector_ne_nul host e r he
  have hs : sizeSub st.remain w = st.remain - w := sizeSub_of_le _ _ hrem2 hrem
  simp [packLoop, he0, he, packCode, hc, packInt, packStore, memWrite, objBytes_length, hlen, hs,
    Nat.not_lt.mpr hrem]

theorem objBytes_little_sel (host : ByteOrder) (w v : Nat) :
    objBytes host w (if decide (host = ByteOrder.big) then intrev w (v % 256 ^ w) else v % 256 ^ w)
      = leBytes w v := by
  cases host <;> simp [objBytes, leBytes_intrev, leBytes_mod]

theorem objBytes_big_sel (host : ByteOrder) (w v : Nat) :
    objBytes host w (if decide (host = ByteOrder.little) then intrev w (v % 256 ^ w) else v % 256 ^ w)
      = (leBytes w v).reverse := by
  cases host <;> simp [objBytes, leBytes_intrev, leBytes_mod]

/-- Appending `[e, c]` for an integer code of width `w`. -/
theorem sdsLoop_sel_int (e c : Char) (w : Nat) (r : Bool) (v : Nat)
    (st : SdsSt) (post : List Char) (args : List Arg)
    (hc : dataCode c = some (Code.int w))
    (he : sdsSelector e = some r) :
    sdsLoop (e :: c :: post) false st (Arg.num v :: args) =
      sdsLoop post false
        { need_rev := r,
          s := st.s ++ leBytes w (if r then intrev w (v % 256 ^ w) else v % 256 ^ w) } args := by
  have he0 : e ≠ Char.ofNat 0 := sdsSelector_ne_nul e r he
  simp [sdsLoop, he0, he, sdsCode, hc, sdsInt, objBytes, sdscatlen]

theorem shift_mask_eq (v k : Nat) : (v >>> (8 * k)) &&& 0xFF = v / 256 ^ k % 256 := by
  have h : (0xFF : Nat) = 2 ^ 8 - 1 := by norm_num
  rw [h, Nat.and_pow_two_sub_one_eq_mod, Nat.shiftRight_eq_div_pow, pow_mul]
  norm_num

/-- C3: under the selector `<` both packers emit an `h`, `i` or `q` value
least-significant byte first (byte `k` of the field is `(v >> 8k) & 0xFF`), on
either host; packing `"<iq"` with `0x11223344` and `0x8877665544332211`
gives the bytes `44 33 22 11 11 22 33 44 55 66 77 88`, and unpacking them with
`"<iq"` gives the two values back. -/
theorem C3_little_endian_lsb_first (host : ByteOrder) (s buf : List Nat) (off size : Nat)
    (c : Char) (w v k : Nat)
    (hc : (c, w) ∈ [('h', 2), ('H', 2), ('i', 4), ('I', 4), ('q', 8), ('Q', 8)])
    (hk : k < w) (hfit : off + w ≤ size) (hbuf : size ≤ buf.length) (hsz : size < SIZE_MOD) :
    (∃ r buf', mongoSnpack host buf off size ['<', c] [Arg.num v] = Outcome.ret (r, buf')
        ∧ buf'[off + k]? = some ((v >>> (8 * k)) &&& 0xFF))
    ∧ (∃ s', mongoSdscatpack s ['<', c] [Arg.num v] = Outcome.ret s'
        ∧ s'[s.length + k]? = some ((v >>> (8 * k)) &&& 0xFF))
    ∧ mongoSnpack host (List.replicate 12 0) 0 12 ['<', 'i', 'q']
        [Arg.num 0x11223344, Arg.num 0x8877665544332211]
        = Outcome.ret (12, [0x44, 0x33, 0x22, 0x11, 0x11, 0x22, 0x33, 0x44, 0x55, 0x66, 0x77, 0x88])
    ∧ mongoSdscatpack [] ['<', 'i', 'q'] [Arg.num 0x11223344, Arg.num 0x8877665544332211]
        = Outcome.ret [0x44, 0x33, 0x22, 0x11, 0x11, 0x22, 0x33, 0x44, 0x55, 0x66, 0x77, 0x88]
    ∧ mongoSnunpack host [0x44, 0x33, 0x22, 0x11, 0x11, 0x22, 0x33, 0x44, 0x55, 0x66, 0x77, 0x88]
        0 12 ['<', 'i', 'q'] [UArg.dst, UArg.dst]
        = Outcome.ret (12, [Val.num 0x11223344, Val.num 0x8877665544332211]) := by
  refine ⟨?_, ?_, ?_, ?_, ?_⟩
  · have hsel : selector host '<' = some (decide (host = ByteOrder.big)) := by
      simp [selector]
    have hrem : sizeSub size off = size - off := sizeSub_of_le _ _ hsz (by omega)
    have h := packLoop_sel_int host '<' c w _ v (packInit buf off size) [] []
      (dataCode_int_of_mem c w hc) hsel
      (by simp only [packInit, hrem]; omega) (by simp only [packInit, hrem]; omega)
      (by simp only [packInit]; omega)
    have hp : mongoSnpack host buf off size ['<', c] [Arg.num v] =
        Outcome.ret (toInt32 (sizeSub size (size - off - w)),
          List.take off buf ++ leBytes w v ++ List.drop (off + w) buf) := by
      unfold mongoSnpack
      rw [h]
      simp only [packLoop, packInit, objBytes_little_sel, hrem]
    refine ⟨_, _, hp, ?_⟩
    have hl : (List.take off buf).length = off := by simp; omega
    have h2 := getElem?_splice (List.take off buf) (leBytes w v) (List.drop (off + w) buf) k
      (by rw [leBytes_length]; exact hk)
    rw [hl] at h2
    rw [h2, leBytes_getElem? w v k hk, shift_mask_eq]
  · have hsel : sdsSelector '<' = some false := by simp [sdsSelector]
    have h := sdsLoop_sel_int '<' c w false v { need_rev := false, s := s } [] []
      (dataCode_int_of_mem c w hc) hsel
    have hp : mongoSdscatpack s ['<', c] [Arg.num v] = Outcome.ret (s ++ leBytes w v) := by
      unfold mongoSdscatpack
      rw [h]
      simp only [sdsLoop, Bool.false_eq_true, if_false, leBytes_mod]
    refine ⟨_, hp, ?_⟩
    rw [List.getElem?_append_right (by omega)]
    simp [leBytes_getElem? w v k hk, shift_mask_eq]
  · cases host <;> decide
  · decide
  · cases host <;> decide

theorem C3_little_endian_lsb_first_witness :
    (∃ r buf', mongoSnpack ByteOrder.big [0, 0, 0, 0] 1 3 ['<', 'h'] [Arg.num 0x1234]
        = Outcome.ret (r, buf') ∧ buf'[1 + 1]? = some ((0x1234 >>> (8 * 1)) &&& 0xFF)) :=
  (C3_little_endian_lsb_first ByteOrder.big [] [0, 0, 0, 0] 1 3 'h' 2 0x1234 1
    (by decide) (by decide) (by decide) (by decide) (by decide)).1

/-! ## Selectors and single steps -/

theorem selector_isSome (host : ByteOrder) (e : Char) (h : isSelector e = true) :
    ∃ r, selector host e = some r := by
  simp only [isSelector, List.mem_cons, List.mem_singleton, List.not_mem_nil, or_false,
    decide_eq_true_eq] at h
  rcases h with rfl | rfl | rfl | rfl <;> simp [selector]

theorem sdsSelector_isSome (e : Char) (h : isSelector e = true) :
    ∃ r, sdsSelector e = some r := by
  simp only [isSelector, List.mem_cons, List.mem_singleton, List.not_mem_nil, or_false,
    decide_eq_true_eq] at h
  rcases h with rfl | rfl | rfl | rfl <;> simp [sdsSelector]

theorem dataCode_cases (c : Char) (k : Code) (h : dataCode c = some k) :
    c ∈ ['b', 'B', 'h', 'H', 'i', 'I', 'q', 'Q', 's', 'S', 'm', 'M'] := by
  unfold dataCode at h
  split_ifs at h with h1 h2 h3 h4 h5 h6 h7 h8
  · rcases h1 with rfl | rfl <;> simp
  · rcases h2 with rfl | rfl <;> simp
  · rcases h3 with rfl | rfl <;> simp
  · rcases h4 with rfl | rfl <;> simp
  · subst h5; simp
  · subst h6; simp
  · subst h7; simp
  · subst h8; simp

theorem dataCode_not_selector (host : ByteOrder) (c : Char) (k : Code)
    (h : dataCode c = some k) :
    selector host c = none ∧ sdsSelector c = none ∧ c ≠ Char.ofNat 0 := by
  have hc := dataCode_cases c k h
  simp only [List.mem_cons, List.mem_singleton, List.not_mem_nil, or_false] at hc
  rcases hc with rfl | rfl | rfl | rfl | rfl | rfl | rfl | rfl | rfl | rfl | rfl | rfl <;>
    simp [selector, sdsSelector]

theorem selector_not_dataCode (host : ByteOrder) (e : Char) (r : Bool)
    (h : selector host e = some r) : dataCode e = none := by
  cases hk : dataCode e with
  | none => rfl
  | some k => rw [(dataCode_not_selector host e k hk).1] at h; simp at h

theorem sdsSelector_eq_none_iff (host : ByteOrder) (c : Char) :
    sdsSelector c = none ↔ selector host c = none := by
  unfold sdsSelector selector
  split_ifs <;> simp

theorem numCode_dataCode (c : Char) (h : isNumCode c = true) : ∃ k, dataCode c = some k := by
  unfold isNumCode at h
  cases hk : dataCode c with
  | none => simp [hk] at h
  | some k => exact ⟨k, rfl⟩

theorem PackStep.need_rev_eq {st st' : PackSt} (h : PackStep st st') :
    st'.need_rev = st.need_rev := by
  rcases h with rfl | ⟨bs, _, _, _, h, _⟩
  · rfl
  · exact h

theorem packStore_step (st st' : PackSt) (bs : List Nat) (args args' : List Arg)
    (hr : bs.length ≤ st.remain)
    (h : packStore st bs args = Step.next st' args') : PackStep st st' := by
  unfold packStore at h
  split at h
  · rename_i buf' hw
    simp only [Step.next.injEq] at h
    obtain ⟨h1, _⟩ := h
    subst h1
    exact Or.inr ⟨bs, hw, rfl, rfl, rfl, hr⟩
  · simp at h

theorem packStore_error (st st' : PackSt) (bs : List Nat) (args : List Arg) :
    packStore st bs args ≠ Step.error st' ∧ packStore st bs args ≠ Step.abort := by
  unfold packStore
  split <;> simp

theorem packInt_step (host : ByteOrder) (w : Nat) (st st' : PackSt) (args args' : List Arg)
    (h : packInt host w st args = Step.next st' args') : PackStep st st' := by
  unfold packInt at h
  split at h
  · simp at h
  · split at h
    · exact packStore_step _ _ _ _ _ (by rw [objBytes_length]; omega) h
    · simp at h

theorem packCode_step (host : ByteOrder) (c : Char) (st st' : PackSt)
    (args args' : List Arg) (h : packCode host c st args = Step.next st' args') :
    PackStep st st' := by
  unfold packCode at h
  repeat' split at h
  all_goals first
    | (simp at h; done)
    | exact packInt_step _ _ _ _ _ _ h
    | (simp only [Step.next.injEq] at h; exact Or.inl h.1.symm)
    | (refine packStore_step _ _ _ _ _ ?_ h; simp [List.length_take]; omega)

theorem packCode_need_rev (host : ByteOrder) (c : Char) (st st' : PackSt)
    (args args' : List Arg) (h : packCode host c st args = Step.next st' args') :
    st'.need_rev = st.need_rev :=
  (packCode_step host c st st' args args' h).need_rev_eq

theorem sdsCode_need_rev (c : Char) (st st' : SdsSt)
    (args args' : List Arg) (h : sdsCode c st args = Step.next st' args') :
    st'.need_rev = st.need_rev := by
  unfold sdsCode sdsInt at h
  repeat' split at h
  all_goals first
    | (simp only [Step.next.injEq] at h; rw [← h.1])
    | simp at h

theorem unpackCode_need_rev (host : ByteOrder) (buf : List Nat) (c : Char) (st st' : UnpackSt)
    (args args' : List UArg) (h : unpackCode host buf c st args = Step.next st' args') :
    st'.need_rev = st.need_rev := by
  unfold unpackCode unpackInt unpackAdvance at h
  repeat' split at h
  all_goals first
    | (simp only [Step.next.injEq] at h; rw [← h.1])
    | simp at h

/-! ## Selectors are sticky: a selector repeated before every code -/

theorem packLoop_selEach (host : ByteOrder) (e : Char) (r : Bool) (cs : List Char)
    (he : selector host e = some r) (hcs : ∀ c ∈ cs, isNumCode c = true) :
    ∀ (st : PackSt) (args : List Arg), st.need_rev = r →
      packLoop host (selEach e cs) false st args = packLoop host cs false st args := by
  have he0 := selector_ne_nul host e r he
  induction cs with
  | nil => intro st args _; rfl
  | cons c cs ih =>
    intro st args hst
    obtain ⟨k, hk⟩ := numCode_dataCode c (hcs c (List.mem_cons_self _ _))
    obtain ⟨hc1, _, hc0⟩ := dataCode_not_selector host c k hk
    have hst' : ({ st with need_rev := r } : PackSt) = st := by rw [← hst]
    simp only [selEach, packLoop, he0, he, hc0, hc1, if_false, hst']
    cases hp : packCode host c st args with
    | next st' args' =>
      simp only
      exact ih (fun x hx => hcs x (List.mem_cons_of_mem _ hx)) st' args'
        ((packCode_need_rev host c st st' args args' hp).trans hst)
    | error st' => rfl
    | abort => rfl
    | undef => rfl

theorem sdsLoop_selEach (e : Char) (r : Bool) (cs : List Char)
    (he : sdsSelector e = some r) (hcs : ∀ c ∈ cs, isNumCode c = true) :
    ∀ (st : SdsSt) (args : List Arg), st.need_rev = r →
      sdsLoop (selEach e cs) false st args = sdsLoop cs false st args := by
  have he0 := sdsSelector_ne_nul e r he
  induction cs with
  | nil => intro st args _; rfl
  | cons c cs ih =>
    intro st args hst
    obtain ⟨k, hk⟩ := numCode_dataCode c (hcs c (List.mem_cons_self _ _))
    obtain ⟨_, hc1, hc0⟩ := dataCode_not_selector ByteOrder.little c k hk
    have hst' : ({ st with need_rev := r } : SdsSt) = st := by rw [← hst]
    simp only [selEach, sdsLoop, he0, he, hc0, hc1, if_false, hst']
    cases hp : sdsCode c st args with
    | next st' args' =>
      simp only
      exact ih (fun x hx => hcs x (List.mem_cons_of_mem _ hx)) st' args'
        ((sdsCode_need_rev c st st' args args' hp).trans hst)
    | error st' => rfl
    | abort => rfl
    | undef => rfl

theorem unpackLoop_selEach (host : ByteOrder) (buf : List Nat) (e : Char) (r : Bool)
    (cs : List Char) (he : selector host e = some r) (hcs : ∀ c ∈ cs, isNumCode c = true) :
    ∀ (st : UnpackSt) (args : List UArg), st.need_rev = r →
      unpackLoop host buf (selEach e cs) false st args = unpackLoop host buf cs false st args := by
  have he0 := selector_ne_nul host e r he
  induction cs with
  | nil => intro st args _; rfl
  | cons c cs ih =>
    intro st args hst
    obtain ⟨k, hk⟩ := numCode_dataCode c (hcs c (List.mem_cons_self _ _))
    obtain ⟨hc1, _, hc0⟩ := dataCode_not_selector host c k hk
    have hst' : ({ st with need_rev := r } : UnpackSt) = st := by rw [← hst]
    simp only [selEach, unpackLoop, he0, he, hc0, hc1, if_false, hst']
    cases hp : unpackCode host buf c st args with
    | next st' args' =>
      simp only
      exact ih (fun x hx => hcs x (List.mem_cons_of_mem _ hx)) st' args'
        ((unpackCode_need_rev host buf c st st' args args' hp).trans hst)
    | error st' => rfl
    | abort => rfl
    | undef => rfl

/-! ## C5: the big-endian selectors -/

theorem bigAlias_same (host : ByteOrder) (a b : Char) (h : bigAlias a b) :
    selector host a = selector host b ∧ sdsSelector a = sdsSelector b
      ∧ dataCode a = dataCode b ∧ (a = Char.ofNat 0 ↔ b = Char.ofNat 0) := by
  rcases h with rfl | ⟨ha, hb⟩
  · exact ⟨rfl, rfl, rfl, Iff.rfl⟩
  · rcases ha with rfl | rfl <;> rcases hb with rfl | rfl <;>
      simp [selector, sdsSelector, dataCode]

theorem packLoop_bigAlias (host : ByteOrder) (fmt fmt' : List Char)
    (h : List.Forall₂ bigAlias fmt fmt') :
    ∀ (b : Bool) (st : PackSt) (args : List Arg),
      packLoop host fmt b st args = packLoop host fmt' b st args := by
  induction h with
  | nil => intro b st args; rfl
  | @cons a b' l l' hab _ ih =>
    intro b st args
    obtain ⟨h1, _, h3, h4⟩ := bigAlias_same host a b' hab
    have hcode : packCode host a st args = packCode host b' st args := by
      unfold packCode; rw [h3]
    cases b with
    | false =>
      simp only [packLoop, h1, h4, hcode]
      split
      · rfl
      · cases selector host b' with
        | some r => exact ih _ _ _
        | none =>
          simp only
          cases packCode host b' st args with
          | next st' args' => exact ih _ _ _
          | error st' => rfl
          | abort => rfl
          | undef => rfl
    | true =>
      simp only [packLoop, hcode]
      cases packCode host b' st args with
      | next st' args' => exact ih _ _ _
      | error st' => rfl
      | abort => rfl
      | undef => rfl

theorem sdsLoop_bigAlias (fmt fmt' : List Char)
    (h : List.Forall₂ bigAlias fmt fmt') :
    ∀ (b : Bool) (st : SdsSt) (args : List Arg),
      sdsLoop fmt b st args = sdsLoop fmt' b st args := by
  induction h with
  | nil => intro b st args; rfl
  | @cons a b' l l' hab _ ih =>
    intro b st args
    obtain ⟨_, h1, h3, h4⟩ := bigAlias_same ByteOrder.little a b' hab
    have hcode : sdsCode a st args = sdsCode b' st args := by
      unfold sdsCode; rw [h3]
    cases b with
    | false =>
      simp only [sdsLoop, h1, h4, hcode]
      split
      · rfl
      · cases sdsSelector b' with
        | some r => exact ih _ _ _
        | none =>
          simp only
          cases sdsCode b' st args with
          | next st' args' => exact ih _ _ _
          | error st' => rfl
          | abort => rfl
          | undef => rfl
    | true =>
      simp only [sdsLoop, hcode]
      cases sdsCode b' st args with
      | next st' args' => exact ih _ _ _
      | error st' => rfl
      | abort => rfl
      | undef => rfl

theorem unpackLoop_bigAlias (host : ByteOrder) (buf : List Nat) (fmt fmt' : List Char)
    (h : List.Forall₂ bigAlias fmt fmt') :
    ∀ (b : Bool) (st : UnpackSt) (args : List UArg),
      unpackLoop host buf fmt b st args = unpackLoop host buf fmt' b st args := by
  induction h with
  | nil => intro b st args; rfl
  | @cons a b' l l' hab _ ih =>
    intro b st args
    obtain ⟨h1, _, h3, h4⟩ := bigAlias_same host a b' hab
    have hcode : unpackCode host buf a st args = unpackCode host buf b' st args := by
      unfold unpackCode; rw [h3]
    cases b with
    | false =>
      simp only [unpackLoop, h1, h4, hcode]
      split
      · rfl
      · cases selector host b' with
        | some r => exact ih _ _ _
        | none =>
          simp only
          cases unpackCode host buf b' st args with
          | next st' args' => exact ih _ _ _
          | error st' => rfl
          | abort => rfl
          | undef => rfl
    | true =>
      simp only [unpackLoop, hcode]
      cases unpackCode host buf b' st args with
      | next st' args' => exact ih _ _ _
      | error st' => rfl
      | abort => rfl
      | undef => rfl

/-- Unpacking `[e, c]` for an integer code of width `w`. -/
theorem unpackLoop_sel_int (host : ByteOrder) (buf : List Nat) (e c : Char) (w : Nat) (r : Bool)
    (st : UnpackSt) (post : List Char) (args : List UArg)
    (hc : dataCode c = some (Code.int w))
    (he : selector host e = some r) (hrem : w ≤ st.remain) (hrem2 : st.remain < SIZE_MOD)
    (hlen : st.pos + w ≤ buf.length) :
    unpackLoop host buf (e :: c :: post) false st (UArg.dst :: args) =
      unpackLoop host buf post false
        { need_rev := r, pos := st.pos + w, remain := st.remain - w,
          out := st.out ++ [Val.num (if r then intrev w (objValue host ((buf.drop st.pos).take w))
            else objValue host ((buf.drop st.pos).take w))] } args := by
  have he0 : e ≠ Char.ofNat 0 := selector_ne_nul host e r he
  have hs : sizeSub st.remain w = st.remain - w := sizeSub_of_le _ _ hrem2 hrem
  simp [unpackLoop, he0, he, unpackCode, hc, unpackInt, unpackAdvance, memRead, hlen, hs,
    Nat.not_lt.mpr hrem]


theorem drop_take_splice (buf bs post : List Nat) (off : Nat) (h : off ≤ buf.length) :
    ((List.take off buf ++ bs ++ post).drop off).take bs.length = bs := by
  have hl : (List.take off buf).length = off := by simp; omega
  rw [List.append_assoc]
  have : (List.take off buf ++ (bs ++ post)).drop off = bs ++ post := by
    have h2 := List.drop_left (List.take off buf) (bs ++ post)
    rwa [hl] at h2
  rw [this]
  exact List.take_left _ _

theorem splice_length (buf bs : List Nat) (off : Nat) (h : off + bs.length ≤ buf.length) :
    (List.take off buf ++ bs ++ List.drop (off + bs.length) buf).length = buf.length := by
  simp only [List.length_append, List.length_take, List.length_drop]
  omega

theorem objValue_big_sel (host : ByteOrder) (w v : Nat) :
    (if decide (host = ByteOrder.little) then intrev w (objValue host (leBytes w v).reverse)
      else objValue host (leBytes w v).reverse) = v % 256 ^ w := by
  cases host
  · simp only [decide_True, if_true, objValue]
    exact intrev_intrev w v
  · simp [objValue, ofLeBytes_leBytes]

theorem big_selector (host : ByteOrder) (e : Char) (he : e = '>' ∨ e = '!') :
    selector host e = some (decide (host = ByteOrder.little)) ∧ sdsSelector e = some true := by
  rcases he with rfl | rfl <;> simp [selector, sdsSelector]

/-- C5: the selectors `>` and `!` both mean big-endian.  On a little-endian
host they set `need_rev` to true in the three functions; the packers then
emit an `h`, `i` or `q` value most-significant byte first (byte `k` of a
field of width `w` is `(v >> 8(w-1-k)) & 0xFF`) and the unpacker decodes such
a field back to the value; and replacing any `>` by `!` or any `!` by `>` in
a format changes nothing in what the three functions do. -/
theorem C5_big_endian_selectors (host : ByteOrder) (fmt fmt' : List Char) (buf s : List Nat)
    (off size : Nat) (args : List Arg) (uargs : List UArg) (e c : Char) (w v k : Nat)
    (halias : List.Forall₂ bigAlias fmt fmt')
    (he : e = '>' ∨ e = '!')
    (hc : (c, w) ∈ [('h', 2), ('H', 2), ('i', 4), ('I', 4), ('q', 8), ('Q', 8)])
    (hk : k < w) (hfit : off + w ≤ size) (hbuf : size ≤ buf.length) (hsz : size < SIZE_MOD) :
    (selector ByteOrder.little e = some true ∧ sdsSelector e = some true)
    ∧ mongoSnpack host buf off size fmt args = mongoSnpack host buf off size fmt' args
    ∧ mongoSdscatpack s fmt args = mongoSdscatpack s fmt' args
    ∧ mongoSnunpack host buf off size fmt uargs = mongoSnunpack host buf off size fmt' uargs
    ∧ (∃ r buf', mongoSnpack host buf off size [e, c] [Arg.num v] = Outcome.ret (r, buf')
        ∧ buf'[off + k]? = some ((v >>> (8 * (w - 1 - k))) &&& 0xFF)
        ∧ mongoSnunpack host buf' off size [e, c] [UArg.dst]
            = Outcome.ret (r, [Val.num (v % 256 ^ w)]))
    ∧ (∃ s', mongoSdscatpack s [e, c] [Arg.num v] = Outcome.ret s'
        ∧ s'[s.length + k]? = some ((v >>> (8 * (w - 1 - k))) &&& 0xFF)) := by
  have hcode := dataCode_int_of_mem c w hc
  obtain ⟨hsel, hsel'⟩ := big_selector host e he
  have hrem : sizeSub size off = size - off := sizeSub_of_le _ _ hsz (by omega)
  have hrev : (leBytes w v).reverse[k]? = some ((v >>> (8 * (w - 1 - k))) &&& 0xFF) := by
    rw [List.getElem?_reverse (by rw [leBytes_length]; exact hk), leBytes_length,
      leBytes_getElem? w v (w - 1 - k) (by omega), shift_mask_eq]
  refine ⟨⟨(big_selector ByteOrder.little e he).1, hsel'⟩, ?_, ?_, ?_, ?_, ?_⟩
  · unfold mongoSnpack
    rw [packLoop_bigAlias host fmt fmt' halias]
  · unfold mongoSdscatpack
    rw [sdsLoop_bigAlias fmt fmt' halias]
  · unfold mongoSnunpack
    rw [unpackLoop_bigAlias host buf fmt fmt' halias]
  · have h := packLoop_sel_int host e c w _ v (packInit buf off size) [] [] hcode hsel
      (by simp only [packInit, hrem]; omega) (by simp only [packInit, hrem]; omega)
      (by simp only [packInit]; omega)
    have hp : mongoSnpack host buf off size [e, c] [Arg.num v] =
        Outcome.ret (toInt32 (sizeSub size (size - off - w)),
          List.take off buf ++ (leBytes w v).reverse ++ List.drop (off + w) buf) := by
      unfold mongoSnpack
      rw [h]
      simp only [packLoop, packInit, objBytes_big_sel, hrem]
    refine ⟨_, _, hp, ?_, ?_⟩
    · have hl : (List.take off buf).length = off := by simp; omega
      have h2 := getElem?_splice (List.take off buf) (leBytes w v).reverse
        (List.drop (off + w) buf) k (by rw [List.length_reverse, leBytes_length]; exact hk)
      rw [hl] at h2
      rw [h2, hrev]
    · have hlen : (leBytes w v).reverse.length = w := by rw [List.length_reverse, leBytes_length]
      have hbl : (List.take off buf ++ (leBytes w v).reverse ++ List.drop (off + w) buf).length
          = buf.length := by
        have := splice_length buf (leBytes w v).reverse off (by rw [hlen]; omega)
        rwa [hlen] at this
      have hu := unpackLoop_sel_int host
        (List.take off buf ++ (leBytes w v).reverse ++ List.drop (off + w) buf) e c w _
        (unpackInit off size) [] [] hcode hsel
        (by simp only [unpackInit, hrem]; omega) (by simp only [unpackInit, hrem]; omega)
        (by rw [hbl]; simp only [unpackInit]; omega)
      have hd := drop_take_splice buf (leBytes w v).reverse (List.drop (off + w) buf) off
        (by omega)
      rw [hlen] at hd
      unfold mongoSnunpack
      rw [hu]
      simp only [unpackLoop, unpackInit, hd, objValue_big_sel, hrem, List.nil_append]
  · have h := sdsLoop_sel_int e c w true v { need_rev := false, s := s } [] [] hcode hsel'
    have hp : mongoSdscatpack s [e, c] [Arg.num v] = Outcome.ret (s ++ (leBytes w v).reverse) := by
      unfold mongoSdscatpack
      rw [h]
      simp only [sdsLoop, if_true, leBytes_intrev, leBytes_mod]
    refine ⟨_, hp, ?_⟩
    rw [List.getElem?_append_right (by omega)]
    simpa using hrev

theorem C5_big_endian_selectors_witness :
    mongoSnpack ByteOrder.little [0, 0, 0, 0] 0 4 ['>', 'i'] [Arg.num 7]
      = mongoSnpack ByteOrder.little [0, 0, 0, 0] 0 4 ['!', 'i'] [Arg.num 7] :=
  (C5_big_endian_selectors ByteOrder.little ['>', 'i'] ['!', 'i'] [0, 0, 0, 0] [] 0 4
    [Arg.num 7] [] '!' 'i' 4 7 0
    (List.Forall₂.cons (Or.inr ⟨Or.inl rfl, Or.inr rfl⟩)
      (List.Forall₂.cons (Or.inl rfl) List.Forall₂.nil))
    (Or.inr rfl) (by decide) (by decide) (by decide) (by decide) (by decide)).2.1

/-! ## C6: the string codes of the packers -/

theorem strlen_cstring (x tail : List Nat) (h0 : ∀ b ∈ x, b ≠ 0) :
    strlen (x ++ 0 :: tail) = some x.length := by
  induction x with
  | nil => simp [strlen]
  | cons b bs ih =>
    have hb : b ≠ 0 := h0 b (List.mem_cons_self _ _)
    simp [strlen, hb, ih (fun y hy => h0 y (List.mem_cons_of_mem _ hy))]

theorem take_cstring (x tail : List Nat) :
    List.take x.length (x ++ 0 :: tail) = x
      ∧ List.take (x.length + 1) (x ++ 0 :: tail) = x ++ [0] := by
  constructor
  · exact List.take_left _ _
  · have h := List.take_left (x ++ [0]) tail
    simpa using h

theorem sizeSub_sizeSub (size off n : Nat) (hsz : size < SIZE_MOD) (h : off + n ≤ size) :
    sizeSub size (sizeSub (sizeSub size off) n) = off + n := by
  rw [sizeSub_of_le size off hsz (by omega), sizeSub_of_le (size - off) n (by omega) (by omega),
    sizeSub_of_le size _ hsz (by omega)]
  omega

/-- Packing one string with `s` or `S` into the buffer. -/
theorem snpack_str (host : ByteOrder) (buf x tail : List Nat) (off size : Nat) (c : Char)
    (upper : Bool) (hc : dataCode c = some (Code.str upper)) (h0 : ∀ b ∈ x, b ≠ 0)
    (hfit : off + strFieldLen upper x.length ≤ size) (hbuf : size ≤ buf.length)
    (hsz : size < SIZE_MOD) :
    mongoSnpack host buf off size [c] [Arg.ptr (x ++ 0 :: tail)]
      = Outcome.ret (toInt32 (off + strFieldLen upper x.length),
          List.take off buf ++ List.take (strFieldLen upper x.length) (x ++ 0 :: tail)
            ++ List.drop (off + strFieldLen upper x.length) buf) := by
  obtain ⟨hs1, _, hs0⟩ := dataCode_not_selector host c _ hc
  have hrem : sizeSub size off = size - off := sizeSub_of_le _ _ hsz (by omega)
  have hlen : (List.take (strFieldLen upper x.length) (x ++ 0 :: tail)).length
      = strFieldLen upper x.length := by
    rw [List.length_take]
    have : strFieldLen upper x.length ≤ x.length + 1 := by
      unfold strFieldLen; split <;> omega
    simp only [List.length_append, List.length_cons]
    omega
  have hss := sizeSub_sizeSub size off (strFieldLen upper x.length) hsz hfit
  rw [hrem] at hss
  have hlt : ¬ size - off < strFieldLen upper x.length := by omega
  have hw : off + strFieldLen upper x.length ≤ buf.length := by omega
  simp [mongoSnpack, packLoop, packInit, hs0, hs1, packCode, hc, strlen_cstring x tail h0,
    packStore, memWrite, hrem, hlen, hlt, hw, hss]

/-- C6: for a NUL-terminated string `x` (the non-zero characters `x`
followed by a zero byte), code `s` emits exactly the `strlen(x)` characters
and code `S` emits the same characters followed by one zero byte, so the two
outputs differ by exactly the terminator; in `mongoSdscatpack` and in
`mongoSnpack` (given room for the field). -/
theorem C6_string_codes (host : ByteOrder) (s buf x tail : List Nat) (off size : Nat)
    (h0 : ∀ b ∈ x, b ≠ 0) (hfit : off + x.length + 1 ≤ size) (hbuf : size ≤ buf.length)
    (hsz : size < SIZE_MOD) :
    mongoSdscatpack s ['s'] [Arg.ptr (x ++ 0 :: tail)] = Outcome.ret (s ++ x)
    ∧ mongoSdscatpack s ['S'] [Arg.ptr (x ++ 0 :: tail)] = Outcome.ret (s ++ x ++ [0])
    ∧ mongoSnpack host buf off size ['s'] [Arg.ptr (x ++ 0 :: tail)]
        = Outcome.ret (toInt32 (off + x.length),
            List.take off buf ++ x ++ List.drop (off + x.length) buf)
    ∧ mongoSnpack host buf off size ['S'] [Arg.ptr (x ++ 0 :: tail)]
        = Outcome.ret (toInt32 (off + x.length + 1),
            List.take off buf ++ (x ++ [0]) ++ List.drop (off + x.length + 1) buf) := by
  obtain ⟨ht1, ht2⟩ := take_cstring x tail
  have hs : dataCode 's' = some (Code.str false) := by decide
  have hS : dataCode 'S' = some (Code.str true) := by decide
  have h1 : ('s' : Char) ≠ Char.ofNat 0 := by decide
  have h2 : ('S' : Char) ≠ Char.ofNat 0 := by decide
  have h3 : sdsSelector 's' = none := by decide
  have h4 : sdsSelector 'S' = none := by decide
  refine ⟨?_, ?_, ?_, ?_⟩
  · simp [mongoSdscatpack, sdsLoop, h1, h3, sdsCode, hs, strlen_cstring x tail h0, strFieldLen,
      sdscatlen]
  · simp [mongoSdscatpack, sdsLoop, h2, h4, sdsCode, hS, strlen_cstring x tail h0, strFieldLen,
      ht2, sdscatlen]
  · have h := snpack_str host buf x tail off size 's' false hs h0
      (by simp only [strFieldLen]; simp; omega) hbuf hsz
    simpa [strFieldLen, ht1] using h
  · have h := snpack_str host buf x tail off size 'S' true hS h0
      (by simp only [strFieldLen]; simp; omega) hbuf hsz
    simpa [strFieldLen, ht2, Nat.add_assoc] using h

theorem C6_string_codes_witness :
    mongoSdscatpack [9] ['S'] [Arg.ptr ([104, 105] ++ 0 :: [7])] = Outcome.ret ([9] ++ [104, 105] ++ [0]) :=
  (C6_string_codes ByteOrder.little [9] [0, 0, 0, 0] [104, 105] [7] 1 4
    (by decide) (by decide) (by decide) (by decide)).2.1

/-! ## C7, C8, C9: capacity of the string cases, accepted formats, unknown codes -/

/-- C7 (evaluation at the failing input): with a 3-byte object `"AB\0"`,
capacity `size = 1` and offset 0, the `s` and `S` cases of `mongoSnunpack`
read up to the NUL at index 2 and return the offset 3, beyond `size`, while
the `m` case of the same switch and the `S` case of `mongoSnpack` fail with
-1 when asked for 3 bytes of a capacity of 1.  After the string case `remain`
has wrapped around, so a following `i` is let through and reads four more
bytes beyond `size`. -/
theorem C7_unpack_string_ignores_capacity :
    mongoSnunpack ByteOrder.little [65, 66, 0] 0 1 ['s'] [UArg.dst]
        = Outcome.ret (3, [Val.ptr 0])
    ∧ mongoSnunpack ByteOrder.little [65, 66, 0] 0 1 ['S'] [UArg.dst]
        = Outcome.ret (3, [Val.dup [65, 66, 0]])
    ∧ mongoSnunpack ByteOrder.little [65, 66, 0] 0 1 ['m'] [UArg.dst, UArg.size 3]
        = Outcome.ret (-1, [])
    ∧ mongoSnpack ByteOrder.little [0, 0, 0] 0 1 ['S'] [Arg.ptr [65, 66, 0]]
        = Outcome.ret (-1, [0, 0, 0])
    ∧ mongoSnunpack ByteOrder.little [65, 66, 0, 1, 0, 0, 0] 0 1 ['s', 'i'] [UArg.dst, UArg.dst]
        = Outcome.ret (7, [Val.ptr 0, Val.num 1]) := by
  decide

theorem selector_eq_none_iff (host : ByteOrder) (c : Char) :
    selector host c = none ↔ isSelector c = false := by
  unfold selector isSelector
  simp only [List.mem_cons, List.mem_singleton, List.not_mem_nil, or_false, decide_eq_false_iff_not]
  split_ifs with h1 h2 h3
  · simp [h1]
  · simp [h2]
  · rcases h3 with h3 | h3 <;> simp [h3]
  · simp only [not_or] at h3
    simp [h1, h2, h3.1, h3.2]

theorem packCode_abort_iff (host : ByteOrder) (c : Char) (st : PackSt) (args : List Arg) :
    packCode host c st args = Step.abort ↔ dataCode c = none := by
  unfold packCode packInt packStore
  cases dataCode c with
  | none => simp
  | some k =>
    simp only [reduceCtorEq, iff_false]
    cases k <;> simp only <;> repeat' split
    all_goals simp

theorem sdsCode_abort_iff (c : Char) (st : SdsSt) (args : List Arg) :
    sdsCode c st args = Step.abort ↔ dataCode c = none := by
  unfold sdsCode sdsInt
  cases dataCode c with
  | none => simp
  | some k =>
    simp only [reduceCtorEq, iff_false]
    cases k <;> simp only <;> repeat' split
    all_goals simp

theorem unpackCode_abort_iff (host : ByteOrder) (buf : List Nat) (c : Char) (st : UnpackSt)
    (args : List UArg) :
    unpackCode host buf c st args = Step.abort ↔ dataCode c = none := by
  unfold unpackCode unpackInt unpackAdvance
  cases dataCode c with
  | none => simp
  | some k =>
    simp only [reduceCtorEq, iff_false]
    cases k <;> simp only <;> repeat' split
    all_goals simp


theorem packLoop_itemFormat (host : ByteOrder) (fmt : List Char) :
    ∀ (b : Bool) (st : PackSt) (args : List Arg), itemFormat fmt b = true →
      packLoop host fmt b st args ≠ Step.abort := by
  induction fmt with
  | nil =>
    intro b st args h
    cases b with
    | false => simp [packLoop]
    | true => simp [itemFormat] at h
  | cons c f ih =>
    intro b st args h
    have hcode : ∀ st args, isDataCode c = true → itemFormat f false = true →
        (match packCode host c st args with
          | Step.next st' args' => packLoop host f false st' args'
          | e => e) ≠ Step.abort := by
      intro st args hd hf
      cases hp : packCode host c st args with
      | next st' args' => exact ih false st' args' hf
      | error st' => simp
      | abort =>
        rw [packCode_abort_iff] at hp
        simp [isDataCode, hp] at hd
      | undef => simp
    cases b with
    | true =>
      simp only [itemFormat, Bool.and_eq_true] at h
      simp only [packLoop]
      exact hcode st args h.1 h.2
    | false =>
      simp only [itemFormat] at h
      simp only [packLoop]
      split
      · simp
      · cases hs : selector host c with
        | some r =>
          have : isSelector c = true := by
            by_contra hn
            have := (selector_eq_none_iff host c).mpr (by simpa using hn)
            rw [this] at hs
            simp at hs
          rw [this] at h
          exact ih true _ args h
        | none =>
          have hn := (selector_eq_none_iff host c).mp hs
          rw [hn] at h
          simp only [Bool.false_eq_true, if_false, Bool.and_eq_true] at h
          exact hcode st args h.1 h.2

theorem sdsLoop_itemFormat (fmt : List Char) :
    ∀ (b : Bool) (st : SdsSt) (args : List Arg), itemFormat fmt b = true →
      sdsLoop fmt b st args ≠ Step.abort := by
  induction fmt with
  | nil =>
    intro b st args h
    cases b with
    | false => simp [sdsLoop]
    | true => simp [itemFormat] at h
  | cons c f ih =>
    intro b st args h
    have hcode : ∀ st args, isDataCode c = true → itemFormat f false = true →
        (match sdsCode c st args with
          | Step.next st' args' => sdsLoop f false st' args'
          | e => e) ≠ Step.abort := by
      intro st args hd hf
      cases hp : sdsCode c st args with
      | next st' args' => exact ih false st' args' hf
      | error st' => simp
      | abort =>
        rw [sdsCode_abort_iff] at hp
        simp [isDataCode, hp] at hd
      | undef => simp
    cases b with
    | true =>
      simp only [itemFormat, Bool.and_eq_true] at h
      simp only [sdsLoop]
      exact hcode st args h.1 h.2
    | false =>
      simp only [itemFormat] at h
      simp only [sdsLoop]
      split
      · simp
      · cases hs : sdsSelector c with
        | some r =>
          have : isSelector c = true := by
            by_contra hn
            have := (selector_eq_none_iff ByteOrder.little c).mpr (by simpa using hn)
            rw [← sdsSelector_eq_none_iff, hs] at this
            simp at this
          rw [this] at h
          exact ih true _ args h
        | none =>
          have hn := (selector_eq_none_iff ByteOrder.little c).mp
            ((sdsSelector_eq_none_iff ByteOrder.little c).mp hs)
          rw [hn] at h
          simp only [Bool.false_eq_true, if_false, Bool.and_eq_true] at h
          exact hcode st args h.1 h.2

theorem unpackLoop_itemFormat (host : ByteOrder) (buf : List Nat) (fmt : List Char) :
    ∀ (b : Bool) (st : UnpackSt) (args : List UArg), itemFormat fmt b = true →
      unpackLoop host buf fmt b st args ≠ Step.abort := by
  induction fmt with
  | nil =>
    intro b st args h
    cases b with
    | false => simp [unpackLoop]
    | true => simp [itemFormat] at h
  | cons c f ih =>
    intro b st args h
    have hcode : ∀ st args, isDataCode c = true → itemFormat f false = true →
        (match unpackCode host buf c st args with
          | Step.next st' args' => unpackLoop host buf f false st' args'
          | e => e) ≠ Step.abort := by
      intro st args hd hf
      cases hp : unpackCode host buf c st args with
      | next st' args' => exact ih false st' args' hf
      | error st' => simp
      | abort =>
        rw [unpackCode_abort_iff] at hp
        simp [isDataCode, hp] at hd
      | undef => simp
    cases b with
    | true =>
      simp only [itemFormat, Bool.and_eq_true] at h
      simp only [unpackLoop]
      exact hcode st args h.1 h.2
    | false =>
      simp only [itemFormat] at h
      simp only [unpackLoop]
      split
      · simp
      · cases hs : selector host c with
        | some r =>
          have : isSelector c = true := by
            by_contra hn
            have := (selector_eq_none_iff host c).mpr (by simpa using hn)
            rw [this] at hs
            simp at hs
          rw [this] at h
          exact ih true _ args h
        | none =>
          have hn := (selector_eq_none_iff host c).mp hs
          rw [hn] at h
          simp only [Bool.false_eq_true, if_false, Bool.and_eq_true] at h
          exact hcode st args h.1 h.2

/-- C8 (counterexample): formats made only of selectors and data codes that
abort: a selector as the last character, and a selector followed by another
selector, reach the `default: abort()` of the data switch in each function. -/
theorem C8_selector_needs_code :
    (∀ c ∈ ['<', '>', 'b'], isSelector c = true ∨ isDataCode c = true)
    ∧ mongoSnpack ByteOrder.little [0] 0 1 ['<'] [] = Outcome.abort
    ∧ mongoSdscatpack [] ['<'] [] = Outcome.abort
    ∧ mongoSnunpack ByteOrder.little [0] 0 1 ['<'] [] = Outcome.abort
    ∧ mongoSnpack ByteOrder.little [0] 0 1 ['<', '>', 'b'] [Arg.num 1] = Outcome.abort
    ∧ mongoSdscatpack [] ['<', '>', 'b'] [Arg.num 1] = Outcome.abort
    ∧ mongoSnunpack ByteOrder.little [0] 0 1 ['<', '>', 'b'] [UArg.dst] = Outcome.abort := by
  decide

/-- C8 (amended): a format that is a sequence of items, each item one data
code (`b B h H i I q Q s S m M`) optionally preceded by exactly one selector
(`= < > !`), never makes `mongoSnpack`, `mongoSdscatpack` or `mongoSnunpack`
call `abort()`, whatever the arguments, buffer, offset and capacity. -/
theorem C8_item_formats_accepted (host : ByteOrder) (fmt : List Char) (buf s : List Nat)
    (off size : Nat) (args : List Arg) (uargs : List UArg)
    (hfmt : itemFormat fmt false = true) :
    mongoSnpack host buf off size fmt args ≠ Outcome.abort
    ∧ mongoSdscatpack s fmt args ≠ Outcome.abort
    ∧ mongoSnunpack host buf off size fmt uargs ≠ Outcome.abort := by
  refine ⟨?_, ?_, ?_⟩
  · have h := packLoop_itemFormat host fmt false (packInit buf off size) args hfmt
    unfold mongoSnpack
    cases hp : packLoop host fmt false (packInit buf off size) args with
    | next st' args' => simp
    | error st' => simp
    | abort => exact absurd hp h
    | undef => simp
  · have h := sdsLoop_itemFormat fmt false { need_rev := false, s := s } args hfmt
    unfold mongoSdscatpack
    cases hp : sdsLoop fmt false { need_rev := false, s := s } args with
    | next st' args' => simp
    | error st' => simp
    | abort => exact absurd hp h
    | undef => simp
  · have h := unpackLoop_itemFormat host buf fmt false (unpackInit off size) uargs hfmt
    unfold mongoSnunpack
    cases hp : unpackLoop host buf fmt false (unpackInit off size) uargs with
    | next st' args' => simp
    | error st' => simp
    | abort => exact absurd hp h
    | undef => simp

theorem C8_item_formats_accepted_witness :
    mongoSnpack ByteOrder.little [0, 0, 0] 0 3 ['<', 'h', 'b'] [Arg.num 1, Arg.num 2]
      ≠ Outcome.abort :=
  (C8_item_formats_accepted ByteOrder.little ['<', 'h', 'b'] [0, 0, 0] [] 0 3
    [Arg.num 1, Arg.num 2] [] (by decide)).1

theorem packLoop_append (host : ByteOrder) (pre rest : List Char)
    (hnul : Char.ofNat 0 ∉ pre) :
    ∀ (b : Bool) (st : PackSt) (args : List Arg) (st' : PackSt) (args' : List Arg),
      packLoop host pre b st args = Step.next st' args' →
      packLoop host (pre ++ rest) b st args = packLoop host rest false st' args' := by
  induction pre with
  | nil =>
    intro b st args st' args' h
    cases b with
    | false =>
      simp only [packLoop, Step.next.injEq] at h
      rw [List.nil_append, h.1, h.2]
    | true => simp [packLoop] at h
  | cons c f ih =>
    intro b st args st' args' h
    have hc0 : c ≠ Char.ofNat 0 := fun hc => hnul (hc ▸ List.mem_cons_self _ _)
    have hf : Char.ofNat 0 ∉ f := fun hm => hnul (List.mem_cons_of_mem _ hm)
    have hcode : ∀ st args,
        (match packCode host c st args with
          | Step.next st1 args1 => packLoop host f false st1 args1
          | e => e) = Step.next st' args' →
        (match packCode host c st args with
          | Step.next st1 args1 => packLoop host (f ++ rest) false st1 args1
          | e => e) = packLoop host rest false st' args' := by
      intro st args h
      cases hp : packCode host c st args with
      | next st1 args1 =>
        rw [hp] at h
        exact ih hf false st1 args1 st' args' h
      | error st1 => rw [hp] at h; simp at h
      | abort => rw [hp] at h; simp at h
      | undef => rw [hp] at h; simp at h
    cases b with
    | true =>
      simp only [packLoop] at h
      simp only [List.cons_append, packLoop]
      exact hcode st args h
    | false =>
      simp only [packLoop, hc0, if_false] at h
      simp only [List.cons_append, packLoop, hc0, if_false]
      cases hs : selector host c with
      | some r =>
        rw [hs] at h
        exact ih hf true _ args st' args' h
      | none =>
        rw [hs] at h
        exact hcode st args h

theorem sdsLoop_append (pre rest : List Char)
    (hnul : Char.ofNat 0 ∉ pre) :
    ∀ (b : Bool) (st : SdsSt) (args : List Arg) (st' : SdsSt) (args' : List Arg),
      sdsLoop pre b st args = Step.next st' args' →
      sdsLoop (pre ++ rest) b st args = sdsLoop rest false st' args' := by
  induction pre with
  | nil =>
    intro b st args st' args' h
    cases b with
    | false =>
      simp only [sdsLoop, Step.next.injEq] at h
      rw [List.nil_append, h.1, h.2]
    | true => simp [sdsLoop] at h
  | cons c f ih =>
    intro b st args st' args' h
    have hc0 : c ≠ Char.ofNat 0 := fun hc => hnul (hc ▸ List.mem_cons_self _ _)
    have hf : Char.ofNat 0 ∉ f := fun hm => hnul (List.mem_cons_of_mem _ hm)
    have hcode : ∀ st args,
        (match sdsCode c st args with
          | Step.next st1 args1 => sdsLoop f false st1 args1
          | e => e) = Step.next st' args' →
        (match sdsCode c st args with
          | Step.next st1 args1 => sdsLoop (f ++ rest) false st1 args1
          | e => e) = sdsLoop rest false st' args' := by
      intro st args h
      cases hp : sdsCode c st args with
      | next st1 args1 =>
        rw [hp] at h
        exact ih hf false st1 args1 st' args' h
      | error st1 => rw [hp] at h; simp at h
      | abort => rw [hp] at h; simp at h
      | undef => rw [hp] at h; simp at h
    cases b with
    | true =>
      simp only [sdsLoop] at h
      simp only [List.cons_append, sdsLoop]
      exact hcode st args h
    | false =>
      simp only [sdsLoop, hc0, if_false] at h
      simp only [List.cons_append, sdsLoop, hc0, if_false]
      cases hs : sdsSelector c with
      | some r =>
        rw [hs] at h
        exact ih hf true _ args st' args' h
      | none =>
        rw [hs] at h
        exact hcode st args h

theorem unpackLoop_append (host : ByteOrder) (buf : List Nat) (pre rest : List Char)
    (hnul : Char.ofNat 0 ∉ pre) :
    ∀ (b : Bool) (st : UnpackSt) (args : List UArg) (st' : UnpackSt) (args' : List UArg),
      unpackLoop host buf pre b st args = Step.next st' args' →
      unpackLoop host buf (pre ++ rest) b st args = unpackLoop host buf rest false st' args' := by
  induction pre with
  | nil =>
    intro b st args st' args' h
    cases b with
    | false =>
      simp only [unpackLoop, Step.next.injEq] at h
      rw [List.nil_append, h.1, h.2]
    | true => simp [unpackLoop] at h
  | cons c f ih =>
    intro b st args st' args' h
    have hc0 : c ≠ Char.ofNat 0 := fun hc => hnul (hc ▸ List.mem_cons_self _ _)
    have hf : Char.ofNat 0 ∉ f := fun hm => hnul (List.mem_cons_of_mem _ hm)
    have hcode : ∀ st args,
        (match unpackCode host buf c st args with
          | Step.next st1 args1 => unpackLoop host buf f false st1 args1
          | e => e) = Step.next st' args' →
        (match unpackCode host buf c st args with
          | Step.next st1 args1 => unpackLoop host buf (f ++ rest) false st1 args1
          | e => e) = unpackLoop host buf rest false st' args' := by
      intro st args h
      cases hp : unpackCode host buf c st args with
      | next st1 args1 =>
        rw [hp] at h
        exact ih hf false st1 args1 st' args' h
      | error st1 => rw [hp] at h; simp at h
      | abort => rw [hp] at h; simp at h
      | undef => rw [hp] at h; simp at h
    cases b with
    | true =>
      simp only [unpackLoop] at h
      simp only [List.cons_append, unpackLoop]
      exact hcode st args h
    | false =>
      simp only [unpackLoop, hc0, if_false] at h
      simp only [List.cons_append, unpackLoop, hc0, if_false]
      cases hs : selector host c with
      | some r =>
        rw [hs] at h
        exact ih hf true _ args st' args' h
      | none =>
        rw [hs] at h
        exact hcode st args h

/-- C9: a character that is not a data code, met where a data code is due,
makes each of the three functions call `abort()`.  If the loop over the
prefix `pre` of the format runs to its end (no directive of `pre` fails the
capacity check or the argument fetch), then the format `pre ++ c :: post`
aborts when `c` is neither a data code, nor a selector, nor the terminator,
and the format `pre ++ e :: c :: post` aborts when `e` is a selector and `c`
is not a data code. -/
theorem C9_unknown_code_aborts (host : ByteOrder) (pre post : List Char) (c e : Char)
    (buf s : List Nat) (off size : Nat) (args : List Arg) (uargs : List UArg)
    (hnul : Char.ofNat 0 ∉ pre) (hc : isDataCode c = false) (he : isSelector e = true) :
    ((∃ st a, packLoop host pre false (packInit buf off size) args = Step.next st a) →
      (isSelector c = false → c ≠ Char.ofNat 0 →
        mongoSnpack host buf off size (pre ++ c :: post) args = Outcome.abort)
      ∧ mongoSnpack host buf off size (pre ++ e :: c :: post) args = Outcome.abort)
    ∧ ((∃ st a, sdsLoop pre false { need_rev := false, s := s } args = Step.next st a) →
      (isSelector c = false → c ≠ Char.ofNat 0 →
        mongoSdscatpack s (pre ++ c :: post) args = Outcome.abort)
      ∧ mongoSdscatpack s (pre ++ e :: c :: post) args = Outcome.abort)
    ∧ ((∃ st a, unpackLoop host buf pre false (unpackInit off size) uargs = Step.next st a) →
      (isSelector c = false → c ≠ Char.ofNat 0 →
        mongoSnunpack host buf off size (pre ++ c :: post) uargs = Outcome.abort)
      ∧ mongoSnunpack host buf off size (pre ++ e :: c :: post) uargs = Outcome.abort) := by
  have hcode : dataCode c = none := by
    simpa [isDataCode] using hc
  obtain ⟨r, hr⟩ := selector_isSome host e he
  obtain ⟨r', hr'⟩ := sdsSelector_isSome e he
  have he0 := selector_ne_nul host e r hr
  refine ⟨?_, ?_, ?_⟩
  · rintro ⟨st, a, hpre⟩
    refine ⟨?_, ?_⟩
    · intro hsel hc0
      have hs := (selector_eq_none_iff host c).mpr hsel
      unfold mongoSnpack
      rw [packLoop_append host pre (c :: post) hnul false _ args st a hpre]
      simp [packLoop, hc0, hs, (packCode_abort_iff host c st a).mpr hcode]
    · unfold mongoSnpack
      rw [packLoop_append host pre (e :: c :: post) hnul false _ args st a hpre]
      simp [packLoop, he0, hr, (packCode_abort_iff host c _ a).mpr hcode]
  · rintro ⟨st, a, hpre⟩
    refine ⟨?_, ?_⟩
    · intro hsel hc0
      have hs := (sdsSelector_eq_none_iff host c).mpr ((selector_eq_none_iff host c).mpr hsel)
      unfold mongoSdscatpack
      rw [sdsLoop_append pre (c :: post) hnul false _ args st a hpre]
      simp [sdsLoop, hc0, hs, (sdsCode_abort_iff c st a).mpr hcode]
    · unfold mongoSdscatpack
      rw [sdsLoop_append pre (e :: c :: post) hnul false _ args st a hpre]
      simp [sdsLoop, he0, hr', (sdsCode_abort_iff c _ a).mpr hcode]
  · rintro ⟨st, a, hpre⟩
    refine ⟨?_, ?_⟩
    · intro hsel hc0
      have hs := (selector_eq_none_iff host c).mpr hsel
      unfold mongoSnunpack
      rw [unpackLoop_append host buf pre (c :: post) hnul false _ uargs st a hpre]
      simp [unpackLoop, hc0, hs, (unpackCode_abort_iff host buf c st a).mpr hcode]
    · unfold mongoSnunpack
      rw [unpackLoop_append host buf pre (e :: c :: post) hnul false _ uargs st a hpre]
      simp [unpackLoop, he0, hr, (unpackCode_abort_iff host buf c _ a).mpr hcode]

theorem C9_unknown_code_aborts_witness :
    mongoSnpack ByteOrder.little [0, 0] 0 2 (['b'] ++ 'x' :: ['b']) [Arg.num 1, Arg.num 2]
      = Outcome.abort :=
  ((C9_unknown_code_aborts ByteOrder.little ['b'] ['b'] 'x' '<' [0, 0] [] 0 2
    [Arg.num 1, Arg.num 2] [] (by decide) (by decide) (by decide)).1
      ⟨_, _, rfl⟩).1 (by decide) (by decide)

/-! ## C2: the value returned by `mongoSnpack` -/

theorem strlen_lt (mem : List Nat) (n : Nat) (h : strlen mem = some n) : n < mem.length := by
  induction mem generalizing n with
  | nil => simp [strlen] at h
  | cons b bs ih =>
    simp only [strlen] at h
    split at h
    · simp only [Option.some.injEq] at h
      subst h
      simp
    · cases hs : strlen bs with
      | none => simp [hs] at h
      | some m =>
        simp only [hs, Option.map_some', Option.some.injEq] at h
        subst h
        have := ih m hs
        simp only [List.length_cons]
        omega

theorem strFieldLen_le (upper : Bool) (n : Nat) : strFieldLen upper n ≤ n + 1 := by
  unfold strFieldLen
  split <;> omega

theorem fieldBytes_of_width (host : ByteOrder) (nr : Bool) (k : Code) (args a : List Arg)
    (w : Nat) (h : fieldWidth k args = some (w, a)) :
    ∃ bs, fieldBytes host nr k args = some (bs, a) ∧ bs.length = w := by
  cases k with
  | byte =>
    cases args with
    | nil => simp [fieldWidth] at h
    | cons x xs =>
      cases x <;> simp [fieldWidth] at h
      simp [fieldBytes, h]
  | int w' =>
    cases args with
    | nil => simp [fieldWidth] at h
    | cons x xs =>
      cases x <;> simp [fieldWidth] at h
      simp [fieldBytes, h, objBytes_length]
  | str upper =>
    cases args with
    | nil => simp [fieldWidth] at h
    | cons x xs =>
      cases x <;> simp [fieldWidth] at h
      rename_i mem
      obtain ⟨n, hn, rfl, rfl⟩ := h
      have := strlen_lt mem n hn
      have := strFieldLen_le upper n
      refine ⟨List.take (strFieldLen upper n) mem, by simp [fieldBytes, hn], ?_⟩
      rw [List.length_take]
      omega
  | mem upper =>
    cases args with
    | nil => simp [fieldWidth] at h
    | cons x xs =>
      cases x with
      | num v => simp [fieldWidth] at h
      | size v => simp [fieldWidth] at h
      | ptr mem =>
        cases xs with
        | nil => simp [fieldWidth] at h
        | cons y ys =>
          cases y with
          | num v => simp [fieldWidth] at h
          | ptr v => simp [fieldWidth] at h
          | size n =>
            simp only [fieldWidth] at h
            split at h
            · rename_i hn
              simp only [Option.some.injEq, Prod.mk.injEq] at h
              obtain ⟨rfl, rfl⟩ := h
              refine ⟨List.take n mem, by simp [fieldBytes, hn], ?_⟩
              rw [List.length_take]
              omega
            · simp at h

/-- One pass through the data switch of `mongoSnpack` when the arguments
match the code: `goto error` when the field does not fit in `remain`, else
the bytes of the field are stored at `ptr`. -/
theorem packCode_field (host : ByteOrder) (c : Char) (k : Code) (st : PackSt)
    (args a : List Arg) (bs : List Nat)
    (hk : dataCode c = some k) (hb : fieldBytes host st.need_rev k args = some (bs, a))
    (hrem : st.remain < SIZE_MOD) (hbuf : st.pos + st.remain ≤ st.buf.length) :
    packCode host c st args =
      if st.remain < bs.length then Step.error st
      else Step.next { need_rev := st.need_rev, pos := st.pos + bs.length,
                       remain := st.remain - bs.length,
                       buf := st.buf.take st.pos ++ bs ++ st.buf.drop (st.pos + bs.length) } a := by
  unfold packCode
  rw [hk]
  by_cases hlt : st.remain < bs.length
  · rw [if_pos hlt]
    cases k with
    | byte =>
      cases args with
      | nil => simp [fieldBytes] at hb
      | cons x xs =>
        cases x <;> simp [fieldBytes] at hb
        obtain ⟨rfl, rfl⟩ := hb
        simp only [List.length_singleton] at hlt
        simp [hlt]
    | int w =>
      cases args with
      | nil => simp [fieldBytes] at hb
      | cons x xs =>
        cases x <;> simp [fieldBytes] at hb
        obtain ⟨rfl, rfl⟩ := hb
        rw [objBytes_length] at hlt
        simp [packInt, hlt]
    | str upper =>
      cases args with
      | nil => simp [fieldBytes] at hb
      | cons x xs =>
        cases x <;> simp [fieldBytes] at hb
        rename_i mem
        obtain ⟨n, hn, rfl, rfl⟩ := hb
        have := strlen_lt mem n hn
        have := strFieldLen_le upper n
        rw [List.length_take] at hlt
        have hlt' : st.remain < strFieldLen upper n := by omega
        simp [hn, hlt']
    | mem upper =>
      cases args with
      | nil => simp [fieldBytes] at hb
      | cons x xs =>
        cases x with
        | num v => simp [fieldBytes] at hb
        | size v => simp [fieldBytes] at hb
        | ptr mem =>
          cases xs with
          | nil => simp [fieldBytes] at hb
          | cons y ys =>
            cases y with
            | num v => simp [fieldBytes] at hb
            | ptr v => simp [fieldBytes] at hb
            | size n =>
              simp only [fieldBytes] at hb
              split at hb
              · rename_i hn
                simp only [Option.some.injEq, Prod.mk.injEq] at hb
                obtain ⟨rfl, rfl⟩ := hb
                rw [List.length_take] at hlt
                have hlt' : st.remain < n := by omega
                simp [hlt']
              · simp at hb
  · rw [if_neg hlt]
    have hs : sizeSub st.remain bs.length = st.remain - bs.length :=
      sizeSub_of_le _ _ hrem (by omega)
    have hw : st.pos + bs.length ≤ st.buf.length := by omega
    have hstore : packStore st bs a = Step.next
        { need_rev := st.need_rev, pos := st.pos + bs.length, remain := st.remain - bs.length,
          buf := st.buf.take st.pos ++ bs ++ st.buf.drop (st.pos + bs.length) } a := by
      simp [packStore, memWrite, hw, hs]
    cases k with
    | byte =>
      cases args with
      | nil => simp [fieldBytes] at hb
      | cons x xs =>
        cases x <;> simp [fieldBytes] at hb
        obtain ⟨rfl, rfl⟩ := hb
        simp only [List.length_singleton] at hlt
        simp only [hlt, if_false]
        exact hstore
    | int w =>
      cases args with
      | nil => simp [fieldBytes] at hb
      | cons x xs =>
        cases x <;> simp [fieldBytes] at hb
        obtain ⟨rfl, rfl⟩ := hb
        have hlt2 := hlt
        rw [objBytes_length] at hlt2
        simp only [packInt, hlt2, if_false]
        exact hstore
    | str upper =>
      cases args with
      | nil => simp [fieldBytes] at hb
      | cons x xs =>
        cases x <;> simp [fieldBytes] at hb
        rename_i mem
        obtain ⟨n, hn, rfl, rfl⟩ := hb
        have := strlen_lt mem n hn
        have := strFieldLen_le upper n
        have hlt2 := hlt
        rw [List.length_take] at hlt2
        have hlt' : ¬ st.remain < strFieldLen upper n := by omega
        simp only [hn, hlt', if_false]
        exact hstore
    | mem upper =>
      cases args with
      | nil => simp [fieldBytes] at hb
      | cons x xs =>
        cases x with
        | num v => simp [fieldBytes] at hb
        | size v => simp [fieldBytes] at hb
        | ptr mem =>
          cases xs with
          | nil => simp [fieldBytes] at hb
          | cons y ys =>
            cases y with
            | num v => simp [fieldBytes] at hb
            | ptr v => simp [fieldBytes] at hb
            | size n =>
              simp only [fieldBytes] at hb
              split at hb
              · rename_i hn
                simp only [Option.some.injEq, Prod.mk.injEq] at hb
                obtain ⟨rfl, rfl⟩ := hb
                have hlt2 := hlt
                rw [List.length_take] at hlt2
                have hlt' : ¬ st.remain < n := by omega
                simp only [hlt', if_false]
                by_cases h0 : n = 0
                · subst h0
                  simp
                · simp only [h0, if_false, hn, if_true]
                  exact hstore
              · simp at hb

theorem isSelector_ne_nul (c : Char) (h : isSelector c = true) : c ≠ Char.ofNat 0 := by
  rintro rfl
  revert h
  decide

theorem packLoop_width (host : ByteOrder) (fmt : List Char) :
    ∀ (b : Bool) (st : PackSt) (args : List Arg) (W : Nat),
      fmtWidth fmt b args = some W → st.remain < SIZE_MOD →
      st.pos + st.remain ≤ st.buf.length →
      (W ≤ st.remain → ∃ st' a', packLoop host fmt b st args = Step.next st' a'
          ∧ st'.remain = st.remain - W)
      ∧ (st.remain < W → ∃ st', packLoop host fmt b st args = Step.error st') := by
  induction fmt with
  | nil =>
    intro b st args W hW hrem hbuf
    cases b with
    | true => simp [fmtWidth] at hW
    | false =>
      simp only [fmtWidth, Option.some.injEq] at hW
      subst hW
      exact ⟨fun _ => ⟨st, args, rfl, rfl⟩, fun h => absurd h (Nat.not_lt_zero _)⟩
  | cons c f ih =>
    intro b st args W hW hrem hbuf
    have hcode : ∀ (st : PackSt), st.remain < SIZE_MOD → st.pos + st.remain ≤ st.buf.length →
        (match dataCode c with
          | some k =>
            match fieldWidth k args with
            | some (w, args') => (fmtWidth f false args').map (w + ·)
            | none => none
          | none => none) = some W →
        (W ≤ st.remain → ∃ st' a',
          (match packCode host c st args with
            | Step.next st1 args1 => packLoop host f false st1 args1
            | e => e) = Step.next st' a' ∧ st'.remain = st.remain - W)
        ∧ (st.remain < W → ∃ st',
          (match packCode host c st args with
            | Step.next st1 args1 => packLoop host f false st1 args1
            | e => e) = Step.error st') := by
      intro st hrem hbuf hW
      cases hk : dataCode c with
      | none => simp [hk] at hW
      | some k =>
        rw [hk] at hW
        simp only at hW
        cases hf : fieldWidth k args with
        | none => simp [hf] at hW
        | some p =>
          obtain ⟨w, args'⟩ := p
          rw [hf] at hW
          simp only at hW
          cases hW' : fmtWidth f false args' with
          | none => simp [hW'] at hW
          | some W' =>
            simp only [hW', Option.map_some', Option.some.injEq] at hW
            subst hW
            obtain ⟨bs, hbs, hlen⟩ := fieldBytes_of_width host st.need_rev k args args' w hf
            rw [packCode_field host c k st args args' bs hk hbs hrem hbuf, hlen]
            by_cases hlt : st.remain < w
            · rw [if_pos hlt]
              exact ⟨fun h => absurd h (by omega), fun _ => ⟨st, rfl⟩⟩
            · rw [if_neg hlt]
              simp only
              have hl := splice_length st.buf bs st.pos (by omega)
              rw [hlen] at hl
              obtain ⟨ih1, ih2⟩ := ih false
                { need_rev := st.need_rev, pos := st.pos + w, remain := st.remain - w,
                  buf := st.buf.take st.pos ++ bs ++ st.buf.drop (st.pos + w) } args' W' hW'
                (by simp only; omega) (by simp only [hl]; omega)
              refine ⟨fun h => ?_, fun h => ?_⟩
              · obtain ⟨st', a', h1, h2⟩ := ih1 (by simp only; omega)
                exact ⟨st', a', h1, by rw [h2]; simp only; omega⟩
              · exact ih2 (by simp only; omega)
    cases b with
    | true =>
      simp only [fmtWidth] at hW
      simp only [packLoop]
      exact hcode st hrem hbuf hW
    | false =>
      simp only [fmtWidth] at hW
      simp only [packLoop]
      by_cases hs : isSelector c = true
      · rw [if_pos hs] at hW
        obtain ⟨r, hr⟩ := selector_isSome host c hs
        rw [if_neg (isSelector_ne_nul c hs), hr]
        exact ih true { st with need_rev := r } args W hW hrem hbuf
      · rw [if_neg hs] at hW
        have hn := (selector_eq_none_iff host c).mpr (by simpa using hs)
        have hc0 : c ≠ Char.ofNat 0 := by
          rintro rfl
          simp [dataCode] at hW
        rw [if_neg hc0, hn]
        exact hcode st hrem hbuf hW

theorem toInt32_of_lt (n : Nat) (h : n < 2 ^ 31) : toInt32 n = (n : Int) := by
  unfold toInt32
  have h1 : n % 2 ^ 32 = n := Nat.mod_eq_of_lt (by omega)
  rw [h1, if_pos h]

/-- C2 (counterexample): with an offset beyond the capacity the subtraction
`size - offset` wraps around, and `mongoSnpack` returns a new offset although
offset plus the widths exceeds `size`; with a capacity above `INT_MAX` the
conversion of the new offset to `int` can give -1 although nothing exceeds
the capacity; and a format that ends in a selector does not return at all. -/
theorem C2_offset_beyond_size :
    fmtWidth [] false [] = some 0
    ∧ mongoSnpack ByteOrder.little [0] 2 1 [] [] = Outcome.ret (2, [0])
    ∧ fmtWidth ['b'] false [Arg.num 7] = some 1
    ∧ mongoSnpack ByteOrder.little [0, 0, 0] 2 1 ['b'] [Arg.num 7] = Outcome.ret (3, [0, 0, 7])
    ∧ mongoSnpack ByteOrder.little [] (2 ^ 32 - 1) (2 ^ 32 - 1) [] [] = Outcome.ret (-1, [])
    ∧ mongoSnpack ByteOrder.little [0] 0 1 ['<'] [] = Outcome.abort := by
  decide

/-- C2 (amended): for a capacity `size ≤ INT_MAX` of a buffer that really has
`size` bytes, an offset `off ≤ size`, and a format that is a sequence of items
with matching arguments whose data directives have widths summing to `W`,
`mongoSnpack` returns; it returns -1 if and only if `off + W` exceeds
`size`, and otherwise it returns `off + W`. -/
theorem C2_snpack_return_value (host : ByteOrder) (buf : List Nat) (off size : Nat)
    (fmt : List Char) (args : List Arg) (W : Nat)
    (hW : fmtWidth fmt false args = some W) (hoff : off ≤ size) (hbuf : size ≤ buf.length)
    (hsz : size < 2 ^ 31) :
    ∃ r buf', mongoSnpack host buf off size fmt args = Outcome.ret (r, buf')
      ∧ (r = -1 ↔ size < off + W) ∧ (off + W ≤ size → r = ((off + W : Nat) : Int)) := by
  have hsz' : size < SIZE_MOD := by unfold SIZE_MOD; omega
  have hrem : sizeSub size off = size - off := sizeSub_of_le _ _ hsz' hoff
  have hinit := packLoop_width host fmt false (packInit buf off size) args W hW
    (by simp only [packInit, hrem]; omega) (by simp only [packInit, hrem]; omega)
  simp only [packInit, hrem] at hinit
  by_cases hfit : off + W ≤ size
  · have hle : W ≤ size - off := by clear hinit; omega
    have hsub : size - (size - off - W) = off + W := by clear hinit; omega
    have hlt31 : off + W < 2 ^ 31 := by clear hinit; omega
    have hle2 : size - off - W ≤ size := by clear hinit; omega
    obtain ⟨st', a', hp, hr⟩ := hinit.1 hle
    have hret : toInt32 (sizeSub size st'.remain) = ((off + W : Nat) : Int) := by
      rw [hr, sizeSub_of_le size _ hsz' hle2, hsub, toInt32_of_lt _ hlt31]
    refine ⟨((off + W : Nat) : Int), st'.buf, ?_, ?_, ?_⟩
    · unfold mongoSnpack
      simp only [packInit, hrem, hp, hret]
    · constructor
      · intro h
        have : (0 : Int) ≤ ((off + W : Nat) : Int) := Int.ofNat_nonneg _
        rw [h] at this
        exact absurd this (by decide)
      · intro h
        exact absurd hfit (Nat.not_le.mpr h)
    · intro _; rfl
  · have hlt : size - off < W := by clear hinit; omega
    obtain ⟨st', hp⟩ := hinit.2 hlt
    refine ⟨-1, st'.buf, ?_, ?_, ?_⟩
    · unfold mongoSnpack
      simp only [packInit, hrem, hp]
    · constructor
      · intro _
        exact Nat.lt_of_not_le hfit
      · intro _; rfl
    · intro h; exact absurd h hfit

theorem C2_snpack_return_value_witness :
    ∃ r buf', mongoSnpack ByteOrder.little [0, 0, 0, 0] 1 4 ['<', 'h', 'b'] [Arg.num 5, Arg.num 6]
        = Outcome.ret (r, buf')
      ∧ (r = -1 ↔ 4 < 1 + 3) ∧ (1 + 3 ≤ 4 → r = ((1 + 3 : Nat) : Int)) :=
  C2_snpack_return_value ByteOrder.little [0, 0, 0, 0] 1 4 ['<', 'h', 'b']
    [Arg.num 5, Arg.num 6] 3 (by decide) (by decide) (by decide) (by decide)

/-! ## C1: round trip -/

theorem objValue_singleton (host : ByteOrder) (x : Nat) : objValue host [x % 256] = x % 256 := by
  cases host <;> simp [objValue, ofLeBytes]

theorem intrev_mod_lt (w x : Nat) (nr : Bool) :
    (if nr then intrev w (x % 256 ^ w) else x % 256 ^ w) < 256 ^ w := by
  split
  · exact intrev_lt _ _
  · exact Nat.mod_lt _ (by positivity)

/-- One pass through the data switch of `mongoSnunpack` over the bytes that
the packer emitted for the same code (a numeric code or `m`/`M`). -/
theorem unpackCode_field (host : ByteOrder) (B : List Nat) (c : Char) (k : Code)
    (ust : UnpackSt) (args a : List Arg) (bs : List Nat)
    (hk : dataCode c = some k) (hstr : ∀ u, k ≠ Code.str u)
    (hb : fieldBytes host ust.need_rev k args = some (bs, a))
    (hB : (B.drop ust.pos).take bs.length = bs) (hlen : ust.pos + bs.length ≤ B.length)
    (hfit : bs.length ≤ ust.remain) (hrem : ust.remain < SIZE_MOD) :
    ∃ v, unpackCode host B c ust (unpackArgs args)
        = Step.next { need_rev := ust.need_rev, pos := ust.pos + bs.length,
                      remain := ust.remain - bs.length, out := ust.out ++ [v] } (unpackArgs a)
      ∧ ∀ ks vs, Recovered B ks a vs → Recovered B (k :: ks) args (v :: vs) := by
  have hs : sizeSub ust.remain bs.length = ust.remain - bs.length :=
    sizeSub_of_le _ _ hrem hfit
  have hlt : ¬ ust.remain < bs.length := by omega
  have hread : memRead B ust.pos bs.length = some bs := by
    simp [memRead, hlen, hB]
  unfold unpackCode
  rw [hk]
  cases k with
  | byte =>
    cases args with
    | nil => simp [fieldBytes] at hb
    | cons x xs =>
      cases x <;> simp [fieldBytes] at hb
      rename_i x
      obtain ⟨rfl, rfl⟩ := hb
      simp only [List.length_singleton] at hs hlt hread
      refine ⟨Val.num (x % 256), ?_, ?_⟩
      · simp [unpackArgs, hlt, hread, unpackAdvance, hs, objValue_singleton]
      · intro ks vs h
        exact ⟨rfl, h⟩
  | int w =>
    cases args with
    | nil => simp [fieldBytes] at hb
    | cons x xs =>
      cases x <;> simp [fieldBytes] at hb
      rename_i x
      obtain ⟨rfl, rfl⟩ := hb
      rw [objBytes_length] at hs hlt hread
      refine ⟨Val.num (x % 256 ^ w), ?_, ?_⟩
      · have hval : (if ust.need_rev = true then
            intrev w (objValue host (objBytes host w
              (if ust.need_rev = true then intrev w (x % 256 ^ w) else x % 256 ^ w)))
            else objValue host (objBytes host w
              (if ust.need_rev = true then intrev w (x % 256 ^ w) else x % 256 ^ w)))
            = x % 256 ^ w := by
          rw [objValue_objBytes]
          cases ust.need_rev
          · simp
          · simp only [if_true]
            rw [Nat.mod_eq_of_lt (intrev_lt _ _), intrev_intrev, Nat.mod_mod]
        simp only [unpackArgs, unpackInt, hlt, if_false, hread, unpackAdvance, hs, hval,
          objBytes_length]
      · intro ks vs h
        exact ⟨rfl, h⟩
  | str u => exact absurd rfl (hstr u)
  | mem upper =>
    cases args with
    | nil => simp [fieldBytes] at hb
    | cons x xs =>
      cases x with
      | num v => simp [fieldBytes] at hb
      | size v => simp [fieldBytes] at hb
      | ptr mem =>
        cases xs with
        | nil => simp [fieldBytes] at hb
        | cons y ys =>
          cases y with
          | num v => simp [fieldBytes] at hb
          | ptr v => simp [fieldBytes] at hb
          | size n =>
            simp only [fieldBytes] at hb
            split at hb
            · rename_i hn
              simp only [Option.some.injEq, Prod.mk.injEq] at hb
              obtain ⟨rfl, rfl⟩ := hb
              have hl : (List.take n mem).length = n := by
                rw [List.length_take]; omega
              rw [hl] at hs hlt hread hB
              by_cases h0 : n = 0
              · subst h0
                refine ⟨Val.untouched, ?_, ?_⟩
                · simp [unpackArgs]
                · intro ks vs h
                  exact ⟨by simp [valBytes], h⟩
              · cases upper with
                | true =>
                  refine ⟨Val.dup (List.take n mem), ?_, ?_⟩
                  · simp [unpackArgs, hlt, h0, hread, unpackAdvance, hs, hl]
                  · intro ks vs h
                    exact ⟨by simp [valBytes], h⟩
                | false =>
                  refine ⟨Val.ptr ust.pos, ?_, ?_⟩
                  · simp [unpackArgs, hlt, h0, unpackAdvance, hs, hl]
                  · intro ks vs h
                    exact ⟨by simp only [valBytes]; exact hB, h⟩
            · simp at hb

theorem take_splice (buf bs : List Nat) (pos : Nat) (h : pos + bs.length ≤ buf.length) :
    (List.take pos buf ++ bs ++ List.drop (pos + bs.length) buf).take pos = buf.take pos
    ∧ (List.take pos buf ++ bs ++ List.drop (pos + bs.length) buf).take (pos + bs.length)
        = buf.take pos ++ bs := by
  have hl : (List.take pos buf).length = pos := by simp; omega
  constructor
  · rw [List.append_assoc]
    have := List.take_left (List.take pos buf) (bs ++ List.drop (pos + bs.length) buf)
    rwa [hl] at this
  · have := List.take_left (List.take pos buf ++ bs) (List.drop (pos + bs.length) buf)
    rwa [List.length_append, hl] at this

theorem drop_take_of_take_eq (B pre bs : List Nat) (pos : Nat) (hpre : pre.length = pos)
    (h : B.take (pos + bs.length) = pre ++ bs) : (B.drop pos).take bs.length = bs := by
  have h1 : (B.drop pos).take bs.length = (B.take (pos + bs.length)).drop pos := by
    rw [List.take_drop]
  rw [h1, h, ← hpre, List.drop_left]

theorem take_of_take_eq (B C : List Nat) (m n : Nat) (hmn : m ≤ n)
    (h : B.take n = C.take n) : B.take m = C.take m := by
  have h1 : B.take m = (B.take n).take m := by rw [List.take_take, Nat.min_eq_left hmn]
  have h2 : C.take m = (C.take n).take m := by rw [List.take_take, Nat.min_eq_left hmn]
  rw [h1, h2, h]

theorem dataCode_str_cases (c : Char) (u : Bool) (h : dataCode c = some (Code.str u)) :
    c = 's' ∨ c = 'S' := by
  unfold dataCode at h
  split_ifs at h with h1 h2 h3 h4 h5 h6 h7 h8
  all_goals first
    | exact Or.inl h5
    | exact Or.inr h6
    | simp at h

theorem roundtrip_loop (host : ByteOrder) (fmt : List Char) :
    ∀ (b : Bool) (pst : PackSt) (args : List Arg) (W : Nat),
      fmtWidth fmt b args = some W → (∀ c ∈ fmt, c ≠ 's' ∧ c ≠ 'S') →
      W ≤ pst.remain → pst.remain < SIZE_MOD → pst.pos + pst.remain ≤ pst.buf.length →
      ∃ pst' a', packLoop host fmt b pst args = Step.next pst' a'
        ∧ pst'.buf.length = pst.buf.length ∧ pst'.buf.take pst.pos = pst.buf.take pst.pos
        ∧ pst'.remain = pst.remain - W
        ∧ ∀ ust : UnpackSt, ust.need_rev = pst.need_rev → ust.pos = pst.pos →
            ust.remain = pst.remain →
            ∃ ust' ua' vals, unpackLoop host pst'.buf fmt b ust (unpackArgs args)
                = Step.next ust' ua'
              ∧ ust'.remain = pst'.remain ∧ ust'.out = ust.out ++ vals
              ∧ Recovered pst'.buf (fmt.filterMap dataCode) args vals := by
  induction fmt with
  | nil =>
    intro b pst args W hW _ _ _ _
    cases b with
    | true => simp [fmtWidth] at hW
    | false =>
      simp only [fmtWidth, Option.some.injEq] at hW
      subst hW
      refine ⟨pst, args, rfl, rfl, rfl, rfl, ?_⟩
      intro ust _ _ hr
      exact ⟨ust, unpackArgs args, [], rfl, hr, by simp, by simp [Recovered]⟩
  | cons c f ih =>
    intro b pst args W hW hrt hfit hrem hbuf
    have hrt' : ∀ x ∈ f, x ≠ 's' ∧ x ≠ 'S' := fun x hx => hrt x (List.mem_cons_of_mem _ hx)
    have hcode : ∀ (pst : PackSt), W ≤ pst.remain → pst.remain < SIZE_MOD →
        pst.pos + pst.remain ≤ pst.buf.length →
        (match dataCode c with
          | some k =>
            match fieldWidth k args with
            | some (w, args') => (fmtWidth f false args').map (w + ·)
            | none => none
          | none => none) = some W →
        ∃ pst' a',
          (match packCode host c pst args with
            | Step.next st1 args1 => packLoop host f false st1 args1
            | e => e) = Step.next pst' a'
          ∧ pst'.buf.length = pst.buf.length ∧ pst'.buf.take pst.pos = pst.buf.take pst.pos
          ∧ pst'.remain = pst.remain - W
          ∧ ∀ ust : UnpackSt, ust.need_rev = pst.need_rev → ust.pos = pst.pos →
              ust.remain = pst.remain →
              ∃ ust' ua' vals,
                (match unpackCode host pst'.buf c ust (unpackArgs args) with
                  | Step.next st1 args1 => unpackLoop host pst'.buf f false st1 args1
                  | e => e) = Step.next ust' ua'
                ∧ ust'.remain = pst'.remain ∧ ust'.out = ust.out ++ vals
                ∧ Recovered pst'.buf ((c :: f).filterMap dataCode) args vals := by
      intro pst hfit hrem hbuf hW
      cases hk : dataCode c with
      | none => simp [hk] at hW
      | some k =>
        rw [hk] at hW
        simp only at hW
        cases hf : fieldWidth k args with
        | none => simp [hf] at hW
        | some p =>
          obtain ⟨w, args'⟩ := p
          rw [hf] at hW
          simp only at hW
          cases hW' : fmtWidth f false args' with
          | none => simp [hW'] at hW
          | some W' =>
            simp only [hW', Option.map_some', Option.some.injEq] at hW
            subst hW
            have hstr : ∀ u, k ≠ Code.str u := by
              rintro u rfl
              have hc := hrt c (List.mem_cons_self _ _)
              rcases dataCode_str_cases c u hk with h | h
              · exact hc.1 h
              · exact hc.2 h
            obtain ⟨bs, hbs, hlen⟩ := fieldBytes_of_width host pst.need_rev k args args' w hf
            have hwle : w ≤ pst.remain := by omega
            have hnlt : ¬ pst.remain < bs.length := by omega
            have hl := splice_length pst.buf bs pst.pos (by omega)
            obtain ⟨ht1, ht2⟩ := take_splice pst.buf bs pst.pos (by omega)
            rw [packCode_field host c k pst args args' bs hk hbs hrem hbuf, if_neg hnlt]
            simp only
            obtain ⟨pst', a', hp, hpl, hpt, hpr, hun⟩ := ih false
              { need_rev := pst.need_rev, pos := pst.pos + bs.length,
                remain := pst.remain - bs.length,
                buf := pst.buf.take pst.pos ++ bs ++ pst.buf.drop (pst.pos + bs.length) }
              args' W' hW' hrt' (by simp only; omega) (by simp only; omega)
              (by simp only [hl]; omega)
            simp only at hp hpl hpt hpr hun
            refine ⟨pst', a', hp, hpl.trans hl, ?_, by rw [hpr]; omega, ?_⟩
            · rw [take_of_take_eq _ _ pst.pos (pst.pos + bs.length) (by omega) hpt, ht1]
            · intro ust hnr hpos hurem
              have hB : (pst'.buf.drop ust.pos).take bs.length = bs := by
                rw [hpos]
                refine drop_take_of_take_eq _ (pst.buf.take pst.pos) bs pst.pos ?_ ?_
                · simp; omega
                · rw [hpt, ht2]
              obtain ⟨v, hu, hrec⟩ := unpackCode_field host pst'.buf c k ust args args' bs hk hstr
                (by rw [hnr]; exact hbs) hB (by rw [hpos, hpl, hl]; omega)
                (by rw [hurem]; omega) (by rw [hurem]; exact hrem)
              rw [hu]
              simp only
              obtain ⟨ust', ua', vals, hul, hur, huo, huv⟩ := hun
                { need_rev := ust.need_rev, pos := ust.pos + bs.length,
                  remain := ust.remain - bs.length, out := ust.out ++ [v] }
                hnr (by simp only [hpos]) (by simp only [hurem])
              refine ⟨ust', ua', v :: vals, hul, hur, ?_, ?_⟩
              · rw [huo]; simp
              · simp only [List.filterMap_cons, hk]
                exact hrec _ _ huv
    cases b with
    | true =>
      simp only [fmtWidth] at hW
      simp only [packLoop, unpackLoop]
      exact hcode pst hfit hrem hbuf hW
    | false =>
      simp only [fmtWidth] at hW
      simp only [packLoop, unpackLoop]
      by_cases hs : isSelector c = true
      · rw [if_pos hs] at hW
        obtain ⟨r, hr⟩ := selector_isSome host c hs
        have hdc : dataCode c = none := selector_not_dataCode host c r hr
        have hc0 := isSelector_ne_nul c hs
        simp only [hc0, if_false, hr]
        obtain ⟨pst', a', hp, hpl, hpt, hpr, hun⟩ := ih true { pst with need_rev := r } args W hW
          hrt' hfit hrem hbuf
        refine ⟨pst', a', hp, hpl, hpt, hpr, ?_⟩
        intro ust hnr hpos hurem
        obtain ⟨ust', ua', vals, hul, hur, huo, huv⟩ := hun { ust with need_rev := r } rfl hpos
          hurem
        refine ⟨ust', ua', vals, hul, hur, huo, ?_⟩
        simp only [List.filterMap_cons, hdc]
        exact huv
      · rw [if_neg hs] at hW
        have hn := (selector_eq_none_iff host c).mpr (by simpa using hs)
        have hc0 : c ≠ Char.ofNat 0 := by
          rintro rfl
          simp [dataCode] at hW
        simp only [hc0, if_false, hn]
        exact hcode pst hfit hrem hbuf hW

/-- C1: round trip.  For a format that is a sequence of items without the
string codes `s`/`S` (so: selectors, the numeric codes and `m`/`M`) with
matching arguments whose fields fit between the offset and the capacity,
`mongoSnpack` returns a new offset, and `mongoSnunpack` run with the same
format at the same offset on the buffer that `mongoSnpack` left returns the
same value and recovers the packed arguments: each numeric argument as the
unsigned value of the width of its code, each blob as the same bytes. -/
theorem C1_round_trip (host : ByteOrder) (buf : List Nat) (off size : Nat) (fmt : List Char)
    (args : List Arg) (W : Nat)
    (hW : fmtWidth fmt false args = some W) (hrt : ∀ c ∈ fmt, c ≠ 's' ∧ c ≠ 'S')
    (hfit : off + W ≤ size) (hbuf : size ≤ buf.length) (hsz : size < SIZE_MOD) :
    ∃ r buf' vals, mongoSnpack host buf off size fmt args = Outcome.ret (r, buf')
      ∧ mongoSnunpack host buf' off size fmt (unpackArgs args) = Outcome.ret (r, vals)
      ∧ Recovered buf' (fmt.filterMap dataCode) args vals := by
  have hrem : sizeSub size off = size - off := sizeSub_of_le _ _ hsz (by omega)
  obtain ⟨pst', a', hp, _, _, hpr, hun⟩ := roundtrip_loop host fmt false (packInit buf off size)
    args W hW hrt (by simp only [packInit, hrem]; omega) (by simp only [packInit, hrem]; omega)
    (by simp only [packInit, hrem]; omega)
  obtain ⟨ust', ua', vals, hul, hur, huo, huv⟩ := hun (unpackInit off size) rfl rfl rfl
  refine ⟨toInt32 (sizeSub size pst'.remain), pst'.buf, vals, ?_, ?_, huv⟩
  · unfold mongoSnpack
    rw [hp]
  · unfold mongoSnunpack
    rw [hul]
    simp only [hur, huo, unpackInit, List.nil_append]

theorem C1_round_trip_witness :
    ∃ r buf' vals,
      mongoSnpack ByteOrder.little [0, 0, 0, 0, 0, 0, 0] 1 7 ['>', 'h', 'b', 'm']
          [Arg.num 0x1234, Arg.num 7, Arg.ptr [1, 2, 3], Arg.size 2] = Outcome.ret (r, buf')
      ∧ mongoSnunpack ByteOrder.little buf' 1 7 ['>', 'h', 'b', 'm']
          (unpackArgs [Arg.num 0x1234, Arg.num 7, Arg.ptr [1, 2, 3], Arg.size 2])
          = Outcome.ret (r, vals)
      ∧ Recovered buf' (['>', 'h', 'b', 'm'].filterMap dataCode)
          [Arg.num 0x1234, Arg.num 7, Arg.ptr [1, 2, 3], Arg.size 2] vals :=
  C1_round_trip ByteOrder.little [0, 0, 0, 0, 0, 0, 0] 1 7 ['>', 'h', 'b', 'm']
    [Arg.num 0x1234, Arg.num 7, Arg.ptr [1, 2, 3], Arg.size 2] 5
    (by decide) (by decide) (by decide) (by decide) (by decide)

/-! ## C10: callbacks are invoked exactly once -/

theorem invocations_append (cb : mongoCallback) (t1 t2 : List Event) :
    invocations cb (t1 ++ t2) = invocations cb t1 + invocations cb t2 := by
  induction t1 with
  | nil => simp [invocations]
  | cons e es ih =>
    rw [List.cons_append]
    cases e <;> simp only [invocations, ih]
    omega

theorem enqueues_append (cb : mongoCallback) (t1 t2 : List Event) :
    enqueues cb (t1 ++ t2) = enqueues cb t1 + enqueues cb t2 := by
  induction t1 with
  | nil => simp [enqueues]
  | cons e es ih =>
    rw [List.cons_append]
    cases e <;> simp only [enqueues, ih]
    omega

theorem noUnsolicited_append (t1 t2 : List Event) :
    noUnsolicited (t1 ++ t2) = (noUnsolicited t1 && noUnsolicited t2) := by
  induction t1 with
  | nil => simp [noUnsolicited]
  | cons e es ih =>
    rw [List.cons_append]
    cases e <;> simp only [noUnsolicited, ih, Bool.false_and]

theorem finals_append (cb : mongoCallback) (t1 t2 : List Event) :
    finals cb (t1 ++ t2) = finals cb t1 + finals cb t2 := by
  induction t1 with
  | nil => simp [finals]
  | cons e es ih =>
    rw [List.cons_append]
    cases e <;> simp only [finals, ih]
    omega

theorem retained_append (cb : mongoCallback) (t1 t2 : List Event) :
    retained cb (t1 ++ t2) = retained cb t1 + retained cb t2 := by
  induction t1 with
  | nil => simp [retained]
  | cons e es ih =>
    rw [List.cons_append]
    cases e <;> simp only [retained, ih]
    omega

/-- Every invocation is either one with a final reply or one at which the
record stays at the head. -/
theorem invocations_split (cb : mongoCallback) (t : List Event) :
    invocations cb t = finals cb t + retained cb t := by
  induction t with
  | nil => rfl
  | cons e es ih =>
    cases e with
    | callback c r =>
      simp only [invocations, finals, retained, ih]
      by_cases hc : c = cb
      · cases hr : retains c r <;> simp [hc] <;> omega
      · simp [hc]
    | _ => simpa only [invocations, finals, retained] using ih

/-- A record without `EXHAUST` is never kept at the head. -/
theorem retained_plain (cb : mongoCallback) (hx : cb.flags &&& QUERY_FLAG_EXHAUST = 0)
    (t : List Event) : retained cb t = 0 := by
  induction t with
  | nil => rfl
  | cons e es ih =>
    cases e with
    | callback c r =>
      simp only [retained, ih, Nat.add_zero]
      by_cases hc : c = cb
      · subst hc
        simp [retains, hx]
      · simp [hc]
    | _ => simpa only [retained] using ih

theorem staleAt_append (e : Event) (es t : List Event) (h : staleAt e es = true) :
    staleAt e (es ++ t) = true := by
  cases e with
  | unsolicited r =>
    cases es with
    | nil => simp [staleAt] at h
    | cons x xs =>
      cases x <;> first | rfl | simp [staleAt] at h
  | _ => simp [staleAt] at h

theorem noStale_append (t1 t2 : List Event) (h : noStale (t1 ++ t2) = true) :
    noStale t1 = true ∧ noStale t2 = true := by
  induction t1 with
  | nil => exact ⟨rfl, h⟩
  | cons e es ih =>
    rw [List.cons_append] at h
    simp only [noStale, Bool.and_eq_true, Bool.not_eq_true'] at h ⊢
    obtain ⟨h1, h2⟩ := ih h.2
    refine ⟨⟨?_, h1⟩, h2⟩
    cases hs : staleAt e es with
    | false => rfl
    | true =>
      have := staleAt_append e es t2 hs
      rw [h.1] at this
      exact absurd this (by decide)

theorem noStale_of_noUnsolicited (t : List Event) (h : noUnsolicited t = true) :
    noStale t = true := by
  induction t with
  | nil => rfl
  | cons e es ih =>
    cases e with
    | unsolicited r => simp [noUnsolicited] at h
    | _ =>
      simp only [noUnsolicited] at h
      simp only [noStale, staleAt, Bool.not_false, Bool.true_and]
      exact ih h

theorem Rel.refl (ac : mongoAsyncContext) : Rel ac ac where
  trace := ⟨[], by simp, fun _ cb _ => by simp [finals, enqueues]⟩
  closing := id
  empty := fun _ h => h
  freed := Or.inl
  aborted := id
  err := id

theorem Rel.trans {a b c : mongoAsyncContext} (h1 : Rel a b) (h2 : Rel b c) : Rel a c where
  trace := by
    obtain ⟨t1, e1, c1⟩ := h1.trace
    obtain ⟨t2, e2, c2⟩ := h2.trace
    refine ⟨t1 ++ t2, by rw [e2, e1, List.append_assoc], ?_⟩
    intro hs cb hcb
    have hs := noStale_append t1 t2 hs
    have a1 := c1 hs.1 cb hcb
    have a2 := c2 hs.2 cb hcb
    rw [finals_append, enqueues_append]
    omega
  closing := fun h => h2.closing (h1.closing h)
  empty := fun hc he => h2.empty (h1.closing hc) (h1.empty hc he)
  freed := by
    intro hf
    rcases h2.freed hf with hb | hb
    · rcases h1.freed hb with ha | ⟨he, hc⟩
      · exact Or.inl ha
      · exact Or.inr ⟨h2.empty hc he, h2.closing hc⟩
    · exact Or.inr hb
  aborted := fun h => h1.aborted (h2.aborted h)
  err := fun h => h2.err (h1.err h)

/-- An update that leaves trace, queue, `freed` and `aborted` alone, does not
end a shutdown and does not clear the error slot. -/
theorem Rel.of_same {ac ac' : mongoAsyncContext} (ht : ac'.trace = ac.trace)
    (hr : ac'.replies = ac.replies) (hf : ac'.freed = ac.freed)
    (ha : ac'.aborted = ac.aborted)
    (hc : Closing ac → Closing ac') (he : ac.err ≠ none → ac'.err ≠ none) : Rel ac ac' where
  trace := ⟨[], by simp [ht], fun _ cb _ => by simp [finals, enqueues, hr]⟩
  closing := hc
  empty := fun _ h => by rw [hr]; exact h
  freed := fun h => Or.inl (by rw [← hf]; exact h)
  aborted := fun h => by rw [← ha]; exact h
  err := he

/-- Emitting an event that is neither an invocation nor an enqueue. -/
theorem Rel.emit (ac : mongoAsyncContext) (e : Event)
    (h1 : ∀ cb r, e ≠ Event.callback cb r) (h2 : ∀ cb, e ≠ Event.push cb) :
    Rel ac (emit ac e) where
  trace := by
    refine ⟨[e], rfl, ?_⟩
    intro _ cb _
    have hi : finals cb [e] = 0 := by
      cases e <;> simp [finals]
      exact absurd rfl (h1 _ _)
    have he : enqueues cb [e] = 0 := by
      cases e <;> simp [enqueues]
      exact absurd rfl (h2 _)
    simp [hi, he, Himongo.emit]
  closing := id
  empty := fun _ h => h
  freed := Or.inl
  aborted := id
  err := id

theorem userCode_rel (api : Act → mongoAsyncContext → Option mongoAsyncContext)
    (hapi : ∀ a ac ac', api a ac = some ac' → Rel ac ac') (acts : List Act) :
    ∀ ac ac', userCode api acts ac = some ac' → Rel ac ac' := by
  induction acts with
  | nil =>
    intro ac ac' h
    simp only [userCode, Option.some.injEq] at h
    subst h
    exact Rel.refl _
  | cons a rest ih =>
    intro ac ac' h
    simp only [userCode] at h
    cases ha : api a ac with
    | none => simp [ha] at h
    | some ac1 =>
      rw [ha] at h
      exact (hapi a ac ac1 ha).trans (ih ac1 ac' h)

theorem MONGO_ERR_ne_OK : MONGO_ERR ≠ MONGO_OK := by decide

/-- The two outcomes of `__mongoShiftCallback`. -/
theorem shift_cases (ac : mongoAsyncContext) (rpl : Option mongoReply) (target : mongoCallback) :
    (ac.replies = [] ∧ __mongoShiftCallback ac rpl target = (MONGO_ERR, target, ac))
    ∨ (∃ h rest, ac.replies = h :: rest ∧
        ((__mongoShiftCallback ac rpl target = (MONGO_OK, h, ac) ∧ h.flags &&& QUERY_FLAG_EXHAUST ≠ 0
            ∧ ∃ r, rpl = some r ∧ r.cursorID ≠ 0)
          ∨ __mongoShiftCallback ac rpl target = (MONGO_OK, h, { ac with replies := rest }))) := by
  unfold __mongoShiftCallback
  cases hq : ac.replies with
  | nil => exact Or.inl ⟨rfl, rfl⟩
  | cons h rest =>
    refine Or.inr ⟨h, rest, rfl, ?_⟩
    simp only
    by_cases hx : h.flags &&& QUERY_FLAG_EXHAUST ≠ 0
    · cases rpl with
      | none => right; simp
      | some r =>
        by_cases hc : r.cursorID ≠ 0
        · left
          exact ⟨by simp [hx, hc], hx, r, rfl, hc⟩
        · right; simp [hc]
    · right; simp [hx]

/-- The non-empty case of `__mongoShiftCallback`, with `retains` for its
`no_remove`. -/
theorem shift_head (ac : mongoAsyncContext) (rpl : Option mongoReply)
    (target h : mongoCallback) (rest : List mongoCallback) (hq : ac.replies = h :: rest) :
    __mongoShiftCallback ac rpl target
      = (MONGO_OK, h, if retains h rpl = true then ac else { ac with replies := rest }) := by
  unfold __mongoShiftCallback retains
  rw [hq]

/-- What `__mongoRunCallback` adds to the trace for a record with a function:
the invocation first. -/
theorem run_head (api : Act → mongoAsyncContext → Option mongoAsyncContext)
    (hapi : ∀ a ac ac', api a ac = some ac' → Rel ac ac') (prog : Prog)
    (ac ac2 : mongoAsyncContext) (cb : mongoCallback) (rpl : Option mongoReply)
    (hfn : cb.fn ≠ none) (hr : __mongoRunCallback api prog ac cb rpl = some ac2) :
    ∃ t, ac2.trace = ac.trace ++ Event.callback cb rpl :: t := by
  unfold __mongoRunCallback at hr
  cases hf : cb.fn with
  | none => exact absurd hf hfn
  | some f =>
    rw [hf] at hr
    simp only at hr
    cases hu : userCode api (prog.callback f rpl cb.privdata)
        (emit { ac with flags := { ac.flags with in_callback := true } }
          (Event.callback cb rpl)) with
    | none => simp [hu] at hr
    | some acu =>
      rw [hu] at hr
      simp only [Option.some.injEq] at hr
      subst hr
      obtain ⟨t, ht, _⟩ := (userCode_rel api hapi _ _ _ hu).trace
      refine ⟨t, ?_⟩
      simp only [ht, Himongo.emit, List.append_assoc, List.singleton_append]

/-- Taking the head of the queue and running it. -/
theorem shift_run_rel (api : Act → mongoAsyncContext → Option mongoAsyncContext)
    (hapi : ∀ a ac ac', api a ac = some ac' → Rel ac ac') (prog : Prog)
    (ac ac1 ac2 : mongoAsyncContext) (rpl : Option mongoReply) (target cb : mongoCallback)
    (hs : __mongoShiftCallback ac rpl target = (MONGO_OK, cb, ac1))
    (hr : __mongoRunCallback api prog ac1 cb rpl = some ac2) : Rel ac ac2 := by
  rcases shift_cases ac rpl target with ⟨_, he⟩ | ⟨h, rest, hq, _⟩
  · rw [he] at hs
    simp only [Prod.mk.injEq] at hs
    exact absurd hs.1 MONGO_ERR_ne_OK
  · rw [shift_head ac rpl target h rest hq] at hs
    simp only [Prod.mk.injEq, true_and] at hs
    obtain ⟨hcbh, hac1⟩ := hs
    subst hcbh
    have hcount : ∀ c : mongoCallback, c.fn ≠ none →
        (if h = c ∧ retains h rpl = false then 1 else 0) + ac1.replies.count c
          = ac.replies.count c := by
      intro c _
      cases hret : retains h rpl with
      | true =>
        rw [hret] at hac1
        simp only [if_true] at hac1
        subst hac1
        simp
      | false =>
        rw [hret] at hac1
        simp only [Bool.false_eq_true, if_false] at hac1
        subst hac1
        simp only [hq, List.count_cons]
        by_cases hhc : h = c
        · subst hhc
          simp
          omega
        · simp [hhc]
    have hrep : Closing ac → ac.replies = [] → ac2.replies = [] := by
      intro _ h0
      rw [hq] at h0
      exact absurd h0 (List.cons_ne_nil _ _)
    have hf1 : ac1.freed = ac.freed ∧ ac1.trace = ac.trace ∧ ac1.flags = ac.flags
        ∧ ac1.aborted = ac.aborted ∧ ac1.err = ac.err := by
      cases hret : retains h rpl with
      | true =>
        rw [hret] at hac1
        simp only [if_true] at hac1
        subst hac1
        exact ⟨rfl, rfl, rfl, rfl, rfl⟩
      | false =>
        rw [hret] at hac1
        simp only [Bool.false_eq_true, if_false] at hac1
        subst hac1
        exact ⟨rfl, rfl, rfl, rfl, rfl⟩
    unfold __mongoRunCallback at hr
    cases hfn : h.fn with
    | none =>
      rw [hfn] at hr
      simp only [Option.some.injEq] at hr
      subst hr
      refine ⟨⟨[], by simp [hf1.2.1], ?_⟩, ?_, hrep, ?_, ?_, ?_⟩
      · intro _ c hc
        have := hcount c hc
        have hne : ¬ (h = c ∧ retains h rpl = false) := by
          rintro ⟨rfl, _⟩
          exact hc hfn
        rw [if_neg hne] at this
        simp only [finals, enqueues]
        omega
      · intro hc
        unfold Closing at hc ⊢
        rw [hf1.2.2.1]
        exact hc
      · intro hf
        rw [hf1.1] at hf
        exact Or.inl hf
      · intro ha
        rw [hf1.2.2.2.1] at ha
        exact ha
      · intro he
        rw [hf1.2.2.2.2]
        exact he
    | some f =>
      rw [hfn] at hr
      simp only at hr
      cases hu : userCode api (prog.callback f rpl h.privdata)
          (emit { ac1 with flags := { ac1.flags with in_callback := true } }
            (Event.callback h rpl)) with
      | none => simp [hu] at hr
      | some acu =>
        rw [hu] at hr
        simp only [Option.some.injEq] at hr
        subst hr
        have hru := userCode_rel api hapi _ _ _ hu
        have hstart : Rel ac (emit { ac1 with flags := { ac1.flags with in_callback := true } }
            (Event.callback h rpl)) := by
          refine ⟨⟨[Event.callback h rpl], by simp [Himongo.emit, hf1.2.1], ?_⟩, ?_, ?_, ?_, ?_, ?_⟩
          · intro _ c hc
            have := hcount c hc
            simp only [finals, enqueues, Himongo.emit]
            omega
          · intro hc
            unfold Closing at hc ⊢
            simp only [Himongo.emit, hf1.2.2.1]
            exact hc
          · intro _ h0
            rw [hq] at h0
            exact absurd h0 (List.cons_ne_nil _ _)
          · intro hf
            simp only [Himongo.emit, hf1.1] at hf
            exact Or.inl hf
          · intro ha
            simp only [Himongo.emit, hf1.2.2.2.1] at ha
            exact ha
          · intro he
            simp only [Himongo.emit, hf1.2.2.2.2]
            exact he
        exact (hstart.trans hru).trans (Rel.of_same rfl rfl rfl rfl (fun hc => hc) id)


theorem flushLoop_rel (api : Act → mongoAsyncContext → Option mongoAsyncContext)
    (hapi : ∀ a ac ac', api a ac = some ac' → Rel ac ac') (prog : Prog) (n : Nat) :
    ∀ (cb : mongoCallback) (ac ac' : mongoAsyncContext),
      flushLoop api prog n cb ac = some ac' → Rel ac ac' ∧ ac'.replies = [] := by
  induction n with
  | zero => intro cb ac ac' h; simp [flushLoop] at h
  | succ n ih =>
    intro cb ac ac' h
    simp only [flushLoop] at h
    rcases hs : __mongoShiftCallback ac none cb with ⟨status, cb', ac1⟩
    rw [hs] at h
    simp only at h
    by_cases hok : status = MONGO_OK
    · rw [if_pos hok] at h
      subst hok
      cases hr : __mongoRunCallback api prog ac1 cb' none with
      | none => simp [hr] at h
      | some ac2 =>
        rw [hr] at h
        simp only at h
        obtain ⟨h1, h2⟩ := ih cb' ac2 ac' h
        exact ⟨(shift_run_rel api hapi prog ac ac1 ac2 none cb cb' hs hr).trans h1, h2⟩
    · rw [if_neg hok] at h
      simp only [Option.some.injEq] at h
      subst h
      rcases shift_cases ac none cb with ⟨he, hsh⟩ | ⟨h, rest, _, hcase⟩
      · rw [hsh] at hs
        simp only [Prod.mk.injEq] at hs
        obtain ⟨_, _, rfl⟩ := hs
        exact ⟨Rel.refl _, he⟩
      · rcases hcase with ⟨hsh, _⟩ | hsh <;>
          · rw [hsh] at hs
            simp only [Prod.mk.injEq] at hs
            exact absurd hs.1.symm hok

theorem callHook_rel (api : Act → mongoAsyncContext → Option mongoAsyncContext)
    (hapi : ∀ a ac ac', api a ac = some ac' → Rel ac ac') (prog : Prog) (f : Nat) (status : Int)
    (ac ac' : mongoAsyncContext) (e : Event)
    (h1 : ∀ cb r, e ≠ Event.callback cb r) (h2 : ∀ cb, e ≠ Event.push cb)
    (h : callHook api prog e f status ac = some ac') : Rel ac ac' := by
  unfold callHook at h
  exact (Rel.emit ac _ h1 h2).trans (userCode_rel api hapi _ _ _ h)

theorem EL_CLEANUP_rel (ac : mongoAsyncContext) : Rel ac (_EL_CLEANUP ac) := by
  unfold _EL_CLEANUP
  split
  · exact Rel.emit ac _ (by intro _ _ hh; cases hh) (by intro _ hh; cases hh)
  · exact Rel.refl _

theorem EL_ADD_WRITE_rel (ac : mongoAsyncContext) : Rel ac (_EL_ADD_WRITE ac) := by
  unfold _EL_ADD_WRITE
  split
  · exact Rel.emit ac _ (by intro _ _ hh; cases hh) (by intro _ hh; cases hh)
  · exact Rel.refl _

theorem mongoAsyncFree_inner_rel (api : Act → mongoAsyncContext → Option mongoAsyncContext)
    (hapi : ∀ a ac ac', api a ac = some ac' → Rel ac ac') (prog : Prog) (n : Nat)
    (ac ac' : mongoAsyncContext) (hc : Closing ac)
    (h : __mongoAsyncFree api prog n ac = some ac') : Rel ac ac' ∧ ac'.freed = true := by
  unfold __mongoAsyncFree at h
  cases hfl : flushLoop api prog n { fn := none, flags := 0, privdata := 0 } ac with
  | none => simp [hfl] at h
  | some ac1 =>
    rw [hfl] at h
    simp only at h
    obtain ⟨r1, he1⟩ := flushLoop_rel api hapi prog n _ ac ac1 hfl
    have r2 : Rel ac (_EL_CLEANUP ac1) := r1.trans (EL_CLEANUP_rel ac1)
    have he2 : (_EL_CLEANUP ac1).replies = [] := by
      unfold _EL_CLEANUP
      split <;> simp [emit, he1]
    have hc2 : Closing (_EL_CLEANUP ac1) := r2.closing hc
    have hfin : ∀ ac3, Rel (_EL_CLEANUP ac1) ac3 →
        Rel ac { emit ac3 Event.mongoFree with freed := true } := by
      intro ac3 r3
      have hc3 := r3.closing hc2
      have he3 := r3.empty hc2 he2
      have r4 : Rel ac3 { emit ac3 Event.mongoFree with freed := true } := by
        refine ⟨⟨[Event.mongoFree], rfl, ?_⟩, fun h => h, fun _ h => h, ?_, fun h => h,
          fun h => h⟩
        · intro _ cb _
          simp [finals, enqueues, emit]
        · intro _
          exact Or.inr ⟨he3, hc3⟩
      exact (r2.trans r3).trans r4
    cases hd : (_EL_CLEANUP ac1).onDisconnect with
    | none =>
      rw [hd] at h
      simp only [Option.some.injEq] at h
      subst h
      exact ⟨hfin _ (Rel.refl _), rfl⟩
    | some f =>
      rw [hd] at h
      simp only at h
      split at h
      · rename_i ac3 hr
        simp only [Option.some.injEq] at h
        subst h
        refine ⟨hfin ac3 ?_, rfl⟩
        split at hr
        · split at hr
          · exact callHook_rel api hapi prog f _ _ _ _ (by intro _ _ hh; cases hh)
              (by intro _ hh; cases hh) hr
          · exact callHook_rel api hapi prog f _ _ _ _ (by intro _ _ hh; cases hh)
              (by intro _ hh; cases hh) hr
        · simp only [Option.some.injEq] at hr
          subst hr
          exact Rel.refl _
      · simp at h

theorem mongoAsyncFree_rel (api : Act → mongoAsyncContext → Option mongoAsyncContext)
    (hapi : ∀ a ac ac', api a ac = some ac' → Rel ac ac') (prog : Prog) (n : Nat)
    (ac ac' : mongoAsyncContext) (h : mongoAsyncFree api prog n ac = some ac') : Rel ac ac' := by
  unfold mongoAsyncFree at h
  simp only at h
  have r0 : Rel ac { ac with flags := { ac.flags with freeing := true } } :=
    Rel.of_same rfl rfl rfl rfl (fun _ => Or.inr rfl) id
  split at h
  · simp only [Option.some.injEq] at h
    subst h
    exact r0
  · exact r0.trans (mongoAsyncFree_inner_rel api hapi prog n _ ac' (Or.inr rfl) h).1

theorem mongoAsyncDisconnect_inner_rel
    (api : Act → mongoAsyncContext → Option mongoAsyncContext)
    (hapi : ∀ a ac ac', api a ac = some ac' → Rel ac ac') (prog : Prog) (n : Nat)
    (ac ac' : mongoAsyncContext) (hpre : ac.err ≠ none ∨ (Closing ac ∧ ac.replies = []))
    (h : __mongoAsyncDisconnect api prog n ac = some ac') : Rel ac ac' := by
  unfold __mongoAsyncDisconnect __mongoAsyncCopyError at h
  simp only at h
  have r0 : Rel ac { ac with acErr := ac.err } := Rel.of_same rfl rfl rfl rfl (fun hc => hc) id
  split at h
  · rename_i herr
    have hc : Closing ac ∧ ac.replies = [] := by
      rcases hpre with hp | hp
      · exact absurd herr hp
      · exact hp
    split at h
    · exact r0.trans (mongoAsyncFree_inner_rel api hapi prog n _ ac' (r0.closing hc.1) h).1
    · rename_i hne
      exact absurd hc.2 hne
  · have r1 : Rel ac { ({ ac with acErr := ac.err } : mongoAsyncContext) with
        flags := { ac.flags with disconnecting := true } } :=
      Rel.of_same rfl rfl rfl rfl (fun _ => Or.inl rfl) id
    exact r1.trans (mongoAsyncFree_inner_rel api hapi prog n _ ac' (Or.inl rfl) h).1

theorem mongoAsyncDisconnect_rel (api : Act → mongoAsyncContext → Option mongoAsyncContext)
    (hapi : ∀ a ac ac', api a ac = some ac' → Rel ac ac') (prog : Prog) (n : Nat)
    (ac ac' : mongoAsyncContext) (h : mongoAsyncDisconnect api prog n ac = some ac') :
    Rel ac ac' := by
  unfold mongoAsyncDisconnect at h
  simp only at h
  have r0 : Rel ac { ac with flags := { ac.flags with disconnecting := true } } :=
    Rel.of_same rfl rfl rfl rfl (fun _ => Or.inl rfl) id
  split at h
  · rename_i hcond
    simp only [Bool.and_eq_true, decide_eq_true_eq] at hcond
    exact r0.trans (mongoAsyncDisconnect_inner_rel api hapi prog n _ ac'
      (Or.inr ⟨Or.inl rfl, hcond.2⟩) h)
  · simp only [Option.some.injEq] at h
    subst h
    exact r0

theorem mongoAsyncQuery_rel (ac : mongoAsyncContext) (cb : mongoCallback)
    (frame : Option (List Nat)) : Rel ac (mongoAsyncQuery ac cb frame).2 := by
  unfold mongoAsyncQuery
  split
  · exact Rel.refl _
  · rename_i hcl
    cases frame with
    | none => exact Rel.refl _
    | some bytes =>
      simp only
      refine Rel.trans ?_ (EL_ADD_WRITE_rel _)
      have hncl : ¬ Closing ac := by
        unfold Closing
        simp only [Bool.or_eq_true, not_or] at hcl ⊢
        exact hcl
      refine ⟨⟨[Event.push cb], rfl, ?_⟩, fun h => absurd h hncl, fun h => absurd h hncl, ?_,
        fun h => h, fun h => h⟩
      · intro _ c _
        simp only [finals, enqueues, __mongoPushCallback, emit, List.count_append,
          List.count_cons, List.count_nil]
        by_cases hcc : cb = c
        · subst hcc; simp; omega
        · have : ¬ (cb == c) = true := by simpa using hcc
          simp [hcc, this]
      · intro hf
        exact Or.inl hf

theorem mongoAsyncWrite_rel (ac : mongoAsyncContext) (fn : Option Nat) (privdata : Nat)
    (frame gle : Built) : Rel ac (mongoAsyncWrite ac fn privdata frame gle).2 := by
  unfold mongoAsyncWrite
  split
  · exact Rel.refl _
  · rename_i hcl
    have hncl : ¬ Closing ac := by
      unfold Closing
      simp only [Bool.or_eq_true, not_or] at hcl ⊢
      exact hcl
    cases frame with
    | failed status => exact Rel.refl _
    | ok bytes =>
      have r1 : Rel ac { ac with obuf := ac.obuf ++ bytes } :=
        Rel.of_same rfl rfl rfl rfl (fun hc => hc) id
      cases fn with
      | none => exact r1.trans (EL_ADD_WRITE_rel _)
      | some f =>
        cases gle with
        | failed status => exact r1
        | ok bytes' =>
          simp only
          refine Rel.trans ?_ (EL_ADD_WRITE_rel _)
          refine ⟨⟨[Event.push { fn := some f, flags := 0, privdata := privdata }], rfl, ?_⟩,
            fun h => absurd h hncl, fun h => absurd h hncl, ?_, fun h => h, fun h => h⟩
          · intro _ c _
            simp only [finals, enqueues, __mongoPushCallback, emit, List.count_append,
              List.count_cons, List.count_nil]
            by_cases hcc : ({ fn := some f, flags := 0, privdata := privdata } : mongoCallback) = c
            · subst hcc; simp; omega
            · have : ¬ (({ fn := some f, flags := 0, privdata := privdata } : mongoCallback) == c)
                  = true := by simpa using hcc
              simp [hcc, this]
          · intro hf
            exact Or.inl hf

theorem apiCall_rel (prog : Prog) (fuel : Nat) :
    ∀ a ac ac', apiCall prog fuel a ac = some ac' → Rel ac ac' := by
  induction fuel with
  | zero => intro a ac ac' h; simp [apiCall] at h
  | succ fuel ih =>
    intro a ac ac' h
    cases a with
    | query cb frame =>
      simp only [apiCall, Option.some.injEq] at h
      subst h
      exact mongoAsyncQuery_rel ac cb frame
    | write fn privdata frame gle =>
      simp only [apiCall, Option.some.injEq] at h
      subst h
      exact mongoAsyncWrite_rel ac fn privdata frame gle
    | asyncFree =>
      simp only [apiCall] at h
      exact mongoAsyncFree_rel _ ih prog _ ac ac' h
    | asyncDisconnect =>
      simp only [apiCall] at h
      exact mongoAsyncDisconnect_rel _ ih prog _ ac ac' h


/-- What `__mongoRunCallback` guarantees on its own (the invocation it adds
is not matched by a removal from the queue). -/
theorem run_weak (api : Act → mongoAsyncContext → Option mongoAsyncContext)
    (hapi : ∀ a ac ac', api a ac = some ac' → Rel ac ac') (prog : Prog)
    (ac ac2 : mongoAsyncContext) (cb : mongoCallback) (rpl : Option mongoReply)
    (hr : __mongoRunCallback api prog ac cb rpl = some ac2) :
    (∃ t, ac2.trace = ac.trace ++ t) ∧ (Closing ac → Closing ac2)
      ∧ (Closing ac → ac.replies = [] → ac2.replies = [])
      ∧ (ac2.freed = true → ac.freed = true ∨ (ac2.replies = [] ∧ Closing ac2))
      ∧ (ac2.aborted = true → ac.aborted = true)
      ∧ (ac.err ≠ none → ac2.err ≠ none) := by
  unfold __mongoRunCallback at hr
  cases hfn : cb.fn with
  | none =>
    rw [hfn] at hr
    simp only [Option.some.injEq] at hr
    subst hr
    exact ⟨⟨[], by simp⟩, id, fun _ h => h, Or.inl, id, id⟩
  | some f =>
    rw [hfn] at hr
    simp only at hr
    cases hu : userCode api (prog.callback f rpl cb.privdata)
        (emit { ac with flags := { ac.flags with in_callback := true } }
          (Event.callback cb rpl)) with
    | none => simp [hu] at hr
    | some acu =>
      rw [hu] at hr
      simp only [Option.some.injEq] at hr
      subst hr
      have hru := userCode_rel api hapi _ _ _ hu
      obtain ⟨t, ht, _⟩ := hru.trace
      refine ⟨⟨Event.callback cb rpl :: t, ?_⟩, ?_, ?_, ?_, ?_, ?_⟩
      · simp only [ht, emit, List.append_assoc, List.singleton_append]
      · intro hc
        exact hru.closing hc
      · intro hc he
        exact hru.empty hc he
      · intro hf
        exact hru.freed hf
      · intro ha
        exact hru.aborted ha
      · intro he
        exact hru.err he

theorem processLoop_rel (api : Act → mongoAsyncContext → Option mongoAsyncContext)
    (hapi : ∀ a ac ac', api a ac = some ac' → Rel ac ac') (prog : Prog) (n : Nat)
    (last : ReaderEnd) (rs : List mongoReply) :
    ∀ (cb : mongoCallback) (ac ac' : mongoAsyncContext),
      processLoop api prog n last rs cb ac = some ac' → Rel ac ac' := by
  induction rs with
  | nil =>
    intro cb ac ac' h
    simp only [processLoop] at h
    cases last with
    | idle =>
      simp only at h
      split at h
      · rename_i hcond
        simp only [Bool.and_eq_true] at hcond
        simp only [decide_eq_true_eq] at hcond
        exact mongoAsyncDisconnect_inner_rel api hapi prog n ac ac'
          (Or.inr ⟨Or.inl hcond.1.1, hcond.2⟩) h
      · simp only [Option.some.injEq] at h
        subst h
        exact Rel.refl _
    | error k =>
      simp only at h
      have r0 : Rel ac { ac with err := some k } :=
        Rel.of_same rfl rfl rfl rfl (fun hc => hc) (fun _ => by simp)
      exact r0.trans (mongoAsyncDisconnect_inner_rel api hapi prog n _ ac'
        (Or.inl (by simp)) h)
  | cons reply rs ih =>
    intro cb ac ac' h
    simp only [processLoop] at h
    rcases hs : __mongoShiftCallback ac (some reply) cb with ⟨status, cb', ac1⟩
    rw [hs] at h
    simp only at h
    have hfree : ∀ a : mongoAsyncContext, Rel a (emit a (Event.freeObject reply)) := fun a =>
      Rel.emit a _ (by intro _ _ hh; cases hh) (by intro _ hh; cases hh)
    -- the context after the shift and the bookkeeping, and the callback run on it
    have hstep : ∀ ac2, __mongoRunCallback api prog
        (if status = MONGO_OK then ac1 else emit ac1 (Event.unsolicited reply)) cb' (some reply)
          = some ac2 → Rel ac ac2 := by
      intro ac2 hr
      by_cases hok : status = MONGO_OK
      · rw [if_pos hok] at hr
        subst hok
        exact shift_run_rel api hapi prog ac ac1 ac2 (some reply) cb cb' hs hr
      · rw [if_neg hok] at hr
        rcases shift_cases ac (some reply) cb with ⟨he, hsh⟩ | ⟨h', rest, _, hcase⟩
        · rw [hsh] at hs
          simp only [Prod.mk.injEq] at hs
          obtain ⟨_, _, rfl⟩ := hs
          by_cases hfn : cb'.fn = none
          · have hr' : __mongoRunCallback api prog (emit ac (Event.unsolicited reply)) cb'
                (some reply) = some (emit ac (Event.unsolicited reply)) := by
              unfold __mongoRunCallback
              rw [hfn]
            rw [hr'] at hr
            simp only [Option.some.injEq] at hr
            subst hr
            exact Rel.emit ac _ (by intro _ _ hh; cases hh) (by intro _ hh; cases hh)
          · obtain ⟨_, w2, w3, w4, w5, w6⟩ := run_weak api hapi prog _ ac2 cb' (some reply) hr
            obtain ⟨t, ht⟩ := run_head api hapi prog _ ac2 cb' (some reply) hfn hr
            refine ⟨⟨Event.unsolicited reply :: Event.callback cb' (some reply) :: t, ?_, ?_⟩,
              ?_, ?_, ?_, w5, w6⟩
            · simp only [ht, emit, List.append_assoc, List.singleton_append]
            · intro hn
              simp [noStale, staleAt] at hn
            · intro hc
              exact w2 hc
            · intro hc he'
              exact w3 hc he'
            · intro hf
              exact w4 hf
        · rcases hcase with ⟨hsh, _⟩ | hsh <;>
            · rw [hsh] at hs
              simp only [Prod.mk.injEq] at hs
              exact absurd hs.1.symm hok
    split at h
    · cases hr : __mongoRunCallback api prog
          (if status = MONGO_OK then ac1 else emit ac1 (Event.unsolicited reply)) cb'
          (some reply) with
      | none => simp [hr] at h
      | some ac2 =>
        rw [hr] at h
        simp only at h
        have r2 := (hstep ac2 hr).trans (hfree ac2)
        split at h
        · rename_i hfr
          exact r2.trans (mongoAsyncFree_inner_rel api hapi prog n _ ac' (Or.inr hfr) h).1
        · exact r2.trans (ih cb' _ ac' h)
    · rename_i hfn
      have hfn' : cb'.fn = none := by simpa using hfn
      have hr : __mongoRunCallback api prog
          (if status = MONGO_OK then ac1 else emit ac1 (Event.unsolicited reply)) cb'
          (some reply)
          = some (if status = MONGO_OK then ac1 else emit ac1 (Event.unsolicited reply)) := by
        unfold __mongoRunCallback
        rw [hfn']
      exact ((hstep _ hr).trans (hfree _)).trans (ih cb' _ ac' h)

theorem EL_ADD_READ_rel (ac : mongoAsyncContext) : Rel ac (_EL_ADD_READ ac) := by
  unfold _EL_ADD_READ
  split
  · exact Rel.emit ac _ (by intro _ _ hh; cases hh) (by intro _ hh; cases hh)
  · exact Rel.refl _

theorem EL_DEL_WRITE_rel (ac : mongoAsyncContext) : Rel ac (_EL_DEL_WRITE ac) := by
  unfold _EL_DEL_WRITE
  split
  · exact Rel.emit ac _ (by intro _ _ hh; cases hh) (by intro _ hh; cases hh)
  · exact Rel.refl _

theorem handleConnect_rel (api : Act → mongoAsyncContext → Option mongoAsyncContext)
    (hapi : ∀ a ac ac', api a ac = some ac' → Rel ac ac') (prog : Prog) (n : Nat)
    (chk : SockCheck) (ac ac' : mongoAsyncContext) (status : Int)
    (h : __mongoAsyncHandleConnect api prog n chk ac = some (status, ac')) : Rel ac ac' := by
  unfold __mongoAsyncHandleConnect at h
  cases chk with
  | ok =>
    have hchk : mongoCheckSocketError SockCheck.ok ac = (MONGO_OK, ac) := rfl
    rw [hchk] at h
    simp only [MONGO_ERR_ne_OK.symm, if_false] at h
    cases hoc : ac.onConnect with
    | none =>
      rw [hoc] at h
      simp only [Option.some.injEq, Prod.mk.injEq] at h
      rw [← h.2]
      exact Rel.of_same rfl rfl rfl rfl (fun hc => hc) id
    | some f =>
      rw [hoc] at h
      simp only at h
      split at h
      · rename_i ac3 hh
        simp only [Option.some.injEq, Prod.mk.injEq] at h
        rw [← h.2]
        have r1 := callHook_rel api hapi prog f _ _ _ (Event.onConnect MONGO_OK)
          (by intro _ _ hh; cases hh) (by intro _ hh; cases hh) hh
        refine Rel.trans ?_ r1
        exact Rel.of_same rfl rfl rfl rfl (fun hc => hc) id
      · simp at h
  | failed e =>
    have hchk : mongoCheckSocketError (SockCheck.failed e) ac
        = (MONGO_ERR, { ac with err := some ErrKind.io }) := rfl
    rw [hchk] at h
    simp only [eq_self_iff_true, if_true] at h
    have r0 : Rel ac { ac with err := some ErrKind.io } :=
      Rel.of_same rfl rfl rfl rfl (fun hc => hc) (fun _ => by simp)
    split at h
    · simp only [Option.some.injEq, Prod.mk.injEq] at h
      rw [← h.2]
      exact r0
    · split at h
      · rename_i ac2 hh
        split at h
        · rename_i ac3 hd
          simp only [Option.some.injEq, Prod.mk.injEq] at h
          rw [← h.2]
          have r1 : Rel { ac with err := some ErrKind.io } ac2 := by
            split at hh
            · exact callHook_rel api hapi prog _ _ _ _ (Event.onConnect MONGO_ERR)
                (by intro _ _ hh; cases hh) (by intro _ hh; cases hh) hh
            · simp only [Option.some.injEq] at hh
              rw [← hh]
              exact Rel.refl _
          exact (r0.trans r1).trans (mongoAsyncDisconnect_inner_rel api hapi prog n ac2 ac3
            (Or.inl (r1.err (by simp))) hd)
        · simp at h
      · simp at h

theorem handleConnectFirst_rel (api : Act → mongoAsyncContext → Option mongoAsyncContext)
    (hapi : ∀ a ac ac', api a ac = some ac' → Rel ac ac') (prog : Prog) (n : Nat)
    (chk : SockCheck) (ac ac' : mongoAsyncContext) (go : Bool)
    (h : handleConnectFirst api prog n chk ac = some (go, ac')) : Rel ac ac' := by
  unfold handleConnectFirst at h
  split at h
  · simp only [Option.some.injEq, Prod.mk.injEq] at h
    rw [← h.2]
    exact Rel.refl _
  · split at h
    · rename_i status ac1 hh
      have r := handleConnect_rel api hapi prog n chk ac ac1 status hh
      split at h
      · simp only [Option.some.injEq, Prod.mk.injEq] at h
        rw [← h.2]
        exact r
      · split at h <;>
        · simp only [Option.some.injEq, Prod.mk.injEq] at h
          rw [← h.2]
          exact r
    · simp at h

theorem mongoAsyncHandleRead_rel (api : Act → mongoAsyncContext → Option mongoAsyncContext)
    (hapi : ∀ a ac ac', api a ac = some ac' → Rel ac ac') (prog : Prog) (n : Nat)
    (chk : SockCheck) (rd : Option ErrKind) (rs : List mongoReply) (last : ReaderEnd)
    (ac ac' : mongoAsyncContext)
    (h : mongoAsyncHandleRead api prog n chk rd rs last ac = some ac') : Rel ac ac' := by
  unfold mongoAsyncHandleRead at h
  split at h
  · rename_i ac1 hh
    have r := handleConnectFirst_rel api hapi prog n chk ac ac1 true hh
    cases rd with
    | some k =>
      simp only at h
      have r0 : Rel ac1 { ac1 with err := some k } :=
        Rel.of_same rfl rfl rfl rfl (fun hc => hc) (fun _ => by simp)
      exact (r.trans r0).trans (mongoAsyncDisconnect_inner_rel api hapi prog n _ ac'
        (Or.inl (by simp)) h)
    | none =>
      simp only [mongoProcessCallbacks] at h
      exact (r.trans (EL_ADD_READ_rel ac1)).trans
        (processLoop_rel api hapi prog n last rs _ _ ac' h)
  · rename_i ac1 hh
    simp only [Option.some.injEq] at h
    rw [← h]
    exact handleConnectFirst_rel api hapi prog n chk ac ac1 false hh
  · simp at h

theorem mongoAsyncHandleWrite_rel (api : Act → mongoAsyncContext → Option mongoAsyncContext)
    (hapi : ∀ a ac ac', api a ac = some ac' → Rel ac ac') (prog : Prog) (n : Nat)
    (chk : SockCheck) (wr : Except ErrKind Nat) (ac ac' : mongoAsyncContext)
    (h : mongoAsyncHandleWrite api prog n chk wr ac = some ac') : Rel ac ac' := by
  unfold mongoAsyncHandleWrite at h
  split at h
  · rename_i ac1 hh
    have r := handleConnectFirst_rel api hapi prog n chk ac ac1 true hh
    cases wr with
    | error k =>
      simp only at h
      have r0 : Rel ac1 { ac1 with err := some k } :=
        Rel.of_same rfl rfl rfl rfl (fun hc => hc) (fun _ => by simp)
      exact (r.trans r0).trans (mongoAsyncDisconnect_inner_rel api hapi prog n _ ac'
        (Or.inl (by simp)) h)
    | ok m =>
      simp only [Option.some.injEq] at h
      rw [← h]
      have r0 : Rel ac1 (mongoBufferWrite m ac1) :=
        Rel.of_same rfl rfl rfl rfl (fun hc => hc) id
      refine (r.trans r0).trans (Rel.trans ?_ (EL_ADD_READ_rel _))
      split
      · exact EL_ADD_WRITE_rel _
      · exact EL_DEL_WRITE_rel _
  · rename_i ac1 hh
    simp only [Option.some.injEq] at h
    rw [← h]
    exact handleConnectFirst_rel api hapi prog n chk ac ac1 false hh
  · simp at h

theorem callStep_rel (prog : Prog) (fuel : Nat) (c : Call) (ac ac' : mongoAsyncContext)
    (h : callStep prog fuel c ac = some ac') : Rel ac ac' := by
  cases c with
  | act a => exact apiCall_rel prog _ a ac ac' h
  | processCallbacks rs last =>
    simp only [callStep, mongoProcessCallbacks] at h
    exact processLoop_rel _ (apiCall_rel prog fuel) prog _ last rs _ ac ac' h
  | handleRead chk rd rs last =>
    simp only [callStep] at h
    exact mongoAsyncHandleRead_rel _ (apiCall_rel prog fuel) prog _ chk rd rs last ac ac' h
  | handleWrite chk wr =>
    simp only [callStep] at h
    exact mongoAsyncHandleWrite_rel _ (apiCall_rel prog fuel) prog _ chk wr ac ac' h

theorem runCalls_rel (prog : Prog) (fuel : Nat) (cs : List Call) :
    ∀ (ac ac' : mongoAsyncContext), runCalls prog fuel cs ac = some ac' → Rel ac ac' := by
  induction cs with
  | nil =>
    intro ac ac' h
    simp only [runCalls, Option.some.injEq] at h
    subst h
    exact Rel.refl _
  | cons c cs ih =>
    intro ac ac' h
    simp only [runCalls] at h
    split at h
    · simp only [Option.some.injEq] at h
      subst h
      exact Rel.refl _
    · cases hc : callStep prog fuel c ac with
      | none => simp [hc] at h
      | some ac1 =>
        rw [hc] at h
        exact (callStep_rel prog fuel c ac ac1 hc).trans (ih ac1 ac' h)

/-- Safety half of the exactly-once property, for any lifetime. -/
theorem exactly_once_of_run (prog : Prog) (fuel : Nat) (cs : List Call) (ev : EvHooks)
    (onConnect onDisconnect : Option Nat) (final : mongoAsyncContext) (cb : mongoCallback)
    (hrun : runCalls prog fuel cs (mongoAsyncInitialize ev onConnect onDisconnect) = some final)
    (hfreed : final.freed = true) (hsol : noStale final.trace = true) (hcb : cb.fn ≠ none) :
    (cb.flags &&& QUERY_FLAG_EXHAUST = 0 →
        invocations cb final.trace = enqueues cb final.trace)
      ∧ finals cb final.trace = enqueues cb final.trace
      ∧ invocations cb final.trace = enqueues cb final.trace + retained cb final.trace
      ∧ final.replies = [] := by
  have r := runCalls_rel prog fuel cs _ final hrun
  obtain ⟨t, ht, hcount⟩ := r.trace
  simp only [mongoAsyncInitialize, List.nil_append] at ht
  have hempty : final.replies = [] := by
    rcases r.freed hfreed with h | h
    · simp [mongoAsyncInitialize] at h
    · exact h.1
  rw [ht] at hsol
  have := hcount hsol cb hcb
  simp only [mongoAsyncInitialize, hempty, List.count_nil] at this
  have hfin : finals cb final.trace = enqueues cb final.trace := by
    rw [ht]
    omega
  have hsplit := invocations_split cb final.trace
  refine ⟨?_, hfin, by omega, hempty⟩
  intro hx
  have := retained_plain cb hx final.trace
  omega


/-! ### Termination: with enough fuel every call returns -/

theorem mongoAsyncQuery_flags (ac : mongoAsyncContext) (cb : mongoCallback)
    (frame : Option (List Nat)) :
    (mongoAsyncQuery ac cb frame).2.flags = ac.flags
      ∧ (Closing ac → (mongoAsyncQuery ac cb frame).2 = ac) := by
  unfold mongoAsyncQuery
  split
  · exact ⟨rfl, fun _ => rfl⟩
  · rename_i hcl
    have hncl : ¬ Closing ac := by
      unfold Closing
      simp only [Bool.or_eq_true, not_or] at hcl ⊢
      exact hcl
    cases frame with
    | none => exact ⟨rfl, fun _ => rfl⟩
    | some bytes =>
      refine ⟨?_, fun h => absurd h hncl⟩
      simp only [_EL_ADD_WRITE, __mongoPushCallback, emit]
      split <;> rfl

theorem mongoAsyncWrite_flags (ac : mongoAsyncContext) (fn : Option Nat) (privdata : Nat)
    (frame gle : Built) :
    (mongoAsyncWrite ac fn privdata frame gle).2.flags = ac.flags
      ∧ (Closing ac → (mongoAsyncWrite ac fn privdata frame gle).2 = ac) := by
  unfold mongoAsyncWrite
  split
  · exact ⟨rfl, fun _ => rfl⟩
  · rename_i hcl
    have hncl : ¬ Closing ac := by
      unfold Closing
      simp only [Bool.or_eq_true, not_or] at hcl ⊢
      exact hcl
    refine ⟨?_, fun h => absurd h hncl⟩
    cases frame with
    | failed status => rfl
    | ok bytes =>
      cases fn with
      | none =>
        simp only [_EL_ADD_WRITE, emit]
        split <;> rfl
      | some f =>
        cases gle with
        | failed status => rfl
        | ok bytes' =>
          simp only [_EL_ADD_WRITE, __mongoPushCallback, emit]
          split <;> rfl

/-- A call of the API made while a callback runs returns at once. -/
theorem apiCall_in_callback (prog : Prog) (a : Act) (ac : mongoAsyncContext)
    (hin : ac.flags.in_callback = true) :
    ∃ ac', (∀ f, apiCall prog (f + 1) a ac = some ac') ∧ ac'.flags.in_callback = true
      ∧ (Closing ac → ac'.replies = ac.replies ∧ Closing ac') := by
  cases a with
  | query cb frame =>
    obtain ⟨h1, h2⟩ := mongoAsyncQuery_flags ac cb frame
    refine ⟨(mongoAsyncQuery ac cb frame).2, fun f => rfl, by rw [h1]; exact hin, ?_⟩
    intro hc
    rw [h2 hc]
    exact ⟨rfl, hc⟩
  | write fn privdata frame gle =>
    obtain ⟨h1, h2⟩ := mongoAsyncWrite_flags ac fn privdata frame gle
    refine ⟨(mongoAsyncWrite ac fn privdata frame gle).2, fun f => rfl, by rw [h1]; exact hin, ?_⟩
    intro hc
    rw [h2 hc]
    exact ⟨rfl, hc⟩
  | asyncFree =>
    refine ⟨{ ac with flags := { ac.flags with freeing := true } }, ?_, hin, ?_⟩
    · intro f
      simp [apiCall, mongoAsyncFree, hin]
    · intro _
      exact ⟨rfl, Or.inr rfl⟩
  | asyncDisconnect =>
    refine ⟨{ ac with flags := { ac.flags with disconnecting := true } }, ?_, hin, ?_⟩
    · intro f
      simp [apiCall, mongoAsyncDisconnect, hin]
    · intro _
      exact ⟨rfl, Or.inl rfl⟩

theorem userCode_in_callback (prog : Prog) (acts : List Act) :
    ∀ ac : mongoAsyncContext, ac.flags.in_callback = true →
      ∃ ac', (∀ f, userCode (apiCall prog (f + 1)) acts ac = some ac')
        ∧ ac'.flags.in_callback = true
        ∧ (Closing ac → ac'.replies = ac.replies ∧ Closing ac') := by
  induction acts with
  | nil =>
    intro ac hin
    exact ⟨ac, fun _ => rfl, hin, fun hc => ⟨rfl, hc⟩⟩
  | cons a rest ih =>
    intro ac hin
    obtain ⟨ac1, h1, hin1, hc1⟩ := apiCall_in_callback prog a ac hin
    obtain ⟨ac2, h2, hin2, hc2⟩ := ih ac1 hin1
    refine ⟨ac2, ?_, hin2, ?_⟩
    · intro f
      simp only [userCode, h1 f, h2 f]
    · intro hc
      obtain ⟨e1, c1⟩ := hc1 hc
      obtain ⟨e2, c2⟩ := hc2 c1
      exact ⟨e2.trans e1, c2⟩

theorem runCallback_returns (prog : Prog) (ac : mongoAsyncContext) (cb : mongoCallback)
    (rpl : Option mongoReply) :
    ∃ ac2, (∀ f, __mongoRunCallback (apiCall prog (f + 1)) prog ac cb rpl = some ac2)
      ∧ (ac.flags.in_callback = false → ac2.flags.in_callback = false)
      ∧ (Closing ac → ac2.replies = ac.replies ∧ Closing ac2) := by
  unfold __mongoRunCallback
  cases hfn : cb.fn with
  | none => exact ⟨ac, fun _ => rfl, id, fun hc => ⟨rfl, hc⟩⟩
  | some fn =>
    obtain ⟨acu, hu, _, hcu⟩ := userCode_in_callback prog (prog.callback fn rpl cb.privdata)
      (emit { ac with flags := { ac.flags with in_callback := true } } (Event.callback cb rpl))
      rfl
    refine ⟨{ acu with flags := { acu.flags with in_callback := false } }, ?_, fun _ => rfl, ?_⟩
    · intro f
      simp only [hu f]
    · intro hc
      obtain ⟨e, c⟩ := hcu hc
      exact ⟨e, c⟩

theorem flushLoop_returns (prog : Prog) (k : Nat) :
    ∀ ac : mongoAsyncContext, ac.replies.length = k → (Closing ac ∨ k = 0) →
      ∃ ac', (∀ f n cb, k + 1 ≤ n → flushLoop (apiCall prog (f + 1)) prog n cb ac = some ac')
        ∧ (ac.flags.in_callback = false → ac'.flags.in_callback = false) := by
  induction k with
  | zero =>
    intro ac hlen _
    have he : ac.replies = [] := List.length_eq_zero.mp hlen
    refine ⟨ac, ?_, id⟩
    intro f n cb hn
    obtain ⟨m, rfl⟩ : ∃ m, n = m + 1 := ⟨n - 1, by omega⟩
    simp [flushLoop, __mongoShiftCallback, he, MONGO_ERR_ne_OK]
  | succ k ih =>
    intro ac hlen hcl
    have hc : Closing ac := by
      rcases hcl with h | h
      · exact h
      · omega
    obtain ⟨h, rest, hq⟩ : ∃ h rest, ac.replies = h :: rest := by
      cases hq : ac.replies with
      | nil => rw [hq] at hlen; simp at hlen
      | cons h rest => exact ⟨h, rest, rfl⟩
    have hlr : rest.length = k := by
      rw [hq] at hlen
      simpa using hlen
    obtain ⟨ac2, hr, hin2, hc2⟩ := runCallback_returns prog { ac with replies := rest } h none
    obtain ⟨e2, c2⟩ := hc2 hc
    obtain ⟨ac', hfl, hin'⟩ := ih ac2 (by rw [e2]; exact hlr) (Or.inl c2)
    refine ⟨ac', ?_, fun hi => hin' (hin2 hi)⟩
    intro f n cb hn
    obtain ⟨m, rfl⟩ : ∃ m, n = m + 1 := ⟨n - 1, by omega⟩
    have hsh : __mongoShiftCallback ac none cb = (MONGO_OK, h, { ac with replies := rest }) := by
      simp [__mongoShiftCallback, hq]
    simp only [flushLoop, hsh, if_true, hr f]
    exact hfl f m h (by omega)

theorem userCode_queries (prog : Prog) (acts : List Act)
    (hq : ∀ a ∈ acts, a ≠ Act.asyncFree ∧ a ≠ Act.asyncDisconnect) :
    ∀ ac : mongoAsyncContext, ∃ ac', (∀ f, userCode (apiCall prog (f + 1)) acts ac = some ac')
      ∧ ac'.flags = ac.flags := by
  induction acts with
  | nil => intro ac; exact ⟨ac, fun _ => rfl, rfl⟩
  | cons a rest ih =>
    intro ac
    have ha := hq a (List.mem_cons_self _ _)
    have ih' := ih (fun x hx => hq x (List.mem_cons_of_mem _ hx))
    cases a with
    | query cb frame =>
      obtain ⟨ac', h', hf'⟩ := ih' (mongoAsyncQuery ac cb frame).2
      refine ⟨ac', ?_, by rw [hf', (mongoAsyncQuery_flags ac cb frame).1]⟩
      intro f
      simp only [userCode, apiCall, h' f]
    | write fn privdata frame gle =>
      obtain ⟨ac', h', hf'⟩ := ih' (mongoAsyncWrite ac fn privdata frame gle).2
      refine ⟨ac', ?_, by rw [hf', (mongoAsyncWrite_flags ac fn privdata frame gle).1]⟩
      intro f
      simp only [userCode, apiCall, h' f]
    | asyncFree => exact absurd rfl ha.1
    | asyncDisconnect => exact absurd rfl ha.2


theorem EL_CLEANUP_same (ac : mongoAsyncContext) :
    (_EL_CLEANUP ac).flags = ac.flags ∧ (_EL_CLEANUP ac).replies = ac.replies := by
  unfold _EL_CLEANUP
  split <;> exact ⟨rfl, rfl⟩

theorem callHook_returns (prog : Prog) (hh : HooksSubmitOnly prog) (e : Event) (fn : Nat)
    (status : Int) (ac : mongoAsyncContext) :
    ∃ ac', (∀ f, callHook (apiCall prog (f + 1)) prog e fn status ac = some ac')
      ∧ ac'.flags = ac.flags := by
  obtain ⟨ac', h, hf⟩ := userCode_queries prog (prog.hook fn status) (hh fn status) (emit ac e)
  exact ⟨ac', fun f => by simp only [callHook, h f], hf⟩

theorem asyncFree_inner_returns (prog : Prog) (hh : HooksSubmitOnly prog)
    (ac : mongoAsyncContext) (hc : Closing ac ∨ ac.replies.length = 0) :
    ∃ ac', (∀ f n, ac.replies.length + 1 ≤ n →
        __mongoAsyncFree (apiCall prog (f + 1)) prog n ac = some ac')
      ∧ ac'.freed = true
      ∧ (ac.flags.in_callback = false → ac'.flags.in_callback = false) := by
  obtain ⟨ac1, hfl, hin1⟩ := flushLoop_returns prog ac.replies.length ac rfl hc
  obtain ⟨hcf, _⟩ := EL_CLEANUP_same ac1
  cases hd : (_EL_CLEANUP ac1).onDisconnect with
  | none =>
    refine ⟨{ emit (_EL_CLEANUP ac1) Event.mongoFree with freed := true }, ?_, rfl, ?_⟩
    · intro f n hn
      unfold __mongoAsyncFree
      rw [hfl f n _ hn]
      simp only [hd]
    · intro hi
      simp only [emit, hcf]
      exact hin1 hi
  | some fn =>
    by_cases h1 : (_EL_CLEANUP ac1).flags.connected = true
    · by_cases h2 : (_EL_CLEANUP ac1).flags.freeing = true
      · obtain ⟨ac3, h3, hf3⟩ := callHook_returns prog hh (Event.onDisconnect MONGO_OK) fn
          MONGO_OK (_EL_CLEANUP ac1)
        refine ⟨{ emit ac3 Event.mongoFree with freed := true }, ?_, rfl, ?_⟩
        · intro f n hn
          unfold __mongoAsyncFree
          rw [hfl f n _ hn]
          simp only [hd, h1, h2, if_true, h3 f]
        · intro hi
          simp only [emit, hf3, hcf]
          exact hin1 hi
      · obtain ⟨ac3, h3, hf3⟩ := callHook_returns prog hh
          (Event.onDisconnect (if (_EL_CLEANUP ac1).acErr = none then MONGO_OK else MONGO_ERR)) fn
          (if (_EL_CLEANUP ac1).acErr = none then MONGO_OK else MONGO_ERR) (_EL_CLEANUP ac1)
        refine ⟨{ emit ac3 Event.mongoFree with freed := true }, ?_, rfl, ?_⟩
        · intro f n hn
          unfold __mongoAsyncFree
          rw [hfl f n _ hn]
          simp only [hd, h1, h2, if_true, if_false, Bool.false_eq_true, h3 f]
        · intro hi
          simp only [emit, hf3, hcf]
          exact hin1 hi
    · refine ⟨{ emit (_EL_CLEANUP ac1) Event.mongoFree with freed := true }, ?_, rfl, ?_⟩
      · intro f n hn
        unfold __mongoAsyncFree
        rw [hfl f n _ hn]
        simp only [hd, h1, if_false, Bool.false_eq_true]
      · intro hi
        simp only [emit, hcf]
        exact hin1 hi

theorem mongoAsyncFree_returns (prog : Prog) (hh : HooksSubmitOnly prog)
    (ac : mongoAsyncContext) :
    ∃ ac', (∀ f n, ac.replies.length + 1 ≤ n →
        mongoAsyncFree (apiCall prog (f + 1)) prog n ac = some ac')
      ∧ (ac.flags.in_callback = false → ac'.flags.in_callback = false ∧ ac'.freed = true) := by
  by_cases hin : ac.flags.in_callback = true
  · refine ⟨{ ac with flags := { ac.flags with freeing := true } }, ?_, ?_⟩
    · intro f n _
      simp [mongoAsyncFree, hin]
    · intro h
      rw [h] at hin
      exact absurd hin (by decide)
  · obtain ⟨ac', h, hfr, hi⟩ := asyncFree_inner_returns prog hh
      { ac with flags := { ac.flags with freeing := true } } (Or.inl (Or.inr rfl))
    refine ⟨ac', ?_, fun hi0 => ⟨hi hi0, hfr⟩⟩
    intro f n hn
    unfold mongoAsyncFree
    dsimp only
    split
    · rename_i h1
      exact absurd h1 hin
    · exact h f n hn

theorem asyncDisconnect_inner_returns (prog : Prog) (hh : HooksSubmitOnly prog)
    (ac : mongoAsyncContext) :
    ∃ ac', (∀ f n, ac.replies.length + 1 ≤ n →
        __mongoAsyncDisconnect (apiCall prog (f + 1)) prog n ac = some ac')
      ∧ (ac.flags.in_callback = false → ac'.flags.in_callback = false) := by
  unfold __mongoAsyncDisconnect __mongoAsyncCopyError
  simp only
  by_cases herr : ac.err = none
  · by_cases hq : ac.replies = []
    · obtain ⟨ac', h, _, hi⟩ := asyncFree_inner_returns prog hh { ac with acErr := ac.err }
        (Or.inr (by simp [hq]))
      refine ⟨ac', ?_, hi⟩
      intro f n hn
      have := h f n hn
      simp only [herr, hq, if_true] at this ⊢
      exact this
    · refine ⟨{ ({ ac with acErr := ac.err } : mongoAsyncContext) with aborted := true }, ?_, id⟩
      intro f n _
      simp only [herr, hq, if_true, if_false]
  · obtain ⟨ac', h, _, hi⟩ := asyncFree_inner_returns prog hh
      { ({ ac with acErr := ac.err } : mongoAsyncContext) with
        flags := { ac.flags with disconnecting := true } } (Or.inl (Or.inl rfl))
    refine ⟨ac', ?_, hi⟩
    intro f n hn
    simp only [herr, if_false]
    exact h f n hn

theorem mongoAsyncDisconnect_returns (prog : Prog) (hh : HooksSubmitOnly prog)
    (ac : mongoAsyncContext) :
    ∃ ac', (∀ f n, ac.replies.length + 1 ≤ n →
        mongoAsyncDisconnect (apiCall prog (f + 1)) prog n ac = some ac')
      ∧ (ac.flags.in_callback = false → ac'.flags.in_callback = false) := by
  unfold mongoAsyncDisconnect
  simp only
  by_cases hcond : (!ac.flags.in_callback && decide (ac.replies = [])) = true
  · obtain ⟨ac', h, hi⟩ := asyncDisconnect_inner_returns prog hh
      { ac with flags := { ac.flags with disconnecting := true } }
    refine ⟨ac', ?_, hi⟩
    intro f n hn
    simp only [hcond, if_true]
    exact h f n hn
  · refine ⟨{ ac with flags := { ac.flags with disconnecting := true } }, ?_, id⟩
    intro f n _
    simp only [hcond, if_false]
    rfl

theorem processLoop_returns (prog : Prog) (hh : HooksSubmitOnly prog) (last : ReaderEnd)
    (rs : List mongoReply) :
    ∀ (cb : mongoCallback) (ac : mongoAsyncContext),
      ∃ N ac', (∀ f n, N ≤ n →
          processLoop (apiCall prog (f + 1)) prog n last rs cb ac = some ac')
        ∧ (ac.flags.in_callback = false → ac'.flags.in_callback = false) := by
  induction rs with
  | nil =>
    intro cb ac
    cases last with
    | idle =>
      by_cases hcond : (ac.flags.disconnecting && decide (ac.obuf = [])
          && decide (ac.replies = [])) = true
      · obtain ⟨ac', h, hi⟩ := asyncDisconnect_inner_returns prog hh ac
        refine ⟨ac.replies.length + 1, ac', ?_, hi⟩
        intro f n hn
        simp only [processLoop, hcond, if_true]
        exact h f n hn
      · refine ⟨0, ac, ?_, id⟩
        intro f n _
        simp only [processLoop, hcond, if_false]
        rfl
    | error k =>
      obtain ⟨ac', h, hi⟩ := asyncDisconnect_inner_returns prog hh { ac with err := some k }
      refine ⟨ac.replies.length + 1, ac', ?_, hi⟩
      intro f n hn
      simp only [processLoop]
      exact h f n hn
  | cons reply rs ih =>
    intro cb ac
    rcases hs : __mongoShiftCallback ac (some reply) cb with ⟨status, cb', ac1⟩
    have hin1 : ac1.flags = ac.flags := by
      rcases shift_cases ac (some reply) cb with ⟨_, hsh⟩ | ⟨h', rest, _, hcase⟩
      · rw [hsh] at hs
        simp only [Prod.mk.injEq] at hs
        obtain ⟨_, _, rfl⟩ := hs
        rfl
      · rcases hcase with ⟨hsh, _⟩ | hsh <;>
          · rw [hsh] at hs
            simp only [Prod.mk.injEq] at hs
            obtain ⟨_, _, rfl⟩ := hs
            rfl
    have hin1' : (if status = MONGO_OK then ac1 else emit ac1 (Event.unsolicited reply)).flags
        = ac.flags := by
      split
      · exact hin1
      · simp only [emit, hin1]
    by_cases hfn : cb'.fn ≠ none
    · obtain ⟨ac2, hr, hin2, _⟩ := runCallback_returns prog
        (if status = MONGO_OK then ac1 else emit ac1 (Event.unsolicited reply)) cb' (some reply)
      by_cases hfr : (emit ac2 (Event.freeObject reply)).flags.freeing = true
      · obtain ⟨ac', h, _, hi⟩ := asyncFree_inner_returns prog hh
          (emit ac2 (Event.freeObject reply)) (Or.inl (Or.inr hfr))
        refine ⟨(emit ac2 (Event.freeObject reply)).replies.length + 1, ac', ?_, ?_⟩
        · intro f n hn
          simp only [processLoop, hs]
          rw [if_pos hfn]
          simp only [hr f, hfr, if_true]
          exact h f n hn
        · intro hi0
          exact hi (by simp only [emit]; exact hin2 (by rw [hin1']; exact hi0))
      · obtain ⟨N, ac', h, hi⟩ := ih cb' (emit ac2 (Event.freeObject reply))
        refine ⟨N, ac', ?_, ?_⟩
        · intro f n hn
          simp only [processLoop, hs]
          rw [if_pos hfn]
          simp only [hr f, hfr, if_false]
          exact h f n hn
        · intro hi0
          exact hi (by simp only [emit]; exact hin2 (by rw [hin1']; exact hi0))
    · obtain ⟨N, ac', h, hi⟩ := ih cb'
        (emit (if status = MONGO_OK then ac1 else emit ac1 (Event.unsolicited reply))
          (Event.freeObject reply))
      refine ⟨N, ac', ?_, ?_⟩
      · intro f n hn
        simp only [processLoop, hs]
        rw [if_neg hfn]
        exact h f n hn
      · intro hi0
        have : (emit (if status = MONGO_OK then ac1 else emit ac1 (Event.unsolicited reply))
            (Event.freeObject reply)).flags = ac.flags := hin1'
        exact hi (by rw [this]; exact hi0)


theorem EL_ADD_READ_flags (ac : mongoAsyncContext) : (_EL_ADD_READ ac).flags = ac.flags := by
  unfold _EL_ADD_READ
  split <;> rfl

theorem EL_ADD_WRITE_flags (ac : mongoAsyncContext) : (_EL_ADD_WRITE ac).flags = ac.flags := by
  unfold _EL_ADD_WRITE
  split <;> rfl

theorem EL_DEL_WRITE_flags (ac : mongoAsyncContext) : (_EL_DEL_WRITE ac).flags = ac.flags := by
  unfold _EL_DEL_WRITE
  split <;> rfl

theorem handleConnect_returns (prog : Prog) (hh : HooksSubmitOnly prog) (chk : SockCheck)
    (ac : mongoAsyncContext) :
    ∃ N r, (∀ f n, N ≤ n →
        __mongoAsyncHandleConnect (apiCall prog (f + 1)) prog n chk ac = some r)
      ∧ (ac.flags.in_callback = false → r.2.flags.in_callback = false) := by
  obtain ⟨err, flags, obuf, acErr, ev, onConnect, onDisconnect, replies, trace, freed, aborted⟩ :=
    ac
  cases chk with
  | ok =>
    cases onConnect with
    | none =>
      refine ⟨0, (MONGO_OK, ⟨err, { flags with connected := true }, obuf, acErr, ev, none,
        onDisconnect, replies, trace, freed, aborted⟩), ?_, fun hi => hi⟩
      intro f n _
      unfold __mongoAsyncHandleConnect mongoCheckSocketError
      simp only [MONGO_ERR_ne_OK.symm, if_false]
    | some fn =>
      obtain ⟨ac3, h3, hf3⟩ := callHook_returns prog hh (Event.onConnect MONGO_OK) fn MONGO_OK
        ⟨err, { flags with connected := true }, obuf, acErr, ev, some fn, onDisconnect, replies,
          trace, freed, aborted⟩
      refine ⟨0, (MONGO_OK, ac3), ?_, ?_⟩
      · intro f n _
        unfold __mongoAsyncHandleConnect mongoCheckSocketError
        simp only [MONGO_ERR_ne_OK.symm, if_false, h3 f]
      · intro hi
        simp only [hf3]
        exact hi
  | failed e =>
    cases e with
    | true =>
      refine ⟨0, (MONGO_OK, ⟨some ErrKind.io, flags, obuf, acErr, ev, onConnect, onDisconnect,
        replies, trace, freed, aborted⟩), ?_, fun hi => hi⟩
      intro f n _
      unfold __mongoAsyncHandleConnect mongoCheckSocketError
      simp only [eq_self_iff_true, if_true]
    | false =>
      have hne : ¬ (SockCheck.failed false = SockCheck.failed true) := by decide
      cases onConnect with
      | none =>
        obtain ⟨ac3, h3, hi3⟩ := asyncDisconnect_inner_returns prog hh
          ⟨some ErrKind.io, flags, obuf, acErr, ev, none, onDisconnect, replies, trace, freed,
            aborted⟩
        refine ⟨replies.length + 1, (MONGO_ERR, ac3), ?_, hi3⟩
        intro f n hn
        unfold __mongoAsyncHandleConnect mongoCheckSocketError
        simp only [eq_self_iff_true, if_true, hne, if_false, h3 f n hn]
      | some fn =>
        obtain ⟨ac2, h2, hf2⟩ := callHook_returns prog hh (Event.onConnect MONGO_ERR) fn
          MONGO_ERR ⟨some ErrKind.io, flags, obuf, acErr, ev, some fn, onDisconnect, replies,
            trace, freed, aborted⟩
        obtain ⟨ac3, h3, hi3⟩ := asyncDisconnect_inner_returns prog hh ac2
        refine ⟨ac2.replies.length + 1, (MONGO_ERR, ac3), ?_, ?_⟩
        · intro f n hn
          unfold __mongoAsyncHandleConnect mongoCheckSocketError
          simp only [eq_self_iff_true, if_true, hne, if_false, h2 f, h3 f n hn]
        · intro hi
          exact hi3 (by rw [hf2]; exact hi)

theorem handleConnectFirst_returns (prog : Prog) (hh : HooksSubmitOnly prog) (chk : SockCheck)
    (ac : mongoAsyncContext) :
    ∃ N r, (∀ f n, N ≤ n →
        handleConnectFirst (apiCall prog (f + 1)) prog n chk ac = some r)
      ∧ (ac.flags.in_callback = false → r.2.flags.in_callback = false) := by
  by_cases hcon : ac.flags.connected = true
  · refine ⟨0, (true, ac), ?_, id⟩
    intro f n _
    unfold handleConnectFirst
    rw [if_pos hcon]
  · obtain ⟨N, ⟨status, ac1⟩, h, hi⟩ := handleConnect_returns prog hh chk ac
    by_cases hst : status ≠ MONGO_OK
    · refine ⟨N, (false, ac1), ?_, hi⟩
      intro f n hn
      unfold handleConnectFirst
      rw [if_neg hcon, h f n hn]
      simp only
      rw [if_pos hst]
    · by_cases hc1 : ac1.flags.connected = true
      · refine ⟨N, (true, ac1), ?_, hi⟩
        intro f n hn
        unfold handleConnectFirst
        rw [if_neg hcon, h f n hn]
        simp only
        rw [if_neg hst, if_pos hc1]
      · refine ⟨N, (false, ac1), ?_, hi⟩
        intro f n hn
        unfold handleConnectFirst
        rw [if_neg hcon, h f n hn]
        simp only
        rw [if_neg hst, if_neg hc1]

theorem mongoAsyncHandleRead_returns (prog : Prog) (hh : HooksSubmitOnly prog)
    (chk : SockCheck) (rd : Option ErrKind) (rs : List mongoReply) (last : ReaderEnd)
    (ac : mongoAsyncContext) :
    ∃ N ac', (∀ f n, N ≤ n →
        mongoAsyncHandleRead (apiCall prog (f + 1)) prog n chk rd rs last ac = some ac')
      ∧ (ac.flags.in_callback = false → ac'.flags.in_callback = false) := by
  obtain ⟨N1, ⟨go, ac1⟩, h1, hi1⟩ := handleConnectFirst_returns prog hh chk ac
  cases go with
  | false =>
    refine ⟨N1, ac1, ?_, hi1⟩
    intro f n hn
    unfold mongoAsyncHandleRead
    rw [h1 f n hn]
  | true =>
    cases rd with
    | some k =>
      obtain ⟨ac3, h3, hi3⟩ := asyncDisconnect_inner_returns prog hh { ac1 with err := some k }
      refine ⟨max N1 (ac1.replies.length + 1), ac3, ?_, fun hi => hi3 (hi1 hi)⟩
      intro f n hn
      unfold mongoAsyncHandleRead
      rw [h1 f n (le_trans (le_max_left _ _) hn)]
      exact h3 f n (le_trans (le_max_right _ _) hn)
    | none =>
      obtain ⟨N2, ac3, h3, hi3⟩ := processLoop_returns prog hh last rs
        { fn := none, flags := 0, privdata := 0 } (_EL_ADD_READ ac1)
      refine ⟨max N1 N2, ac3, ?_, ?_⟩
      · intro f n hn
        unfold mongoAsyncHandleRead
        rw [h1 f n (le_trans (le_max_left _ _) hn)]
        exact h3 f n (le_trans (le_max_right _ _) hn)
      · intro hi
        exact hi3 (by rw [EL_ADD_READ_flags]; exact hi1 hi)

theorem mongoAsyncHandleWrite_returns (prog : Prog) (hh : HooksSubmitOnly prog)
    (chk : SockCheck) (wr : Except ErrKind Nat) (ac : mongoAsyncContext) :
    ∃ N ac', (∀ f n, N ≤ n →
        mongoAsyncHandleWrite (apiCall prog (f + 1)) prog n chk wr ac = some ac')
      ∧ (ac.flags.in_callback = false → ac'.flags.in_callback = false) := by
  obtain ⟨N1, ⟨go, ac1⟩, h1, hi1⟩ := handleConnectFirst_returns prog hh chk ac
  cases go with
  | false =>
    refine ⟨N1, ac1, ?_, hi1⟩
    intro f n hn
    unfold mongoAsyncHandleWrite
    rw [h1 f n hn]
  | true =>
    cases wr with
    | error k =>
      obtain ⟨ac3, h3, hi3⟩ := asyncDisconnect_inner_returns prog hh { ac1 with err := some k }
      refine ⟨max N1 (ac1.replies.length + 1), ac3, ?_, fun hi => hi3 (hi1 hi)⟩
      intro f n hn
      unfold mongoAsyncHandleWrite
      rw [h1 f n (le_trans (le_max_left _ _) hn)]
      exact h3 f n (le_trans (le_max_right _ _) hn)
    | ok m =>
      refine ⟨N1, _EL_ADD_READ (if (!decide ((mongoBufferWrite m ac1).obuf = [])) = true
        then _EL_ADD_WRITE (mongoBufferWrite m ac1) else _EL_DEL_WRITE (mongoBufferWrite m ac1)),
        ?_, ?_⟩
      · intro f n hn
        unfold mongoAsyncHandleWrite
        rw [h1 f n hn]
      · intro hi
        rw [EL_ADD_READ_flags]
        split
        · rw [EL_ADD_WRITE_flags]
          exact hi1 hi
        · rw [EL_DEL_WRITE_flags]
          exact hi1 hi

theorem callStep_returns (prog : Prog) (hh : HooksSubmitOnly prog) (c : Call)
    (ac : mongoAsyncContext) :
    ∃ N ac', (∀ fuel, N ≤ fuel → callStep prog fuel c ac = some ac')
      ∧ (ac.flags.in_callback = false → ac'.flags.in_callback = false)
      ∧ (c = Call.act Act.asyncFree → ac.flags.in_callback = false → ac'.freed = true) := by
  cases c with
  | act a =>
    cases a with
    | query cb frame =>
      refine ⟨0, (mongoAsyncQuery ac cb frame).2, fun _ _ => rfl, ?_, ?_⟩
      · intro hi
        rw [(mongoAsyncQuery_flags ac cb frame).1]
        exact hi
      · intro hc
        simp at hc
    | write fn privdata frame gle =>
      refine ⟨0, (mongoAsyncWrite ac fn privdata frame gle).2, fun _ _ => rfl, ?_, ?_⟩
      · intro hi
        rw [(mongoAsyncWrite_flags ac fn privdata frame gle).1]
        exact hi
      · intro hc
        simp at hc
    | asyncFree =>
      obtain ⟨ac', h, hi⟩ := mongoAsyncFree_returns prog hh ac
      refine ⟨ac.replies.length + 1, ac', ?_, fun h0 => (hi h0).1, fun _ h0 => (hi h0).2⟩
      intro fuel hf
      obtain ⟨f, rfl⟩ : ∃ f, fuel = f + 1 := ⟨fuel - 1, by omega⟩
      simp only [callStep, apiCall]
      exact h f _ (by omega)
    | asyncDisconnect =>
      obtain ⟨ac', h, hi⟩ := mongoAsyncDisconnect_returns prog hh ac
      refine ⟨ac.replies.length + 1, ac', ?_, hi, ?_⟩
      · intro fuel hf
        obtain ⟨f, rfl⟩ : ∃ f, fuel = f + 1 := ⟨fuel - 1, by omega⟩
        simp only [callStep, apiCall]
        exact h f _ (by omega)
      · intro hc
        simp at hc
  | processCallbacks rs last =>
    obtain ⟨N, ac', h, hi⟩ := processLoop_returns prog hh last rs
      { fn := none, flags := 0, privdata := 0 } ac
    refine ⟨N + 1, ac', ?_, hi, ?_⟩
    · intro fuel hf
      obtain ⟨f, rfl⟩ : ∃ f, fuel = f + 1 := ⟨fuel - 1, by omega⟩
      simp only [callStep, mongoProcessCallbacks]
      exact h f _ (by omega)
    · intro hc
      simp at hc
  | handleRead chk rd rs last =>
    obtain ⟨N, ac', h, hi⟩ := mongoAsyncHandleRead_returns prog hh chk rd rs last ac
    refine ⟨N + 1, ac', ?_, hi, ?_⟩
    · intro fuel hf
      obtain ⟨f, rfl⟩ : ∃ f, fuel = f + 1 := ⟨fuel - 1, by omega⟩
      simp only [callStep]
      exact h f _ (by omega)
    · intro hc
      simp at hc
  | handleWrite chk wr =>
    obtain ⟨N, ac', h, hi⟩ := mongoAsyncHandleWrite_returns prog hh chk wr ac
    refine ⟨N + 1, ac', ?_, hi, ?_⟩
    · intro fuel hf
      obtain ⟨f, rfl⟩ : ∃ f, fuel = f + 1 := ⟨fuel - 1, by omega⟩
      simp only [callStep]
      exact h f _ (by omega)
    · intro hc
      simp at hc

theorem runCalls_stopped (prog : Prog) (fuel : Nat) (cs : List Call) (ac : mongoAsyncContext)
    (h : (ac.freed || ac.aborted) = true) : runCalls prog fuel cs ac = some ac := by
  cases cs with
  | nil => rfl
  | cons c cs => simp only [runCalls, h, if_true]

theorem runCalls_append (prog : Prog) (fuel : Nat) (cs cs' : List Call) :
    ∀ ac ac1 : mongoAsyncContext, runCalls prog fuel cs ac = some ac1 →
      runCalls prog fuel (cs ++ cs') ac = runCalls prog fuel cs' ac1 := by
  induction cs with
  | nil =>
    intro ac ac1 h
    simp only [runCalls, Option.some.injEq] at h
    subst h
    rfl
  | cons c cs ih =>
    intro ac ac1 h
    simp only [List.cons_append, runCalls] at h ⊢
    by_cases hs : (ac.freed || ac.aborted) = true
    · rw [if_pos hs] at h ⊢
      simp only [Option.some.injEq] at h
      subst h
      exact (runCalls_stopped prog fuel cs' ac hs).symm
    · rw [if_neg hs] at h ⊢
      cases hc : callStep prog fuel c ac with
      | none => simp [hc] at h
      | some ac2 =>
        rw [hc] at h
        exact ih ac2 ac1 h

theorem runCalls_returns (prog : Prog) (hh : HooksSubmitOnly prog) (cs : List Call) :
    ∀ ac : mongoAsyncContext, ac.flags.in_callback = false →
      ∃ N final, (∀ fuel, N ≤ fuel → runCalls prog fuel cs ac = some final)
        ∧ final.flags.in_callback = false := by
  induction cs with
  | nil =>
    intro ac hi
    exact ⟨0, ac, fun _ _ => rfl, hi⟩
  | cons c cs ih =>
    intro ac hi
    by_cases hs : (ac.freed || ac.aborted) = true
    · exact ⟨0, ac, fun fuel _ => runCalls_stopped prog fuel _ ac hs, hi⟩
    · obtain ⟨N1, ac1, h1, hi1, _⟩ := callStep_returns prog hh c ac
      obtain ⟨N2, final, h2, hi2⟩ := ih ac1 (hi1 hi)
      refine ⟨max N1 N2, final, ?_, hi2⟩
      intro fuel hf
      simp only [runCalls, hs, if_false, h1 fuel (le_trans (le_max_left _ _) hf)]
      exact h2 fuel (le_trans (le_max_right _ _) hf)

/-- A lifetime that ends with `mongoAsyncFree` called from outside a
callback returns, with the context freed. -/
theorem lifetime_returns (prog : Prog) (hh : HooksSubmitOnly prog) (cs : List Call)
    (ev : EvHooks) (onConnect onDisconnect : Option Nat) :
    ∃ N final, (∀ fuel, N ≤ fuel →
        runCalls prog fuel (cs ++ [Call.act Act.asyncFree])
          (mongoAsyncInitialize ev onConnect onDisconnect) = some final)
      ∧ final.freed = true := by
  obtain ⟨N1, ac1, h1, hi1⟩ := runCalls_returns prog hh cs
    (mongoAsyncInitialize ev onConnect onDisconnect) rfl
  have hab : ac1.aborted = false := by
    have r := runCalls_rel prog N1 cs _ ac1 (h1 N1 (le_refl _))
    cases hb : ac1.aborted with
    | false => rfl
    | true =>
      have := r.aborted hb
      simp [mongoAsyncInitialize] at this
  by_cases hfr : ac1.freed = true
  · refine ⟨N1, ac1, ?_, hfr⟩
    intro fuel hf
    rw [runCalls_append prog fuel cs _ _ ac1 (h1 fuel hf)]
    exact runCalls_stopped prog fuel _ ac1 (by simp [hfr])
  · obtain ⟨N2, ac2, h2, _, hf2⟩ := callStep_returns prog hh (Call.act Act.asyncFree) ac1
    refine ⟨max N1 N2, ac2, ?_, hf2 rfl hi1⟩
    intro fuel hf
    rw [runCalls_append prog fuel cs _ _ ac1 (h1 fuel (le_trans (le_max_left _ _) hf))]
    have hs : ¬ (ac1.freed || ac1.aborted) = true := by
      simp only [hab, Bool.or_false]
      exact hfr
    simp only [runCalls, hs, if_false, Bool.false_eq_true,
      h2 fuel (le_trans (le_max_right _ _) hf)]

/-- C10 (counterexample): one query submitted with the `EXHAUST` flag, then a
reply with `cursorID = 42` and a reply with `cursorID = 0`, then
`mongoAsyncFree`: the record was enqueued once and its callback is invoked
twice, both times with a real reply. -/
theorem C10_exhaust_invoked_twice :
    (runCalls idleProg 3
      [Call.act (Act.query { fn := some 1, flags := QUERY_FLAG_EXHAUST, privdata := 0 } (some [])),
       Call.processCallbacks [{ cursorID := 42, docs := 1 }, { cursorID := 0, docs := 0 }]
         ReaderEnd.idle,
       Call.act Act.asyncFree]
      (mongoAsyncInitialize ⟨true, true, true, true, true⟩ none none)).map
      (fun ac => (ac.freed,
        enqueues { fn := some 1, flags := QUERY_FLAG_EXHAUST, privdata := 0 } ac.trace,
        ac.trace.filter (fun e => match e with
          | Event.callback _ _ => true
          | _ => false)))
    = some (true, 1,
        [Event.callback { fn := some 1, flags := QUERY_FLAG_EXHAUST, privdata := 0 }
            (some { cursorID := 42, docs := 1 }),
         Event.callback { fn := some 1, flags := QUERY_FLAG_EXHAUST, privdata := 0 }
            (some { cursorID := 0, docs := 0 })]) := by
  decide

/-- C10 (amended): over a lifetime of the controller (submit operations,
`mongoAsyncFree` and `mongoAsyncDisconnect` called by the user, read and write
events with whatever the socket and the reader deliver, transport errors
included, and passes of `mongoProcessCallbacks`, in any order, user callbacks
and hooks making API calls of their own) in which no reply that was yielded
while the callback queue was empty has been passed to the callback of an
earlier reply, once the context is freed the queue is empty and every
enqueued record with a non-NULL function has been invoked with a final reply
(one at which it leaves the queue: a real reply or the NULL reply of the
shutdown) exactly as often as it was enqueued; for a record without the
`EXHAUST` flag these are all its invocations, and a record with `EXHAUST` has
been invoked in addition once with each reply whose cursor is not zero that
it was handed.  When the connect/disconnect hooks only submit, every lifetime
that ends with `mongoAsyncFree` does return, with the context freed, so that
this applies.  A trace without any reply yielded on an empty queue is one of
those the statement is about, and so is the run in which a reply arrives
before the first query and is dropped.  While a record with a non-NULL function is at
the head of the queue, `mongoProcessCallbacks` hands it each reply that
arrives, once, and it stays at the head exactly when it has `EXHAUST` and the
cursor of the reply is not zero. -/
theorem C10_plain_callbacks_exactly_once (prog : Prog) (cs : List Call) (ev : EvHooks)
    (onConnect onDisconnect : Option Nat) :
    (∀ fuel final (cb : mongoCallback),
      runCalls prog fuel cs (mongoAsyncInitialize ev onConnect onDisconnect) = some final →
      final.freed = true → noStale final.trace = true → cb.fn ≠ none →
      (cb.flags &&& QUERY_FLAG_EXHAUST = 0 →
          invocations cb final.trace = enqueues cb final.trace)
        ∧ finals cb final.trace = enqueues cb final.trace
        ∧ invocations cb final.trace = enqueues cb final.trace + retained cb final.trace
        ∧ final.replies = [])
    ∧ (HooksSubmitOnly prog →
      ∃ N final, (∀ fuel, N ≤ fuel →
          runCalls prog fuel (cs ++ [Call.act Act.asyncFree])
            (mongoAsyncInitialize ev onConnect onDisconnect) = some final)
        ∧ final.freed = true ∧ final.replies = []
        ∧ (noStale final.trace = true → ∀ cb : mongoCallback, cb.fn ≠ none →
            (cb.flags &&& QUERY_FLAG_EXHAUST = 0 →
                invocations cb final.trace = enqueues cb final.trace)
              ∧ finals cb final.trace = enqueues cb final.trace
              ∧ invocations cb final.trace
                  = enqueues cb final.trace + retained cb final.trace))
    ∧ (∀ t, noUnsolicited t = true → noStale t = true)
    ∧ ((runCalls idleProg 3
          [Call.processCallbacks [{ cursorID := 0, docs := 1 }] ReaderEnd.idle,
           Call.act (Act.query { fn := some 1, flags := 0, privdata := 0 } (some [])),
           Call.processCallbacks [{ cursorID := 0, docs := 2 }] ReaderEnd.idle,
           Call.act Act.asyncFree]
          (mongoAsyncInitialize ⟨true, true, true, true, true⟩ none none)).map
          (fun ac => (ac.freed, noUnsolicited ac.trace, noStale ac.trace,
            invocations { fn := some 1, flags := 0, privdata := 0 } ac.trace,
            enqueues { fn := some 1, flags := 0, privdata := 0 } ac.trace))
        = some (true, false, true, 1, 1))
    ∧ (∀ (fuel n : Nat) (last : ReaderEnd) (r : mongoReply) (rs : List mongoReply)
        (cb h : mongoCallback) (rest : List mongoCallback) (ac : mongoAsyncContext),
        ac.replies = h :: rest → h.fn ≠ none →
        processLoop (apiCall prog fuel) prog n last (r :: rs) cb ac
          = (match __mongoRunCallback (apiCall prog fuel) prog
                (if retains h (some r) = true then ac else { ac with replies := rest }) h
                (some r) with
            | some ac2 =>
              if (emit ac2 (Event.freeObject r)).flags.freeing = true then
                __mongoAsyncFree (apiCall prog fuel) prog n (emit ac2 (Event.freeObject r))
              else processLoop (apiCall prog fuel) prog n last rs h
                (emit ac2 (Event.freeObject r))
            | none => none)
        ∧ ∀ x ac2, __mongoRunCallback (apiCall prog fuel) prog x h (some r) = some ac2 →
            ∃ t, ac2.trace = x.trace ++ Event.callback h (some r) :: t) := by
  refine ⟨?_, ?_, noStale_of_noUnsolicited, by decide, ?_⟩
  · intro fuel final cb hrun hfreed hsol hcb
    exact exactly_once_of_run prog fuel cs ev onConnect onDisconnect final cb hrun hfreed hsol hcb
  · intro hh
    obtain ⟨N, final, hrun, hfreed⟩ := lifetime_returns prog hh cs ev onConnect onDisconnect
    have r := runCalls_rel prog N _ _ final (hrun N (le_refl _))
    have hempty : final.replies = [] := by
      rcases r.freed hfreed with h | h
      · simp [mongoAsyncInitialize] at h
      · exact h.1
    refine ⟨N, final, hrun, hfreed, hempty, ?_⟩
    intro hsol cb hcb
    have h := exactly_once_of_run prog N _ ev onConnect onDisconnect final cb
      (hrun N (le_refl _)) hfreed hsol hcb
    exact ⟨h.1, h.2.1, h.2.2.1⟩
  · intro fuel n last r rs cb h rest ac hq hfn
    refine ⟨?_, ?_⟩
    · simp only [processLoop, shift_head ac (some r) cb h rest hq, if_true]
      rw [if_pos hfn]
    · intro x ac2 hr
      exact run_head (apiCall prog fuel) (apiCall_rel prog fuel) prog x ac2 h (some r) hfn hr

theorem C10_plain_callbacks_exactly_once_witness :
    ∃ N final, (∀ fuel, N ≤ fuel →
        runCalls idleProg fuel
          ([Call.act (Act.query { fn := some 1, flags := 0, privdata := 7 } (some [1])),
            Call.handleWrite SockCheck.ok (Except.ok 1),
            Call.handleRead SockCheck.ok none [{ cursorID := 0, docs := 5 }] ReaderEnd.idle]
            ++ [Call.act Act.asyncFree])
          (mongoAsyncInitialize ⟨true, true, true, true, true⟩ none none) = some final)
      ∧ final.freed = true ∧ final.replies = []
      ∧ (noStale final.trace = true → ∀ cb : mongoCallback, cb.fn ≠ none →
          (cb.flags &&& QUERY_FLAG_EXHAUST = 0 →
              invocations cb final.trace = enqueues cb final.trace)
            ∧ finals cb final.trace = enqueues cb final.trace
            ∧ invocations cb final.trace
                = enqueues cb final.trace + retained cb final.trace) :=
  (C10_plain_callbacks_exactly_once idleProg
    [Call.act (Act.query { fn := some 1, flags := 0, privdata := 7 } (some [1])),
     Call.handleWrite SockCheck.ok (Except.ok 1),
     Call.handleRead SockCheck.ok none [{ cursorID := 0, docs := 5 }] ReaderEnd.idle]
    ⟨true, true, true, true, true⟩ none none).2.1
    (fun _ _ a ha => absurd ha (List.not_mem_nil a))

/-! ## C13, C14: the `EXHAUST` policy and replies without a callback -/

/-- C13: when the queue has the head `h`, `__mongoShiftCallback` copies `h`
to the target; if `h` carries `EXHAUST` and the reply has a non-zero cursor
the queue is left as it is, and if the cursor is zero or `h` lacks `EXHAUST`
the head is removed.  And one `EXHAUST` query followed by a reply with
`cursorID = 42` and a reply with `cursorID = 0` invokes the one callback
twice, in that order, and leaves the queue empty. -/
theorem C13_exhaust_retention (ac : mongoAsyncContext) (h : mongoCallback)
    (rest : List mongoCallback) (r : mongoReply) (target : mongoCallback)
    (hq : ac.replies = h :: rest) :
    (h.flags &&& QUERY_FLAG_EXHAUST ≠ 0 → r.cursorID ≠ 0 →
        __mongoShiftCallback ac (some r) target = (MONGO_OK, h, ac))
    ∧ (h.flags &&& QUERY_FLAG_EXHAUST = 0 ∨ r.cursorID = 0 →
        __mongoShiftCallback ac (some r) target = (MONGO_OK, h, { ac with replies := rest }))
    ∧ (runCalls idleProg 2
        [Call.act (Act.query { fn := some 1, flags := QUERY_FLAG_EXHAUST, privdata := 0 }
          (some [])),
         Call.processCallbacks [{ cursorID := 42, docs := 1 }, { cursorID := 0, docs := 0 }]
           ReaderEnd.idle]
        (mongoAsyncInitialize ⟨true, true, true, true, true⟩ none none)).map
        (fun ac => (callbacks ac.trace, ac.replies))
      = some ([({ fn := some 1, flags := QUERY_FLAG_EXHAUST, privdata := 0 },
                  some { cursorID := 42, docs := 1 }),
               ({ fn := some 1, flags := QUERY_FLAG_EXHAUST, privdata := 0 },
                  some { cursorID := 0, docs := 0 })], []) := by
  refine ⟨?_, ?_, by decide⟩
  · intro hx hc
    unfold __mongoShiftCallback
    rw [hq]
    simp [hx, hc]
  · intro hor
    unfold __mongoShiftCallback
    rw [hq]
    rcases hor with hx | hc
    · simp [hx]
    · simp [hc]

theorem C13_exhaust_retention_witness :
    __mongoShiftCallback
        { mongoAsyncInitialize ⟨true, true, true, true, true⟩ none none with
          replies := [{ fn := some 1, flags := QUERY_FLAG_EXHAUST, privdata := 0 }] }
        (some { cursorID := 42, docs := 1 }) { fn := none, flags := 0, privdata := 0 }
      = (MONGO_OK, { fn := some 1, flags := QUERY_FLAG_EXHAUST, privdata := 0 },
          { mongoAsyncInitialize ⟨true, true, true, true, true⟩ none none with
            replies := [{ fn := some 1, flags := QUERY_FLAG_EXHAUST, privdata := 0 }] }) :=
  (C13_exhaust_retention
    { mongoAsyncInitialize ⟨true, true, true, true, true⟩ none none with
      replies := [{ fn := some 1, flags := QUERY_FLAG_EXHAUST, privdata := 0 }] }
    { fn := some 1, flags := QUERY_FLAG_EXHAUST, privdata := 0 } []
    { cursorID := 42, docs := 1 } { fn := none, flags := 0, privdata := 0 } rfl).1
    (by decide) (by decide)

/-- C14 (code bug): one query is queued and the reader yields two replies in
one pass of `mongoProcessCallbacks`.  The first reply consumes the callback;
when the second is yielded the queue is empty, `__mongoShiftCallback` fails
and leaves the local `cb` as it was, and the callback of the first reply is
invoked a second time, with the second reply. -/
theorem C14_stale_callback_reinvoked :
    (runCalls idleProg 2
      [Call.act (Act.query { fn := some 1, flags := 0, privdata := 7 } (some [])),
       Call.processCallbacks [{ cursorID := 0, docs := 1 }, { cursorID := 0, docs := 2 }]
         ReaderEnd.idle]
      (mongoAsyncInitialize ⟨false, false, false, false, false⟩ none none)).map
      (fun ac => ac.trace)
    = some [Event.push { fn := some 1, flags := 0, privdata := 7 },
        Event.callback { fn := some 1, flags := 0, privdata := 7 }
          (some { cursorID := 0, docs := 1 }),
        Event.freeObject { cursorID := 0, docs := 1 },
        Event.unsolicited { cursorID := 0, docs := 2 },
        Event.callback { fn := some 1, flags := 0, privdata := 7 }
          (some { cursorID := 0, docs := 2 }),
        Event.freeObject { cursorID := 0, docs := 2 }] := by
  decide

/-! ## C15, C16: the submit operations -/

/-- C15: while `DISCONNECTING` or `FREEING` is set, each of the six submit
operations returns `MONGO_ERR` and leaves the context as it is: output
buffer, callback queue and trace (no hook of the event loop is called). -/
theorem C15_submit_rejected_while_closing (ac : mongoAsyncContext) (hc : Closing ac)
    (cb : mongoCallback) (qframe : Option (List Nat)) (fn : Option Nat) (privdata db : Nat)
    (frame : Built) (gle : Option Nat → Built) :
    mongoAsyncQuery ac cb qframe = (MONGO_ERR, ac)
    ∧ mongoAsyncGetMore ac fn privdata qframe = (MONGO_ERR, ac)
    ∧ mongoAsyncInsert ac fn privdata db frame gle = (MONGO_ERR, ac)
    ∧ mongoAsyncUpdate ac fn privdata db frame gle = (MONGO_ERR, ac)
    ∧ mongoAsyncDelete ac fn privdata db frame gle = (MONGO_ERR, ac)
    ∧ mongoAsyncKillCursors ac fn privdata frame gle = (MONGO_ERR, ac) := by
  have h : (ac.flags.disconnecting || ac.flags.freeing) = true := by
    rcases hc with h | h <;> simp [h]
  refine ⟨?_, ?_, ?_, ?_, ?_, ?_⟩ <;>
    simp [mongoAsyncQuery, mongoAsyncGetMore, mongoAsyncInsert, mongoAsyncUpdate,
      mongoAsyncDelete, mongoAsyncKillCursors, mongoAsyncWrite, h]


theorem C15_submit_rejected_while_closing_witness :
    mongoAsyncQuery
        { mongoAsyncInitialize ⟨true, true, true, true, true⟩ none none with
          flags := ⟨false, true, true, false, false⟩ }
        { fn := some 1, flags := 0, privdata := 0 } (some [1])
      = (MONGO_ERR,
        { mongoAsyncInitialize ⟨true, true, true, true, true⟩ none none with
          flags := ⟨false, true, true, false, false⟩ }) :=
  (C15_submit_rejected_while_closing
    { mongoAsyncInitialize ⟨true, true, true, true, true⟩ none none with
      flags := ⟨false, true, true, false, false⟩ }
    (Or.inl rfl) { fn := some 1, flags := 0, privdata := 0 } (some [1]) (some 1) 0 0
    (Built.ok [2]) gleOnDatabase).1

theorem callbacks_append (t1 t2 : List Event) :
    callbacks (t1 ++ t2) = callbacks t1 ++ callbacks t2 := by
  induction t1 with
  | nil => rfl
  | cons e es ih =>
    rw [List.cons_append]
    cases e <;> simp only [callbacks, ih, List.cons_append]

theorem pushed_append (t1 t2 : List Event) :
    pushed (t1 ++ t2) = pushed t1 ++ pushed t2 := by
  induction t1 with
  | nil => rfl
  | cons e es ih =>
    rw [List.cons_append]
    cases e <;> simp only [pushed, ih, List.cons_append]

theorem disconnects_append (t1 t2 : List Event) :
    disconnects (t1 ++ t2) = disconnects t1 ++ disconnects t2 := by
  induction t1 with
  | nil => rfl
  | cons e es ih =>
    rw [List.cons_append]
    cases e <;> simp only [disconnects, ih, List.cons_append]

theorem extended_self (ac : mongoAsyncContext) : extended ac false false [] [] [] = ac := by
  obtain ⟨err, ⟨b, c, d, g, i⟩, obuf, acErr, ev, oc, od, replies, trace, freed, aborted⟩ := ac
  simp [extended]

theorem extended_extended (ac : mongoAsyncContext) (d g d' g' : Bool) (b b' : List Nat)
    (e e' : List mongoCallback) (t t' : List Event) :
    extended (extended ac d g b e t) d' g' b' e' t'
      = extended ac (d || d') (g || g') (b ++ b') (e ++ e') (t ++ t') := by
  simp [extended, Bool.or_assoc, List.append_assoc]

theorem Deferred.deferred_refl (ac : mongoAsyncContext) : Deferred ac ac :=
  ⟨false, false, [], [], [], (extended_self ac).symm, rfl, rfl, rfl,
    fun _ h => by simp at h, fun _ => ⟨rfl, rfl, rfl⟩⟩

theorem Closing_extended (ac : mongoAsyncContext) (d g : Bool) (b : List Nat)
    (e : List mongoCallback) (t : List Event) (h : Closing ac) :
    Closing (extended ac d g b e t) := by
  unfold Closing at h ⊢
  rcases h with h | h
  · left; simp [extended, h]
  · right; simp [extended, h]

theorem Deferred.deferred_trans {a b c : mongoAsyncContext} (h1 : Deferred a b) (h2 : Deferred b c) :
    Deferred a c := by
  obtain ⟨d, g, by1, e, t, rfl, hc, hd, hp, ho, hcl⟩ := h1
  obtain ⟨d', g', by2, e', t', rfl, hc', hd', hp', ho', hcl'⟩ := h2
  refine ⟨d || d', g || g', by1 ++ by2, e ++ e', t ++ t', extended_extended _ _ _ _ _ _ _ _ _ _ _,
    ?_, ?_, ?_, ?_, ?_⟩
  · rw [callbacks_append, hc, hc']; rfl
  · rw [disconnects_append, hd, hd']; rfl
  · rw [pushed_append, hp, hp']
  · intro status hm
    rcases List.mem_append.mp hm with hm | hm
    · exact ho status hm
    · exact ho' status hm
  · intro hcl0
    obtain ⟨h1, h2, h3⟩ := hcl hcl0
    obtain ⟨h1', h2', h3'⟩ := hcl' (Closing_extended _ _ _ _ _ _ hcl0)
    subst h1 h2 h3 h1' h2' h3'
    exact ⟨rfl, rfl, rfl⟩

theorem not_closing_iff (ac : mongoAsyncContext) :
    ¬ Closing ac ↔ (ac.flags.disconnecting || ac.flags.freeing) = false := by
  unfold Closing
  cases ac.flags.disconnecting <;> cases ac.flags.freeing <;> simp

/-- The effect of a submit operation of the shape of `mongoAsyncQuery`. -/
theorem mongoAsyncQuery_deferred (ac : mongoAsyncContext) (cb : mongoCallback)
    (frame : Option (List Nat)) :
    ∃ bytes extra t, (mongoAsyncQuery ac cb frame).2 = extended ac false false bytes extra t
      ∧ callbacks t = [] ∧ disconnects t = [] ∧ pushed t = extra
      ∧ (∀ status, Event.onConnect status ∉ t)
      ∧ (Closing ac → bytes = [] ∧ extra = [] ∧ t = []) := by
  unfold mongoAsyncQuery
  split
  · exact ⟨[], [], [], (extended_self ac).symm, rfl, rfl, rfl, fun _ h => by simp at h,
      fun _ => ⟨rfl, rfl, rfl⟩⟩
  · rename_i hcl
    have hncl : ¬ Closing ac := by
      rw [not_closing_iff]
      simpa using hcl
    cases frame with
    | none =>
      exact ⟨[], [], [], (extended_self ac).symm, rfl, rfl, rfl, fun _ h => by simp at h,
        fun _ => ⟨rfl, rfl, rfl⟩⟩
    | some bytes =>
      by_cases haw : ac.ev.addWrite = true
      · refine ⟨bytes, [cb], [Event.push cb, Event.addWrite], ?_, rfl, rfl, rfl,
          fun _ h => by simp at h, fun h => absurd h hncl⟩
        simp [_EL_ADD_WRITE, __mongoPushCallback, emit, extended, haw]
      · refine ⟨bytes, [cb], [Event.push cb], ?_, rfl, rfl, rfl,
          fun _ h => by simp at h, fun h => absurd h hncl⟩
        simp [_EL_ADD_WRITE, __mongoPushCallback, emit, extended, haw]

/-- The effect of a write operation. -/
theorem mongoAsyncWrite_deferred (ac : mongoAsyncContext) (fn : Option Nat) (privdata : Nat)
    (frame gle : Built) :
    ∃ bytes extra t, (mongoAsyncWrite ac fn privdata frame gle).2
        = extended ac false false bytes extra t
      ∧ callbacks t = [] ∧ disconnects t = [] ∧ pushed t = extra
      ∧ (∀ status, Event.onConnect status ∉ t)
      ∧ (Closing ac → bytes = [] ∧ extra = [] ∧ t = []) := by
  unfold mongoAsyncWrite
  split
  · exact ⟨[], [], [], (extended_self ac).symm, rfl, rfl, rfl, fun _ h => by simp at h,
      fun _ => ⟨rfl, rfl, rfl⟩⟩
  · rename_i hcl
    have hncl : ¬ Closing ac := by
      rw [not_closing_iff]
      simpa using hcl
    cases frame with
    | failed status =>
      exact ⟨[], [], [], (extended_self ac).symm, rfl, rfl, rfl, fun _ h => by simp at h,
        fun _ => ⟨rfl, rfl, rfl⟩⟩
    | ok w =>
      cases fn with
      | none =>
        by_cases haw : ac.ev.addWrite = true
        · refine ⟨w, [], [Event.addWrite], ?_, rfl, rfl, rfl,
            fun _ h => by simp at h, fun h => absurd h hncl⟩
          simp [_EL_ADD_WRITE, emit, extended, haw]
        · refine ⟨w, [], [], ?_, rfl, rfl, rfl,
            fun _ h => by simp at h, fun h => absurd h hncl⟩
          simp [_EL_ADD_WRITE, emit, extended, haw]
      | some f =>
        cases gle with
        | failed status =>
          refine ⟨w, [], [], ?_, rfl, rfl, rfl,
            fun _ h => by simp at h, fun h => absurd h hncl⟩
          simp [extended]
        | ok g =>
          by_cases haw : ac.ev.addWrite = true
          · refine ⟨w ++ g, [{ fn := some f, flags := 0, privdata := privdata }],
              [Event.push { fn := some f, flags := 0, privdata := privdata }, Event.addWrite],
              ?_, rfl, rfl, rfl, fun _ h => by simp at h, fun h => absurd h hncl⟩
            simp [_EL_ADD_WRITE, __mongoPushCallback, emit, extended, haw]
          · refine ⟨w ++ g, [{ fn := some f, flags := 0, privdata := privdata }],
              [Event.push { fn := some f, flags := 0, privdata := privdata }],
              ?_, rfl, rfl, rfl, fun _ h => by simp at h, fun h => absurd h hncl⟩
            simp [_EL_ADD_WRITE, __mongoPushCallback, emit, extended, haw]

/-- A deferred call sets `FREEING` only if it is `mongoAsyncFree`. -/
theorem deferred_spec (a : Act) (ac : mongoAsyncContext) :
    ∃ d g bytes extra t, deferred a ac = extended ac d g bytes extra t
      ∧ callbacks t = [] ∧ disconnects t = [] ∧ pushed t = extra
      ∧ (∀ status, Event.onConnect status ∉ t)
      ∧ (Closing ac → bytes = [] ∧ extra = [] ∧ t = [])
      ∧ (g = true → a = Act.asyncFree) := by
  cases a with
  | query cb frame =>
    obtain ⟨bytes, extra, t, h, h1, h2, h3, h4, h5⟩ := mongoAsyncQuery_deferred ac cb frame
    exact ⟨false, false, bytes, extra, t, h, h1, h2, h3, h4, h5, fun h => by simp at h⟩
  | write fn privdata frame gle =>
    obtain ⟨bytes, extra, t, h, h1, h2, h3, h4, h5⟩ :=
      mongoAsyncWrite_deferred ac fn privdata frame gle
    exact ⟨false, false, bytes, extra, t, h, h1, h2, h3, h4, h5, fun h => by simp at h⟩
  | asyncFree =>
    refine ⟨false, true, [], [], [], ?_, rfl, rfl, rfl, fun _ h => by simp at h,
      fun _ => ⟨rfl, rfl, rfl⟩, fun _ => rfl⟩
    simp [deferred, extended]
  | asyncDisconnect =>
    refine ⟨true, false, [], [], [], ?_, rfl, rfl, rfl, fun _ h => by simp at h,
      fun _ => ⟨rfl, rfl, rfl⟩, fun h => by simp at h⟩
    simp [deferred, extended]

theorem deferred_Deferred (a : Act) (ac : mongoAsyncContext) : Deferred ac (deferred a ac) := by
  obtain ⟨d, g, bytes, extra, t, h, h1, h2, h3, h4, h5, _⟩ := deferred_spec a ac
  exact ⟨d, g, bytes, extra, t, h, h1, h2, h3, h4, h5⟩

/-- A run of deferred calls, and when it leaves `FREEING` as it was. -/
theorem runDeferred_spec (acts : List Act) :
    ∀ ac : mongoAsyncContext, ∃ d g bytes extra t,
      runDeferred acts ac = extended ac d g bytes extra t
      ∧ callbacks t = [] ∧ disconnects t = [] ∧ pushed t = extra
      ∧ (∀ status, Event.onConnect status ∉ t)
      ∧ (Closing ac → bytes = [] ∧ extra = [] ∧ t = [])
      ∧ (g = true → Act.asyncFree ∈ acts) := by
  induction acts with
  | nil =>
    intro ac
    exact ⟨false, false, [], [], [], (extended_self ac).symm, rfl, rfl, rfl,
      fun _ h => by simp at h, fun _ => ⟨rfl, rfl, rfl⟩, fun h => by simp at h⟩
  | cons a rest ih =>
    intro ac
    obtain ⟨d, g, by1, e, t, h, hc, hd, hp, ho, hcl, hg⟩ := deferred_spec a ac
    obtain ⟨d', g', by2, e', t', h', hc', hd', hp', ho', hcl', hg'⟩ := ih (deferred a ac)
    refine ⟨d || d', g || g', by1 ++ by2, e ++ e', t ++ t', ?_, ?_, ?_, ?_, ?_, ?_, ?_⟩
    · have : runDeferred (a :: rest) ac = runDeferred rest (deferred a ac) := rfl
      rw [this, h', h, extended_extended]
    · rw [callbacks_append, hc, hc']; rfl
    · rw [disconnects_append, hd, hd']; rfl
    · rw [pushed_append, hp, hp']
    · intro status hm
      rcases List.mem_append.mp hm with hm | hm
      · exact ho status hm
      · exact ho' status hm
    · intro hcl0
      obtain ⟨h1, h2, h3⟩ := hcl hcl0
      have hcl1 : Closing (deferred a ac) := by
        rw [h]
        exact Closing_extended _ _ _ _ _ _ hcl0
      obtain ⟨h1', h2', h3'⟩ := hcl' hcl1
      subst h1 h2 h3 h1' h2' h3'
      exact ⟨rfl, rfl, rfl⟩
    · intro hgg
      rcases Bool.or_eq_true_iff.mp hgg with h1 | h1
      · rw [hg h1]
        exact List.mem_cons_self _ _
      · exact List.mem_cons_of_mem _ (hg' h1)

theorem deferred_in_callback (a : Act) (ac : mongoAsyncContext) :
    (deferred a ac).flags.in_callback = ac.flags.in_callback := by
  obtain ⟨d, g, bytes, extra, t, h, _⟩ := deferred_spec a ac
  rw [h]
  rfl

/-- A call of the API that is deferred: made while a callback runs, or a
submit operation. -/
theorem apiCall_deferred (prog : Prog) (f : Nat) (a : Act) (ac : mongoAsyncContext)
    (h : ac.flags.in_callback = true ∨ (a ≠ Act.asyncFree ∧ a ≠ Act.asyncDisconnect)) :
    apiCall prog (f + 1) a ac = some (deferred a ac) := by
  cases a with
  | query cb frame => rfl
  | write fn privdata frame gle => rfl
  | asyncFree =>
    rcases h with h | h
    · simp [apiCall, mongoAsyncFree, deferred, h]
    · exact absurd rfl h.1
  | asyncDisconnect =>
    rcases h with h | h
    · simp [apiCall, mongoAsyncDisconnect, deferred, h]
    · exact absurd rfl h.2

theorem userCode_deferred (prog : Prog) (f : Nat) (acts : List Act) :
    ∀ ac : mongoAsyncContext,
      (ac.flags.in_callback = true ∨ ∀ a ∈ acts, a ≠ Act.asyncFree ∧ a ≠ Act.asyncDisconnect) →
      userCode (apiCall prog (f + 1)) acts ac = some (runDeferred acts ac) := by
  induction acts with
  | nil => intro ac _; rfl
  | cons a rest ih =>
    intro ac h
    have ha : ac.flags.in_callback = true ∨ (a ≠ Act.asyncFree ∧ a ≠ Act.asyncDisconnect) := by
      rcases h with h | h
      · exact Or.inl h
      · exact Or.inr (h a (List.mem_cons_self _ _))
    have hr : (deferred a ac).flags.in_callback = true
        ∨ ∀ x ∈ rest, x ≠ Act.asyncFree ∧ x ≠ Act.asyncDisconnect := by
      rcases h with h | h
      · exact Or.inl (by rw [deferred_in_callback]; exact h)
      · exact Or.inr (fun x hx => h x (List.mem_cons_of_mem _ hx))
    simp only [userCode, apiCall_deferred prog f a ac ha]
    exact ih (deferred a ac) hr

/-- The same for any bound: if the user code returns, it returns the result
of the deferred calls. -/
theorem userCode_deferred_eq (prog : Prog) (fuel : Nat) (acts : List Act)
    (ac ac' : mongoAsyncContext)
    (h : ac.flags.in_callback = true ∨ ∀ a ∈ acts, a ≠ Act.asyncFree ∧ a ≠ Act.asyncDisconnect)
    (hr : userCode (apiCall prog fuel) acts ac = some ac') : ac' = runDeferred acts ac := by
  cases fuel with
  | zero =>
    cases acts with
    | nil =>
      simp only [userCode, Option.some.injEq] at hr
      exact hr.symm
    | cons a rest => simp [userCode, apiCall] at hr
  | succ f =>
    rw [userCode_deferred prog f acts ac h] at hr
    simp only [Option.some.injEq] at hr
    exact hr.symm

/-! ## The flush of the queue at shutdown -/

theorem flushEvents_cons_none (c : mongoCallback) (q : List mongoCallback) (h : c.fn = none) :
    flushEvents (c :: q) = flushEvents q := by
  simp [flushEvents, h]

theorem flushEvents_cons_some (c : mongoCallback) (q : List mongoCallback) (f : Nat)
    (h : c.fn = some f) :
    flushEvents (c :: q) = Event.callback c none :: flushEvents q := by
  simp [flushEvents, h]

/-- Once shutdown has begun, the loop of `__mongoAsyncFree` empties the queue
and invokes exactly the records with a non-NULL function, in order, with a
NULL reply; the callbacks can set shutdown flags and nothing else. -/
theorem flushLoop_closing (prog : Prog) (fuel : Nat) (n : Nat) :
    ∀ (cb : mongoCallback) (ac mid : mongoAsyncContext), Closing ac →
      flushLoop (apiCall prog fuel) prog n cb ac = some mid →
      ∃ d g i, mid = flushed ac d g i ∧ (ac.flags.in_callback = false → i = false)
        ∧ (g = true → ∃ c ∈ ac.replies, ∃ fn, c.fn = some fn
            ∧ Act.asyncFree ∈ prog.callback fn none c.privdata) := by
  induction n with
  | zero => intro cb ac mid _ h; simp [flushLoop] at h
  | succ n ih =>
    intro cb ac mid hc h
    obtain ⟨err, ⟨fb, fc, fd, fg, fi⟩, obuf, acErr, ev, oc, od, replies, trace, freed, aborted⟩ :=
      ac
    cases replies with
    | nil =>
      simp [flushLoop, __mongoShiftCallback, MONGO_ERR_ne_OK] at h
      subst h
      exact ⟨false, false, fi, by simp [flushed, flushEvents], fun h => h,
        fun h => by simp at h⟩
    | cons c rest =>
      simp only [flushLoop, __mongoShiftCallback, Bool.and_false, Bool.false_eq_true,
        if_false, if_true] at h
      have hc1 : Closing ⟨err, ⟨fb, fc, fd, fg, fi⟩, obuf, acErr, ev, oc, od, rest, trace, freed,
          aborted⟩ := hc
      cases hfn : c.fn with
      | none =>
        simp only [__mongoRunCallback, hfn] at h
        obtain ⟨d, g, i, hm, hi, hg⟩ := ih c _ mid hc1 h
        refine ⟨d, g, i, ?_, hi, ?_⟩
        · rw [hm]
          simp [flushed, flushEvents_cons_none c rest hfn]
        · intro hgt
          obtain ⟨c', hc', fn, h1, h2⟩ := hg hgt
          exact ⟨c', List.mem_cons_of_mem _ hc', fn, h1, h2⟩
      | some f =>
        simp only [__mongoRunCallback, hfn] at h
        cases hu : userCode (apiCall prog fuel) (prog.callback f none c.privdata)
            (emit ⟨err, ⟨fb, fc, fd, fg, true⟩, obuf, acErr, ev, oc, od, rest, trace, freed,
              aborted⟩ (Event.callback c none)) with
        | none =>
          simp only [emit] at hu
          simp [emit, hu] at h
        | some acu =>
          have hu' := hu
          simp only [emit] at hu'
          simp only [emit, hu'] at h
          have hacu := userCode_deferred_eq prog fuel _ _ acu (Or.inl rfl) hu
          obtain ⟨d, g, bytes, extra, t, hrd, _, _, _, _, hcl, hg⟩ :=
            runDeferred_spec (prog.callback f none c.privdata)
              (emit ⟨err, ⟨fb, fc, fd, fg, true⟩, obuf, acErr, ev, oc, od, rest, trace, freed,
                aborted⟩ (Event.callback c none))
          have hcs : Closing (emit ⟨err, ⟨fb, fc, fd, fg, true⟩, obuf, acErr, ev, oc, od, rest,
              trace, freed, aborted⟩ (Event.callback c none)) := hc
          obtain ⟨rfl, rfl, rfl⟩ := hcl hcs
          rw [hrd] at hacu
          subst hacu
          have hc2 : Closing { extended (emit ⟨err, ⟨fb, fc, fd, fg, true⟩, obuf, acErr, ev, oc,
              od, rest, trace, freed, aborted⟩ (Event.callback c none)) d g [] [] [] with
              flags := { (extended (emit ⟨err, ⟨fb, fc, fd, fg, true⟩, obuf, acErr, ev, oc,
                od, rest, trace, freed, aborted⟩ (Event.callback c none)) d g [] [] []).flags with
                in_callback := false } } := by
            unfold Closing at hc ⊢
            rcases hc with h0 | h0
            · left; simp only at h0; simp [extended, emit, h0]
            · right; simp only at h0; simp [extended, emit, h0]
          obtain ⟨d', g', i', hm, hi, hg'⟩ := ih c _ mid hc2 h
          have hi' : i' = false := hi rfl
          subst hi'
          refine ⟨d || d', g || g', false, ?_, fun _ => rfl, ?_⟩
          · rw [hm]
            simp [flushed, extended, emit, flushEvents_cons_some c rest f hfn, Bool.or_assoc]
          · intro hgt
            rcases Bool.or_eq_true_iff.mp hgt with h1 | h1
            · exact ⟨c, List.mem_cons_self _ _, f, hfn, hg h1⟩
            · obtain ⟨c', hc', fn, h2, h3⟩ := hg' h1
              refine ⟨c', List.mem_cons_of_mem _ ?_, fn, h2, h3⟩
              simpa [extended, emit] using hc'

/-! ## Shutdown with an empty queue -/

theorem Quiet.same (ac : mongoAsyncContext) (hc : Closing ac) (he : ac.replies = []) :
    Quiet ac ac :=
  ⟨hc, he, [], by simp, rfl, rfl⟩

theorem Quiet.quiet_trans {a b c : mongoAsyncContext} (h1 : Quiet a b) (h2 : Quiet b c) :
    Quiet a c := by
  obtain ⟨_, _, t1, e1, c1, p1⟩ := h1
  obtain ⟨hc, he, t2, e2, c2, p2⟩ := h2
  refine ⟨hc, he, t1 ++ t2, by rw [e2, e1, List.append_assoc], ?_, ?_⟩
  · rw [callbacks_append, c1, c2]; rfl
  · rw [pushed_append, p1, p2]; rfl

theorem Quiet.quiet_emit (ac : mongoAsyncContext) (e : Event) (hc : Closing ac)
    (he : ac.replies = []) (h1 : callbacks [e] = []) (h2 : pushed [e] = []) :
    Quiet ac (emit ac e) :=
  ⟨hc, he, [e], rfl, h1, h2⟩

theorem userCode_quiet (api : Act → mongoAsyncContext → Option mongoAsyncContext)
    (hapi : ∀ a ac ac', Closing ac → ac.replies = [] → api a ac = some ac' → Quiet ac ac')
    (acts : List Act) :
    ∀ ac ac', Closing ac → ac.replies = [] → userCode api acts ac = some ac' → Quiet ac ac' := by
  induction acts with
  | nil =>
    intro ac ac' hc he h
    simp only [userCode, Option.some.injEq] at h
    subst h
    exact Quiet.same ac hc he
  | cons a rest ih =>
    intro ac ac' hc he h
    simp only [userCode] at h
    cases ha : api a ac with
    | none => simp [ha] at h
    | some ac1 =>
      rw [ha] at h
      have q1 := hapi a ac ac1 hc he ha
      exact q1.quiet_trans (ih ac1 ac' q1.1 q1.2.1 h)

theorem callHook_quiet (api : Act → mongoAsyncContext → Option mongoAsyncContext)
    (hapi : ∀ a ac ac', Closing ac → ac.replies = [] → api a ac = some ac' → Quiet ac ac')
    (prog : Prog) (f : Nat) (status st : Int) (ac ac' : mongoAsyncContext)
    (hc : Closing ac) (he : ac.replies = [])
    (h : callHook api prog (Event.onDisconnect st) f status ac = some ac') : Quiet ac ac' := by
  unfold callHook at h
  have q1 := Quiet.quiet_emit ac (Event.onDisconnect st) hc he rfl rfl
  exact q1.quiet_trans (userCode_quiet api hapi _ _ _ q1.1 q1.2.1 h)

theorem EL_CLEANUP_quiet (ac : mongoAsyncContext) (hc : Closing ac) (he : ac.replies = []) :
    Quiet ac (_EL_CLEANUP ac) := by
  unfold _EL_CLEANUP
  split
  · exact Quiet.quiet_emit ac _ hc he rfl rfl
  · exact Quiet.same ac hc he

theorem asyncFree_inner_quiet (api : Act → mongoAsyncContext → Option mongoAsyncContext)
    (hapi : ∀ a ac ac', Closing ac → ac.replies = [] → api a ac = some ac' → Quiet ac ac')
    (prog : Prog) (n : Nat) (ac ac' : mongoAsyncContext) (hc : Closing ac)
    (he : ac.replies = []) (h : __mongoAsyncFree api prog n ac = some ac') : Quiet ac ac' := by
  unfold __mongoAsyncFree at h
  cases n with
  | zero => simp [flushLoop] at h
  | succ n =>
    have hfl : flushLoop api prog (n + 1) { fn := none, flags := 0, privdata := 0 } ac
        = some ac := by
      simp [flushLoop, __mongoShiftCallback, he, MONGO_ERR_ne_OK]
    rw [hfl] at h
    simp only at h
    have q1 := EL_CLEANUP_quiet ac hc he
    have hfin : ∀ ac3, Quiet ac ac3 → Quiet ac { emit ac3 Event.mongoFree with freed := true } := by
      intro ac3 q3
      exact q3.quiet_trans ⟨q3.1, q3.2.1, [Event.mongoFree], rfl, rfl, rfl⟩
    cases hd : (_EL_CLEANUP ac).onDisconnect with
    | none =>
      rw [hd] at h
      simp only [Option.some.injEq] at h
      subst h
      exact hfin _ q1
    | some f =>
      rw [hd] at h
      simp only at h
      split at h
      · rename_i ac3 hr
        simp only [Option.some.injEq] at h
        subst h
        refine hfin ac3 ?_
        split at hr
        · split at hr
          · exact q1.quiet_trans (callHook_quiet api hapi prog f _ _ _ _ q1.1 q1.2.1 hr)
          · exact q1.quiet_trans (callHook_quiet api hapi prog f _ _ _ _ q1.1 q1.2.1 hr)
        · simp only [Option.some.injEq] at hr
          subst hr
          exact q1
      · simp at h

theorem asyncDisconnect_inner_quiet (api : Act → mongoAsyncContext → Option mongoAsyncContext)
    (hapi : ∀ a ac ac', Closing ac → ac.replies = [] → api a ac = some ac' → Quiet ac ac')
    (prog : Prog) (n : Nat) (ac ac' : mongoAsyncContext) (hc : Closing ac)
    (he : ac.replies = []) (h : __mongoAsyncDisconnect api prog n ac = some ac') :
    Quiet ac ac' := by
  unfold __mongoAsyncDisconnect __mongoAsyncCopyError at h
  simp only at h
  have q0 : Quiet ac { ac with acErr := ac.err } := ⟨hc, he, [], by simp, rfl, rfl⟩
  by_cases herr : ac.err = none
  · rw [if_pos herr, if_pos he] at h
    exact q0.quiet_trans (asyncFree_inner_quiet api hapi prog n _ ac' hc he h)
  · rw [if_neg herr] at h
    have q1 : Quiet ac { ({ ac with acErr := ac.err } : mongoAsyncContext) with
        flags := { ac.flags with disconnecting := true } } :=
      ⟨Or.inl rfl, he, [], by simp, rfl, rfl⟩
    exact q1.quiet_trans (asyncFree_inner_quiet api hapi prog n _ ac' (Or.inl rfl) he h)

/-- Once shutdown has begun with an empty queue, no call of the API invokes a
reply callback or enqueues a record. -/
theorem apiCall_quiet (prog : Prog) (fuel : Nat) :
    ∀ a ac ac', Closing ac → ac.replies = [] → apiCall prog fuel a ac = some ac' →
      Quiet ac ac' := by
  induction fuel with
  | zero => intro a ac ac' _ _ h; simp [apiCall] at h
  | succ fuel ih =>
    intro a ac ac' hc he h
    cases a with
    | query cb frame =>
      simp only [apiCall, Option.some.injEq] at h
      subst h
      rw [(mongoAsyncQuery_flags ac cb frame).2 hc]
      exact Quiet.same ac hc he
    | write fn privdata frame gle =>
      simp only [apiCall, Option.some.injEq] at h
      subst h
      rw [(mongoAsyncWrite_flags ac fn privdata frame gle).2 hc]
      exact Quiet.same ac hc he
    | asyncFree =>
      simp only [apiCall, mongoAsyncFree] at h
      have q0 : Quiet ac { ac with flags := { ac.flags with freeing := true } } :=
        ⟨Or.inr rfl, he, [], by simp, rfl, rfl⟩
      split at h
      · simp only [Option.some.injEq] at h
        subst h
        exact q0
      · exact q0.quiet_trans (asyncFree_inner_quiet _ ih prog _ _ ac' (Or.inr rfl) he h)
    | asyncDisconnect =>
      simp only [apiCall, mongoAsyncDisconnect] at h
      have q0 : Quiet ac { ac with flags := { ac.flags with disconnecting := true } } :=
        ⟨Or.inl rfl, he, [], by simp, rfl, rfl⟩
      split at h
      · exact q0.quiet_trans (asyncDisconnect_inner_quiet _ ih prog _ _ ac' (Or.inl rfl) he h)
      · simp only [Option.some.injEq] at h
        subst h
        exact q0

/-- The function `__mongoAsyncFree` after the loop has emptied the queue. -/
theorem asyncFree_inner_split (api : Act → mongoAsyncContext → Option mongoAsyncContext)
    (prog : Prog) (n : Nat) (ac mid : mongoAsyncContext)
    (hfl : flushLoop api prog n { fn := none, flags := 0, privdata := 0 } ac = some mid)
    (he : mid.replies = []) :
    __mongoAsyncFree api prog n ac = __mongoAsyncFree api prog 1 mid := by
  have h1 : flushLoop api prog 1 { fn := none, flags := 0, privdata := 0 } mid = some mid := by
    simp [flushLoop, __mongoShiftCallback, he, MONGO_ERR_ne_OK]
  unfold __mongoAsyncFree
  rw [hfl, h1]

theorem Closing_flushed (ac : mongoAsyncContext) (d g i : Bool) (h : Closing ac) :
    Closing (flushed ac d g i) := by
  unfold Closing at h ⊢
  rcases h with h | h
  · left; simp [flushed, h]
  · right; simp [flushed, h]

/-- The function `__mongoAsyncFree` once shutdown has begun: the queue is
flushed, then nothing is invoked or enqueued any more, and the context is
freed with an empty queue. -/
theorem asyncFree_inner_closing (prog : Prog) (fuel n : Nat) (ac ac' : mongoAsyncContext)
    (hc : Closing ac) (h : __mongoAsyncFree (apiCall prog fuel) prog n ac = some ac') :
    ac'.replies = [] ∧ ac'.freed = true ∧
      ∃ t, ac'.trace = ac.trace ++ flushEvents ac.replies ++ t
        ∧ callbacks t = [] ∧ pushed t = [] := by
  have hfreed := (mongoAsyncFree_inner_rel _ (apiCall_rel prog fuel) prog n ac ac' hc h).2
  cases hfl : flushLoop (apiCall prog fuel) prog n { fn := none, flags := 0, privdata := 0 } ac with
  | none =>
    unfold __mongoAsyncFree at h
    simp [hfl] at h
  | some mid =>
    obtain ⟨d, g, i, hm, _, _⟩ := flushLoop_closing prog fuel n _ ac mid hc hfl
    have he : mid.replies = [] := by rw [hm]; rfl
    rw [asyncFree_inner_split _ prog n ac mid hfl he] at h
    have hcm : Closing mid := by rw [hm]; exact Closing_flushed ac d g i hc
    obtain ⟨_, hr, t, ht, hcb, hp⟩ :=
      asyncFree_inner_quiet _ (apiCall_quiet prog fuel) prog 1 mid ac' hcm he h
    refine ⟨hr, hfreed, t, ?_, hcb, hp⟩
    rw [ht, hm]
    rfl

/-! ## C11: the queue is flushed at shutdown -/

theorem callbacks_flushEvents (q : List mongoCallback) :
    callbacks (flushEvents q) = (q.filter (fun cb => cb.fn.isSome)).map (fun cb => (cb, none)) := by
  unfold flushEvents
  induction q.filter (fun cb => cb.fn.isSome) with
  | nil => rfl
  | cons c l ih => simp only [List.map_cons, callbacks, ih]

theorem pushed_flushEvents (q : List mongoCallback) : pushed (flushEvents q) = [] := by
  unfold flushEvents
  induction q.filter (fun cb => cb.fn.isSome) with
  | nil => rfl
  | cons c l ih => simp only [List.map_cons, pushed, ih]

theorem Flushes_of_closing (prog : Prog) (fuel n : Nat) (ac ac' : mongoAsyncContext)
    (hc : Closing ac) (h : __mongoAsyncFree (apiCall prog fuel) prog n ac = some ac') :
    Flushes ac ac' := by
  obtain ⟨he, _, t, ht, hcb, _⟩ := asyncFree_inner_closing prog fuel n ac ac' hc h
  refine ⟨he, ?_⟩
  rw [ht, List.append_assoc, List.drop_left, callbacks_append, hcb, List.append_nil,
    callbacks_flushEvents]

/-- C11: `__mongoAsyncFree` called once shutdown has begun, as it is by
`mongoAsyncFree` outside a callback (which sets `FREEING`), by
`__mongoAsyncDisconnect` after an error (which sets `DISCONNECTING`) and by
`__mongoAsyncDisconnect` at the end of a clean disconnect, invokes every
record of the queue that has a non-NULL function exactly once with a NULL
reply, in the order of the queue, whether or not the record carries
`EXHAUST`, invokes no other reply callback, and leaves the queue empty.  And
it does return when the hooks only submit. -/
theorem C11_shutdown_flushes_queue (prog : Prog) (ac : mongoAsyncContext) :
    (∀ fuel n ac', Closing ac →
      __mongoAsyncFree (apiCall prog fuel) prog n ac = some ac' → Flushes ac ac')
    ∧ (∀ fuel n ac', ac.flags.in_callback = false →
      mongoAsyncFree (apiCall prog fuel) prog n ac = some ac' → Flushes ac ac')
    ∧ (∀ fuel n ac', ac.err ≠ none →
      __mongoAsyncDisconnect (apiCall prog fuel) prog n ac = some ac' → Flushes ac ac')
    ∧ (∀ fuel n ac', ac.err = none → ac.replies = [] → Closing ac →
      __mongoAsyncDisconnect (apiCall prog fuel) prog n ac = some ac' → Flushes ac ac')
    ∧ (HooksSubmitOnly prog → Closing ac →
      ∃ ac', (∀ f n, ac.replies.length + 1 ≤ n →
          __mongoAsyncFree (apiCall prog (f + 1)) prog n ac = some ac')
        ∧ Flushes ac ac') := by
  refine ⟨?_, ?_, ?_, ?_, ?_⟩
  · intro fuel n ac' hc h
    exact Flushes_of_closing prog fuel n ac ac' hc h
  · intro fuel n ac' hin h
    unfold mongoAsyncFree at h
    simp only [hin, Bool.false_eq_true, if_false] at h
    have hF := Flushes_of_closing prog fuel n _ ac' (by exact Or.inr rfl) h
    exact hF
  · intro fuel n ac' herr h
    unfold __mongoAsyncDisconnect __mongoAsyncCopyError at h
    simp only at h
    rw [if_neg herr] at h
    have hF := Flushes_of_closing prog fuel n _ ac' (by exact Or.inl rfl) h
    exact hF
  · intro fuel n ac' herr he hc h
    unfold __mongoAsyncDisconnect __mongoAsyncCopyError at h
    simp only at h
    rw [if_pos herr, if_pos he] at h
    have hF := Flushes_of_closing prog fuel n _ ac' (by exact hc) h
    exact hF
  · intro hh hc
    obtain ⟨ac', h, _, _⟩ := asyncFree_inner_returns prog hh ac (Or.inl hc)
    exact ⟨ac', h, Flushes_of_closing prog 1 _ ac ac' hc (h 0 _ (le_refl _))⟩

theorem C11_shutdown_flushes_queue_witness :
    ∃ ac', (∀ f n, ({ mongoAsyncInitialize ⟨true, true, true, true, true⟩ none (some 9) with
          flags := ⟨false, true, false, true, false⟩,
          replies := [{ fn := some 1, flags := QUERY_FLAG_EXHAUST, privdata := 0 },
            { fn := none, flags := 0, privdata := 1 },
            { fn := some 2, flags := 0, privdata := 2 }] } : mongoAsyncContext).replies.length
          + 1 ≤ n →
        __mongoAsyncFree (apiCall idleProg (f + 1)) idleProg n
          { mongoAsyncInitialize ⟨true, true, true, true, true⟩ none (some 9) with
            flags := ⟨false, true, false, true, false⟩,
            replies := [{ fn := some 1, flags := QUERY_FLAG_EXHAUST, privdata := 0 },
              { fn := none, flags := 0, privdata := 1 },
              { fn := some 2, flags := 0, privdata := 2 }] } = some ac')
      ∧ Flushes
          { mongoAsyncInitialize ⟨true, true, true, true, true⟩ none (some 9) with
            flags := ⟨false, true, false, true, false⟩,
            replies := [{ fn := some 1, flags := QUERY_FLAG_EXHAUST, privdata := 0 },
              { fn := none, flags := 0, privdata := 1 },
              { fn := some 2, flags := 0, privdata := 2 }] } ac' :=
  (C11_shutdown_flushes_queue idleProg
    { mongoAsyncInitialize ⟨true, true, true, true, true⟩ none (some 9) with
      flags := ⟨false, true, false, true, false⟩,
      replies := [{ fn := some 1, flags := QUERY_FLAG_EXHAUST, privdata := 0 },
        { fn := none, flags := 0, privdata := 1 },
        { fn := some 2, flags := 0, privdata := 2 }] }).2.2.2.2
    (fun _ _ a ha => absurd ha (List.not_mem_nil a)) (Or.inr rfl)

/-! ## C18: the queue after a transport error -/

/-- An error disconnect flushes the queue and enqueues nothing. -/
theorem asyncDisconnect_error (prog : Prog) (fuel n : Nat) (ac ac' : mongoAsyncContext)
    (herr : ac.err ≠ none)
    (h : __mongoAsyncDisconnect (apiCall prog fuel) prog n ac = some ac') :
    ac'.replies = [] ∧ pushed (ac'.trace.drop ac.trace.length) = [] := by
  unfold __mongoAsyncDisconnect __mongoAsyncCopyError at h
  simp only at h
  rw [if_neg herr] at h
  obtain ⟨he, _, t, ht, _, hp⟩ :=
    asyncFree_inner_closing prog fuel n _ ac' (by exact Or.inl rfl) h
  refine ⟨he, ?_⟩
  simp only at ht
  rw [ht, List.append_assoc, List.drop_left, pushed_append, pushed_flushEvents, hp]
  rfl

/-- A pass of `mongoProcessCallbacks` in which the reader reports an error
leaves the queue empty. -/
theorem processLoop_error_empty (prog : Prog) (fuel n : Nat) (k : ErrKind)
    (rs : List mongoReply) :
    ∀ (cb : mongoCallback) (ac ac' : mongoAsyncContext),
      processLoop (apiCall prog fuel) prog n (ReaderEnd.error k) rs cb ac = some ac' →
      ac'.replies = [] := by
  induction rs with
  | nil =>
    intro cb ac ac' h
    simp only [processLoop] at h
    exact (asyncDisconnect_error prog fuel n _ ac' (by simp) h).1
  | cons reply rs ih =>
    intro cb ac ac' h
    simp only [processLoop] at h
    rcases hs : __mongoShiftCallback ac (some reply) cb with ⟨status, cb', ac1⟩
    rw [hs] at h
    simp only at h
    split at h
    · cases hr : __mongoRunCallback (apiCall prog fuel) prog
          (if status = MONGO_OK then ac1 else emit ac1 (Event.unsolicited reply)) cb'
          (some reply) with
      | none => simp [hr] at h
      | some ac2 =>
        rw [hr] at h
        simp only at h
        split at h
        · rename_i hfr
          exact (asyncFree_inner_closing prog fuel n _ ac' (Or.inr hfr) h).1
        · exact ih cb' _ ac' h
    · exact ih cb' _ ac' h

/-! ## C17: the order of the events of an error shutdown -/

/-- The function `__mongoAsyncFree` on an empty queue after an error, on a
connected context that is not being freed, with cleanup and disconnect hooks
registered. -/
theorem asyncFree_inner_empty_error (prog : Prog) (fuel n : Nat) (mid ac' : mongoAsyncContext)
    (h : Nat) (he : mid.replies = []) (hc : Closing mid) (hcl : mid.ev.cleanup = true)
    (hod : mid.onDisconnect = some h) (hconn : mid.flags.connected = true)
    (hfr : mid.flags.freeing = false) (herr : mid.acErr ≠ none)
    (hsub : ∀ a ∈ prog.hook h MONGO_ERR, a ≠ Act.asyncFree ∧ a ≠ Act.asyncDisconnect)
    (hrun : __mongoAsyncFree (apiCall prog fuel) prog n mid = some ac') :
    ac'.trace = mid.trace ++ [Event.cleanup, Event.onDisconnect MONGO_ERR, Event.mongoFree]
      ∧ ac'.freed = true ∧ ac'.replies = [] := by
  obtain ⟨err, ⟨fb, fc, fd, fg, fi⟩, obuf, acErr, ⟨e1, e2, e3, e4, e5⟩, oc, od, replies, trace,
    freed, aborted⟩ := mid
  simp only at he hcl hod hconn hfr herr
  subst he hcl hod hconn hfr
  cases n with
  | zero => simp [__mongoAsyncFree, flushLoop] at hrun
  | succ n =>
    simp only [__mongoAsyncFree, flushLoop, __mongoShiftCallback, MONGO_ERR_ne_OK, if_false,
      _EL_CLEANUP, if_true, emit, herr, callHook, Bool.false_eq_true] at hrun
    cases hu : userCode (apiCall prog fuel) (prog.hook h MONGO_ERR)
        ⟨err, ⟨fb, true, fd, false, fi⟩, obuf, acErr, ⟨e1, e2, e3, e4, true⟩, oc, some h, [],
          trace ++ [Event.cleanup] ++ [Event.onDisconnect MONGO_ERR], freed, aborted⟩ with
    | none =>
      rw [hu] at hrun
      simp at hrun
    | some ac3 =>
      rw [hu] at hrun
      simp only [Option.some.injEq] at hrun
      have h3 := userCode_deferred_eq prog fuel _ _ ac3 (Or.inr hsub) hu
      obtain ⟨d, g, bytes, extra, t, hrd, _, _, _, _, hcl', _⟩ :=
        runDeferred_spec (prog.hook h MONGO_ERR)
          ⟨err, ⟨fb, true, fd, false, fi⟩, obuf, acErr, ⟨e1, e2, e3, e4, true⟩, oc, some h, [],
            trace ++ [Event.cleanup] ++ [Event.onDisconnect MONGO_ERR], freed, aborted⟩
      obtain ⟨rfl, rfl, rfl⟩ := hcl' hc
      rw [hrd] at h3
      subst h3
      subst hrun
      simp [extended]

/-- The function `__mongoAsyncFree` after an error, when no callback of the
queue calls `mongoAsyncFree`. -/
theorem asyncFree_inner_error_trace (prog : Prog) (fuel n : Nat) (ac ac' : mongoAsyncContext)
    (h : Nat) (hc : Closing ac) (hcl : ac.ev.cleanup = true)
    (hod : ac.onDisconnect = some h) (hconn : ac.flags.connected = true)
    (hfr : ac.flags.freeing = false) (herr : ac.acErr ≠ none)
    (hsub : ∀ a ∈ prog.hook h MONGO_ERR, a ≠ Act.asyncFree ∧ a ≠ Act.asyncDisconnect)
    (hcb : ∀ c ∈ ac.replies, ∀ fn, c.fn = some fn →
      Act.asyncFree ∉ prog.callback fn none c.privdata)
    (hrun : __mongoAsyncFree (apiCall prog fuel) prog n ac = some ac') :
    ac'.trace = ac.trace ++ flushEvents ac.replies
        ++ [Event.cleanup, Event.onDisconnect MONGO_ERR, Event.mongoFree]
      ∧ ac'.freed = true ∧ ac'.replies = [] := by
  cases hfl : flushLoop (apiCall prog fuel) prog n { fn := none, flags := 0, privdata := 0 } ac with
  | none =>
    unfold __mongoAsyncFree at hrun
    simp [hfl] at hrun
  | some mid =>
    obtain ⟨d, g, i, hm, _, hg⟩ := flushLoop_closing prog fuel n _ ac mid hc hfl
    have hgf : g = false := by
      cases g with
      | false => rfl
      | true =>
        obtain ⟨c, hcm, fn, h1, h2⟩ := hg rfl
        exact absurd h2 (hcb c hcm fn h1)
    subst hgf
    have he : mid.replies = [] := by rw [hm]; rfl
    rw [asyncFree_inner_split _ prog n ac mid hfl he] at hrun
    have hcm : Closing mid := by rw [hm]; exact Closing_flushed ac d false i hc
    have r := asyncFree_inner_empty_error prog fuel 1 mid ac' h he hcm
      (by rw [hm]; exact hcl) (by rw [hm]; exact hod) (by rw [hm]; exact hconn)
      (by rw [hm]; simp [flushed, hfr]) (by rw [hm]; exact herr) hsub hrun
    rw [hm] at r
    exact r

/-- C17 (counterexample): a connected controller with three queued callbacks
and registered `onDisconnect` and cleanup hooks, on which the transport read
fails: the three callbacks are invoked in order with a NULL reply, then the
cleanup hook of the event loop is called, and only then `onDisconnect` with
status `MONGO_ERR`. -/
theorem C17_cleanup_before_onDisconnect :
    (mongoAsyncHandleRead (apiCall idleProg 1) idleProg 4 SockCheck.ok (some ErrKind.io) []
      ReaderEnd.idle
      { mongoAsyncInitialize ⟨true, true, true, true, true⟩ none (some 9) with
        flags := ⟨false, true, false, false, false⟩,
        replies := [{ fn := some 1, flags := 0, privdata := 0 },
          { fn := some 2, flags := 0, privdata := 0 },
          { fn := some 3, flags := 0, privdata := 0 }] }).map (fun ac => ac.trace)
    = some [Event.callback { fn := some 1, flags := 0, privdata := 0 } none,
        Event.callback { fn := some 2, flags := 0, privdata := 0 } none,
        Event.callback { fn := some 3, flags := 0, privdata := 0 } none,
        Event.cleanup, Event.onDisconnect MONGO_ERR, Event.mongoFree] := by
  decide

/-- C17 (amended): on a connected controller that is not being freed, with
registered `onDisconnect` and cleanup hooks, whose `onDisconnect` hook only
submits and whose queued callbacks do not call `mongoAsyncFree`, a failing
transport read makes `mongoAsyncHandleRead` return after exactly these
events: the queued callbacks with a non-NULL function in the order of the
queue, each with a NULL reply; then the cleanup hook of the event loop; then
`onDisconnect` with status `MONGO_ERR`; then the context is freed. -/
theorem C17_error_shutdown_order (prog : Prog) (hh : HooksSubmitOnly prog)
    (ac : mongoAsyncContext) (h : Nat) (k : ErrKind) (chk : SockCheck) (rs : List mongoReply)
    (last : ReaderEnd) (hconn : ac.flags.connected = true) (hfr : ac.flags.freeing = false)
    (hod : ac.onDisconnect = some h) (hcl : ac.ev.cleanup = true)
    (hcb : ∀ c ∈ ac.replies, ∀ fn, c.fn = some fn →
      Act.asyncFree ∉ prog.callback fn none c.privdata) :
    ∃ N ac', (∀ f n, N ≤ n →
        mongoAsyncHandleRead (apiCall prog (f + 1)) prog n chk (some k) rs last ac = some ac')
      ∧ ac'.trace = ac.trace ++ flushEvents ac.replies
          ++ [Event.cleanup, Event.onDisconnect MONGO_ERR, Event.mongoFree]
      ∧ ac'.freed = true ∧ ac'.replies = [] := by
  obtain ⟨N, ac', hret, _⟩ := mongoAsyncHandleRead_returns prog hh chk (some k) rs last ac
  refine ⟨N, ac', hret, ?_⟩
  have h0 := hret 0 N (le_refl _)
  unfold mongoAsyncHandleRead handleConnectFirst at h0
  rw [if_pos hconn] at h0
  simp only at h0
  unfold __mongoAsyncDisconnect __mongoAsyncCopyError at h0
  simp only at h0
  rw [if_neg (by simp)] at h0
  have r := asyncFree_inner_error_trace prog 1 N _ ac' h (by exact Or.inl rfl) (by exact hcl)
    (by exact hod) (by exact hconn) (by exact hfr) (by simp) (hh h MONGO_ERR) (by exact hcb) h0
  exact r

theorem C17_error_shutdown_order_witness :
    ∃ N ac', (∀ f n, N ≤ n →
        mongoAsyncHandleRead (apiCall idleProg (f + 1)) idleProg n SockCheck.ok
          (some ErrKind.eof) [] ReaderEnd.idle
          { mongoAsyncInitialize ⟨true, true, true, true, true⟩ none (some 9) with
            flags := ⟨false, true, false, false, false⟩,
            replies := [{ fn := some 1, flags := 0, privdata := 0 },
              { fn := some 2, flags := 0, privdata := 0 },
              { fn := some 3, flags := 0, privdata := 0 }] } = some ac')
      ∧ ac'.trace = ({ mongoAsyncInitialize ⟨true, true, true, true, true⟩ none (some 9) with
            flags := ⟨false, true, false, false, false⟩,
            replies := [{ fn := some 1, flags := 0, privdata := 0 },
              { fn := some 2, flags := 0, privdata := 0 },
              { fn := some 3, flags := 0, privdata := 0 }] } : mongoAsyncContext).trace
          ++ flushEvents ({ mongoAsyncInitialize ⟨true, true, true, true, true⟩ none (some 9) with
            flags := ⟨false, true, false, false, false⟩,
            replies := [{ fn := some 1, flags := 0, privdata := 0 },
              { fn := some 2, flags := 0, privdata := 0 },
              { fn := some 3, flags := 0, privdata := 0 }] } : mongoAsyncContext).replies
          ++ [Event.cleanup, Event.onDisconnect MONGO_ERR, Event.mongoFree]
      ∧ ac'.freed = true ∧ ac'.replies = [] :=
  C17_error_shutdown_order idleProg (fun _ _ a ha => absurd ha (List.not_mem_nil a))
    { mongoAsyncInitialize ⟨true, true, true, true, true⟩ none (some 9) with
      flags := ⟨false, true, false, false, false⟩,
      replies := [{ fn := some 1, flags := 0, privdata := 0 },
        { fn := some 2, flags := 0, privdata := 0 },
        { fn := some 3, flags := 0, privdata := 0 }] }
    9 ErrKind.eof SockCheck.ok [] ReaderEnd.idle rfl rfl rfl rfl
    (fun _ _ _ _ ha => absurd ha (List.not_mem_nil _))

/-! ## C12: replies are delivered in the order of the queue -/

theorem deliveries_nil_right (q : List mongoCallback) : deliveries q [] = [] := by
  cases q <;> rfl

theorem deliveries_append_left (q e : List mongoCallback) (rs : List mongoReply) :
    rs.length ≤ q.length → deliveries (q ++ e) rs = deliveries q rs := by
  induction q generalizing rs with
  | nil =>
    intro h
    have : rs = [] := List.length_eq_zero.mp (Nat.le_zero.mp h)
    subst this
    rw [deliveries_nil_right, deliveries_nil_right]
  | cons c q ih =>
    intro h
    cases rs with
    | nil => rfl
    | cons r rs =>
      rw [List.cons_append]
      simp only [deliveries]
      rw [ih rs (by simpa using h)]

/-- One iteration of the loop of `mongoProcessCallbacks` on a queue whose
head does not carry `EXHAUST` and whose callback does not call
`mongoAsyncFree`. -/
theorem processLoop_step (prog : Prog) (r : mongoReply) (rs : List mongoReply)
    (cb c : mongoCallback) (rest : List mongoCallback) (ac : mongoAsyncContext)
    (hq : ac.replies = c :: rest) (hx : c.flags &&& QUERY_FLAG_EXHAUST = 0)
    (hfr : ac.flags.freeing = false)
    (hcb : ∀ fn, c.fn = some fn → Act.asyncFree ∉ prog.callback fn (some r) c.privdata) :
    ∃ ac3 tu,
      (∀ last f n, processLoop (apiCall prog (f + 1)) prog n last (r :: rs) cb ac
        = processLoop (apiCall prog (f + 1)) prog n last rs c ac3)
      ∧ ac3.trace = ac.trace ++ tu
      ∧ callbacks tu = (if c.fn.isSome then [(c, some r)] else [])
      ∧ ac3.replies = rest ++ pushed tu
      ∧ ac3.flags.freeing = false := by
  obtain ⟨err, ⟨fb, fc, fd, fg, fi⟩, obuf, acErr, ev, oc, od, replies, trace, freed, aborted⟩ :=
    ac
  simp only at hq hfr
  subst hq hfr
  have hx' : ¬ (c.flags &&& QUERY_FLAG_EXHAUST ≠ 0) := by simp [hx]
  cases hfn : c.fn with
  | none =>
    refine ⟨emit ⟨err, ⟨fb, fc, fd, false, fi⟩, obuf, acErr, ev, oc, od, rest, trace, freed,
      aborted⟩ (Event.freeObject r), [Event.freeObject r], ?_, rfl, by simp [callbacks], by simp [pushed, emit], rfl⟩
    intro last f n
    simp [processLoop, __mongoShiftCallback, hx, hfn]
  | some fn =>
    obtain ⟨d, g, bytes, extra, t, hrd, hcbs, _, hp, _, _, hg⟩ :=
      runDeferred_spec (prog.callback fn (some r) c.privdata)
        (emit ⟨err, ⟨fb, fc, fd, false, true⟩, obuf, acErr, ev, oc, od, rest, trace, freed,
          aborted⟩ (Event.callback c (some r)))
    have hgf : g = false := by
      cases g with
      | false => rfl
      | true => exact absurd (hg rfl) (hcb fn hfn)
    subst hgf
    refine ⟨emit { extended (emit ⟨err, ⟨fb, fc, fd, false, true⟩, obuf, acErr, ev, oc, od, rest,
        trace, freed, aborted⟩ (Event.callback c (some r))) d false bytes extra t with
        flags := { (extended (emit ⟨err, ⟨fb, fc, fd, false, true⟩, obuf, acErr, ev, oc, od, rest,
          trace, freed, aborted⟩ (Event.callback c (some r))) d false bytes extra t).flags with
          in_callback := false } } (Event.freeObject r),
      Event.callback c (some r) :: t ++ [Event.freeObject r], ?_, ?_, ?_, ?_, ?_⟩
    · intro last f n
      have hu := userCode_deferred prog f (prog.callback fn (some r) c.privdata)
        (emit ⟨err, ⟨fb, fc, fd, false, true⟩, obuf, acErr, ev, oc, od, rest, trace, freed,
          aborted⟩ (Event.callback c (some r))) (Or.inl rfl)
      rw [hrd] at hu
      simp only [processLoop, __mongoShiftCallback, hx', decide_False, Bool.false_and,
        Bool.false_eq_true, if_false, if_true, hfn, ne_eq, reduceCtorEq, not_false_eq_true,
        __mongoRunCallback, hu]
      simp [extended, emit]
    · simp [extended, emit]
    · simp [callbacks, callbacks_append, hcbs]
    · simp [extended, emit, pushed, pushed_append, hp]
    · simp [extended, emit]


/-- The loop of `mongoProcessCallbacks` over replies that all find a record
without `EXHAUST` whose callback does not call `mongoAsyncFree`: the loop
reaches the end of the replies, having delivered them in order. -/
theorem processLoop_in_order (prog : Prog) (rs : List mongoReply) :
    ∀ (cb : mongoCallback) (ac : mongoAsyncContext),
      rs.length ≤ ac.replies.length → ac.flags.freeing = false →
      (∀ c ∈ ac.replies.take rs.length, c.flags &&& QUERY_FLAG_EXHAUST = 0) →
      (∀ c ∈ ac.replies.take rs.length, ∀ fn r, c.fn = some fn →
        Act.asyncFree ∉ prog.callback fn (some r) c.privdata) →
      ∃ mid cb' t,
        (∀ last f n, processLoop (apiCall prog (f + 1)) prog n last rs cb ac
            = processLoop (apiCall prog (f + 1)) prog n last [] cb' mid)
        ∧ mid.trace = ac.trace ++ t
        ∧ callbacks t = deliveries ac.replies rs
        ∧ mid.replies = ac.replies.drop rs.length ++ pushed t
        ∧ mid.flags.freeing = false := by
  induction rs with
  | nil =>
    intro cb ac _ hfr _ _
    exact ⟨ac, cb, [], fun _ _ _ => rfl, by simp, by rw [deliveries_nil_right]; rfl,
      by simp [pushed], hfr⟩
  | cons r rs ih =>
    intro cb ac hlen hfr hx hcb
    obtain ⟨c, rest, hq⟩ : ∃ c rest, ac.replies = c :: rest := by
      cases hq : ac.replies with
      | nil => rw [hq] at hlen; simp at hlen
      | cons c rest => exact ⟨c, rest, rfl⟩
    have hlen' : rs.length ≤ rest.length := by
      rw [hq] at hlen
      simpa using hlen
    have hmem : ∀ c' ∈ rest.take rs.length, c' ∈ ac.replies.take (r :: rs).length := by
      intro c' hc'
      rw [hq, List.length_cons, List.take_succ_cons]
      exact List.mem_cons_of_mem _ hc'
    have hmem0 : c ∈ ac.replies.take (r :: rs).length := by
      rw [hq, List.length_cons, List.take_succ_cons]
      exact List.mem_cons_self _ _
    obtain ⟨ac3, tu, hstep, htr, hcbs, hrep, hfr3⟩ :=
      processLoop_step prog r rs cb c rest ac hq (hx c hmem0) hfr
        (fun fn h => hcb c hmem0 fn r h)
    have htake : ac3.replies.take rs.length = rest.take rs.length := by
      rw [hrep, List.take_append_of_le_length hlen']
    obtain ⟨mid, cb', t, hloop, htr', hcbs', hrep', hfr'⟩ := ih c ac3
      (by rw [hrep, List.length_append]; omega) hfr3
      (by intro c' hc'; rw [htake] at hc'; exact hx c' (hmem c' hc'))
      (by intro c' hc'; rw [htake] at hc'; exact hcb c' (hmem c' hc'))
    refine ⟨mid, cb', tu ++ t, ?_, ?_, ?_, ?_, hfr'⟩
    · intro last f n
      rw [hstep, hloop]
    · rw [htr', htr, List.append_assoc]
    · rw [callbacks_append, hcbs, hcbs', hrep, deliveries_append_left _ _ _ hlen', hq]
      rfl
    · rw [hrep', hrep, pushed_append, hq, List.drop_append_of_le_length hlen']
      simp

/-- C12 (counterexample): two queries are queued and the reader yields two
replies; the callback of the first query calls `mongoAsyncFree`.  The first
callback is invoked with the first reply, and the second callback is then
invoked with a NULL reply: the second reply is not delivered. -/
theorem C12_free_in_callback_stops_delivery :
    (runCalls freeingProg 3
      [Call.act (Act.query { fn := some 1, flags := 0, privdata := 0 } (some [])),
       Call.act (Act.query { fn := some 2, flags := 0, privdata := 0 } (some [])),
       Call.processCallbacks [{ cursorID := 0, docs := 1 }, { cursorID := 0, docs := 2 }]
         ReaderEnd.idle]
      (mongoAsyncInitialize ⟨false, false, false, false, false⟩ none none)).map
      (fun ac => callbacks ac.trace)
    = some [({ fn := some 1, flags := 0, privdata := 0 }, some { cursorID := 0, docs := 1 }),
        ({ fn := some 2, flags := 0, privdata := 0 }, none)] := by
  decide

/-- C12 (amended): when the first `k` records of the queue carry no `EXHAUST`
flag and their callbacks do not call `mongoAsyncFree`, and the reader yields
`k` replies, with `k` at most the length of the queue, the loop of
`mongoProcessCallbacks` reaches the end of the replies having invoked the
i-th record with the i-th reply for each i up to `k` in increasing order
(a record with a NULL function takes its reply without an invocation) and
nothing else; the queue then holds the records after the `k`-th in their
order, followed by the records that the callbacks enqueued.  If then
`DISCONNECTING` is not set and the reader has no further reply, the pass
returns in that state. -/
theorem C12_delivery_in_enqueue_order (prog : Prog) (ac : mongoAsyncContext)
    (rs : List mongoReply) (hlen : rs.length ≤ ac.replies.length)
    (hfr : ac.flags.freeing = false)
    (hx : ∀ c ∈ ac.replies.take rs.length, c.flags &&& QUERY_FLAG_EXHAUST = 0)
    (hcb : ∀ c ∈ ac.replies.take rs.length, ∀ fn r, c.fn = some fn →
      Act.asyncFree ∉ prog.callback fn (some r) c.privdata) :
    ∃ mid cb' t,
      (∀ last f n, mongoProcessCallbacks (apiCall prog (f + 1)) prog n rs last ac
          = processLoop (apiCall prog (f + 1)) prog n last [] cb' mid)
      ∧ mid.trace = ac.trace ++ t
      ∧ callbacks t = deliveries ac.replies rs
      ∧ mid.replies = ac.replies.drop rs.length ++ pushed t
      ∧ (mid.flags.disconnecting = false → ∀ f n,
          mongoProcessCallbacks (apiCall prog (f + 1)) prog n rs ReaderEnd.idle ac = some mid) := by
  obtain ⟨mid, cb', t, hloop, htr, hcbs, hrep, _⟩ :=
    processLoop_in_order prog rs { fn := none, flags := 0, privdata := 0 } ac hlen hfr hx hcb
  refine ⟨mid, cb', t, fun last f n => hloop last f n, htr, hcbs, hrep, ?_⟩
  intro hd f n
  unfold mongoProcessCallbacks
  rw [hloop]
  simp [processLoop, hd]

theorem C12_delivery_in_enqueue_order_witness :
    ∃ mid cb' t,
      (∀ last f n, mongoProcessCallbacks (apiCall idleProg (f + 1)) idleProg n
          [{ cursorID := 0, docs := 1 }, { cursorID := 0, docs := 2 }] last
          { mongoAsyncInitialize ⟨true, true, true, true, true⟩ none none with
            replies := [{ fn := some 1, flags := 0, privdata := 0 },
              { fn := some 2, flags := 0, privdata := 0 },
              { fn := some 3, flags := 0, privdata := 0 }] }
          = processLoop (apiCall idleProg (f + 1)) idleProg n last [] cb' mid)
      ∧ mid.trace = ({ mongoAsyncInitialize ⟨true, true, true, true, true⟩ none none with
            replies := [{ fn := some 1, flags := 0, privdata := 0 },
              { fn := some 2, flags := 0, privdata := 0 },
              { fn := some 3, flags := 0, privdata := 0 }] } : mongoAsyncContext).trace ++ t
      ∧ callbacks t = deliveries
          ({ mongoAsyncInitialize ⟨true, true, true, true, true⟩ none none with
            replies := [{ fn := some 1, flags := 0, privdata := 0 },
              { fn := some 2, flags := 0, privdata := 0 },
              { fn := some 3, flags := 0, privdata := 0 }] } : mongoAsyncContext).replies
          [{ cursorID := 0, docs := 1 }, { cursorID := 0, docs := 2 }]
      ∧ mid.replies = (({ mongoAsyncInitialize ⟨true, true, true, true, true⟩ none none with
            replies := [{ fn := some 1, flags := 0, privdata := 0 },
              { fn := some 2, flags := 0, privdata := 0 },
              { fn := some 3, flags := 0, privdata := 0 }] } : mongoAsyncContext).replies.drop
          ([{ cursorID := 0, docs := 1 }, { cursorID := 0, docs := 2 }] :
            List mongoReply).length) ++ pushed t
      ∧ (mid.flags.disconnecting = false → ∀ f n,
          mongoProcessCallbacks (apiCall idleProg (f + 1)) idleProg n
            [{ cursorID := 0, docs := 1 }, { cursorID := 0, docs := 2 }] ReaderEnd.idle
            { mongoAsyncInitialize ⟨true, true, true, true, true⟩ none none with
              replies := [{ fn := some 1, flags := 0, privdata := 0 },
                { fn := some 2, flags := 0, privdata := 0 },
                { fn := some 3, flags := 0, privdata := 0 }] } = some mid) :=
  C12_delivery_in_enqueue_order idleProg
    { mongoAsyncInitialize ⟨true, true, true, true, true⟩ none none with
      replies := [{ fn := some 1, flags := 0, privdata := 0 },
        { fn := some 2, flags := 0, privdata := 0 },
        { fn := some 3, flags := 0, privdata := 0 }] }
    [{ cursorID := 0, docs := 1 }, { cursorID := 0, docs := 2 }]
    (by decide) rfl (by decide) (fun _ _ _ _ _ ha => absurd ha (List.not_mem_nil _))

/-! ## C19: the flag `MONGO_CONNECTED` and the invocations of `onConnect` -/

theorem Conn.conn_refl (ac : mongoAsyncContext) : Conn ac ac := ⟨id, Or.inl⟩

theorem Conn.conn_trans {a b c : mongoAsyncContext} (h1 : Conn a b) (h2 : Conn b c) : Conn a c where
  connected := fun h => h2.connected (h1.connected h)
  invoked := by
    intro h
    rcases h2.invoked h with hb | hb
    · rcases h1.invoked hb with ha | ha
      · exact Or.inl ha
      · exact Or.inr (h2.connected ha)
    · exact Or.inr hb

theorem Conn.conn_of_same {ac ac' : mongoAsyncContext}
    (hf : ac.flags.connected = true → ac'.flags.connected = true) (ht : ac'.trace = ac.trace) :
    Conn ac ac' where
  connected := hf
  invoked := fun h => Or.inl (by rw [← ht]; exact h)

theorem Conn.conn_emit (ac : mongoAsyncContext) (e : Event)
    (he : e = Event.onConnect MONGO_OK → ac.flags.connected = true) : Conn ac (emit ac e) where
  connected := id
  invoked := by
    intro h
    simp only [Himongo.emit, List.mem_append, List.mem_singleton] at h
    rcases h with h | h
    · exact Or.inl h
    · exact Or.inr (he h.symm)

theorem userCode_conn (api : Act → mongoAsyncContext → Option mongoAsyncContext)
    (hapi : ∀ a ac ac', api a ac = some ac' → Conn ac ac') (acts : List Act) :
    ∀ ac ac', userCode api acts ac = some ac' → Conn ac ac' := by
  induction acts with
  | nil =>
    intro ac ac' h
    simp only [userCode, Option.some.injEq] at h
    subst h
    exact Conn.conn_refl _
  | cons a rest ih =>
    intro ac ac' h
    simp only [userCode] at h
    cases ha : api a ac with
    | none => simp [ha] at h
    | some ac1 =>
      rw [ha] at h
      exact (hapi a ac ac1 ha).conn_trans (ih ac1 ac' h)

/-- `__mongoShiftCallback` changes the queue only. -/
theorem shift_same (ac ac1 : mongoAsyncContext) (rpl : Option mongoReply)
    (target cb : mongoCallback) (status : Int)
    (hs : __mongoShiftCallback ac rpl target = (status, cb, ac1)) :
    ac1.flags = ac.flags ∧ ac1.trace = ac.trace ∧ ac1.freed = ac.freed := by
  rcases shift_cases ac rpl target with ⟨_, hsh⟩ | ⟨h', rest, _, hcase⟩
  · rw [hsh] at hs
    simp only [Prod.mk.injEq] at hs
    obtain ⟨_, _, rfl⟩ := hs
    exact ⟨rfl, rfl, rfl⟩
  · rcases hcase with ⟨hsh, _⟩ | hsh <;>
      · rw [hsh] at hs
        simp only [Prod.mk.injEq] at hs
        obtain ⟨_, _, rfl⟩ := hs
        exact ⟨rfl, rfl, rfl⟩

theorem shift_conn (ac ac1 : mongoAsyncContext) (rpl : Option mongoReply)
    (target cb : mongoCallback) (status : Int)
    (hs : __mongoShiftCallback ac rpl target = (status, cb, ac1)) : Conn ac ac1 := by
  obtain ⟨hf, ht, _⟩ := shift_same ac ac1 rpl target cb status hs
  exact Conn.conn_of_same (fun h => by rw [hf]; exact h) ht

theorem runCallback_conn (api : Act → mongoAsyncContext → Option mongoAsyncContext)
    (hapi : ∀ a ac ac', api a ac = some ac' → Conn ac ac') (prog : Prog)
    (ac ac2 : mongoAsyncContext) (cb : mongoCallback) (rpl : Option mongoReply)
    (hr : __mongoRunCallback api prog ac cb rpl = some ac2) : Conn ac ac2 := by
  unfold __mongoRunCallback at hr
  cases hfn : cb.fn with
  | none =>
    rw [hfn] at hr
    simp only [Option.some.injEq] at hr
    subst hr
    exact Conn.conn_refl _
  | some f =>
    rw [hfn] at hr
    simp only at hr
    cases hu : userCode api (prog.callback f rpl cb.privdata)
        (emit { ac with flags := { ac.flags with in_callback := true } }
          (Event.callback cb rpl)) with
    | none => simp [hu] at hr
    | some acu =>
      rw [hu] at hr
      simp only [Option.some.injEq] at hr
      subst hr
      have c1 : Conn ac { ac with flags := { ac.flags with in_callback := true } } :=
        Conn.conn_of_same (fun h => h) rfl
      have c2 := Conn.conn_emit { ac with flags := { ac.flags with in_callback := true } }
        (Event.callback cb rpl) (by intro h; cases h)
      have c3 := userCode_conn api hapi _ _ _ hu
      exact ((c1.conn_trans c2).conn_trans c3).conn_trans (Conn.conn_of_same (fun h => h) rfl)

theorem flushLoop_conn (api : Act → mongoAsyncContext → Option mongoAsyncContext)
    (hapi : ∀ a ac ac', api a ac = some ac' → Conn ac ac') (prog : Prog) (n : Nat) :
    ∀ (cb : mongoCallback) (ac ac' : mongoAsyncContext),
      flushLoop api prog n cb ac = some ac' → Conn ac ac' := by
  induction n with
  | zero => intro cb ac ac' h; simp [flushLoop] at h
  | succ n ih =>
    intro cb ac ac' h
    simp only [flushLoop] at h
    rcases hs : __mongoShiftCallback ac none cb with ⟨status, cb', ac1⟩
    rw [hs] at h
    simp only at h
    have c1 := shift_conn ac ac1 none cb cb' status hs
    by_cases hok : status = MONGO_OK
    · rw [if_pos hok] at h
      cases hr : __mongoRunCallback api prog ac1 cb' none with
      | none => simp [hr] at h
      | some ac2 =>
        rw [hr] at h
        simp only at h
        exact (c1.conn_trans (runCallback_conn api hapi prog ac1 ac2 cb' none hr)).conn_trans
          (ih cb' ac2 ac' h)
    · rw [if_neg hok] at h
      simp only [Option.some.injEq] at h
      subst h
      exact c1

theorem callHook_conn (api : Act → mongoAsyncContext → Option mongoAsyncContext)
    (hapi : ∀ a ac ac', api a ac = some ac' → Conn ac ac') (prog : Prog) (f : Nat) (status : Int)
    (ac ac' : mongoAsyncContext) (e : Event)
    (he : e = Event.onConnect MONGO_OK → ac.flags.connected = true)
    (h : callHook api prog e f status ac = some ac') : Conn ac ac' := by
  unfold callHook at h
  exact (Conn.conn_emit ac e he).conn_trans (userCode_conn api hapi _ _ _ h)

theorem EL_CLEANUP_conn (ac : mongoAsyncContext) : Conn ac (_EL_CLEANUP ac) := by
  unfold _EL_CLEANUP
  split
  · exact Conn.conn_emit ac _ (by intro h; cases h)
  · exact Conn.conn_refl _

theorem EL_ADD_WRITE_conn (ac : mongoAsyncContext) : Conn ac (_EL_ADD_WRITE ac) := by
  unfold _EL_ADD_WRITE
  split
  · exact Conn.conn_emit ac _ (by intro h; cases h)
  · exact Conn.conn_refl _

theorem EL_DEL_WRITE_conn (ac : mongoAsyncContext) : Conn ac (_EL_DEL_WRITE ac) := by
  unfold _EL_DEL_WRITE
  split
  · exact Conn.conn_emit ac _ (by intro h; cases h)
  · exact Conn.conn_refl _

theorem EL_ADD_READ_conn (ac : mongoAsyncContext) : Conn ac (_EL_ADD_READ ac) := by
  unfold _EL_ADD_READ
  split
  · exact Conn.conn_emit ac _ (by intro h; cases h)
  · exact Conn.conn_refl _

theorem asyncFree_inner_conn (api : Act → mongoAsyncContext → Option mongoAsyncContext)
    (hapi : ∀ a ac ac', api a ac = some ac' → Conn ac ac') (prog : Prog) (n : Nat)
    (ac ac' : mongoAsyncContext) (h : __mongoAsyncFree api prog n ac = some ac') :
    Conn ac ac' := by
  unfold __mongoAsyncFree at h
  cases hfl : flushLoop api prog n { fn := none, flags := 0, privdata := 0 } ac with
  | none => simp [hfl] at h
  | some ac1 =>
    rw [hfl] at h
    simp only at h
    have c2 : Conn ac (_EL_CLEANUP ac1) :=
      (flushLoop_conn api hapi prog n _ ac ac1 hfl).conn_trans (EL_CLEANUP_conn ac1)
    have hfin : ∀ ac3, Conn (_EL_CLEANUP ac1) ac3 →
        Conn ac { emit ac3 Event.mongoFree with freed := true } := by
      intro ac3 c3
      have c4 : Conn ac3 { emit ac3 Event.mongoFree with freed := true } :=
        (Conn.conn_emit ac3 Event.mongoFree (by intro h; cases h)).conn_trans
          (Conn.conn_of_same (fun h => h) rfl)
      exact (c2.conn_trans c3).conn_trans c4
    cases hd : (_EL_CLEANUP ac1).onDisconnect with
    | none =>
      rw [hd] at h
      simp only [Option.some.injEq] at h
      subst h
      exact hfin _ (Conn.conn_refl _)
    | some f =>
      rw [hd] at h
      simp only at h
      split at h
      · rename_i ac3 hr
        simp only [Option.some.injEq] at h
        subst h
        refine hfin ac3 ?_
        split at hr
        · split at hr
          · exact callHook_conn api hapi prog f _ _ _ (Event.onDisconnect MONGO_OK)
              (by intro h; cases h) hr
          · exact callHook_conn api hapi prog f _ _ _ _ (by intro h; cases h) hr
        · simp only [Option.some.injEq] at hr
          subst hr
          exact Conn.conn_refl _
      · simp at h

theorem mongoAsyncFree_conn (api : Act → mongoAsyncContext → Option mongoAsyncContext)
    (hapi : ∀ a ac ac', api a ac = some ac' → Conn ac ac') (prog : Prog) (n : Nat)
    (ac ac' : mongoAsyncContext) (h : mongoAsyncFree api prog n ac = some ac') : Conn ac ac' := by
  unfold mongoAsyncFree at h
  simp only at h
  have c0 : Conn ac { ac with flags := { ac.flags with freeing := true } } :=
    Conn.conn_of_same (fun h => h) rfl
  split at h
  · simp only [Option.some.injEq] at h
    subst h
    exact c0
  · exact c0.conn_trans (asyncFree_inner_conn api hapi prog n _ ac' h)

theorem asyncDisconnect_inner_conn (api : Act → mongoAsyncContext → Option mongoAsyncContext)
    (hapi : ∀ a ac ac', api a ac = some ac' → Conn ac ac') (prog : Prog) (n : Nat)
    (ac ac' : mongoAsyncContext) (h : __mongoAsyncDisconnect api prog n ac = some ac') :
    Conn ac ac' := by
  unfold __mongoAsyncDisconnect __mongoAsyncCopyError at h
  simp only at h
  have c0 : Conn ac { ac with acErr := ac.err } := Conn.conn_of_same (fun h => h) rfl
  by_cases herr : ac.err = none
  · rw [if_pos herr] at h
    by_cases he : ac.replies = []
    · rw [if_pos he] at h
      exact c0.conn_trans (asyncFree_inner_conn api hapi prog n _ ac' h)
    · rw [if_neg he] at h
      simp only [Option.some.injEq] at h
      subst h
      exact Conn.conn_of_same (fun h => h) rfl
  · rw [if_neg herr] at h
    have c1 : Conn ac { ({ ac with acErr := ac.err } : mongoAsyncContext) with
        flags := { ac.flags with disconnecting := true } } := Conn.conn_of_same (fun h => h) rfl
    exact c1.conn_trans (asyncFree_inner_conn api hapi prog n _ ac' h)

theorem mongoAsyncDisconnect_conn (api : Act → mongoAsyncContext → Option mongoAsyncContext)
    (hapi : ∀ a ac ac', api a ac = some ac' → Conn ac ac') (prog : Prog) (n : Nat)
    (ac ac' : mongoAsyncContext) (h : mongoAsyncDisconnect api prog n ac = some ac') :
    Conn ac ac' := by
  unfold mongoAsyncDisconnect at h
  simp only at h
  have c0 : Conn ac { ac with flags := { ac.flags with disconnecting := true } } :=
    Conn.conn_of_same (fun h => h) rfl
  split at h
  · exact c0.conn_trans (asyncDisconnect_inner_conn api hapi prog n _ ac' h)
  · simp only [Option.some.injEq] at h
    subst h
    exact c0

theorem extended_conn (ac : mongoAsyncContext) (d g : Bool) (bytes : List Nat)
    (extra : List mongoCallback) (t : List Event) (ht : ∀ status, Event.onConnect status ∉ t) :
    Conn ac (extended ac d g bytes extra t) where
  connected := id
  invoked := by
    intro h
    simp only [extended, List.mem_append] at h
    rcases h with h | h
    · exact Or.inl h
    · exact absurd h (ht MONGO_OK)

theorem apiCall_conn (prog : Prog) (fuel : Nat) :
    ∀ a ac ac', apiCall prog fuel a ac = some ac' → Conn ac ac' := by
  induction fuel with
  | zero => intro a ac ac' h; simp [apiCall] at h
  | succ fuel ih =>
    intro a ac ac' h
    cases a with
    | query cb frame =>
      simp only [apiCall, Option.some.injEq] at h
      subst h
      obtain ⟨bytes, extra, t, he, _, _, _, ho, _⟩ := mongoAsyncQuery_deferred ac cb frame
      rw [he]
      exact extended_conn ac _ _ _ _ _ ho
    | write fn privdata frame gle =>
      simp only [apiCall, Option.some.injEq] at h
      subst h
      obtain ⟨bytes, extra, t, he, _, _, _, ho, _⟩ :=
        mongoAsyncWrite_deferred ac fn privdata frame gle
      rw [he]
      exact extended_conn ac _ _ _ _ _ ho
    | asyncFree =>
      simp only [apiCall] at h
      exact mongoAsyncFree_conn _ ih prog _ ac ac' h
    | asyncDisconnect =>
      simp only [apiCall] at h
      exact mongoAsyncDisconnect_conn _ ih prog _ ac ac' h

theorem processLoop_conn (api : Act → mongoAsyncContext → Option mongoAsyncContext)
    (hapi : ∀ a ac ac', api a ac = some ac' → Conn ac ac') (prog : Prog) (n : Nat)
    (last : ReaderEnd) (rs : List mongoReply) :
    ∀ (cb : mongoCallback) (ac ac' : mongoAsyncContext),
      processLoop api prog n last rs cb ac = some ac' → Conn ac ac' := by
  induction rs with
  | nil =>
    intro cb ac ac' h
    simp only [processLoop] at h
    cases last with
    | idle =>
      simp only at h
      split at h
      · exact asyncDisconnect_inner_conn api hapi prog n ac ac' h
      · simp only [Option.some.injEq] at h
        subst h
        exact Conn.conn_refl _
    | error k =>
      simp only at h
      have c0 : Conn ac { ac with err := some k } := Conn.conn_of_same (fun h => h) rfl
      exact c0.conn_trans (asyncDisconnect_inner_conn api hapi prog n _ ac' h)
  | cons reply rs ih =>
    intro cb ac ac' h
    simp only [processLoop] at h
    rcases hs : __mongoShiftCallback ac (some reply) cb with ⟨status, cb', ac1⟩
    rw [hs] at h
    simp only at h
    have c1 : Conn ac (if status = MONGO_OK then ac1 else emit ac1 (Event.unsolicited reply)) := by
      have c := shift_conn ac ac1 (some reply) cb cb' status hs
      split
      · exact c
      · exact c.conn_trans (Conn.conn_emit ac1 _ (by intro h; cases h))
    have hfree : ∀ a : mongoAsyncContext, Conn a (emit a (Event.freeObject reply)) := fun a =>
      Conn.conn_emit a _ (by intro h; cases h)
    split at h
    · cases hr : __mongoRunCallback api prog
          (if status = MONGO_OK then ac1 else emit ac1 (Event.unsolicited reply)) cb'
          (some reply) with
      | none => simp [hr] at h
      | some ac2 =>
        rw [hr] at h
        simp only at h
        have c2 := (c1.conn_trans (runCallback_conn api hapi prog _ ac2 cb' (some reply) hr)).conn_trans
          (hfree ac2)
        split at h
        · exact c2.conn_trans (asyncFree_inner_conn api hapi prog n _ ac' h)
        · exact c2.conn_trans (ih cb' _ ac' h)
    · exact (c1.conn_trans (hfree _)).conn_trans (ih cb' _ ac' h)

theorem handleConnect_conn (api : Act → mongoAsyncContext → Option mongoAsyncContext)
    (hapi : ∀ a ac ac', api a ac = some ac' → Conn ac ac') (prog : Prog) (n : Nat)
    (chk : SockCheck) (ac ac' : mongoAsyncContext) (status : Int)
    (h : __mongoAsyncHandleConnect api prog n chk ac = some (status, ac')) : Conn ac ac' := by
  unfold __mongoAsyncHandleConnect at h
  cases chk with
  | ok =>
    have hchk : mongoCheckSocketError SockCheck.ok ac = (MONGO_OK, ac) := rfl
    rw [hchk] at h
    simp only [MONGO_ERR_ne_OK.symm, if_false] at h
    have c0 : Conn ac { ac with flags := { ac.flags with connected := true } } :=
      Conn.conn_of_same (fun _ => rfl) rfl
    cases hoc : ac.onConnect with
    | none =>
      rw [hoc] at h
      simp only [Option.some.injEq, Prod.mk.injEq] at h
      rw [← h.2]
      exact Conn.conn_of_same (fun _ => rfl) rfl
    | some f =>
      rw [hoc] at h
      simp only at h
      split at h
      · rename_i ac3 hh
        simp only [Option.some.injEq, Prod.mk.injEq] at h
        rw [← h.2]
        have c1 := callHook_conn api hapi prog f _ _ _ (Event.onConnect MONGO_OK)
          (fun _ => rfl) hh
        refine Conn.conn_trans ?_ c1
        exact Conn.conn_of_same (fun _ => rfl) rfl
      · simp at h
  | failed e =>
    have hchk : mongoCheckSocketError (SockCheck.failed e) ac
        = (MONGO_ERR, { ac with err := some ErrKind.io }) := rfl
    rw [hchk] at h
    simp only [eq_self_iff_true, if_true] at h
    have c0 : Conn ac { ac with err := some ErrKind.io } := Conn.conn_of_same (fun h => h) rfl
    split at h
    · simp only [Option.some.injEq, Prod.mk.injEq] at h
      rw [← h.2]
      exact c0
    · split at h
      · rename_i ac2 hh
        split at h
        · rename_i ac3 hd
          simp only [Option.some.injEq, Prod.mk.injEq] at h
          rw [← h.2]
          have c1 : Conn { ac with err := some ErrKind.io } ac2 := by
            split at hh
            · exact callHook_conn api hapi prog _ _ _ _ (Event.onConnect MONGO_ERR)
                (by intro h; exact absurd (Event.onConnect.inj h) MONGO_ERR_ne_OK) hh
            · simp only [Option.some.injEq] at hh
              rw [← hh]
              exact Conn.conn_refl _
          exact (c0.conn_trans c1).conn_trans (asyncDisconnect_inner_conn api hapi prog n ac2 ac3 hd)
        · simp at h
      · simp at h

theorem handleConnectFirst_conn (api : Act → mongoAsyncContext → Option mongoAsyncContext)
    (hapi : ∀ a ac ac', api a ac = some ac' → Conn ac ac') (prog : Prog) (n : Nat)
    (chk : SockCheck) (ac ac' : mongoAsyncContext) (go : Bool)
    (h : handleConnectFirst api prog n chk ac = some (go, ac')) : Conn ac ac' := by
  unfold handleConnectFirst at h
  split at h
  · simp only [Option.some.injEq, Prod.mk.injEq] at h
    rw [← h.2]
    exact Conn.conn_refl _
  · split at h
    · rename_i status ac1 hh
      have r := handleConnect_conn api hapi prog n chk ac ac1 status hh
      split at h
      · simp only [Option.some.injEq, Prod.mk.injEq] at h
        rw [← h.2]
        exact r
      · split at h <;>
        · simp only [Option.some.injEq, Prod.mk.injEq] at h
          rw [← h.2]
          exact r
    · simp at h

theorem mongoAsyncHandleRead_conn (api : Act → mongoAsyncContext → Option mongoAsyncContext)
    (hapi : ∀ a ac ac', api a ac = some ac' → Conn ac ac') (prog : Prog) (n : Nat)
    (chk : SockCheck) (rd : Option ErrKind) (rs : List mongoReply) (last : ReaderEnd)
    (ac ac' : mongoAsyncContext)
    (h : mongoAsyncHandleRead api prog n chk rd rs last ac = some ac') : Conn ac ac' := by
  unfold mongoAsyncHandleRead at h
  split at h
  · rename_i ac1 hh
    have r := handleConnectFirst_conn api hapi prog n chk ac ac1 true hh
    cases rd with
    | some k =>
      simp only at h
      have c0 : Conn ac1 { ac1 with err := some k } := Conn.conn_of_same (fun h => h) rfl
      exact (r.conn_trans c0).conn_trans (asyncDisconnect_inner_conn api hapi prog n _ ac' h)
    | none =>
      simp only [mongoProcessCallbacks] at h
      exact (r.conn_trans (EL_ADD_READ_conn ac1)).conn_trans
        (processLoop_conn api hapi prog n last rs _ _ ac' h)
  · rename_i ac1 hh
    simp only [Option.some.injEq] at h
    rw [← h]
    exact handleConnectFirst_conn api hapi prog n chk ac ac1 false hh
  · simp at h

theorem mongoAsyncHandleWrite_conn (api : Act → mongoAsyncContext → Option mongoAsyncContext)
    (hapi : ∀ a ac ac', api a ac = some ac' → Conn ac ac') (prog : Prog) (n : Nat)
    (chk : SockCheck) (wr : Except ErrKind Nat) (ac ac' : mongoAsyncContext)
    (h : mongoAsyncHandleWrite api prog n chk wr ac = some ac') : Conn ac ac' := by
  unfold mongoAsyncHandleWrite at h
  split at h
  · rename_i ac1 hh
    have r := handleConnectFirst_conn api hapi prog n chk ac ac1 true hh
    cases wr with
    | error k =>
      simp only at h
      have c0 : Conn ac1 { ac1 with err := some k } := Conn.conn_of_same (fun h => h) rfl
      exact (r.conn_trans c0).conn_trans (asyncDisconnect_inner_conn api hapi prog n _ ac' h)
    | ok m =>
      simp only [Option.some.injEq] at h
      rw [← h]
      have c0 : Conn ac1 (mongoBufferWrite m ac1) := Conn.conn_of_same (fun h => h) rfl
      refine (r.conn_trans c0).conn_trans (Conn.conn_trans ?_ (EL_ADD_READ_conn _))
      split
      · exact EL_ADD_WRITE_conn _
      · exact EL_DEL_WRITE_conn _
  · rename_i ac1 hh
    simp only [Option.some.injEq] at h
    rw [← h]
    exact handleConnectFirst_conn api hapi prog n chk ac ac1 false hh
  · simp at h

theorem callStep_conn (prog : Prog) (fuel : Nat) (c : Call) (ac ac' : mongoAsyncContext)
    (h : callStep prog fuel c ac = some ac') : Conn ac ac' := by
  cases c with
  | act a => exact apiCall_conn prog _ a ac ac' h
  | processCallbacks rs last =>
    simp only [callStep, mongoProcessCallbacks] at h
    exact processLoop_conn _ (apiCall_conn prog fuel) prog _ last rs _ ac ac' h
  | handleRead chk rd rs last =>
    simp only [callStep] at h
    exact mongoAsyncHandleRead_conn _ (apiCall_conn prog fuel) prog _ chk rd rs last ac ac' h
  | handleWrite chk wr =>
    simp only [callStep] at h
    exact mongoAsyncHandleWrite_conn _ (apiCall_conn prog fuel) prog _ chk wr ac ac' h

theorem runCalls_conn (prog : Prog) (fuel : Nat) (cs : List Call) :
    ∀ (ac ac' : mongoAsyncContext), runCalls prog fuel cs ac = some ac' → Conn ac ac' := by
  induction cs with
  | nil =>
    intro ac ac' h
    simp only [runCalls, Option.some.injEq] at h
    subst h
    exact Conn.conn_refl _
  | cons c cs ih =>
    intro ac ac' h
    simp only [runCalls] at h
    split at h
    · simp only [Option.some.injEq] at h
      subst h
      exact Conn.conn_refl _
    · cases hc : callStep prog fuel c ac with
      | none => simp [hc] at h
      | some ac1 =>
        rw [hc] at h
        exact (callStep_conn prog fuel c ac ac1 hc).conn_trans (ih ac1 ac' h)

/-- C19 (counterexample): on a controller without an `onConnect` hook the
first write event sets `MONGO_CONNECTED` and no `onConnect` is invoked at
all.  And with an `onConnect` hook that calls `mongoAsyncDisconnect`, the
disconnect hook, which `__mongoAsyncFree` only invokes when
`MONGO_CONNECTED` is set, is invoked while `onConnect(OK)` runs: the flag was
set before `onConnect(OK)` started. -/
theorem C19_connected_set_before_onConnect :
    ((runCalls idleProg 2 [Call.handleWrite SockCheck.ok (Except.ok 0)]
        (mongoAsyncInitialize ⟨false, false, false, false, false⟩ none none)).map
        (fun ac => (ac.flags.connected, ac.trace)) = some (true, []))
    ∧ ((__mongoAsyncHandleConnect (apiCall reenteringProg 2) reenteringProg 3 SockCheck.ok
        (mongoAsyncInitialize ⟨false, false, false, false, false⟩ (some 5) (some 6))).map
        (fun r => r.2.trace)
      = some [Event.onConnect MONGO_OK, Event.onDisconnect MONGO_OK, Event.mongoFree]) := by
  decide

/-- C19 (amended): `mongoAsyncInitialize` leaves `MONGO_CONNECTED` clear; when
the socket check succeeds `__mongoAsyncHandleConnect` first sets the flag
and then invokes `onConnect` with `MONGO_OK`, if a hook is registered, on the
context with the flag set; and in every state that a lifetime of the
controller reaches, if `onConnect` has been invoked with `MONGO_OK` then
`MONGO_CONNECTED` is set. -/
theorem C19_onConnect_only_when_connected (prog : Prog) (fuel : Nat) (cs : List Call)
    (ev : EvHooks) (onConnect onDisconnect : Option Nat) (final : mongoAsyncContext)
    (hrun : runCalls prog fuel cs (mongoAsyncInitialize ev onConnect onDisconnect) = some final) :
    (mongoAsyncInitialize ev onConnect onDisconnect).flags.connected = false
    ∧ (Event.onConnect MONGO_OK ∈ final.trace → final.flags.connected = true)
    ∧ (∀ api n ac f, ac.onConnect = some f →
        __mongoAsyncHandleConnect api prog n SockCheck.ok ac
          = (callHook api prog (Event.onConnect MONGO_OK) f MONGO_OK
              { ac with flags := { ac.flags with connected := true } }).map
              (fun ac' => (MONGO_OK, ac')))
    ∧ (∀ api n ac, ac.onConnect = none →
        __mongoAsyncHandleConnect api prog n SockCheck.ok ac
          = some (MONGO_OK, { ac with flags := { ac.flags with connected := true } })) := by
  refine ⟨rfl, ?_, ?_, ?_⟩
  · intro h
    rcases (runCalls_conn prog fuel cs _ final hrun).invoked h with h0 | h0
    · simp [mongoAsyncInitialize] at h0
    · exact h0
  · intro api n ac f hoc
    obtain ⟨err, fl, obuf, acErr, ev', oc, od, replies, trace, freed, aborted⟩ := ac
    simp only at hoc
    subst hoc
    simp only [__mongoAsyncHandleConnect, mongoCheckSocketError, MONGO_ERR_ne_OK.symm, if_false]
    cases callHook api prog (Event.onConnect MONGO_OK) f MONGO_OK
      ⟨err, { fl with connected := true }, obuf, acErr, ev', some f, od, replies, trace, freed,
        aborted⟩ <;> rfl
  · intro api n ac hoc
    obtain ⟨err, fl, obuf, acErr, ev', oc, od, replies, trace, freed, aborted⟩ := ac
    simp only at hoc
    subst hoc
    simp only [__mongoAsyncHandleConnect, mongoCheckSocketError, MONGO_ERR_ne_OK.symm, if_false]

theorem C19_onConnect_only_when_connected_witness :
    runCalls idleProg 2 [Call.handleWrite SockCheck.ok (Except.ok 0)]
        (mongoAsyncInitialize ⟨true, true, true, true, true⟩ (some 1) none)
      = some ⟨none, ⟨false, true, false, false, false⟩, [], none, ⟨true, true, true, true, true⟩,
          some 1, none, [], [Event.onConnect MONGO_OK, Event.delWrite, Event.addRead], false,
          false⟩
    ∧ (Event.onConnect MONGO_OK ∈
        (⟨none, ⟨false, true, false, false, false⟩, [], none, ⟨true, true, true, true, true⟩,
          some 1, none, [], [Event.onConnect MONGO_OK, Event.delWrite, Event.addRead], false,
          false⟩ : mongoAsyncContext).trace →
      (⟨none, ⟨false, true, false, false, false⟩, [], none, ⟨true, true, true, true, true⟩,
          some 1, none, [], [Event.onConnect MONGO_OK, Event.delWrite, Event.addRead], false,
          false⟩ : mongoAsyncContext).flags.connected = true) :=
  ⟨by decide,
    (C19_onConnect_only_when_connected idleProg 2
      [Call.handleWrite SockCheck.ok (Except.ok 0)] ⟨true, true, true, true, true⟩ (some 1) none
      _ (by decide)).2.1⟩

/-! ## C20: the disconnect hook is invoked at most once -/

theorem Calm.calm_refl (ac : mongoAsyncContext) : Calm ac ac := ⟨[], by simp, rfl, rfl⟩

theorem Calm.calm_trans {a b c : mongoAsyncContext} (h1 : Calm a b) (h2 : Calm b c) : Calm a c := by
  obtain ⟨t1, e1, d1, f1⟩ := h1
  obtain ⟨t2, e2, d2, f2⟩ := h2
  refine ⟨t1 ++ t2, by rw [e2, e1, List.append_assoc], ?_, by rw [f2, f1]⟩
  rw [disconnects_append, d1, d2]
  rfl

theorem Calm.calm_of_same {ac ac' : mongoAsyncContext} (ht : ac'.trace = ac.trace)
    (hf : ac'.freed = ac.freed) : Calm ac ac' :=
  ⟨[], by simp [ht], rfl, hf⟩

theorem Calm.calm_emit (ac : mongoAsyncContext) (e : Event) (he : disconnects [e] = []) :
    Calm ac (emit ac e) :=
  ⟨[e], rfl, he, rfl⟩

theorem Calm.once {a b : mongoAsyncContext} (h : Calm a b) : Once a b := by
  obtain ⟨t, e, d, f⟩ := h
  exact ⟨t, e, Or.inl ⟨d, f⟩⟩

theorem Calm.andThen {a b c : mongoAsyncContext} (h1 : Calm a b) (h2 : Once b c) : Once a c := by
  obtain ⟨t1, e1, d1, f1⟩ := h1
  obtain ⟨t2, e2, h2⟩ := h2
  refine ⟨t1 ++ t2, by rw [e2, e1, List.append_assoc], ?_⟩
  rw [disconnects_append, d1, List.nil_append]
  rcases h2 with ⟨d2, f2⟩ | ⟨d2, f2⟩
  · exact Or.inl ⟨d2, by rw [f2, f1]⟩
  · exact Or.inr ⟨d2, f2⟩

theorem extended_calm (ac : mongoAsyncContext) (d g : Bool) (bytes : List Nat)
    (extra : List mongoCallback) (t : List Event) (ht : disconnects t = []) :
    Calm ac (extended ac d g bytes extra t) :=
  ⟨t, rfl, ht, rfl⟩

/-- A call of the API made while a callback runs. -/
theorem apiCall_callback_calm (prog : Prog) (fuel : Nat) (a : Act) (ac ac' : mongoAsyncContext)
    (hin : ac.flags.in_callback = true) (h : apiCall prog fuel a ac = some ac') :
    Calm ac ac' ∧ ac'.flags.in_callback = true := by
  cases fuel with
  | zero => simp [apiCall] at h
  | succ f =>
    rw [apiCall_deferred prog f a ac (Or.inl hin)] at h
    simp only [Option.some.injEq] at h
    subst h
    refine ⟨?_, by rw [deferred_in_callback]; exact hin⟩
    obtain ⟨d, g, bytes, extra, t, he, _, hd, _⟩ := deferred_spec a ac
    rw [he]
    exact extended_calm ac _ _ _ _ _ hd

/-- A submit operation. -/
theorem apiCall_submit_calm (prog : Prog) (fuel : Nat) (a : Act) (ac ac' : mongoAsyncContext)
    (ha : a ≠ Act.asyncFree ∧ a ≠ Act.asyncDisconnect) (h : apiCall prog fuel a ac = some ac') :
    Calm ac ac' := by
  cases fuel with
  | zero => simp [apiCall] at h
  | succ f =>
    rw [apiCall_deferred prog f a ac (Or.inr ha)] at h
    simp only [Option.some.injEq] at h
    subst h
    obtain ⟨d, g, bytes, extra, t, he, _, hd, _⟩ := deferred_spec a ac
    rw [he]
    exact extended_calm ac _ _ _ _ _ hd

theorem userCode_callback_calm (prog : Prog) (fuel : Nat) (acts : List Act) :
    ∀ ac ac', ac.flags.in_callback = true → userCode (apiCall prog fuel) acts ac = some ac' →
      Calm ac ac' := by
  induction acts with
  | nil =>
    intro ac ac' _ h
    simp only [userCode, Option.some.injEq] at h
    subst h
    exact Calm.calm_refl _
  | cons a rest ih =>
    intro ac ac' hin h
    simp only [userCode] at h
    cases ha : apiCall prog fuel a ac with
    | none => simp [ha] at h
    | some ac1 =>
      rw [ha] at h
      obtain ⟨c1, hin1⟩ := apiCall_callback_calm prog fuel a ac ac1 hin ha
      exact c1.calm_trans (ih ac1 ac' hin1 h)

theorem userCode_submit_calm (prog : Prog) (fuel : Nat) (acts : List Act) :
    (∀ a ∈ acts, a ≠ Act.asyncFree ∧ a ≠ Act.asyncDisconnect) →
    ∀ ac ac', userCode (apiCall prog fuel) acts ac = some ac' → Calm ac ac' := by
  induction acts with
  | nil =>
    intro _ ac ac' h
    simp only [userCode, Option.some.injEq] at h
    subst h
    exact Calm.calm_refl _
  | cons a rest ih =>
    intro hs ac ac' h
    simp only [userCode] at h
    cases ha : apiCall prog fuel a ac with
    | none => simp [ha] at h
    | some ac1 =>
      rw [ha] at h
      exact (apiCall_submit_calm prog fuel a ac ac1 (hs a (List.mem_cons_self _ _)) ha).calm_trans
        (ih (fun x hx => hs x (List.mem_cons_of_mem _ hx)) ac1 ac' h)

theorem runCallback_calm (prog : Prog) (fuel : Nat) (ac ac2 : mongoAsyncContext)
    (cb : mongoCallback) (rpl : Option mongoReply)
    (hr : __mongoRunCallback (apiCall prog fuel) prog ac cb rpl = some ac2) : Calm ac ac2 := by
  unfold __mongoRunCallback at hr
  cases hfn : cb.fn with
  | none =>
    rw [hfn] at hr
    simp only [Option.some.injEq] at hr
    subst hr
    exact Calm.calm_refl _
  | some f =>
    rw [hfn] at hr
    simp only at hr
    cases hu : userCode (apiCall prog fuel) (prog.callback f rpl cb.privdata)
        (emit { ac with flags := { ac.flags with in_callback := true } }
          (Event.callback cb rpl)) with
    | none => simp [hu] at hr
    | some acu =>
      rw [hu] at hr
      simp only [Option.some.injEq] at hr
      subst hr
      have c1 : Calm ac { ac with flags := { ac.flags with in_callback := true } } :=
        Calm.calm_of_same rfl rfl
      have c2 := Calm.calm_emit { ac with flags := { ac.flags with in_callback := true } }
        (Event.callback cb rpl) rfl
      have c3 := userCode_callback_calm prog fuel _ _ _ rfl hu
      exact ((c1.calm_trans c2).calm_trans c3).calm_trans (Calm.calm_of_same rfl rfl)

theorem shift_calm (ac ac1 : mongoAsyncContext) (rpl : Option mongoReply)
    (target cb : mongoCallback) (status : Int)
    (hs : __mongoShiftCallback ac rpl target = (status, cb, ac1)) : Calm ac ac1 := by
  obtain ⟨_, ht, hf⟩ := shift_same ac ac1 rpl target cb status hs
  exact Calm.calm_of_same ht hf

theorem flushLoop_calm (prog : Prog) (fuel : Nat) (n : Nat) :
    ∀ (cb : mongoCallback) (ac ac' : mongoAsyncContext),
      flushLoop (apiCall prog fuel) prog n cb ac = some ac' → Calm ac ac' := by
  induction n with
  | zero => intro cb ac ac' h; simp [flushLoop] at h
  | succ n ih =>
    intro cb ac ac' h
    simp only [flushLoop] at h
    rcases hs : __mongoShiftCallback ac none cb with ⟨status, cb', ac1⟩
    rw [hs] at h
    simp only at h
    have c1 := shift_calm ac ac1 none cb cb' status hs
    by_cases hok : status = MONGO_OK
    · rw [if_pos hok] at h
      cases hr : __mongoRunCallback (apiCall prog fuel) prog ac1 cb' none with
      | none => simp [hr] at h
      | some ac2 =>
        rw [hr] at h
        simp only at h
        exact (c1.calm_trans (runCallback_calm prog fuel ac1 ac2 cb' none hr)).calm_trans
          (ih cb' ac2 ac' h)
    · rw [if_neg hok] at h
      simp only [Option.some.injEq] at h
      subst h
      exact c1

theorem EL_CLEANUP_calm (ac : mongoAsyncContext) : Calm ac (_EL_CLEANUP ac) := by
  unfold _EL_CLEANUP
  split
  · exact Calm.calm_emit ac _ rfl
  · exact Calm.calm_refl _

theorem EL_ADD_WRITE_calm (ac : mongoAsyncContext) : Calm ac (_EL_ADD_WRITE ac) := by
  unfold _EL_ADD_WRITE
  split
  · exact Calm.calm_emit ac _ rfl
  · exact Calm.calm_refl _

theorem EL_DEL_WRITE_calm (ac : mongoAsyncContext) : Calm ac (_EL_DEL_WRITE ac) := by
  unfold _EL_DEL_WRITE
  split
  · exact Calm.calm_emit ac _ rfl
  · exact Calm.calm_refl _

theorem EL_ADD_READ_calm (ac : mongoAsyncContext) : Calm ac (_EL_ADD_READ ac) := by
  unfold _EL_ADD_READ
  split
  · exact Calm.calm_emit ac _ rfl
  · exact Calm.calm_refl _

/-- A call of a hook that only submits: after the event of the call nothing
invokes the disconnect hook. -/
theorem callHook_submit (prog : Prog) (hh : HooksSubmitOnly prog) (fuel : Nat) (f : Nat)
    (status : Int) (e : Event) (ac ac' : mongoAsyncContext)
    (h : callHook (apiCall prog fuel) prog e f status ac = some ac') :
    Calm (emit ac e) ac' := by
  unfold callHook at h
  exact userCode_submit_calm prog fuel _ (hh f status) _ _ h

/-- The function `__mongoAsyncFree` invokes the disconnect hook at most once
and frees the context. -/
theorem asyncFree_inner_once (prog : Prog) (hh : HooksSubmitOnly prog) (fuel n : Nat)
    (ac ac' : mongoAsyncContext)
    (h : __mongoAsyncFree (apiCall prog fuel) prog n ac = some ac') :
    ∃ t, ac'.trace = ac.trace ++ t ∧ (disconnects t).length ≤ 1 ∧ ac'.freed = true := by
  unfold __mongoAsyncFree at h
  cases hfl : flushLoop (apiCall prog fuel) prog n { fn := none, flags := 0, privdata := 0 } ac with
  | none => simp [hfl] at h
  | some ac1 =>
    rw [hfl] at h
    simp only at h
    have c2 : Calm ac (_EL_CLEANUP ac1) :=
      (flushLoop_calm prog fuel n _ ac ac1 hfl).calm_trans (EL_CLEANUP_calm ac1)
    have hfin : ∀ ac3 t, ac3.trace = (_EL_CLEANUP ac1).trace ++ t → (disconnects t).length ≤ 1 →
        ∃ t', ({ emit ac3 Event.mongoFree with freed := true } : mongoAsyncContext).trace
            = ac.trace ++ t' ∧ (disconnects t').length ≤ 1
          ∧ ({ emit ac3 Event.mongoFree with freed := true } : mongoAsyncContext).freed = true := by
      intro ac3 t ht hd
      obtain ⟨t2, e2, d2, _⟩ := c2
      refine ⟨t2 ++ t ++ [Event.mongoFree], ?_, ?_, rfl⟩
      · simp only [emit, ht, e2, List.append_assoc]
      · rw [disconnects_append, disconnects_append, d2]
        simpa [disconnects] using hd
    have hhook : ∀ f st status ac3,
        callHook (apiCall prog fuel) prog (Event.onDisconnect st) f status (_EL_CLEANUP ac1)
          = some ac3 →
        ∃ t, ac3.trace = (_EL_CLEANUP ac1).trace ++ t ∧ (disconnects t).length ≤ 1 := by
      intro f st status ac3 hr
      obtain ⟨t, e, d, _⟩ := callHook_submit prog hh fuel f status _ _ ac3 hr
      refine ⟨Event.onDisconnect st :: t, ?_, ?_⟩
      · simp only [e, emit, List.append_assoc, List.singleton_append]
      · simp [disconnects, d]
    cases hd : (_EL_CLEANUP ac1).onDisconnect with
    | none =>
      rw [hd] at h
      simp only [Option.some.injEq] at h
      subst h
      exact hfin _ [] (by simp) (by simp [disconnects])
    | some f =>
      rw [hd] at h
      simp only at h
      split at h
      · rename_i ac3 hr
        simp only [Option.some.injEq] at h
        subst h
        split at hr
        · split at hr
          · obtain ⟨t, e, d⟩ := hhook _ _ _ ac3 hr
            exact hfin ac3 t e d
          · obtain ⟨t, e, d⟩ := hhook _ _ _ ac3 hr
            exact hfin ac3 t e d
        · simp only [Option.some.injEq] at hr
          subst hr
          exact hfin _ [] (by simp) (by simp [disconnects])
      · simp at h

theorem asyncFree_inner_Once (prog : Prog) (hh : HooksSubmitOnly prog) (fuel n : Nat)
    (ac ac' : mongoAsyncContext)
    (h : __mongoAsyncFree (apiCall prog fuel) prog n ac = some ac') : Once ac ac' := by
  obtain ⟨t, e, d, f⟩ := asyncFree_inner_once prog hh fuel n ac ac' h
  exact ⟨t, e, Or.inr ⟨d, f⟩⟩

theorem mongoAsyncFree_once (prog : Prog) (hh : HooksSubmitOnly prog) (fuel n : Nat)
    (ac ac' : mongoAsyncContext)
    (h : mongoAsyncFree (apiCall prog fuel) prog n ac = some ac') : Once ac ac' := by
  unfold mongoAsyncFree at h
  simp only at h
  have c0 : Calm ac { ac with flags := { ac.flags with freeing := true } } :=
    Calm.calm_of_same rfl rfl
  split at h
  · simp only [Option.some.injEq] at h
    subst h
    exact c0.once
  · exact c0.andThen (asyncFree_inner_Once prog hh fuel n _ ac' h)

theorem asyncDisconnect_inner_once (prog : Prog) (hh : HooksSubmitOnly prog) (fuel n : Nat)
    (ac ac' : mongoAsyncContext)
    (h : __mongoAsyncDisconnect (apiCall prog fuel) prog n ac = some ac') : Once ac ac' := by
  unfold __mongoAsyncDisconnect __mongoAsyncCopyError at h
  simp only at h
  have c0 : Calm ac { ac with acErr := ac.err } := Calm.calm_of_same rfl rfl
  by_cases herr : ac.err = none
  · rw [if_pos herr] at h
    by_cases he : ac.replies = []
    · rw [if_pos he] at h
      exact c0.andThen (asyncFree_inner_Once prog hh fuel n _ ac' h)
    · rw [if_neg he] at h
      simp only [Option.some.injEq] at h
      subst h
      exact (Calm.calm_of_same rfl rfl).once
  · rw [if_neg herr] at h
    have c1 : Calm ac { ({ ac with acErr := ac.err } : mongoAsyncContext) with
        flags := { ac.flags with disconnecting := true } } := Calm.calm_of_same rfl rfl
    exact c1.andThen (asyncFree_inner_Once prog hh fuel n _ ac' h)

theorem mongoAsyncDisconnect_once (prog : Prog) (hh : HooksSubmitOnly prog) (fuel n : Nat)
    (ac ac' : mongoAsyncContext)
    (h : mongoAsyncDisconnect (apiCall prog fuel) prog n ac = some ac') : Once ac ac' := by
  unfold mongoAsyncDisconnect at h
  simp only at h
  have c0 : Calm ac { ac with flags := { ac.flags with disconnecting := true } } :=
    Calm.calm_of_same rfl rfl
  split at h
  · exact c0.andThen (asyncDisconnect_inner_once prog hh fuel n _ ac' h)
  · simp only [Option.some.injEq] at h
    subst h
    exact c0.once

theorem processLoop_once (prog : Prog) (hh : HooksSubmitOnly prog) (fuel n : Nat)
    (last : ReaderEnd) (rs : List mongoReply) :
    ∀ (cb : mongoCallback) (ac ac' : mongoAsyncContext),
      processLoop (apiCall prog fuel) prog n last rs cb ac = some ac' → Once ac ac' := by
  induction rs with
  | nil =>
    intro cb ac ac' h
    simp only [processLoop] at h
    cases last with
    | idle =>
      simp only at h
      split at h
      · exact asyncDisconnect_inner_once prog hh fuel n ac ac' h
      · simp only [Option.some.injEq] at h
        subst h
        exact (Calm.calm_refl _).once
    | error k =>
      simp only at h
      have c0 : Calm ac { ac with err := some k } := Calm.calm_of_same rfl rfl
      exact c0.andThen (asyncDisconnect_inner_once prog hh fuel n _ ac' h)
  | cons reply rs ih =>
    intro cb ac ac' h
    simp only [processLoop] at h
    rcases hs : __mongoShiftCallback ac (some reply) cb with ⟨status, cb', ac1⟩
    rw [hs] at h
    simp only at h
    have c1 : Calm ac (if status = MONGO_OK then ac1 else emit ac1 (Event.unsolicited reply)) := by
      have c := shift_calm ac ac1 (some reply) cb cb' status hs
      split
      · exact c
      · exact c.calm_trans (Calm.calm_emit ac1 _ rfl)
    have hfree : ∀ a : mongoAsyncContext, Calm a (emit a (Event.freeObject reply)) := fun a =>
      Calm.calm_emit a _ rfl
    split at h
    · cases hr : __mongoRunCallback (apiCall prog fuel) prog
          (if status = MONGO_OK then ac1 else emit ac1 (Event.unsolicited reply)) cb'
          (some reply) with
      | none => simp [hr] at h
      | some ac2 =>
        rw [hr] at h
        simp only at h
        have c2 := (c1.calm_trans (runCallback_calm prog fuel _ ac2 cb' (some reply) hr)).calm_trans
          (hfree ac2)
        split at h
        · exact c2.andThen (asyncFree_inner_Once prog hh fuel n _ ac' h)
        · exact c2.andThen (ih cb' _ ac' h)
    · exact (c1.calm_trans (hfree _)).andThen (ih cb' _ ac' h)


theorem handleConnect_once (prog : Prog) (hh : HooksSubmitOnly prog) (fuel n : Nat)
    (chk : SockCheck) (ac ac' : mongoAsyncContext) (status : Int)
    (h : __mongoAsyncHandleConnect (apiCall prog fuel) prog n chk ac = some (status, ac')) :
    Once ac ac' ∧ (status = MONGO_OK → Calm ac ac') := by
  unfold __mongoAsyncHandleConnect at h
  cases chk with
  | ok =>
    have hchk : mongoCheckSocketError SockCheck.ok ac = (MONGO_OK, ac) := rfl
    rw [hchk] at h
    simp only [MONGO_ERR_ne_OK.symm, if_false] at h
    have hcalm : Calm ac ac' := by
      cases hoc : ac.onConnect with
      | none =>
        rw [hoc] at h
        simp only [Option.some.injEq, Prod.mk.injEq] at h
        rw [← h.2]
        exact Calm.calm_of_same rfl rfl
      | some f =>
        rw [hoc] at h
        simp only at h
        split at h
        · rename_i ac3 hr
          simp only [Option.some.injEq, Prod.mk.injEq] at h
          rw [← h.2]
          have c1 := callHook_submit prog hh fuel f _ _ _ ac3 hr
          refine Calm.calm_trans ?_ ((Calm.calm_emit _ (Event.onConnect MONGO_OK) rfl).calm_trans c1)
          exact Calm.calm_of_same rfl rfl
        · simp at h
    exact ⟨hcalm.once, fun _ => hcalm⟩
  | failed e =>
    have hchk : mongoCheckSocketError (SockCheck.failed e) ac
        = (MONGO_ERR, { ac with err := some ErrKind.io }) := rfl
    rw [hchk] at h
    simp only [eq_self_iff_true, if_true] at h
    have c0 : Calm ac { ac with err := some ErrKind.io } := Calm.calm_of_same rfl rfl
    split at h
    · simp only [Option.some.injEq, Prod.mk.injEq] at h
      rw [← h.2]
      exact ⟨c0.once, fun _ => c0⟩
    · split at h
      · rename_i ac2 hr
        split at h
        · rename_i ac3 hd
          simp only [Option.some.injEq, Prod.mk.injEq] at h
          rw [← h.2, ← h.1]
          have c1 : Calm { ac with err := some ErrKind.io } ac2 := by
            split at hr
            · have c2 := callHook_submit prog hh fuel _ _ _ _ ac2 hr
              exact (Calm.calm_emit _ (Event.onConnect MONGO_ERR) rfl).calm_trans c2
            · simp only [Option.some.injEq] at hr
              rw [← hr]
              exact Calm.calm_refl _
          exact ⟨(c0.calm_trans c1).andThen (asyncDisconnect_inner_once prog hh fuel n ac2 ac3 hd),
            fun hs => absurd hs MONGO_ERR_ne_OK⟩
        · simp at h
      · simp at h

theorem handleConnectFirst_once (prog : Prog) (hh : HooksSubmitOnly prog) (fuel n : Nat)
    (chk : SockCheck) (ac ac' : mongoAsyncContext) (go : Bool)
    (h : handleConnectFirst (apiCall prog fuel) prog n chk ac = some (go, ac')) :
    Once ac ac' ∧ (go = true → Calm ac ac') := by
  unfold handleConnectFirst at h
  split at h
  · simp only [Option.some.injEq, Prod.mk.injEq] at h
    rw [← h.2]
    exact ⟨(Calm.calm_refl _).once, fun _ => Calm.calm_refl _⟩
  · split at h
    · rename_i status ac1 hr
      obtain ⟨r1, r2⟩ := handleConnect_once prog hh fuel n chk ac ac1 status hr
      split at h
      · simp only [Option.some.injEq, Prod.mk.injEq] at h
        rw [← h.2, ← h.1]
        exact ⟨r1, fun hg => by simp at hg⟩
      · rename_i hst
        have hst' : status = MONGO_OK := by
          by_contra hne
          exact hst hne
        split at h <;>
        · simp only [Option.some.injEq, Prod.mk.injEq] at h
          rw [← h.2]
          exact ⟨r1, fun _ => r2 hst'⟩
    · simp at h

theorem mongoAsyncHandleRead_once (prog : Prog) (hh : HooksSubmitOnly prog) (fuel n : Nat)
    (chk : SockCheck) (rd : Option ErrKind) (rs : List mongoReply) (last : ReaderEnd)
    (ac ac' : mongoAsyncContext)
    (h : mongoAsyncHandleRead (apiCall prog fuel) prog n chk rd rs last ac = some ac') :
    Once ac ac' := by
  unfold mongoAsyncHandleRead at h
  split at h
  · rename_i ac1 hr
    have r := (handleConnectFirst_once prog hh fuel n chk ac ac1 true hr).2 rfl
    cases rd with
    | some k =>
      simp only at h
      have c0 : Calm ac1 { ac1 with err := some k } := Calm.calm_of_same rfl rfl
      exact (r.calm_trans c0).andThen (asyncDisconnect_inner_once prog hh fuel n _ ac' h)
    | none =>
      simp only [mongoProcessCallbacks] at h
      exact (r.calm_trans (EL_ADD_READ_calm ac1)).andThen
        (processLoop_once prog hh fuel n last rs _ _ ac' h)
  · rename_i ac1 hr
    simp only [Option.some.injEq] at h
    rw [← h]
    exact (handleConnectFirst_once prog hh fuel n chk ac ac1 false hr).1
  · simp at h

theorem mongoAsyncHandleWrite_once (prog : Prog) (hh : HooksSubmitOnly prog) (fuel n : Nat)
    (chk : SockCheck) (wr : Except ErrKind Nat) (ac ac' : mongoAsyncContext)
    (h : mongoAsyncHandleWrite (apiCall prog fuel) prog n chk wr ac = some ac') :
    Once ac ac' := by
  unfold mongoAsyncHandleWrite at h
  split at h
  · rename_i ac1 hr
    have r := (handleConnectFirst_once prog hh fuel n chk ac ac1 true hr).2 rfl
    cases wr with
    | error k =>
      simp only at h
      have c0 : Calm ac1 { ac1 with err := some k } := Calm.calm_of_same rfl rfl
      exact (r.calm_trans c0).andThen (asyncDisconnect_inner_once prog hh fuel n _ ac' h)
    | ok m =>
      simp only [Option.some.injEq] at h
      rw [← h]
      have c0 : Calm ac1 (mongoBufferWrite m ac1) := Calm.calm_of_same rfl rfl
      refine ((r.calm_trans c0).calm_trans (Calm.calm_trans ?_ (EL_ADD_READ_calm _))).once
      split
      · exact EL_ADD_WRITE_calm _
      · exact EL_DEL_WRITE_calm _
  · rename_i ac1 hr
    simp only [Option.some.injEq] at h
    rw [← h]
    exact (handleConnectFirst_once prog hh fuel n chk ac ac1 false hr).1
  · simp at h

theorem callStep_once (prog : Prog) (hh : HooksSubmitOnly prog) (fuel : Nat) (c : Call)
    (ac ac' : mongoAsyncContext) (h : callStep prog fuel c ac = some ac') : Once ac ac' := by
  cases c with
  | act a =>
    simp only [callStep] at h
    cases a with
    | query cb frame =>
      exact (apiCall_submit_calm prog _ _ ac ac' ⟨by simp, by simp⟩ h).once
    | write fn privdata frame gle =>
      exact (apiCall_submit_calm prog _ _ ac ac' ⟨by simp, by simp⟩ h).once
    | asyncFree =>
      simp only [apiCall] at h
      exact mongoAsyncFree_once prog hh fuel _ ac ac' h
    | asyncDisconnect =>
      simp only [apiCall] at h
      exact mongoAsyncDisconnect_once prog hh fuel _ ac ac' h
  | processCallbacks rs last =>
    simp only [callStep, mongoProcessCallbacks] at h
    exact processLoop_once prog hh fuel _ last rs _ ac ac' h
  | handleRead chk rd rs last =>
    simp only [callStep] at h
    exact mongoAsyncHandleRead_once prog hh fuel _ chk rd rs last ac ac' h
  | handleWrite chk wr =>
    simp only [callStep] at h
    exact mongoAsyncHandleWrite_once prog hh fuel _ chk wr ac ac' h

/-- Over a lifetime: while the context is not freed the disconnect hook has
not been invoked, and it is invoked at most once. -/
theorem runCalls_once (prog : Prog) (hh : HooksSubmitOnly prog) (fuel : Nat) (cs : List Call) :
    ∀ (ac final : mongoAsyncContext), runCalls prog fuel cs ac = some final →
      (ac.freed = false → disconnects ac.trace = []) → (disconnects ac.trace).length ≤ 1 →
      (final.freed = false → disconnects final.trace = [])
        ∧ (disconnects final.trace).length ≤ 1 := by
  induction cs with
  | nil =>
    intro ac final h h1 h2
    simp only [runCalls, Option.some.injEq] at h
    subst h
    exact ⟨h1, h2⟩
  | cons c cs ih =>
    intro ac final h h1 h2
    simp only [runCalls] at h
    split at h
    · simp only [Option.some.injEq] at h
      subst h
      exact ⟨h1, h2⟩
    · rename_i hstop
      have hnf : ac.freed = false := by
        cases hf : ac.freed with
        | false => rfl
        | true => simp [hf] at hstop
      cases hc : callStep prog fuel c ac with
      | none => simp [hc] at h
      | some ac1 =>
        rw [hc] at h
        obtain ⟨t, e, hcase⟩ := callStep_once prog hh fuel c ac ac1 hc
        have hd0 := h1 hnf
        refine ih ac1 final h ?_ ?_
        · intro hf1
          rcases hcase with ⟨d, _⟩ | ⟨_, f⟩
          · rw [e, disconnects_append, hd0, d]
            rfl
          · rw [f] at hf1
            exact absurd hf1 (by decide)
        · rw [e, disconnects_append, hd0, List.nil_append]
          rcases hcase with ⟨d, _⟩ | ⟨d, _⟩
          · rw [d]
            simp
          · exact d

/-- C20 (counterexample): the `onDisconnect` hook calls `mongoAsyncFree` when
its status is `MONGO_ERR`.  After the connect is confirmed a transport read
fails: `__mongoAsyncFree` invokes `onDisconnect` with `MONGO_ERR`, the hook
calls `mongoAsyncFree`, which is not deferred outside a reply callback, and
the nested `__mongoAsyncFree` invokes `onDisconnect` a second time, with
`MONGO_OK`. -/
theorem C20_onDisconnect_invoked_twice :
    (runCalls reenteringProg 3
      [Call.handleWrite SockCheck.ok (Except.ok 0),
       Call.handleRead SockCheck.ok (some ErrKind.io) [] ReaderEnd.idle]
      (mongoAsyncInitialize ⟨false, false, false, false, true⟩ none (some 9))).map
      (fun ac => ac.trace)
    = some [Event.cleanup, Event.onDisconnect MONGO_ERR, Event.cleanup,
        Event.onDisconnect MONGO_OK, Event.mongoFree, Event.mongoFree] := by
  decide

/-- C20 (amended): when the `onConnect` and `onDisconnect` hooks only submit
(they call neither `mongoAsyncFree` nor `mongoAsyncDisconnect`), then over
every lifetime of the controller, that is every sequence of handler calls,
submit operations and calls of `mongoAsyncDisconnect` and `mongoAsyncFree`,
with the calls that the reply callbacks and the hooks make, the
`onDisconnect` hook is invoked at most once; and every such lifetime
returns. -/
theorem C20_onDisconnect_at_most_once (prog : Prog) (hh : HooksSubmitOnly prog)
    (cs : List Call) (ev : EvHooks) (onConnect onDisconnect : Option Nat) :
    (∀ fuel final,
      runCalls prog fuel cs (mongoAsyncInitialize ev onConnect onDisconnect) = some final →
      (disconnects final.trace).length ≤ 1)
    ∧ ∃ N final, (∀ fuel, N ≤ fuel →
        runCalls prog fuel cs (mongoAsyncInitialize ev onConnect onDisconnect) = some final)
      ∧ (disconnects final.trace).length ≤ 1 := by
  have hsafe : ∀ fuel final,
      runCalls prog fuel cs (mongoAsyncInitialize ev onConnect onDisconnect) = some final →
      (disconnects final.trace).length ≤ 1 := by
    intro fuel final h
    exact (runCalls_once prog hh fuel cs _ final h (fun _ => rfl) (by simp [mongoAsyncInitialize, disconnects])).2
  refine ⟨hsafe, ?_⟩
  obtain ⟨N, final, h, _⟩ := runCalls_returns prog hh cs
    (mongoAsyncInitialize ev onConnect onDisconnect) rfl
  exact ⟨N, final, h, hsafe N final (h N (le_refl _))⟩

theorem C20_onDisconnect_at_most_once_witness :
    ∃ N final, (∀ fuel, N ≤ fuel →
        runCalls idleProg fuel
          [Call.handleWrite SockCheck.ok (Except.ok 0),
           Call.act (Act.query { fn := some 1, flags := 0, privdata := 0 } (some [1])),
           Call.handleRead SockCheck.ok (some ErrKind.io) [] ReaderEnd.idle,
           Call.act Act.asyncFree]
          (mongoAsyncInitialize ⟨true, true, true, true, true⟩ none (some 9)) = some final)
      ∧ (disconnects final.trace).length ≤ 1 :=
  (C20_onDisconnect_at_most_once idleProg (fun _ _ a ha => absurd ha (List.not_mem_nil a))
    [Call.handleWrite SockCheck.ok (Except.ok 0),
     Call.act (Act.query { fn := some 1, flags := 0, privdata := 0 } (some [1])),
     Call.handleRead SockCheck.ok (some ErrKind.io) [] ReaderEnd.idle,
     Call.act Act.asyncFree]
    ⟨true, true, true, true, true⟩ none (some 9)).2

/-! ## After the flush nothing is enqueued -/

theorem pushed_suffix (a b : List Event) (h : pushed (a ++ b) = []) : pushed b = [] := by
  rw [pushed_append] at h
  exact (List.append_eq_nil.mp h).2

theorem not_mem_of_callbacks_nil (t : List Event) (h : callbacks t = []) (cb : mongoCallback)
    (r : Option mongoReply) : Event.callback cb r ∉ t := by
  induction t with
  | nil => simp
  | cons e es ih =>
    intro hm
    rcases List.mem_cons.mp hm with h0 | h1
    · rw [← h0] at h
      simp [callbacks] at h
    · cases e with
      | callback c x => simp [callbacks] at h
      | push c => exact ih h h1
      | unsolicited x => exact ih h h1
      | freeObject x => exact ih h h1
      | addRead => exact ih h h1
      | delRead => exact ih h h1
      | addWrite => exact ih h h1
      | delWrite => exact ih h h1
      | cleanup => exact ih h h1
      | onConnect x => exact ih h h1
      | onDisconnect x => exact ih h h1
      | mongoFree => exact ih h h1

theorem noEnqueue_of_split (t t1 t2 : List Event) (h : t = t1 ++ t2)
    (h1 : ∀ cb, Event.callback cb none ∉ t1) (h2 : pushed t2 = []) :
    NoEnqueueAfterFlush t := by
  intro a cb b hab
  rw [h] at hab
  rcases List.append_eq_append_iff.mp hab with ⟨c, ha, hb⟩ | ⟨c, ha, hb⟩
  · rw [hb] at h2
    have := pushed_suffix c _ h2
    simpa [pushed] using this
  · cases c with
    | nil =>
      simp only [List.nil_append] at hb
      rw [← hb] at h2
      simpa [pushed] using h2
    | cons e c =>
      simp only [List.cons_append, List.cons.injEq] at hb
      exfalso
      apply h1 cb
      rw [ha, hb.1]
      simp

/-- A disconnect once shutdown has begun or after an error enqueues
nothing. -/
theorem asyncDisconnect_no_push (prog : Prog) (fuel n : Nat) (ac ac' : mongoAsyncContext)
    (hpre : Closing ac ∨ ac.err ≠ none)
    (h : __mongoAsyncDisconnect (apiCall prog fuel) prog n ac = some ac') :
    ∃ t, ac'.trace = ac.trace ++ t ∧ pushed t = [] := by
  unfold __mongoAsyncDisconnect __mongoAsyncCopyError at h
  simp only at h
  by_cases herr : ac.err = none
  · rw [if_pos herr] at h
    have hc : Closing ac := by
      rcases hpre with hp | hp
      · exact hp
      · exact absurd herr hp
    by_cases he : ac.replies = []
    · rw [if_pos he] at h
      obtain ⟨_, _, t, ht, _, hp⟩ :=
        asyncFree_inner_closing prog fuel n _ ac' (by exact hc) h
      refine ⟨flushEvents ac.replies ++ t, ?_, ?_⟩
      · simp only at ht
        rw [ht, List.append_assoc]
      · rw [pushed_append, pushed_flushEvents, hp]
        rfl
    · rw [if_neg he] at h
      simp only [Option.some.injEq] at h
      subst h
      exact ⟨[], by simp, rfl⟩
  · rw [if_neg herr] at h
    obtain ⟨_, _, t, ht, _, hp⟩ :=
      asyncFree_inner_closing prog fuel n _ ac' (by exact Or.inl rfl) h
    refine ⟨flushEvents ac.replies ++ t, ?_, ?_⟩
    · simp only at ht
      rw [ht, List.append_assoc]
    · rw [pushed_append, pushed_flushEvents, hp]
      rfl

/-- A reply callback that is run with a reply invokes nothing with a NULL
reply. -/
theorem runCallback_no_null (prog : Prog) (fuel : Nat) (ac ac2 : mongoAsyncContext)
    (cb : mongoCallback) (r : mongoReply)
    (hr : __mongoRunCallback (apiCall prog fuel) prog ac cb (some r) = some ac2) :
    ∃ t, ac2.trace = ac.trace ++ t ∧ ∀ cb', Event.callback cb' none ∉ t := by
  unfold __mongoRunCallback at hr
  cases hfn : cb.fn with
  | none =>
    rw [hfn] at hr
    simp only [Option.some.injEq] at hr
    subst hr
    exact ⟨[], by simp, by simp⟩
  | some f =>
    rw [hfn] at hr
    simp only at hr
    cases hu : userCode (apiCall prog fuel) (prog.callback f (some r) cb.privdata)
        (emit { ac with flags := { ac.flags with in_callback := true } }
          (Event.callback cb (some r))) with
    | none => simp [hu] at hr
    | some acu =>
      rw [hu] at hr
      simp only [Option.some.injEq] at hr
      subst hr
      have hacu := userCode_deferred_eq prog fuel _ _ acu (Or.inl rfl) hu
      obtain ⟨d, g, bytes, extra, t, hrd, hcb, _⟩ :=
        runDeferred_spec (prog.callback f (some r) cb.privdata)
          (emit { ac with flags := { ac.flags with in_callback := true } }
            (Event.callback cb (some r)))
      rw [hrd] at hacu
      subst hacu
      refine ⟨Event.callback cb (some r) :: t, by simp [extended, emit], ?_⟩
      intro cb' hm
      rcases List.mem_cons.mp hm with hm | hm
      · cases hm
      · exact not_mem_of_callbacks_nil t hcb cb' none hm

/-- The trace of a pass of `mongoProcessCallbacks` splits into a part without
invocations with a NULL reply and a part without enqueues. -/
theorem processLoop_split (prog : Prog) (fuel n : Nat) (last : ReaderEnd)
    (rs : List mongoReply) :
    ∀ (cb : mongoCallback) (ac ac' : mongoAsyncContext),
      processLoop (apiCall prog fuel) prog n last rs cb ac = some ac' →
      ∃ t1 t2, ac'.trace = ac.trace ++ t1 ++ t2 ∧ (∀ cb', Event.callback cb' none ∉ t1)
        ∧ pushed t2 = [] := by
  induction rs with
  | nil =>
    intro cb ac ac' h
    simp only [processLoop] at h
    cases last with
    | idle =>
      simp only at h
      split at h
      · rename_i hcond
        simp only [Bool.and_eq_true] at hcond
        obtain ⟨t, ht, hp⟩ := asyncDisconnect_no_push prog fuel n ac ac'
          (Or.inl (Or.inl hcond.1.1)) h
        exact ⟨[], t, by simp [ht], by simp, hp⟩
      · simp only [Option.some.injEq] at h
        subst h
        exact ⟨[], [], by simp, by simp, rfl⟩
    | error k =>
      simp only at h
      obtain ⟨t, ht, hp⟩ := asyncDisconnect_no_push prog fuel n _ ac' (Or.inr (by simp)) h
      exact ⟨[], t, by simpa using ht, by simp, hp⟩
  | cons reply rs ih =>
    intro cb ac ac' h
    simp only [processLoop] at h
    rcases hs : __mongoShiftCallback ac (some reply) cb with ⟨status, cb', ac1⟩
    rw [hs] at h
    simp only at h
    obtain ⟨_, htr1, _⟩ := shift_same ac ac1 (some reply) cb cb' status hs
    have h1 : ∃ t, (if status = MONGO_OK then ac1 else emit ac1 (Event.unsolicited reply)).trace
        = ac.trace ++ t ∧ ∀ cb', Event.callback cb' none ∉ t := by
      split
      · exact ⟨[], by simp [htr1], by simp⟩
      · exact ⟨[Event.unsolicited reply], by simp [emit, htr1], by simp⟩
    obtain ⟨ta, hta, hna⟩ := h1
    split at h
    · cases hr : __mongoRunCallback (apiCall prog fuel) prog
          (if status = MONGO_OK then ac1 else emit ac1 (Event.unsolicited reply)) cb'
          (some reply) with
      | none => simp [hr] at h
      | some ac2 =>
        rw [hr] at h
        simp only at h
        obtain ⟨tb, htb, hnb⟩ := runCallback_no_null prog fuel _ ac2 cb' reply hr
        have hn : ∀ c, Event.callback c none ∉ ta ++ tb ++ [Event.freeObject reply] := by
          intro c hm
          simp only [List.mem_append, List.mem_singleton] at hm
          rcases hm with (hm | hm) | hm
          · exact hna c hm
          · exact hnb c hm
          · cases hm
        split at h
        · rename_i hfr
          obtain ⟨_, _, t, ht, _, hp⟩ :=
            asyncFree_inner_closing prog fuel n _ ac' (Or.inr hfr) h
          refine ⟨ta ++ tb ++ [Event.freeObject reply],
            flushEvents (emit ac2 (Event.freeObject reply)).replies ++ t, ?_, hn, ?_⟩
          · have he : (emit ac2 (Event.freeObject reply)).trace
                = ac2.trace ++ [Event.freeObject reply] := rfl
            rw [ht, he, htb, hta]
            simp only [List.append_assoc]
          · rw [pushed_append, pushed_flushEvents, hp]
            rfl
        · obtain ⟨t1, t2, ht, hn1, hp⟩ := ih cb' _ ac' h
          refine ⟨ta ++ tb ++ [Event.freeObject reply] ++ t1, t2, ?_, ?_, hp⟩
          · have he : (emit ac2 (Event.freeObject reply)).trace
                = ac2.trace ++ [Event.freeObject reply] := rfl
            rw [ht, he, htb, hta]
            simp only [List.append_assoc]
          · intro c hm
            rcases List.mem_append.mp hm with hm | hm
            · exact hn c hm
            · exact hn1 c hm
    · obtain ⟨t1, t2, ht, hn1, hp⟩ := ih cb' _ ac' h
      refine ⟨ta ++ [Event.freeObject reply] ++ t1, t2, ?_, ?_, hp⟩
      · have he : (emit (if status = MONGO_OK then ac1 else emit ac1 (Event.unsolicited reply))
            (Event.freeObject reply)).trace
            = (if status = MONGO_OK then ac1 else emit ac1 (Event.unsolicited reply)).trace
              ++ [Event.freeObject reply] := rfl
        rw [ht, he, hta]
        simp only [List.append_assoc]
      · intro c hm
        simp only [List.mem_append, List.mem_singleton] at hm
        rcases hm with (hm | hm) | hm
        · exact hna c hm
        · cases hm
        · exact hn1 c hm

theorem processLoop_noEnqueue (prog : Prog) (fuel n : Nat) (last : ReaderEnd)
    (rs : List mongoReply) (cb : mongoCallback) (ac ac' : mongoAsyncContext)
    (h : processLoop (apiCall prog fuel) prog n last rs cb ac = some ac') :
    NoEnqueueAfterFlush (ac'.trace.drop ac.trace.length) := by
  obtain ⟨t1, t2, ht, h1, h2⟩ := processLoop_split prog fuel n last rs cb ac ac' h
  refine noEnqueue_of_split _ t1 t2 ?_ h1 h2
  rw [ht, List.append_assoc, List.drop_left]

/-- C18: when `mongoBufferRead` fails in `mongoAsyncHandleRead`, when
`mongoBufferWrite` fails in `mongoAsyncHandleWrite`, and when the reader
reports an error in `mongoProcessCallbacks`, the queue is empty when the
handler returns, and from the error on no record is enqueued; in a pass of
`mongoProcessCallbacks` whose reader first yields replies, no record is
enqueued once a callback has been invoked with a NULL reply (the callbacks of
the flush cannot enqueue).  And the handlers do return when the hooks only
submit. -/
theorem C18_queue_empty_after_transport_error (prog : Prog) (k : ErrKind)
    (ac : mongoAsyncContext) :
    (∀ fuel n chk rs last ac1 ac',
      handleConnectFirst (apiCall prog fuel) prog n chk ac = some (true, ac1) →
      mongoAsyncHandleRead (apiCall prog fuel) prog n chk (some k) rs last ac = some ac' →
      ac'.replies = [] ∧ pushed (ac'.trace.drop ac1.trace.length) = [])
    ∧ (∀ fuel n chk ac1 ac',
      handleConnectFirst (apiCall prog fuel) prog n chk ac = some (true, ac1) →
      mongoAsyncHandleWrite (apiCall prog fuel) prog n chk (Except.error k) ac = some ac' →
      ac'.replies = [] ∧ pushed (ac'.trace.drop ac1.trace.length) = [])
    ∧ (∀ fuel n rs ac',
      mongoProcessCallbacks (apiCall prog fuel) prog n rs (ReaderEnd.error k) ac = some ac' →
      ac'.replies = [] ∧ NoEnqueueAfterFlush (ac'.trace.drop ac.trace.length))
    ∧ (∀ fuel n ac',
      mongoProcessCallbacks (apiCall prog fuel) prog n [] (ReaderEnd.error k) ac = some ac' →
      pushed (ac'.trace.drop ac.trace.length) = [])
    ∧ (HooksSubmitOnly prog →
      (∀ chk rs last, ∃ N ac', ∀ f n, N ≤ n →
        mongoAsyncHandleRead (apiCall prog (f + 1)) prog n chk (some k) rs last ac = some ac')
      ∧ (∀ chk, ∃ N ac', ∀ f n, N ≤ n →
        mongoAsyncHandleWrite (apiCall prog (f + 1)) prog n chk (Except.error k) ac = some ac')
      ∧ (∀ rs, ∃ N ac', ∀ f n, N ≤ n →
        mongoProcessCallbacks (apiCall prog (f + 1)) prog n rs (ReaderEnd.error k) ac
          = some ac')) := by
  refine ⟨?_, ?_, ?_, ?_, ?_⟩
  · intro fuel n chk rs last ac1 ac' hf h
    unfold mongoAsyncHandleRead at h
    rw [hf] at h
    simp only at h
    have hd := asyncDisconnect_error prog fuel n _ ac' (by simp) h
    exact hd
  · intro fuel n chk ac1 ac' hf h
    unfold mongoAsyncHandleWrite at h
    rw [hf] at h
    simp only at h
    have hd := asyncDisconnect_error prog fuel n _ ac' (by simp) h
    exact hd
  · intro fuel n rs ac' h
    exact ⟨processLoop_error_empty prog fuel n k rs _ ac ac' h,
      processLoop_noEnqueue prog fuel n _ rs _ ac ac' h⟩
  · intro fuel n ac' h
    simp only [mongoProcessCallbacks, processLoop] at h
    have hd := asyncDisconnect_error prog fuel n _ ac' (by simp) h
    exact hd.2
  · intro hh
    refine ⟨?_, ?_, ?_⟩
    · intro chk rs last
      obtain ⟨N, ac', h, _⟩ := mongoAsyncHandleRead_returns prog hh chk (some k) rs last ac
      exact ⟨N, ac', h⟩
    · intro chk
      obtain ⟨N, ac', h, _⟩ := mongoAsyncHandleWrite_returns prog hh chk (Except.error k) ac
      exact ⟨N, ac', h⟩
    · intro rs
      obtain ⟨N, ac', h, _⟩ := processLoop_returns prog hh (ReaderEnd.error k) rs
        { fn := none, flags := 0, privdata := 0 } ac
      exact ⟨N, ac', h⟩

theorem C18_queue_empty_after_transport_error_witness :
    mongoProcessCallbacks (apiCall idleProg 1) idleProg 3 [] (ReaderEnd.error ErrKind.eof)
        { mongoAsyncInitialize ⟨true, true, true, true, true⟩ none (some 9) with
          flags := ⟨false, true, false, false, false⟩,
          replies := [{ fn := some 1, flags := 0, privdata := 0 },
            { fn := some 2, flags := 0, privdata := 2 }] }
      = some ⟨some ErrKind.eof, ⟨false, true, true, false, false⟩, [], some ErrKind.eof,
          ⟨true, true, true, true, true⟩, none, some 9, [],
          [Event.callback { fn := some 1, flags := 0, privdata := 0 } none,
            Event.callback { fn := some 2, flags := 0, privdata := 2 } none,
            Event.cleanup, Event.onDisconnect MONGO_ERR, Event.mongoFree], true, false⟩
    ∧ (⟨some ErrKind.eof, ⟨false, true, true, false, false⟩, [], some ErrKind.eof,
          ⟨true, true, true, true, true⟩, none, some 9, [],
          [Event.callback { fn := some 1, flags := 0, privdata := 0 } none,
            Event.callback { fn := some 2, flags := 0, privdata := 2 } none,
            Event.cleanup, Event.onDisconnect MONGO_ERR, Event.mongoFree], true, false⟩ :
        mongoAsyncContext).replies = [] :=
  ⟨by decide,
    ((C18_queue_empty_after_transport_error idleProg ErrKind.eof
      { mongoAsyncInitialize ⟨true, true, true, true, true⟩ none (some 9) with
        flags := ⟨false, true, false, false, false⟩,
        replies := [{ fn := some 1, flags := 0, privdata := 0 },
          { fn := some 2, flags := 0, privdata := 2 }] }).2.2.1 1 3 [] _ (by decide)).1⟩

/-! ## C28, C29, C30: connect operations, builder failures, the timeout -/

/-- C28: when the underlying non-blocking connect returns NULL,
`mongoAsyncConnect` and `mongoAsyncConnectUnix` return NULL, but
`mongoAsyncConnectBind` and `mongoAsyncConnectBindWithReuse` pass the NULL
pointer to `mongoAsyncInitialize`, whose `realloc(NULL, ...)` allocates a
fresh block: unless that allocation fails they return a non-NULL controller
whose connection part (error slot, flags other than `CONNECTED`, output
buffer) is whatever the block held. -/
theorem C28_bind_returns_controller_on_null_connection (junk : mongoContext) :
    mongoAsyncConnect ⟨false, junk⟩ none = none
    ∧ mongoAsyncConnectUnix ⟨false, junk⟩ none = none
    ∧ mongoAsyncConnectBind ⟨false, junk⟩ none ≠ none
    ∧ mongoAsyncConnectBindWithReuse ⟨false, junk⟩ none ≠ none
    ∧ (∀ ac, mongoAsyncConnectBind ⟨false, junk⟩ none = some ac →
        ac.err = junk.err ∧ ac.obuf = junk.obuf ∧ ac.flags.freeing = junk.flags.freeing)
    ∧ mongoAsyncConnectBind
        ⟨false, ⟨some ErrKind.oom, ⟨true, true, true, true, true⟩, [1, 2]⟩⟩ none
      = some ⟨some ErrKind.oom, ⟨true, false, true, true, true⟩, [1, 2], some ErrKind.oom,
          ⟨false, false, false, false, false⟩, none, none, [], [], false, false⟩ := by
  refine ⟨rfl, rfl, ?_, ?_, ?_, ?_⟩
  · simp [mongoAsyncConnectBind, mongoAsyncInitializeAt]
  · simp [mongoAsyncConnectBindWithReuse, mongoAsyncInitializeAt]
  · intro ac h
    simp only [mongoAsyncConnectBind, mongoAsyncInitializeAt, __mongoAsyncCopyError,
      Bool.false_eq_true, if_false, Option.some.injEq] at h
    subst h
    exact ⟨rfl, rfl, rfl⟩
  · decide

/-- C29: a submit operation whose frame builder reports failure (the status
it reports is not `MONGO_OK`) returns a status other than `MONGO_OK` and
leaves the flags, the callback queue and the trace of invocations, hook calls
and enqueued records as they were: for `mongoAsyncQuery` and
`mongoAsyncGetMore`, for the four write operations when the builder of the
write frame fails (the whole context is then unchanged), and for the four
write operations called with a callback when the builder of the
`getLastError` request fails (only the write frame has then been appended to
the output buffer). -/
theorem C29_builder_failure_keeps_connection (ac : mongoAsyncContext) (cb : mongoCallback)
    (fn : Option Nat) (f privdata db : Nat) (status : Int) (bytes : List Nat)
    (gle bad : Option Nat → Built) (hst : status ≠ MONGO_OK)
    (hbad : ∀ d, bad d = Built.failed status) :
    (∀ r ∈ [mongoAsyncQuery ac cb none,
            mongoAsyncGetMore ac fn privdata none,
            mongoAsyncInsert ac fn privdata db (Built.failed status) gle,
            mongoAsyncUpdate ac fn privdata db (Built.failed status) gle,
            mongoAsyncDelete ac fn privdata db (Built.failed status) gle,
            mongoAsyncKillCursors ac fn privdata (Built.failed status) gle],
        r.1 ≠ MONGO_OK ∧ r.2 = ac)
    ∧ (∀ r ∈ [mongoAsyncInsert ac (some f) privdata db (Built.ok bytes) bad,
              mongoAsyncUpdate ac (some f) privdata db (Built.ok bytes) bad,
              mongoAsyncDelete ac (some f) privdata db (Built.ok bytes) bad,
              mongoAsyncKillCursors ac (some f) privdata (Built.ok bytes) bad],
        r.1 ≠ MONGO_OK ∧ r.2.flags = ac.flags ∧ r.2.replies = ac.replies
          ∧ r.2.trace = ac.trace ∧ r.2.freed = ac.freed) := by
  have hq : ∀ c, (mongoAsyncQuery ac c none).1 ≠ MONGO_OK ∧ (mongoAsyncQuery ac c none).2 = ac := by
    intro c
    unfold mongoAsyncQuery
    split
    · exact ⟨MONGO_ERR_ne_OK, rfl⟩
    · exact ⟨MONGO_ERR_ne_OK, rfl⟩
  have hw : ∀ g, (mongoAsyncWrite ac fn privdata (Built.failed status) g).1 ≠ MONGO_OK
      ∧ (mongoAsyncWrite ac fn privdata (Built.failed status) g).2 = ac := by
    intro g
    unfold mongoAsyncWrite
    split
    · exact ⟨MONGO_ERR_ne_OK, rfl⟩
    · exact ⟨hst, rfl⟩
  have hg : ∀ r, r = mongoAsyncWrite ac (some f) privdata (Built.ok bytes) (Built.failed status) →
      r.1 ≠ MONGO_OK ∧ r.2.flags = ac.flags ∧ r.2.replies = ac.replies
        ∧ r.2.trace = ac.trace ∧ r.2.freed = ac.freed := by
    intro r hr
    subst hr
    unfold mongoAsyncWrite
    split
    · exact ⟨MONGO_ERR_ne_OK, rfl, rfl, rfl, rfl⟩
    · exact ⟨hst, rfl, rfl, rfl, rfl⟩
  constructor
  · intro r hr
    simp only [List.mem_cons, List.mem_singleton, List.not_mem_nil, or_false] at hr
    rcases hr with h | h | h | h | h | h <;> subst h
    · exact hq cb
    · exact hq _
    · exact hw _
    · exact hw _
    · exact hw _
    · exact hw _
  · intro r hr
    simp only [List.mem_cons, List.mem_singleton, List.not_mem_nil, or_false] at hr
    rcases hr with h | h | h | h
    · exact hg r (by rw [h]; simp only [mongoAsyncInsert, hbad])
    · exact hg r (by rw [h]; simp only [mongoAsyncUpdate, hbad])
    · exact hg r (by rw [h]; simp only [mongoAsyncDelete, hbad])
    · exact hg r (by rw [h]; simp only [mongoAsyncKillCursors, hbad])

theorem C29_builder_failure_keeps_connection_witness :
    (mongoAsyncInsert (mongoAsyncInitialize ⟨true, true, true, true, true⟩ (some 1) (some 2))
        (some 3) 0 5 (Built.failed (-7)) gleOnDatabase).1 ≠ MONGO_OK
    ∧ (mongoAsyncInsert (mongoAsyncInitialize ⟨true, true, true, true, true⟩ (some 1) (some 2))
        (some 3) 0 5 (Built.failed (-7)) gleOnDatabase).2
      = mongoAsyncInitialize ⟨true, true, true, true, true⟩ (some 1) (some 2) :=
  (C29_builder_failure_keeps_connection
      (mongoAsyncInitialize ⟨true, true, true, true, true⟩ (some 1) (some 2))
      ⟨some 3, 0, 0⟩ (some 3) 3 0 5 (-7) [9] gleOnDatabase (fun _ => Built.failed (-7))
      (by decide) (fun _ => rfl)).1 _ (by simp)

theorem toLong_of_range (x : Int) (h1 : -9223372036854775808 ≤ x) (h2 : x < 9223372036854775808) :
    toLong x = x := by
  unfold toLong
  norm_num
  omega

theorem tdiv_thousand (x : Int) (h : 0 ≤ x) : Int.tdiv x 1000 = x / 1000 := by
  exact Int.tdiv_eq_ediv h (by decide)

theorem ceil_div_thousand (u : Int) : ⌈(u : ℚ) / 1000⌉ = -((-u) / 1000) := by
  have h := Rat.floor_intCast_div_natCast (-u) 1000
  have h2 : ((-u : ℤ) : ℚ) / ((1000 : ℕ) : ℚ) = -((u : ℚ) / 1000) := by
    push_cast
    ring
  rw [h2, Int.floor_neg] at h
  have h3 : (((1000 : ℕ) : ℤ)) = 1000 := rfl
  rw [h3] at h
  omega


/-- What `mongoContextTimeoutMsec` stores for a timeout it accepts, as long as
no operation on `long` overflows. -/
theorem timeoutMsec_value (tv_sec tv_usec : Int)
    (hu : tv_usec ≤ 1000000) (hs : tv_sec ≤ __MAX_MSEC)
    (hsec : -9223372036854775 ≤ tv_sec) (husec : 0 ≤ tv_usec) :
    mongoContextTimeoutMsec (some (tv_sec, tv_usec))
      = (MONGO_OK,
          if tv_sec * 1000 + (tv_usec + 999) / 1000 < 0
              ∨ tv_sec * 1000 + (tv_usec + 999) / 1000 > INT_MAX
          then INT_MAX else tv_sec * 1000 + (tv_usec + 999) / 1000) := by
  have hm : __MAX_MSEC = 9223372036854774 := by decide
  rw [hm] at hs
  unfold mongoContextTimeoutMsec
  simp only
  rw [if_neg (by rw [hm]; omega)]
  rw [toLong_of_range (tv_usec + 999) (by omega) (by omega),
    toLong_of_range (tv_sec * 1000) (by omega) (by omega),
    tdiv_thousand (tv_usec + 999) (by omega),
    toLong_of_range (tv_sec * 1000 + (tv_usec + 999) / 1000) (by omega) (by omega)]
  split <;> rfl

/-- C30 (counterexample): the timeout of -1 seconds is accepted and converted
to `INT_MAX`, where the formula of the claim gives -1000; the timeout of 5
seconds and -1000 microseconds is accepted and converted to 5000, where the
formula gives 4999. -/
theorem C30_negative_timeout_not_by_formula :
    mongoContextTimeoutMsec (some (-1, 0)) = (MONGO_OK, INT_MAX)
    ∧ timeoutMsecSpec (-1) 0 = -1000
    ∧ mongoContextTimeoutMsec (some (5, -1000)) = (MONGO_OK, 5000)
    ∧ timeoutMsecSpec 5 (-1000) = 4999 := by
  refine ⟨by decide, ?_, by decide, ?_⟩
  · unfold timeoutMsecSpec
    rw [ceil_div_thousand]
    decide
  · unfold timeoutMsecSpec
    rw [ceil_div_thousand]
    decide

/-- C30 (amended): when no timeout is configured the result is -1.  A timeout
`(tv_sec, tv_usec)` is accepted exactly when `tv_usec ≤ 1000000` and
`tv_sec ≤ __MAX_MSEC`.  For an accepted timeout with `tv_usec ≥ 0` and
`tv_sec ≥ -9223372036854775` (so that no operation overflows), with
`t = tv_sec*1000 + ceil(tv_usec/1000)`: the result is `INT_MAX` when `t` is
negative and `min(t, INT_MAX)` otherwise; in particular it is
`min(t, INT_MAX)` whenever `tv_sec ≥ 0`. -/
theorem C30_timeout_conversion (tv_sec tv_usec : Int)
    (hu : tv_usec ≤ 1000000) (hs : tv_sec ≤ __MAX_MSEC)
    (hsec : -9223372036854775 ≤ tv_sec) (husec : 0 ≤ tv_usec) :
    mongoContextTimeoutMsec none = (MONGO_OK, -1)
    ∧ (∀ s u : Int, (mongoContextTimeoutMsec (some (s, u))).1 = MONGO_OK
        ↔ u ≤ 1000000 ∧ s ≤ __MAX_MSEC)
    ∧ mongoContextTimeoutMsec (some (tv_sec, tv_usec))
        = (MONGO_OK,
            if tv_sec * 1000 + ⌈(tv_usec : ℚ) / 1000⌉ < 0 then INT_MAX
            else timeoutMsecSpec tv_sec tv_usec)
    ∧ (0 ≤ tv_sec →
        mongoContextTimeoutMsec (some (tv_sec, tv_usec))
          = (MONGO_OK, timeoutMsecSpec tv_sec tv_usec)) := by
  have hv := timeoutMsec_value tv_sec tv_usec hu hs hsec husec
  have hc : ⌈(tv_usec : ℚ) / 1000⌉ = (tv_usec + 999) / 1000 := by
    rw [ceil_div_thousand]
    omega
  have hI : INT_MAX = 2147483647 := rfl
  refine ⟨rfl, ?_, ?_, ?_⟩
  · intro s u
    unfold mongoContextTimeoutMsec
    simp only
    by_cases h : u > 1000000 ∨ s > __MAX_MSEC
    · rw [if_pos h]
      simp only [MONGO_ERR_ne_OK, false_iff]
      omega
    · rw [if_neg h]
      have : u ≤ 1000000 ∧ s ≤ __MAX_MSEC := by omega
      simp only [this, and_self, iff_true]
      split <;> rfl
  · rw [hv, timeoutMsecSpec, hc]
    congr 1
    rw [hI]
    split_ifs <;> omega
  · intro h0
    rw [hv, timeoutMsecSpec, hc]
    congr 1
    rw [hI]
    split_ifs <;> omega

theorem C30_timeout_conversion_witness :
    mongoContextTimeoutMsec (some (2, 1500)) = (MONGO_OK, timeoutMsecSpec 2 1500)
    ∧ mongoContextTimeoutMsec (some (2, 1500)) = (MONGO_OK, 2002) :=
  ⟨(C30_timeout_conversion 2 1500 (by decide) (by decide) (by decide) (by decide)).2.2.2
      (by decide), by decide⟩

/-! ## C24: the idle rule of the dispatch loop -/

/-- The function `__mongoAsyncDisconnect` called once shutdown has begun with
an empty queue frees the context. -/
theorem asyncDisconnect_inner_frees (prog : Prog) (fuel n : Nat) (ac ac' : mongoAsyncContext)
    (hc : Closing ac) (he : ac.replies = [])
    (h : __mongoAsyncDisconnect (apiCall prog fuel) prog n ac = some ac') :
    ac'.freed = true ∧ ac'.replies = [] := by
  unfold __mongoAsyncDisconnect __mongoAsyncCopyError at h
  simp only at h
  by_cases herr : ac.err = none
  · rw [if_pos herr, if_pos he] at h
    have r := asyncFree_inner_closing prog fuel n _ ac' (by exact hc) h
    exact ⟨r.2.1, r.1⟩
  · rw [if_neg herr] at h
    have r := asyncFree_inner_closing prog fuel n _ ac' (by exact Or.inl rfl) h
    exact ⟨r.2.1, r.1⟩

/-- C24: at the point where the reader yields no reply (after any number of
replies of the pass, `cb` being the local variable of the loop),
`mongoProcessCallbacks` runs `__mongoAsyncDisconnect`, which frees the
context, when `DISCONNECTING` is set, the output buffer is empty and the
callback queue is empty, and the function then returns when the hooks only
submit; in every other case it returns the context as it is: nothing is
invoked and neither flags, queue nor buffers change. -/
theorem C24_idle_rule (prog : Prog) (cb : mongoCallback) (ac : mongoAsyncContext) :
    (¬ (ac.flags.disconnecting = true ∧ ac.obuf = [] ∧ ac.replies = []) →
        (∀ api n, processLoop api prog n ReaderEnd.idle [] cb ac = some ac)
        ∧ (∀ api n, mongoProcessCallbacks api prog n [] ReaderEnd.idle ac = some ac))
    ∧ ((ac.flags.disconnecting = true ∧ ac.obuf = [] ∧ ac.replies = []) →
        (∀ api n, processLoop api prog n ReaderEnd.idle [] cb ac
            = __mongoAsyncDisconnect api prog n ac)
        ∧ (∀ api n, mongoProcessCallbacks api prog n [] ReaderEnd.idle ac
            = __mongoAsyncDisconnect api prog n ac)
        ∧ (∀ fuel n ac', processLoop (apiCall prog fuel) prog n ReaderEnd.idle [] cb ac = some ac' →
            ac'.freed = true)
        ∧ (HooksSubmitOnly prog → ∃ ac', ∀ f n, 1 ≤ n →
            processLoop (apiCall prog (f + 1)) prog n ReaderEnd.idle [] cb ac = some ac')) := by
  constructor
  · intro hn
    have hb : (ac.flags.disconnecting && decide (ac.obuf = []) && decide (ac.replies = []))
        = false := by
      by_contra hb
      simp only [Bool.not_eq_false, Bool.and_eq_true, decide_eq_true_eq] at hb
      exact hn ⟨hb.1.1, hb.1.2, hb.2⟩
    constructor
    · intro api n
      simp only [processLoop, hb, Bool.false_eq_true, if_false]
    · intro api n
      simp only [mongoProcessCallbacks, processLoop, hb, Bool.false_eq_true, if_false]
  · intro hy
    have hb : (ac.flags.disconnecting && decide (ac.obuf = []) && decide (ac.replies = []))
        = true := by
      simp only [Bool.and_eq_true, decide_eq_true_eq]
      exact ⟨⟨hy.1, hy.2.1⟩, hy.2.2⟩
    have hp : ∀ api n, processLoop api prog n ReaderEnd.idle [] cb ac
        = __mongoAsyncDisconnect api prog n ac := by
      intro api n
      simp only [processLoop, hb, if_true]
    refine ⟨hp, ?_, ?_, ?_⟩
    · intro api n
      simp only [mongoProcessCallbacks, processLoop, hb, if_true]
    · intro fuel n ac' h
      rw [hp] at h
      exact (asyncDisconnect_inner_frees prog fuel n ac ac' (Or.inl hy.1) hy.2.2 h).1
    · intro hh
      obtain ⟨ac', h, _⟩ := asyncDisconnect_inner_returns prog hh ac
      refine ⟨ac', ?_⟩
      intro f n hn
      rw [hp]
      exact h f n (by rw [hy.2.2]; simpa using hn)

theorem C24_idle_rule_witness :
    mongoProcessCallbacks (apiCall idleProg 1) idleProg 1 [] ReaderEnd.idle
        ⟨none, ⟨false, true, true, false, false⟩, [9], none, ⟨true, true, true, true, true⟩,
          some 1, some 2, [], [], false, false⟩
      = some ⟨none, ⟨false, true, true, false, false⟩, [9], none, ⟨true, true, true, true, true⟩,
          some 1, some 2, [], [], false, false⟩ :=
  ((C24_idle_rule idleProg ⟨none, 0, 0⟩
      ⟨none, ⟨false, true, true, false, false⟩, [9], none, ⟨true, true, true, true, true⟩,
        some 1, some 2, [], [], false, false⟩).1 (by decide)).2 _ 1

/-! ## C23: `mongoAsyncFree` and `mongoAsyncDisconnect` inside a callback -/

theorem deferred_freeing (a : Act) (ac : mongoAsyncContext) (h : ac.flags.freeing = true) :
    (deferred a ac).flags.freeing = true := by
  obtain ⟨d, g, bytes, extra, t, hd, _⟩ := deferred_spec a ac
  rw [hd]
  simp [extended, h]

theorem runDeferred_freeing (acts : List Act) :
    ∀ ac : mongoAsyncContext, (ac.flags.freeing = true ∨ Act.asyncFree ∈ acts) →
      (runDeferred acts ac).flags.freeing = true := by
  induction acts with
  | nil =>
    intro ac h
    rcases h with h | h
    · exact h
    · simp at h
  | cons a rest ih =>
    intro ac h
    have hstep : runDeferred (a :: rest) ac = runDeferred rest (deferred a ac) := rfl
    rw [hstep]
    apply ih
    rcases h with h | h
    · exact Or.inl (deferred_freeing a ac h)
    · rcases List.mem_cons.mp h with h | h
      · left
        subst h
        rfl
      · exact Or.inr h

/-- A reply callback that calls `mongoAsyncFree`: what `__mongoRunCallback`
returns, for any bound. -/
theorem runCallback_freeing (prog : Prog) (ac1 : mongoAsyncContext) (c : mongoCallback) (f : Nat)
    (reply : Option mongoReply) (hfn : c.fn = some f)
    (hfree : Act.asyncFree ∈ prog.callback f reply c.privdata) :
    ∃ ac2 t, (∀ fuel, __mongoRunCallback (apiCall prog (fuel + 1)) prog ac1 c reply = some ac2)
      ∧ ac2.flags.freeing = true ∧ ac2.flags.in_callback = false
      ∧ ac2.trace = ac1.trace ++ Event.callback c reply :: t ∧ callbacks t = []
      ∧ disconnects t = [] := by
  obtain ⟨d, g, bytes, extra, t, hrd, hcbs, hdis, _, _, _, _⟩ :=
    runDeferred_spec (prog.callback f reply c.privdata)
      (emit { ac1 with flags := { ac1.flags with in_callback := true } } (Event.callback c reply))
  have hfr := runDeferred_freeing (prog.callback f reply c.privdata)
    (emit { ac1 with flags := { ac1.flags with in_callback := true } } (Event.callback c reply))
    (Or.inr hfree)
  refine ⟨{ runDeferred (prog.callback f reply c.privdata)
      (emit { ac1 with flags := { ac1.flags with in_callback := true } }
        (Event.callback c reply)) with
      flags := { (runDeferred (prog.callback f reply c.privdata)
        (emit { ac1 with flags := { ac1.flags with in_callback := true } }
          (Event.callback c reply))).flags with in_callback := false } }, t, ?_, hfr, rfl, ?_,
    hcbs, hdis⟩
  · intro fuel
    have hu := userCode_deferred prog fuel (prog.callback f reply c.privdata)
      (emit { ac1 with flags := { ac1.flags with in_callback := true } } (Event.callback c reply))
      (Or.inl rfl)
    simp only [__mongoRunCallback, hfn, hu]
  · simp only [hrd]
    simp [extended, emit]

/-- C23: while `MONGO_IN_CALLBACK` is set, `mongoAsyncFree` only sets `FREEING`
and `mongoAsyncDisconnect` only sets `DISCONNECTING`: the context is otherwise
returned as it is.  And when the callback that `mongoProcessCallbacks` runs
for a reply calls `mongoAsyncFree`, the loop, whatever replies the reader
still holds, goes on with `__mongoAsyncFree` right after the callback has
returned and the reply was released: the context is freed, the callback is
the only one invoked with a reply, the records then in the queue are flushed
with a NULL reply, and the function returns when the hooks only submit. -/
theorem C23_free_in_callback_deferred (prog : Prog) (ac : mongoAsyncContext) :
    (ac.flags.in_callback = true →
      (∀ api n, mongoAsyncFree api prog n ac
          = some { ac with flags := { ac.flags with freeing := true } })
      ∧ (∀ api n, mongoAsyncDisconnect api prog n ac
          = some { ac with flags := { ac.flags with disconnecting := true } }))
    ∧ (∀ (c : mongoCallback) (rest : List mongoCallback) (f : Nat) (reply : mongoReply),
        ac.replies = c :: rest → c.fn = some f →
        Act.asyncFree ∈ prog.callback f (some reply) c.privdata →
        ∃ ac2, ac2.flags.freeing = true ∧ ac2.flags.in_callback = false
          ∧ callbacks (ac2.trace.drop ac.trace.length) = [(c, some reply)]
          ∧ (∀ fuel n rs last cb0,
              processLoop (apiCall prog (fuel + 1)) prog n last (reply :: rs) cb0 ac
                = __mongoAsyncFree (apiCall prog (fuel + 1)) prog n
                    (emit ac2 (Event.freeObject reply)))
          ∧ (∀ fuel n rs last cb0 ac',
              processLoop (apiCall prog (fuel + 1)) prog n last (reply :: rs) cb0 ac = some ac' →
              ac'.freed = true ∧ ac'.replies = []
                ∧ callbacks (ac'.trace.drop ac.trace.length)
                  = (c, some reply)
                      :: (ac2.replies.filter (fun cb => cb.fn.isSome)).map (fun cb => (cb, none)))
          ∧ (HooksSubmitOnly prog → ∃ ac', ∀ fuel n rs last cb0, ac2.replies.length + 1 ≤ n →
              processLoop (apiCall prog (fuel + 1)) prog n last (reply :: rs) cb0 ac
                = some ac')) := by
  constructor
  · intro hin
    constructor
    · intro api n
      simp [mongoAsyncFree, hin]
    · intro api n
      simp [mongoAsyncDisconnect, hin]
  · intro c rest f reply hq hfn hfree
    -- the shift
    have hsh : ∀ cb0, ∃ ac1, __mongoShiftCallback ac (some reply) cb0 = (MONGO_OK, c, ac1)
        ∧ ac1.trace = ac.trace
        ∧ ac1 = (if (decide (c.flags &&& QUERY_FLAG_EXHAUST ≠ 0) && decide (reply.cursorID ≠ 0))
            = true then ac else { ac with replies := rest }) := by
      intro cb0
      refine ⟨_, ?_, ?_, rfl⟩
      · simp only [__mongoShiftCallback, hq]
      · split <;> rfl
    obtain ⟨ac1, _, htr1, hac1⟩ := hsh c
    obtain ⟨ac2, t, hrun, hfr, hic, htr2, hcbs, _⟩ :=
      runCallback_freeing prog ac1 c f (some reply) hfn hfree
    have hstep : ∀ fuel n rs last cb0,
        processLoop (apiCall prog (fuel + 1)) prog n last (reply :: rs) cb0 ac
          = __mongoAsyncFree (apiCall prog (fuel + 1)) prog n
              (emit ac2 (Event.freeObject reply)) := by
      intro fuel n rs last cb0
      obtain ⟨ac1', hs', _, hac1'⟩ := hsh cb0
      have he : ac1' = ac1 := by rw [hac1', hac1]
      subst he
      have hne : c.fn ≠ none := by rw [hfn]; simp
      have hfr3 : (emit ac2 (Event.freeObject reply)).flags.freeing = true := hfr
      simp only [processLoop, hs', if_true, hne, not_false_eq_true, ne_eq, hrun fuel, hfr3]
    have hdrop : ac2.trace.drop ac.trace.length = Event.callback c (some reply) :: t := by
      rw [htr2, htr1, List.drop_left]
    refine ⟨ac2, hfr, hic, ?_, hstep, ?_, ?_⟩
    · rw [hdrop]
      simp [callbacks, hcbs]
    · intro fuel n rs last cb0 ac' h
      rw [hstep] at h
      obtain ⟨he, hfreed, t', ht', hcb', _⟩ :=
        asyncFree_inner_closing prog (fuel + 1) n _ ac' (by exact Or.inr hfr) h
      refine ⟨hfreed, he, ?_⟩
      have e1 : (emit ac2 (Event.freeObject reply)).trace
          = ac.trace ++ ([Event.callback c (some reply)] ++ (t ++ [Event.freeObject reply])) := by
        simp only [emit, htr2, htr1, List.append_assoc, List.cons_append, List.singleton_append,
          List.nil_append]
      have e2 : (emit ac2 (Event.freeObject reply)).replies = ac2.replies := rfl
      have hc1 : callbacks [Event.callback c (some reply)] = [(c, some reply)] := rfl
      have hc2 : callbacks [Event.freeObject reply] = [] := rfl
      rw [ht', e1, e2, List.append_assoc, List.append_assoc, List.drop_left]
      simp only [callbacks_append, hc1, hc2, hcbs, hcb', callbacks_flushEvents,
        List.nil_append, List.append_nil]
      rfl
    · intro hh
      obtain ⟨ac', h, _⟩ := asyncFree_inner_returns prog hh (emit ac2 (Event.freeObject reply))
        (Or.inl (Or.inr hfr))
      refine ⟨ac', ?_⟩
      intro fuel n rs last cb0 hn
      rw [hstep]
      exact h fuel n hn

theorem C23_free_in_callback_deferred_witness :
    mongoAsyncFree (apiCall freeingProg 1) freeingProg 1
        ⟨none, ⟨false, true, false, false, true⟩, [9], none, ⟨true, true, true, true, true⟩,
          some 1, some 2, [⟨some 1, 0, 0⟩], [], false, false⟩
      = some ⟨none, ⟨false, true, false, true, true⟩, [9], none, ⟨true, true, true, true, true⟩,
          some 1, some 2, [⟨some 1, 0, 0⟩], [], false, false⟩ :=
  ((C23_free_in_callback_deferred freeingProg
      ⟨none, ⟨false, true, false, false, true⟩, [9], none, ⟨true, true, true, true, true⟩,
        some 1, some 2, [⟨some 1, 0, 0⟩], [], false, false⟩).1 (by decide)).1 _ 1

/-! ## C21: the connect confirmation fails -/

/-- The function `__mongoAsyncFree` on a context on which `MONGO_CONNECTED` is
not set, once shutdown has begun: the queue is flushed, the cleanup hook is
called, the context is freed, and the disconnect hook is not called. -/
theorem asyncFree_inner_unconnected (prog : Prog) (fuel n : Nat) (ac ac' : mongoAsyncContext)
    (hc : Closing ac) (hconn : ac.flags.connected = false)
    (h : __mongoAsyncFree (apiCall prog fuel) prog n ac = some ac') :
    ac'.trace = ac.trace ++ flushEvents ac.replies
        ++ (if ac.ev.cleanup then [Event.cleanup] else []) ++ [Event.mongoFree]
      ∧ ac'.flags.connected = false ∧ ac'.freed = true ∧ ac'.replies = [] := by
  cases hfl : flushLoop (apiCall prog fuel) prog n { fn := none, flags := 0, privdata := 0 } ac with
  | none =>
    unfold __mongoAsyncFree at h
    simp [hfl] at h
  | some mid =>
    obtain ⟨d, g, i, hm, _, _⟩ := flushLoop_closing prog fuel n _ ac mid hc hfl
    have he : mid.replies = [] := by rw [hm]; rfl
    rw [asyncFree_inner_split _ prog n ac mid hfl he] at h
    subst hm
    obtain ⟨err, ⟨fb, fc, fd, fg, fi⟩, obuf, acErr, ⟨e1, e2, e3, e4, e5⟩, oc, od, replies, trace,
      freed, aborted⟩ := ac
    simp only at hconn
    subst hconn
    cases e5 <;> cases od <;>
      · simp [__mongoAsyncFree, flushLoop, __mongoShiftCallback, flushed, _EL_CLEANUP, emit,
          MONGO_ERR_ne_OK] at h
        subst h
        simp

/-- The connect confirmation that finds a socket error other than
`EINPROGRESS`, when the hooks only submit: the status is `MONGO_ERR`, the
hook `onConnect` (if registered) is called with `MONGO_ERR`, then the queue,
with the records this hook enqueued, is flushed, the cleanup hook is called
and the context is freed; `MONGO_CONNECTED` is not set and the hook
`onDisconnect` is not called. -/
theorem handleConnect_failure (prog : Prog) (hh : HooksSubmitOnly prog) (fuel n : Nat)
    (ac ac3 : mongoAsyncContext) (st : Int) (hconn : ac.flags.connected = false)
    (h : __mongoAsyncHandleConnect (apiCall prog fuel) prog n (SockCheck.failed false) ac
      = some (st, ac3)) :
    st = MONGO_ERR ∧ ac3.flags.connected = false ∧ ac3.freed = true ∧ ac3.replies = []
      ∧ ∃ t, callbacks t = [] ∧ disconnects t = []
        ∧ ac3.trace = ac.trace
            ++ (if ac.onConnect.isSome then [Event.onConnect MONGO_ERR] else [])
            ++ t ++ flushEvents (ac.replies ++ pushed t)
            ++ (if ac.ev.cleanup then [Event.cleanup] else []) ++ [Event.mongoFree] := by
  obtain ⟨err, flags, obuf, acErr, ev, oc, od, replies, trace, freed, aborted⟩ := ac
  simp only at hconn
  unfold __mongoAsyncHandleConnect mongoCheckSocketError at h
  simp only [if_true, reduceCtorEq, SockCheck.failed.injEq, Bool.false_eq_true, if_false] at h
  -- the disconnect on the context `ac2` that the hook leaves
  have hdisc : ∀ ac2 : mongoAsyncContext, ac2.err ≠ none → ac2.flags.connected = false →
      __mongoAsyncDisconnect (apiCall prog fuel) prog n ac2 = some ac3 →
      ac3.trace = ac2.trace ++ flushEvents ac2.replies
          ++ (if ac2.ev.cleanup then [Event.cleanup] else []) ++ [Event.mongoFree]
        ∧ ac3.flags.connected = false ∧ ac3.freed = true ∧ ac3.replies = [] := by
    intro ac2 herr hc2 hd
    unfold __mongoAsyncDisconnect __mongoAsyncCopyError at hd
    simp only at hd
    rw [if_neg herr] at hd
    have r := asyncFree_inner_unconnected prog fuel n _ ac3 (by exact Or.inl rfl) (by exact hc2) hd
    exact r
  cases oc with
  | none =>
    simp only at h
    cases hd : __mongoAsyncDisconnect (apiCall prog fuel) prog n
        ⟨some ErrKind.io, flags, obuf, acErr, ev, none, od, replies, trace, freed, aborted⟩ with
    | none => rw [hd] at h; simp at h
    | some x =>
      rw [hd] at h
      simp only [Option.some.injEq, Prod.mk.injEq] at h
      obtain ⟨rfl, rfl⟩ := h
      obtain ⟨ht, h1, h2, h3⟩ := hdisc _ (by simp) hconn hd
      refine ⟨rfl, h1, h2, h3, [], rfl, rfl, ?_⟩
      rw [ht]
      simp [pushed]
  | some f =>
    simp only at h
    cases hk : callHook (apiCall prog fuel) prog (Event.onConnect MONGO_ERR) f MONGO_ERR
        ⟨some ErrKind.io, flags, obuf, acErr, ev, some f, od, replies, trace, freed, aborted⟩ with
    | none => rw [hk] at h; simp at h
    | some ac2 =>
      rw [hk] at h
      simp only at h
      have hrd := userCode_deferred_eq prog fuel (prog.hook f MONGO_ERR)
        (emit ⟨some ErrKind.io, flags, obuf, acErr, ev, some f, od, replies, trace, freed,
          aborted⟩ (Event.onConnect MONGO_ERR)) ac2
        (Or.inr (hh f MONGO_ERR)) hk
      obtain ⟨d, g, bytes, extra, t, hsp, hcbs, hdis, hp, _, _, _⟩ :=
        runDeferred_spec (prog.hook f MONGO_ERR)
          (emit ⟨some ErrKind.io, flags, obuf, acErr, ev, some f, od, replies, trace, freed,
            aborted⟩ (Event.onConnect MONGO_ERR))
      rw [hsp] at hrd
      cases hd : __mongoAsyncDisconnect (apiCall prog fuel) prog n ac2 with
      | none => rw [hd] at h; simp at h
      | some x =>
        rw [hd] at h
        simp only [Option.some.injEq, Prod.mk.injEq] at h
        obtain ⟨rfl, rfl⟩ := h
        obtain ⟨ht, h1, h2, h3⟩ := hdisc ac2 (by rw [hrd]; simp [extended, emit])
          (by rw [hrd]; simp [extended, emit, hconn]) hd
        refine ⟨rfl, h1, h2, h3, t, hcbs, hdis, ?_⟩
        rw [ht, hrd, hp]
        simp [extended, emit]


/-- C21 (counterexample): a controller that is not yet connected, with
registered `onConnect`, `onDisconnect` and cleanup hooks and one queued
callback, whose first write event finds a socket error other than
`EINPROGRESS`: `onConnect` is called with `MONGO_ERR`, the callback is called
with a NULL reply, the cleanup hook is called and the context is freed, but
`onDisconnect` is not called, because `MONGO_CONNECTED` is not set. -/
theorem C21_no_onDisconnect_before_connected :
    (mongoAsyncHandleWrite (apiCall idleProg 1) idleProg 2 (SockCheck.failed false) (Except.ok 0)
        ⟨none, ⟨false, false, false, false, false⟩, [9], none, ⟨true, true, true, true, true⟩,
          some 1, some 2, [⟨some 3, 0, 0⟩], [], false, false⟩).map
        (fun ac => (ac.trace, disconnects ac.trace, ac.flags.connected, ac.freed))
      = some ([Event.onConnect MONGO_ERR, Event.callback ⟨some 3, 0, 0⟩ none, Event.cleanup,
          Event.mongoFree], [], false, true) := by
  decide

/-- C21 (amended): on a controller on which `MONGO_CONNECTED` is not set and
whose hooks only submit, when the first read or write event finds a socket
error other than `EINPROGRESS`, the handler returns, having called
`onConnect` with `MONGO_ERR` (if this hook is registered), then flushed the
callback queue (with the records this hook enqueued) with a NULL reply, then
called the cleanup hook (if registered) and freed the context:
`MONGO_CONNECTED` is not set and `onDisconnect` is not called.  When the error
is `EINPROGRESS` the handler only records the error kind in `c->err`: no hook
is called, `MONGO_CONNECTED` stays clear and the context is not freed. -/
theorem C21_connect_failure (prog : Prog) (hh : HooksSubmitOnly prog) (ac : mongoAsyncContext)
    (hconn : ac.flags.connected = false) (wr : Except ErrKind Nat) (rd : Option ErrKind)
    (rs : List mongoReply) (last : ReaderEnd) :
    (∃ N ac',
        (∀ f n, N ≤ n →
          mongoAsyncHandleWrite (apiCall prog (f + 1)) prog n (SockCheck.failed false) wr ac
              = some ac'
            ∧ mongoAsyncHandleRead (apiCall prog (f + 1)) prog n (SockCheck.failed false) rd rs
                last ac = some ac')
        ∧ ac'.flags.connected = false ∧ ac'.freed = true ∧ ac'.replies = []
        ∧ ∃ t, callbacks t = [] ∧ disconnects t = []
          ∧ ac'.trace = ac.trace
              ++ (if ac.onConnect.isSome then [Event.onConnect MONGO_ERR] else [])
              ++ t ++ flushEvents (ac.replies ++ pushed t)
              ++ (if ac.ev.cleanup then [Event.cleanup] else []) ++ [Event.mongoFree])
    ∧ (∀ api n,
        mongoAsyncHandleWrite api prog n (SockCheck.failed true) wr ac
            = some { ac with err := some ErrKind.io }
          ∧ mongoAsyncHandleRead api prog n (SockCheck.failed true) rd rs last ac
              = some { ac with err := some ErrKind.io }) := by
  constructor
  · obtain ⟨N, ⟨st, ac3⟩, hr, _⟩ := handleConnect_returns prog hh (SockCheck.failed false) ac
    obtain ⟨hst, h1, h2, h3, h4⟩ :=
      handleConnect_failure prog hh (0 + 1) N ac ac3 st hconn (hr 0 N (Nat.le_refl N))
    subst hst
    refine ⟨N, ac3, ?_, h1, h2, h3, h4⟩
    intro f n hn
    have hcf : handleConnectFirst (apiCall prog (f + 1)) prog n (SockCheck.failed false) ac
        = some (false, ac3) := by
      unfold handleConnectFirst
      rw [hr f n hn]
      simp [hconn, MONGO_ERR_ne_OK]
    constructor
    · unfold mongoAsyncHandleWrite
      rw [hcf]
    · unfold mongoAsyncHandleRead
      rw [hcf]
  · intro api n
    obtain ⟨err, ⟨fb, fc, fd, fg, fi⟩, obuf, acErr, ev, oc, od, replies, trace, freed, aborted⟩ :=
      ac
    simp only at hconn
    subst hconn
    have hcf : handleConnectFirst api prog n (SockCheck.failed true)
        ⟨err, ⟨fb, false, fd, fg, fi⟩, obuf, acErr, ev, oc, od, replies, trace, freed, aborted⟩
        = some (false, ⟨some ErrKind.io, ⟨fb, false, fd, fg, fi⟩, obuf, acErr, ev, oc, od, replies,
            trace, freed, aborted⟩) := by
      simp [handleConnectFirst, __mongoAsyncHandleConnect, mongoCheckSocketError]
    constructor
    · unfold mongoAsyncHandleWrite
      rw [hcf]
    · unfold mongoAsyncHandleRead
      rw [hcf]

theorem C21_connect_failure_witness :
    ∃ N ac',
      (∀ f n, N ≤ n →
        mongoAsyncHandleWrite (apiCall idleProg (f + 1)) idleProg n (SockCheck.failed false)
            (Except.ok 0) (mongoAsyncInitialize ⟨true, true, true, true, true⟩ (some 1) (some 2))
            = some ac'
          ∧ mongoAsyncHandleRead (apiCall idleProg (f + 1)) idleProg n (SockCheck.failed false)
              none [] ReaderEnd.idle
              (mongoAsyncInitialize ⟨true, true, true, true, true⟩ (some 1) (some 2)) = some ac')
      ∧ ac'.flags.connected = false ∧ ac'.freed = true ∧ ac'.replies = []
      ∧ ∃ t, callbacks t = [] ∧ disconnects t = []
        ∧ ac'.trace = [] ++ [Event.onConnect MONGO_ERR] ++ t ++ flushEvents ([] ++ pushed t)
            ++ [Event.cleanup] ++ [Event.mongoFree] :=
  (C21_connect_failure idleProg (fun _ _ _ h => by simp [idleProg] at h)
    (mongoAsyncInitialize ⟨true, true, true, true, true⟩ (some 1) (some 2)) rfl (Except.ok 0) none
    [] ReaderEnd.idle).1

/-! ## C27: the status of `onDisconnect` -/

/-- User code that only submits, run once shutdown has begun, leaves the
trace, the queue and the context in place. -/
theorem submits_closing_same (prog : Prog) (fuel : Nat) (acts : List Act)
    (hsub : ∀ a ∈ acts, a ≠ Act.asyncFree ∧ a ≠ Act.asyncDisconnect)
    (x ac3 : mongoAsyncContext) (hc : Closing x)
    (hu : userCode (apiCall prog fuel) acts x = some ac3) :
    ac3.trace = x.trace ∧ ac3.replies = x.replies ∧ ac3.freed = x.freed := by
  have h3 := userCode_deferred_eq prog fuel acts x ac3 (Or.inr hsub) hu
  obtain ⟨d, g, bytes, extra, t, hrd, _, _, _, _, hcl', _⟩ := runDeferred_spec acts x
  obtain ⟨rfl, rfl, rfl⟩ := hcl' hc
  rw [hrd] at h3
  subst h3
  simp [extended]

/-- The function `__mongoAsyncFree` on a connected context with an empty queue,
once shutdown has begun, with registered cleanup and disconnect hooks: the
cleanup hook is called, then `onDisconnect`, with `MONGO_OK` when `FREEING` is
set or `ac->err` is 0 and with `MONGO_ERR` otherwise, then the context is
freed. -/
theorem asyncFree_inner_empty_status (prog : Prog) (fuel n : Nat) (mid ac' : mongoAsyncContext)
    (h : Nat) (he : mid.replies = []) (hc : Closing mid) (hcl : mid.ev.cleanup = true)
    (hod : mid.onDisconnect = some h) (hconn : mid.flags.connected = true)
    (hsub : ∀ status, ∀ a ∈ prog.hook h status, a ≠ Act.asyncFree ∧ a ≠ Act.asyncDisconnect)
    (hrun : __mongoAsyncFree (apiCall prog fuel) prog n mid = some ac') :
    ac'.trace = mid.trace ++ [Event.cleanup,
        Event.onDisconnect
          (if mid.flags.freeing = true ∨ mid.acErr = none then MONGO_OK else MONGO_ERR),
        Event.mongoFree]
      ∧ ac'.freed = true ∧ ac'.replies = [] := by
  obtain ⟨err, ⟨fb, fc, fd, fg, fi⟩, obuf, acErr, ⟨e1, e2, e3, e4, e5⟩, oc, od, replies, trace,
    freed, aborted⟩ := mid
  simp only at he hcl hod hconn
  subst he hcl hod hconn
  cases n with
  | zero => simp [__mongoAsyncFree, flushLoop] at hrun
  | succ n =>
    have key : ∀ st : Int,
        (match callHook (apiCall prog fuel) prog (Event.onDisconnect st) h st
            ⟨err, ⟨fb, true, fd, fg, fi⟩, obuf, acErr, ⟨e1, e2, e3, e4, true⟩, oc, some h, [],
              trace ++ [Event.cleanup], freed, aborted⟩ with
          | some ac3 => some { emit ac3 Event.mongoFree with freed := true }
          | none => none) = some ac' →
        ac'.trace = trace ++ [Event.cleanup, Event.onDisconnect st, Event.mongoFree]
          ∧ ac'.freed = true ∧ ac'.replies = [] := by
      intro st hk
      unfold callHook at hk
      cases hu : userCode (apiCall prog fuel) (prog.hook h st)
          (emit ⟨err, ⟨fb, true, fd, fg, fi⟩, obuf, acErr, ⟨e1, e2, e3, e4, true⟩, oc, some h, [],
            trace ++ [Event.cleanup], freed, aborted⟩ (Event.onDisconnect st)) with
      | none =>
        rw [hu] at hk
        simp at hk
      | some ac3 =>
        rw [hu] at hk
        simp only [Option.some.injEq] at hk
        obtain ⟨h1, h2, _⟩ := submits_closing_same prog fuel _ (hsub st) _ ac3 (by exact hc) hu
        subst hk
        simp [emit, h1, h2]
    cases fg with
    | true =>
      simp only [__mongoAsyncFree, flushLoop, __mongoShiftCallback, MONGO_ERR_ne_OK, if_false,
        _EL_CLEANUP, if_true, emit] at hrun
      simpa using key MONGO_OK hrun
    | false =>
      by_cases herr : acErr = none
      · subst herr
        simp only [__mongoAsyncFree, flushLoop, __mongoShiftCallback, MONGO_ERR_ne_OK, if_false,
          _EL_CLEANUP, if_true, emit, Bool.false_eq_true] at hrun
        simpa using key MONGO_OK hrun
      · simp only [__mongoAsyncFree, flushLoop, __mongoShiftCallback, MONGO_ERR_ne_OK, if_false,
          _EL_CLEANUP, if_true, emit, Bool.false_eq_true, herr] at hrun
        simpa [herr] using key MONGO_ERR hrun

/-- The function `__mongoAsyncFree` with any queue, once shutdown has begun:
the queue is flushed, then the tail of `asyncFree_inner_empty_status`, where
`FREEING` is set if it was set before or a flushed callback called
`mongoAsyncFree`. -/
theorem asyncFree_inner_status (prog : Prog) (fuel n : Nat) (ac ac' : mongoAsyncContext)
    (h : Nat) (hc : Closing ac) (hcl : ac.ev.cleanup = true)
    (hod : ac.onDisconnect = some h) (hconn : ac.flags.connected = true)
    (hsub : ∀ status, ∀ a ∈ prog.hook h status, a ≠ Act.asyncFree ∧ a ≠ Act.asyncDisconnect)
    (hrun : __mongoAsyncFree (apiCall prog fuel) prog n ac = some ac') :
    ∃ g : Bool,
      (g = true → ∃ c ∈ ac.replies, ∃ fn, c.fn = some fn
          ∧ Act.asyncFree ∈ prog.callback fn none c.privdata)
      ∧ ac'.trace = ac.trace ++ flushEvents ac.replies ++ [Event.cleanup,
          Event.onDisconnect
            (if (ac.flags.freeing || g) = true ∨ ac.acErr = none then MONGO_OK else MONGO_ERR),
          Event.mongoFree]
      ∧ ac'.freed = true ∧ ac'.replies = [] := by
  cases hfl : flushLoop (apiCall prog fuel) prog n { fn := none, flags := 0, privdata := 0 } ac with
  | none =>
    unfold __mongoAsyncFree at hrun
    simp [hfl] at hrun
  | some mid =>
    obtain ⟨d, g, i, hm, _, hg⟩ := flushLoop_closing prog fuel n _ ac mid hc hfl
    have he : mid.replies = [] := by rw [hm]; rfl
    rw [asyncFree_inner_split _ prog n ac mid hfl he] at hrun
    have hcm : Closing mid := by rw [hm]; exact Closing_flushed ac d g i hc
    have r := asyncFree_inner_empty_status prog fuel 1 mid ac' h he hcm
      (by rw [hm]; exact hcl) (by rw [hm]; exact hod) (by rw [hm]; exact hconn) hsub hrun
    rw [hm] at r
    exact ⟨g, hg, r⟩


/-- C27: on a connected controller with registered `onDisconnect` and cleanup
hooks, whose hooks only submit: `mongoAsyncFree` called outside a callback
returns after exactly these events: every queued callback with a non-NULL
function, in order, with a NULL reply; the cleanup hook, once; `onDisconnect`
with status `MONGO_OK`, whatever the error slots hold; the context is freed.
When `__mongoAsyncFree` runs without `mongoAsyncFree` having been called
(`FREEING` is clear and no flushed callback calls `mongoAsyncFree`), as it
does from `__mongoAsyncDisconnect`, the events are the same except that the
status of `onDisconnect` is `MONGO_OK` exactly when the mirrored error code
`ac->err` is 0, and `MONGO_ERR` otherwise.  In general the status is
`MONGO_OK` exactly when `FREEING` is set by the time the hook is called (it
was set before, or a flushed callback called `mongoAsyncFree`) or `ac->err`
is 0. -/
theorem C27_free_status (prog : Prog) (hh : HooksSubmitOnly prog) (ac : mongoAsyncContext)
    (h : Nat) (hconn : ac.flags.connected = true) (hod : ac.onDisconnect = some h)
    (hcl : ac.ev.cleanup = true) :
    (ac.flags.in_callback = false →
      ∃ ac', (∀ f n, ac.replies.length + 1 ≤ n →
          mongoAsyncFree (apiCall prog (f + 1)) prog n ac = some ac')
        ∧ ac'.trace = ac.trace ++ flushEvents ac.replies
            ++ [Event.cleanup, Event.onDisconnect MONGO_OK, Event.mongoFree]
        ∧ ac'.freed = true ∧ ac'.replies = [])
    ∧ (Closing ac → ac.flags.freeing = false →
        (∀ c ∈ ac.replies, ∀ fn, c.fn = some fn →
          Act.asyncFree ∉ prog.callback fn none c.privdata) →
        ∃ ac', (∀ f n, ac.replies.length + 1 ≤ n →
            __mongoAsyncFree (apiCall prog (f + 1)) prog n ac = some ac')
          ∧ ac'.trace = ac.trace ++ flushEvents ac.replies
              ++ [Event.cleanup,
                  Event.onDisconnect (if ac.acErr = none then MONGO_OK else MONGO_ERR),
                  Event.mongoFree]
          ∧ ac'.freed = true ∧ ac'.replies = [])
    ∧ ((ac.err ≠ none ∨ (ac.flags.disconnecting = true ∧ ac.replies = [])) →
        ac.flags.freeing = false →
        (∀ c ∈ ac.replies, ∀ fn, c.fn = some fn →
          Act.asyncFree ∉ prog.callback fn none c.privdata) →
        ∃ ac', (∀ f n, ac.replies.length + 1 ≤ n →
            __mongoAsyncDisconnect (apiCall prog (f + 1)) prog n ac = some ac')
          ∧ ac'.trace = ac.trace ++ flushEvents ac.replies
              ++ [Event.cleanup,
                  Event.onDisconnect (if ac.err = none then MONGO_OK else MONGO_ERR),
                  Event.mongoFree]
          ∧ ac'.freed = true ∧ ac'.replies = [])
    ∧ (Closing ac → ∀ fuel n ac', __mongoAsyncFree (apiCall prog fuel) prog n ac = some ac' →
        ∃ g : Bool,
          (g = true → ∃ c ∈ ac.replies, ∃ fn, c.fn = some fn
              ∧ Act.asyncFree ∈ prog.callback fn none c.privdata)
          ∧ ac'.trace = ac.trace ++ flushEvents ac.replies
              ++ [Event.cleanup,
                  Event.onDisconnect
                    (if (ac.flags.freeing || g) = true ∨ ac.acErr = none then MONGO_OK
                     else MONGO_ERR),
                  Event.mongoFree]
          ∧ ac'.freed = true ∧ ac'.replies = []) := by
  have hsub : ∀ status, ∀ a ∈ prog.hook h status, a ≠ Act.asyncFree ∧ a ≠ Act.asyncDisconnect :=
    fun status => hh h status
  -- when `FREEING` stays clear
  have hclear : ∀ (x ac' : mongoAsyncContext) (fuel n : Nat), Closing x → x.ev.cleanup = true →
      x.onDisconnect = some h → x.flags.connected = true → x.flags.freeing = false →
      (∀ c ∈ x.replies, ∀ fn, c.fn = some fn → Act.asyncFree ∉ prog.callback fn none c.privdata) →
      __mongoAsyncFree (apiCall prog fuel) prog n x = some ac' →
      ac'.trace = x.trace ++ flushEvents x.replies
          ++ [Event.cleanup, Event.onDisconnect (if x.acErr = none then MONGO_OK else MONGO_ERR),
              Event.mongoFree]
        ∧ ac'.freed = true ∧ ac'.replies = [] := by
    intro x ac' fuel n hc hcl' hod' hconn' hfr hcb hrun
    obtain ⟨g, hg, r⟩ := asyncFree_inner_status prog fuel n x ac' h hc hcl' hod' hconn' hsub hrun
    have hgf : g = false := by
      cases g with
      | false => rfl
      | true =>
        obtain ⟨c, hcm, fn, h1, h2⟩ := hg rfl
        exact absurd h2 (hcb c hcm fn h1)
    subst hgf
    simpa [hfr] using r
  refine ⟨?_, ?_, ?_, fun hc fuel n ac' hrun =>
    asyncFree_inner_status prog fuel n ac ac' h hc hcl hod hconn hsub hrun⟩
  · intro hin
    obtain ⟨ac', hret, _⟩ := mongoAsyncFree_returns prog hh ac
    refine ⟨ac', hret, ?_⟩
    have h0 := hret 0 (ac.replies.length + 1) (Nat.le_refl _)
    unfold mongoAsyncFree at h0
    simp only [hin, Bool.false_eq_true, if_false] at h0
    obtain ⟨g, _, r⟩ := asyncFree_inner_status prog 1 _ _ ac' h (by exact Or.inr rfl)
      (by exact hcl) (by exact hod) (by exact hconn) hsub h0
    simpa using r
  · intro hc hfr hcb
    obtain ⟨ac', hret, _, _⟩ := asyncFree_inner_returns prog hh ac (Or.inl hc)
    refine ⟨ac', hret, ?_⟩
    exact hclear ac ac' 1 _ hc hcl hod hconn hfr hcb (hret 0 (ac.replies.length + 1) (Nat.le_refl _))
  · intro hpre hfr hcb
    obtain ⟨ac', hret, _⟩ := asyncDisconnect_inner_returns prog hh ac
    refine ⟨ac', hret, ?_⟩
    have h0 := hret 0 (ac.replies.length + 1) (Nat.le_refl _)
    unfold __mongoAsyncDisconnect __mongoAsyncCopyError at h0
    simp only at h0
    by_cases herr : ac.err = none
    · rcases hpre with hp | ⟨hd, he⟩
      · exact absurd herr hp
      · rw [if_pos herr, if_pos he] at h0
        have r := hclear _ ac' 1 _ (by exact Or.inl hd) (by exact hcl) (by exact hod)
          (by exact hconn) (by exact hfr) (by exact hcb) h0
        simpa [herr] using r
    · rw [if_neg herr] at h0
      have r := hclear _ ac' 1 _ (by exact Or.inl rfl) (by exact hcl) (by exact hod)
        (by exact hconn) (by exact hfr) (by exact hcb) h0
      simpa [herr] using r

theorem C27_free_status_witness :
    ∃ ac', (∀ f n, 2 + 1 ≤ n →
        mongoAsyncFree (apiCall idleProg (f + 1)) idleProg n
          ⟨some ErrKind.io, ⟨false, true, false, false, false⟩, [9], some ErrKind.io,
            ⟨true, true, true, true, true⟩, some 1, some 2, [⟨some 3, 0, 0⟩, ⟨some 4, 0, 0⟩], [],
            false, false⟩ = some ac')
      ∧ ac'.trace = [] ++ flushEvents [⟨some 3, 0, 0⟩, ⟨some 4, 0, 0⟩]
          ++ [Event.cleanup, Event.onDisconnect MONGO_OK, Event.mongoFree]
      ∧ ac'.freed = true ∧ ac'.replies = [] :=
  (C27_free_status idleProg (fun _ _ _ h => by simp [idleProg] at h)
    ⟨some ErrKind.io, ⟨false, true, false, false, false⟩, [9], some ErrKind.io,
      ⟨true, true, true, true, true⟩, some 1, some 2, [⟨some 3, 0, 0⟩, ⟨some 4, 0, 0⟩], [],
      false, false⟩ 2 rfl rfl rfl).1 rfl

/-! ## C22, C26: the clean disconnect with unsent output; the error code seen by `onConnect` -/

/-- C22: `mongoAsyncDisconnect` tests the callback queue only.  On a connected
controller a write submitted without a callback (`mongoAsyncInsert` with a
NULL `fn`) leaves its frame in the output buffer and the queue empty;
`mongoAsyncDisconnect`, called outside a callback, then closes at once: the
cleanup hook and `onDisconnect(MONGO_OK)` are called and the context is freed
while the frame is still unsent.  With a callback pending the same call only
sets `DISCONNECTING`: the output is written by the next write event, the
reply is delivered by the next read event, and only then the controller
closes. -/
theorem C22_disconnect_drops_unsent_output :
    (runCalls idleProg 3
        [Call.handleWrite SockCheck.ok (Except.ok 0),
         Call.act (Act.write none 0 (Built.ok [9]) (Built.ok [7])),
         Call.act Act.asyncDisconnect]
        (mongoAsyncInitialize ⟨true, true, true, true, true⟩ (some 1) (some 2))).map
      (fun ac => (ac.trace, ac.obuf, ac.replies, ac.freed))
      = some ([Event.onConnect MONGO_OK, Event.delWrite, Event.addRead, Event.addWrite,
          Event.cleanup, Event.onDisconnect MONGO_OK, Event.mongoFree], [9], [], true)
    ∧ (runCalls idleProg 3
        [Call.handleWrite SockCheck.ok (Except.ok 0),
         Call.act (Act.write (some 3) 0 (Built.ok [9]) (Built.ok [7])),
         Call.act Act.asyncDisconnect]
        (mongoAsyncInitialize ⟨true, true, true, true, true⟩ (some 1) (some 2))).map
      (fun ac => (ac.trace, ac.obuf, ac.replies, ac.freed, ac.flags.disconnecting))
      = some ([Event.onConnect MONGO_OK, Event.delWrite, Event.addRead,
          Event.push ⟨some 3, 0, 0⟩, Event.addWrite], [9, 7], [⟨some 3, 0, 0⟩], false, true)
    ∧ (runCalls idleProg 3
        [Call.handleWrite SockCheck.ok (Except.ok 0),
         Call.act (Act.write (some 3) 0 (Built.ok [9]) (Built.ok [7])),
         Call.act Act.asyncDisconnect,
         Call.handleWrite SockCheck.ok (Except.ok 2),
         Call.handleRead SockCheck.ok none [⟨0, 5⟩] ReaderEnd.idle]
        (mongoAsyncInitialize ⟨true, true, true, true, true⟩ (some 1) (some 2))).map
      (fun ac => (ac.trace, ac.obuf, ac.replies, ac.freed))
      = some ([Event.onConnect MONGO_OK, Event.delWrite, Event.addRead,
          Event.push ⟨some 3, 0, 0⟩, Event.addWrite, Event.delWrite, Event.addRead,
          Event.addRead, Event.callback ⟨some 3, 0, 0⟩ (some ⟨0, 5⟩), Event.freeObject ⟨0, 5⟩,
          Event.cleanup, Event.onDisconnect MONGO_OK, Event.mongoFree], [], [], true) := by
  refine ⟨by decide, by decide, by decide⟩

/-- C26: when the connect confirmation fails, `__mongoAsyncHandleConnect` calls
`onConnect(ac, MONGO_ERR)` before `__mongoAsyncDisconnect`, and only the
latter copies the error: the hook runs on a context whose `c->err` is
`MONGO_ERR_IO` while the mirrored `ac->err` is still 0.  The copy made
afterwards by `__mongoAsyncDisconnect` gives `ac->err` the value of `c->err`. -/
theorem C26_onConnect_before_error_copy :
    (∀ (api : Act → mongoAsyncContext → Option mongoAsyncContext) (prog : Prog) (n : Nat),
      __mongoAsyncHandleConnect api prog n (SockCheck.failed false)
          (mongoAsyncInitialize ⟨true, true, true, true, true⟩ (some 1) (some 2))
        = match userCode api (prog.hook 1 MONGO_ERR)
              ⟨some ErrKind.io, ⟨false, false, false, false, false⟩, [], none,
                ⟨true, true, true, true, true⟩, some 1, some 2, [],
                [Event.onConnect MONGO_ERR], false, false⟩ with
          | some ac2 =>
            match __mongoAsyncDisconnect api prog n ac2 with
            | some ac3 => some (MONGO_ERR, ac3)
            | none => none
          | none => none)
    ∧ (mongoCheckSocketError (SockCheck.failed false)
          (mongoAsyncInitialize ⟨true, true, true, true, true⟩ (some 1) (some 2))).2.err
        = some ErrKind.io
    ∧ (mongoCheckSocketError (SockCheck.failed false)
          (mongoAsyncInitialize ⟨true, true, true, true, true⟩ (some 1) (some 2))).2.acErr
        = none
    ∧ (__mongoAsyncCopyError
          ⟨some ErrKind.io, ⟨false, false, false, false, false⟩, [], none,
            ⟨true, true, true, true, true⟩, some 1, some 2, [],
            [Event.onConnect MONGO_ERR], false, false⟩).acErr = some ErrKind.io := by
  refine ⟨?_, rfl, rfl, rfl⟩
  intro api prog n
  rfl

/-! ## C25: the hooks armed by the write handler -/

theorem arms_append (t1 t2 : List Event) : arms (t1 ++ t2) = arms t1 ++ arms t2 := by
  induction t1 with
  | nil => rfl
  | cons e t1 ih =>
    cases e <;> simp [arms, ih]

theorem Unarmed.unarmed_same (ac : mongoAsyncContext) (hc : Closing ac) : Unarmed ac ac :=
  ⟨hc, [], by simp, rfl⟩

theorem Unarmed.unarmed_trans {a b c : mongoAsyncContext} (h1 : Unarmed a b) (h2 : Unarmed b c) :
    Unarmed a c := by
  obtain ⟨_, t1, e1, a1⟩ := h1
  obtain ⟨hc, t2, e2, a2⟩ := h2
  refine ⟨hc, t1 ++ t2, by rw [e2, e1, List.append_assoc], ?_⟩
  rw [arms_append, a1, a2]
  rfl

theorem Unarmed.unarmed_emit (ac : mongoAsyncContext) (e : Event) (hc : Closing ac)
    (he : arms [e] = []) : Unarmed ac (emit ac e) :=
  ⟨hc, [e], rfl, he⟩

theorem Unarmed.unarmed_of_same {ac ac' : mongoAsyncContext} (ht : ac'.trace = ac.trace)
    (hc : Closing ac') : Unarmed ac ac' :=
  ⟨hc, [], by simp [ht], rfl⟩

theorem userCode_unarmed (api : Act → mongoAsyncContext → Option mongoAsyncContext)
    (hapi : ∀ a ac ac', Closing ac → api a ac = some ac' → Unarmed ac ac')
    (acts : List Act) :
    ∀ ac ac', Closing ac → userCode api acts ac = some ac' → Unarmed ac ac' := by
  induction acts with
  | nil =>
    intro ac ac' hc h
    simp only [userCode, Option.some.injEq] at h
    subst h
    exact Unarmed.unarmed_same ac hc
  | cons a rest ih =>
    intro ac ac' hc h
    simp only [userCode] at h
    cases ha : api a ac with
    | none => simp [ha] at h
    | some ac1 =>
      rw [ha] at h
      have u1 := hapi a ac ac1 hc ha
      exact u1.unarmed_trans (ih ac1 ac' u1.1 h)

theorem runCallback_unarmed (api : Act → mongoAsyncContext → Option mongoAsyncContext)
    (hapi : ∀ a ac ac', Closing ac → api a ac = some ac' → Unarmed ac ac')
    (prog : Prog) (ac ac2 : mongoAsyncContext) (cb : mongoCallback) (reply : Option mongoReply)
    (hc : Closing ac) (h : __mongoRunCallback api prog ac cb reply = some ac2) :
    Unarmed ac ac2 := by
  unfold __mongoRunCallback at h
  cases hfn : cb.fn with
  | none =>
    rw [hfn] at h
    simp only [Option.some.injEq] at h
    subst h
    exact Unarmed.unarmed_same ac hc
  | some f =>
    rw [hfn] at h
    simp only at h
    have hc1 : Closing (emit { ac with flags := { ac.flags with in_callback := true } }
        (Event.callback cb reply)) := hc
    have u0 : Unarmed ac (emit { ac with flags := { ac.flags with in_callback := true } }
        (Event.callback cb reply)) := ⟨hc1, [Event.callback cb reply], rfl, rfl⟩
    cases hu : userCode api (prog.callback f reply cb.privdata)
        (emit { ac with flags := { ac.flags with in_callback := true } }
          (Event.callback cb reply)) with
    | none => rw [hu] at h; simp at h
    | some ac1 =>
      rw [hu] at h
      simp only [Option.some.injEq] at h
      subst h
      have u1 := userCode_unarmed api hapi _ _ ac1 hc1 hu
      have u2 : Unarmed ac1 { ac1 with flags := { ac1.flags with in_callback := false } } :=
        Unarmed.unarmed_of_same rfl u1.1
      exact (u0.unarmed_trans u1).unarmed_trans u2

theorem flushLoop_unarmed (api : Act → mongoAsyncContext → Option mongoAsyncContext)
    (hapi : ∀ a ac ac', Closing ac → api a ac = some ac' → Unarmed ac ac')
    (prog : Prog) (n : Nat) :
    ∀ (cb : mongoCallback) (ac ac' : mongoAsyncContext), Closing ac →
      flushLoop api prog n cb ac = some ac' → Unarmed ac ac' := by
  induction n with
  | zero => intro cb ac ac' _ h; simp [flushLoop] at h
  | succ n ih =>
    intro cb ac ac' hc h
    simp only [flushLoop] at h
    cases hs : __mongoShiftCallback ac none cb with
    | mk status rest =>
      obtain ⟨cb', ac1⟩ := rest
      rw [hs] at h
      simp only at h
      obtain ⟨hf1, ht1, _⟩ := shift_same ac ac1 none cb cb' status hs
      have hc1 : Closing ac1 := by
        unfold Closing
        rw [hf1]
        exact hc
      have u1 : Unarmed ac ac1 := Unarmed.unarmed_of_same ht1 hc1
      split at h
      · cases hr : __mongoRunCallback api prog ac1 cb' none with
        | none => rw [hr] at h; simp at h
        | some ac2 =>
          rw [hr] at h
          simp only at h
          have u2 := runCallback_unarmed api hapi prog ac1 ac2 cb' none hc1 hr
          exact (u1.unarmed_trans u2).unarmed_trans (ih cb' ac2 ac' u2.1 h)
      · simp only [Option.some.injEq] at h
        subst h
        exact u1

theorem asyncFree_inner_unarmed (api : Act → mongoAsyncContext → Option mongoAsyncContext)
    (hapi : ∀ a ac ac', Closing ac → api a ac = some ac' → Unarmed ac ac')
    (prog : Prog) (n : Nat) (ac ac' : mongoAsyncContext) (hc : Closing ac)
    (h : __mongoAsyncFree api prog n ac = some ac') : Unarmed ac ac' := by
  unfold __mongoAsyncFree at h
  cases hfl : flushLoop api prog n { fn := none, flags := 0, privdata := 0 } ac with
  | none => rw [hfl] at h; simp at h
  | some ac1 =>
    rw [hfl] at h
    simp only at h
    have u1 := flushLoop_unarmed api hapi prog n _ ac ac1 hc hfl
    have u2 : Unarmed ac1 (_EL_CLEANUP ac1) := by
      unfold _EL_CLEANUP
      split
      · exact Unarmed.unarmed_emit ac1 _ u1.1 rfl
      · exact Unarmed.unarmed_same ac1 u1.1
    have hfin : ∀ ac3, Unarmed ac ac3 → Unarmed ac { emit ac3 Event.mongoFree with freed := true } := by
      intro ac3 u3
      exact u3.unarmed_trans ⟨u3.1, [Event.mongoFree], rfl, rfl⟩
    have hhook : ∀ f st status ac3,
        callHook api prog (Event.onDisconnect st) f status (_EL_CLEANUP ac1) = some ac3 →
        Unarmed (_EL_CLEANUP ac1) ac3 := by
      intro f st status ac3 hk
      unfold callHook at hk
      have u0 := Unarmed.unarmed_emit (_EL_CLEANUP ac1) (Event.onDisconnect st) u2.1 rfl
      exact u0.unarmed_trans (userCode_unarmed api hapi _ _ ac3 u0.1 hk)
    cases hd : (_EL_CLEANUP ac1).onDisconnect with
    | none =>
      rw [hd] at h
      simp only [Option.some.injEq] at h
      subst h
      exact hfin _ (u1.unarmed_trans u2)
    | some f =>
      rw [hd] at h
      simp only at h
      split at h
      · rename_i ac3 hr
        simp only [Option.some.injEq] at h
        subst h
        refine hfin ac3 ?_
        split at hr
        · split at hr
          · exact (u1.unarmed_trans u2).unarmed_trans (hhook f _ _ ac3 hr)
          · exact (u1.unarmed_trans u2).unarmed_trans (hhook f _ _ ac3 hr)
        · simp only [Option.some.injEq] at hr
          subst hr
          exact u1.unarmed_trans u2
      · simp at h

theorem asyncDisconnect_inner_unarmed (api : Act → mongoAsyncContext → Option mongoAsyncContext)
    (hapi : ∀ a ac ac', Closing ac → api a ac = some ac' → Unarmed ac ac')
    (prog : Prog) (n : Nat) (ac ac' : mongoAsyncContext) (hc : Closing ac ∨ ac.err ≠ none)
    (h : __mongoAsyncDisconnect api prog n ac = some ac') : Unarmed ac ac' := by
  unfold __mongoAsyncDisconnect __mongoAsyncCopyError at h
  simp only at h
  by_cases herr : ac.err = none
  · have hc' : Closing ac := by
      rcases hc with hc | hc
      · exact hc
      · exact absurd herr hc
    have u0 : Unarmed ac { ac with acErr := ac.err } := Unarmed.unarmed_of_same rfl hc'
    rw [if_pos herr] at h
    split at h
    · exact u0.unarmed_trans (asyncFree_inner_unarmed api hapi prog n _ ac' (by exact hc') h)
    · simp only [Option.some.injEq] at h
      subst h
      exact Unarmed.unarmed_of_same rfl hc'
  · rw [if_neg herr] at h
    have u0 : Unarmed ac { ({ ac with acErr := ac.err } : mongoAsyncContext) with
        flags := { ac.flags with disconnecting := true } } :=
      Unarmed.unarmed_of_same rfl (Or.inl rfl)
    exact u0.unarmed_trans (asyncFree_inner_unarmed api hapi prog n _ ac' (by exact Or.inl rfl) h)

/-- Once shutdown has begun, no call of the API leads to a call of the hooks
`addRead`, `addWrite`, `delWrite`. -/
theorem apiCall_unarmed (prog : Prog) (fuel : Nat) :
    ∀ a ac ac', Closing ac → apiCall prog fuel a ac = some ac' → Unarmed ac ac' := by
  induction fuel with
  | zero => intro a ac ac' _ h; simp [apiCall] at h
  | succ fuel ih =>
    intro a ac ac' hc h
    cases a with
    | query cb frame =>
      simp only [apiCall, Option.some.injEq] at h
      subst h
      rw [(mongoAsyncQuery_flags ac cb frame).2 hc]
      exact Unarmed.unarmed_same ac hc
    | write fn privdata frame gle =>
      simp only [apiCall, Option.some.injEq] at h
      subst h
      rw [(mongoAsyncWrite_flags ac fn privdata frame gle).2 hc]
      exact Unarmed.unarmed_same ac hc
    | asyncFree =>
      simp only [apiCall, mongoAsyncFree] at h
      have u0 : Unarmed ac { ac with flags := { ac.flags with freeing := true } } :=
        ⟨Or.inr rfl, [], by simp, rfl⟩
      split at h
      · simp only [Option.some.injEq] at h
        subst h
        exact u0
      · exact u0.unarmed_trans (asyncFree_inner_unarmed _ ih prog _ _ ac' (Or.inr rfl) h)
    | asyncDisconnect =>
      simp only [apiCall, mongoAsyncDisconnect] at h
      have u0 : Unarmed ac { ac with flags := { ac.flags with disconnecting := true } } :=
        ⟨Or.inl rfl, [], by simp, rfl⟩
      split at h
      · exact u0.unarmed_trans (asyncDisconnect_inner_unarmed _ ih prog _ _ ac'
          (Or.inl (Or.inl rfl)) h)
      · simp only [Option.some.injEq] at h
        subst h
        exact u0


/-- C25: on a controller on which `MONGO_CONNECTED` is set, when
`mongoBufferWrite` succeeds (the socket accepts `m` bytes)
`mongoAsyncHandleWrite` returns after calling `delWrite` if the output buffer
is then empty and `addWrite` otherwise, and then `addRead` (each hook if it
is registered), and changes nothing but the output buffer; when
`mongoBufferWrite` fails it runs `__mongoAsyncDisconnect` on the context with
the error recorded: the context is freed with an empty queue, and none of
the hooks `addRead`, `addWrite`, `delWrite` is called, whatever the user code
does; the handler then returns when the hooks only submit. -/
theorem C25_write_handler_arming (prog : Prog) (ac : mongoAsyncContext)
    (hconn : ac.flags.connected = true) (chk : SockCheck) :
    (∀ api n m, ∃ ac',
        mongoAsyncHandleWrite api prog n chk (Except.ok m) ac = some ac'
        ∧ ac'.trace = ac.trace
            ++ (if ac.obuf.drop m = [] then (if ac.ev.delWrite then [Event.delWrite] else [])
                else (if ac.ev.addWrite then [Event.addWrite] else []))
            ++ (if ac.ev.addRead then [Event.addRead] else [])
        ∧ ac'.obuf = ac.obuf.drop m ∧ ac'.flags = ac.flags ∧ ac'.replies = ac.replies
        ∧ ac'.freed = ac.freed)
    ∧ (∀ api n k, mongoAsyncHandleWrite api prog n chk (Except.error k) ac
          = __mongoAsyncDisconnect api prog n { ac with err := some k })
    ∧ (∀ fuel n k ac',
        mongoAsyncHandleWrite (apiCall prog fuel) prog n chk (Except.error k) ac = some ac' →
        arms (ac'.trace.drop ac.trace.length) = [] ∧ ac'.freed = true ∧ ac'.replies = [])
    ∧ (HooksSubmitOnly prog → ∀ k, ∃ N ac', ∀ f n, N ≤ n →
        mongoAsyncHandleWrite (apiCall prog (f + 1)) prog n chk (Except.error k) ac = some ac') := by
  have hcf : ∀ api n, handleConnectFirst api prog n chk ac = some (true, ac) := by
    intro api n
    unfold handleConnectFirst
    rw [if_pos hconn]
  have herrw : ∀ api n k, mongoAsyncHandleWrite api prog n chk (Except.error k) ac
      = __mongoAsyncDisconnect api prog n { ac with err := some k } := by
    intro api n k
    unfold mongoAsyncHandleWrite
    rw [hcf]
  refine ⟨?_, herrw, ?_, ?_⟩
  · intro api n m
    refine ⟨_, by unfold mongoAsyncHandleWrite; rw [hcf], ?_⟩
    obtain ⟨err, flags, obuf, acErr, ⟨e1, e2, e3, e4, e5⟩, oc, od, replies, trace, freed,
      aborted⟩ := ac
    by_cases hd : obuf.drop m = [] <;> cases e1 <;> cases e3 <;> cases e4 <;>
      simp [mongoBufferWrite, _EL_ADD_READ, _EL_ADD_WRITE, _EL_DEL_WRITE, emit, hd]
  · intro fuel n k ac' h
    rw [herrw] at h
    obtain ⟨_, t, ht, ha⟩ := asyncDisconnect_inner_unarmed _ (apiCall_unarmed prog fuel) prog n
      _ ac' (Or.inr (by simp)) h
    unfold __mongoAsyncDisconnect __mongoAsyncCopyError at h
    simp only at h
    rw [if_neg (by simp)] at h
    obtain ⟨he, hfreed, _⟩ := asyncFree_inner_closing prog fuel n _ ac' (by exact Or.inl rfl) h
    refine ⟨?_, hfreed, he⟩
    simp only at ht
    rw [ht, List.drop_left]
    exact ha
  · intro hh k
    obtain ⟨N, ac', h, _⟩ := mongoAsyncHandleWrite_returns prog hh chk (Except.error k) ac
    exact ⟨N, ac', h⟩

theorem C25_write_handler_arming_witness :
    ∃ ac',
      mongoAsyncHandleWrite (apiCall idleProg 1) idleProg 1 SockCheck.ok (Except.ok 1)
          ⟨none, ⟨false, true, false, false, false⟩, [9, 7], none, ⟨true, true, true, true, true⟩,
            some 1, some 2, [⟨some 3, 0, 0⟩], [], false, false⟩ = some ac'
      ∧ ac'.trace = [] ++ [Event.addWrite] ++ [Event.addRead]
      ∧ ac'.obuf = [7] ∧ ac'.flags = ⟨false, true, false, false, false⟩
      ∧ ac'.replies = [⟨some 3, 0, 0⟩] ∧ ac'.freed = false :=
  (C25_write_handler_arming idleProg
    ⟨none, ⟨false, true, false, false, false⟩, [9, 7], none, ⟨true, true, true, true, true⟩,
      some 1, some 2, [⟨some 3, 0, 0⟩], [], false, false⟩ rfl SockCheck.ok).1 _ 1 1

/-! ## C34, C35, C36: the assertion of the clean disconnect, the range of the timeout, the set-once hooks -/

/-- C34: the assertion `assert(ac->replies.head == NULL)` of
`__mongoAsyncDisconnect` fails exactly when the function is entered with error
code 0 and a queue that is not empty (the embedding then sets `aborted`).
With every failing transport or reader call leaving its error kind in
`c->err` (as the handlers of the embedding do), no call from outside (a call
of the API, `mongoProcessCallbacks`, `mongoAsyncHandleRead`,
`mongoAsyncHandleWrite`), whatever the user code does inside callbacks and
hooks, and no sequence of such calls makes the assertion fail; and every such
sequence returns when the hooks only submit. -/
theorem C34_clean_disconnect_assertion (prog : Prog) (ac : mongoAsyncContext)
    (hab : ac.aborted = false) :
    (∀ fuel c ac', callStep prog fuel c ac = some ac' → ac'.aborted = false)
    ∧ (∀ fuel cs final, runCalls prog fuel cs ac = some final → final.aborted = false)
    ∧ (∀ api n (x : mongoAsyncContext), x.err = none → x.replies ≠ [] →
        __mongoAsyncDisconnect api prog n x
          = some { __mongoAsyncCopyError x with aborted := true })
    ∧ (∀ api n (x x' : mongoAsyncContext), x.aborted = false →
        (x.err ≠ none ∨ x.replies = []) → __mongoAsyncDisconnect api prog n x = some x' →
        ∃ y, y.aborted = false ∧ __mongoAsyncFree api prog n y = some x')
    ∧ (HooksSubmitOnly prog → ac.flags.in_callback = false → ∀ cs, ∃ N final,
        (∀ fuel, N ≤ fuel → runCalls prog fuel cs ac = some final) ∧ final.aborted = false) := by
  have hsafe : ∀ fuel cs final, runCalls prog fuel cs ac = some final → final.aborted = false := by
    intro fuel cs final h
    have r := runCalls_rel prog fuel cs ac final h
    cases hb : final.aborted with
    | false => rfl
    | true => rw [r.aborted hb] at hab; exact absurd hab (by decide)
  refine ⟨?_, hsafe, ?_, ?_, ?_⟩
  · intro fuel c ac' h
    have r := callStep_rel prog fuel c ac ac' h
    cases hb : ac'.aborted with
    | false => rfl
    | true => rw [r.aborted hb] at hab; exact absurd hab (by decide)
  · intro api n x herr hq
    unfold __mongoAsyncDisconnect __mongoAsyncCopyError
    simp only
    rw [if_pos herr, if_neg hq]
  · intro api n x x' hx hpre h
    unfold __mongoAsyncDisconnect __mongoAsyncCopyError at h
    simp only at h
    by_cases herr : x.err = none
    · rcases hpre with hp | hp
      · exact absurd herr hp
      · rw [if_pos herr, if_pos hp] at h
        exact ⟨_, by exact hx, h⟩
    · rw [if_neg herr] at h
      exact ⟨_, by exact hx, h⟩
  · intro hh hin cs
    obtain ⟨N, final, h, _⟩ := runCalls_returns prog hh cs ac hin
    exact ⟨N, final, h, hsafe N cs final (h N (Nat.le_refl N))⟩

theorem C34_clean_disconnect_assertion_witness :
    ∃ N final,
      (∀ fuel, N ≤ fuel →
        runCalls idleProg fuel
          [Call.handleWrite SockCheck.ok (Except.ok 0),
           Call.act (Act.query { fn := some 1, flags := 0, privdata := 0 } (some [1])),
           Call.act Act.asyncDisconnect,
           Call.handleRead SockCheck.ok none [⟨0, 5⟩] ReaderEnd.idle]
          (mongoAsyncInitialize ⟨true, true, true, true, true⟩ (some 1) (some 2)) = some final)
      ∧ final.aborted = false :=
  (C34_clean_disconnect_assertion idleProg
    (mongoAsyncInitialize ⟨true, true, true, true, true⟩ (some 1) (some 2)) rfl).2.2.2.2
    (fun _ _ a ha => absurd ha (List.not_mem_nil a)) rfl _

/-- C35: `mongoContextTimeoutMsec` returns `MONGO_ERR` with result -1 exactly
when `tv_usec > 1000000` or `tv_sec > (LONG_MAX-999)/1000`, and every value it
returns with `MONGO_OK` for a configured timeout lies in `[0, INT_MAX]`.  But
it has no lower bound on `tv_sec`: the timeout of -9223372036854776 seconds
(and the one of `LONG_MIN` seconds) is accepted, and the product
`tv_sec * 1000` is then not a value of `long`: the multiplication overflows.
With `tv_sec ≥ -9223372036854775` and `tv_usec ≥ 0` no operation
overflows. -/
theorem C35_timeout_product_overflows :
    (mongoContextTimeoutMsec (some (-9223372036854776, 0))).1 = MONGO_OK
    ∧ fitsLong (-9223372036854776) = true
    ∧ fitsLong (-9223372036854776 * 1000) = false
    ∧ (mongoContextTimeoutMsec (some (-LONG_MAX - 1, 0))).1 = MONGO_OK
    ∧ fitsLong (-LONG_MAX - 1) = true
    ∧ fitsLong ((-LONG_MAX - 1) * 1000) = false
    ∧ (∀ s u : Int, mongoContextTimeoutMsec (some (s, u)) = (MONGO_ERR, -1)
        ↔ (u > 1000000 ∨ s > Int.tdiv (LONG_MAX - 999) 1000))
    ∧ (∀ (s u r : Int), mongoContextTimeoutMsec (some (s, u)) = (MONGO_OK, r) →
        0 ≤ r ∧ r ≤ INT_MAX)
    ∧ (∀ s u : Int, u ≤ 1000000 → s ≤ Int.tdiv (LONG_MAX - 999) 1000 →
        -9223372036854775 ≤ s → 0 ≤ u →
        fitsLong (s * 1000) = true ∧ fitsLong (u + 999) = true
          ∧ fitsLong (s * 1000 + Int.tdiv (u + 999) 1000) = true) := by
  have hm : __MAX_MSEC = 9223372036854774 := by decide
  have hm' : Int.tdiv (LONG_MAX - 999) 1000 = 9223372036854774 := by decide
  have hI : INT_MAX = 2147483647 := rfl
  have hL : LONG_MAX = 9223372036854775807 := rfl
  refine ⟨by decide, by decide, by decide, by decide, by decide, by decide, ?_, ?_, ?_⟩
  · intro s u
    rw [hm']
    unfold mongoContextTimeoutMsec
    simp only
    by_cases h : u > 1000000 ∨ s > __MAX_MSEC
    · rw [if_pos h]
      rw [hm] at h
      simp only [true_iff]
      exact h
    · rw [if_neg h]
      rw [hm] at h
      constructor
      · intro he
        split at he
        · simp only [Prod.mk.injEq] at he
          exact absurd he.1.symm MONGO_ERR_ne_OK
        · simp only [Prod.mk.injEq] at he
          exact absurd he.1.symm MONGO_ERR_ne_OK
      · intro hc
        exact absurd hc h
  · intro s u r h
    unfold mongoContextTimeoutMsec at h
    simp only at h
    split at h
    · simp only [Prod.mk.injEq] at h
      exact absurd h.1 MONGO_ERR_ne_OK
    · split at h
      · simp only [Prod.mk.injEq, true_and] at h
        subst h
        rw [hI]
        omega
      · rename_i hr
        simp only [Prod.mk.injEq, true_and] at h
        subst h
        rw [hI] at hr ⊢
        omega
  · intro s u hu hs hsec husec
    rw [hm'] at hs
    rw [tdiv_thousand (u + 999) (by omega)]
    unfold fitsLong
    rw [hL]
    simp only [decide_eq_true_eq]
    omega

/-- C36: `mongoAsyncSetConnectCallback` stores `fn`, calls the hook `addWrite`
(once, if it is registered) and returns `MONGO_OK` when no connect hook is
registered, and returns `MONGO_ERR` leaving the context as it is when one is
registered; `mongoAsyncSetDisconnectCallback` stores `fn` and returns
`MONGO_OK` when no disconnect hook is registered, and returns `MONGO_ERR`
leaving the context as it is when one is.  So a hook, once set, is never
replaced. -/
theorem C36_hooks_set_once (ac : mongoAsyncContext) (fn : Option Nat) :
    (ac.onConnect = none →
      mongoAsyncSetConnectCallback ac fn = (MONGO_OK, _EL_ADD_WRITE { ac with onConnect := fn })
      ∧ (mongoAsyncSetConnectCallback ac fn).2.onConnect = fn
      ∧ (mongoAsyncSetConnectCallback ac fn).2.trace
          = ac.trace ++ (if ac.ev.addWrite then [Event.addWrite] else []))
    ∧ (∀ g, ac.onConnect = some g → mongoAsyncSetConnectCallback ac fn = (MONGO_ERR, ac))
    ∧ (ac.onDisconnect = none →
      mongoAsyncSetDisconnectCallback ac fn = (MONGO_OK, { ac with onDisconnect := fn })
      ∧ (mongoAsyncSetDisconnectCallback ac fn).2.trace = ac.trace)
    ∧ (∀ g, ac.onDisconnect = some g → mongoAsyncSetDisconnectCallback ac fn = (MONGO_ERR, ac))
    ∧ (∀ f : Nat, ac.onConnect = none →
        mongoAsyncSetConnectCallback (mongoAsyncSetConnectCallback ac (some f)).2 fn
          = (MONGO_ERR, (mongoAsyncSetConnectCallback ac (some f)).2)
        ∧ (mongoAsyncSetConnectCallback ac (some f)).2.onConnect = some f)
    ∧ (∀ f : Nat, ac.onDisconnect = none →
        mongoAsyncSetDisconnectCallback (mongoAsyncSetDisconnectCallback ac (some f)).2 fn
          = (MONGO_ERR, (mongoAsyncSetDisconnectCallback ac (some f)).2)
        ∧ (mongoAsyncSetDisconnectCallback ac (some f)).2.onDisconnect = some f) := by
  obtain ⟨err, flags, obuf, acErr, ⟨e1, e2, e3, e4, e5⟩, oc, od, replies, trace, freed,
    aborted⟩ := ac
  refine ⟨?_, ?_, ?_, ?_, ?_, ?_⟩
  · intro h
    simp only at h
    subst h
    cases e3 <;> simp [mongoAsyncSetConnectCallback, _EL_ADD_WRITE, emit]
  · intro g h
    simp only at h
    subst h
    simp [mongoAsyncSetConnectCallback]
  · intro h
    simp only at h
    subst h
    simp [mongoAsyncSetDisconnectCallback]
  · intro g h
    simp only at h
    subst h
    simp [mongoAsyncSetDisconnectCallback]
  · intro f h
    simp only at h
    subst h
    cases e3 <;> simp [mongoAsyncSetConnectCallback, _EL_ADD_WRITE, emit]
  · intro f h
    simp only at h
    subst h
    simp [mongoAsyncSetDisconnectCallback]

theorem C36_hooks_set_once_witness :
    mongoAsyncSetConnectCallback
        (mongoAsyncSetConnectCallback
          (mongoAsyncInitialize ⟨true, true, true, true, true⟩ none none) (some 4)).2 (some 5)
      = (MONGO_ERR, (mongoAsyncSetConnectCallback
          (mongoAsyncInitialize ⟨true, true, true, true, true⟩ none none) (some 4)).2)
    ∧ (mongoAsyncSetConnectCallback
          (mongoAsyncInitialize ⟨true, true, true, true, true⟩ none none) (some 4)).2.onConnect
        = some 4 :=
  (C36_hooks_set_once (mongoAsyncInitialize ⟨true, true, true, true, true⟩ none none)
    (some 5)).2.2.2.2.1 4 rfl

/-! ## C31: the retry budget of the TCP connect -/

theorem connectFinish_cases (blocking : Bool) (o : Pass) (p reuses : Nat) (g : TcpGhost) :
    connectFinish blocking o p reuses g = ⟨MONGO_ERR, none, reuses, g⟩
    ∨ connectFinish blocking o p reuses g = ⟨MONGO_OK, some p, reuses, g⟩ := by
  unfold connectFinish
  split
  · exact Or.inl rfl
  · split
    · exact Or.inl rfl
    · exact Or.inr rfl

/-- One pass through the body of the loop ends with `continue`, or with
`goto addrretry` (only after `EADDRNOTAVAIL` with `REUSEADDR`, the counter
being below the budget after its increment), or with an error, or connected
to the candidate. -/
theorem connectPass_cases (blocking reuseaddr source : Bool) (o : Pass) (p reuses : Nat)
    (g : TcpGhost) :
    connectPass blocking reuseaddr source o p reuses g = PassEnd.next
    ∨ (connectPass blocking reuseaddr source o p reuses g = PassEnd.retry
        ∧ reuseaddr = true ∧ o.connect = some ConnectErrno.eaddrnotavail
        ∧ reuses + 1 < MONGO_CONNECT_RETRIES)
    ∨ connectPass blocking reuseaddr source o p reuses g
        = PassEnd.done ⟨MONGO_ERR, none, reuses, g⟩
    ∨ (MONGO_CONNECT_RETRIES ≤ reuses + 1
        ∧ connectPass blocking reuseaddr source o p reuses g
          = PassEnd.done ⟨MONGO_ERR, none, reuses + 1, g⟩)
    ∨ connectPass blocking reuseaddr source o p reuses g
        = PassEnd.done ⟨MONGO_OK, some p, reuses, g⟩ := by
  have hfin : ∀ x : PassEnd, x = PassEnd.done (connectFinish blocking o p reuses g) →
      x = PassEnd.next
      ∨ (x = PassEnd.retry ∧ reuseaddr = true ∧ o.connect = some ConnectErrno.eaddrnotavail
          ∧ reuses + 1 < MONGO_CONNECT_RETRIES)
      ∨ x = PassEnd.done ⟨MONGO_ERR, none, reuses, g⟩
      ∨ (MONGO_CONNECT_RETRIES ≤ reuses + 1 ∧ x = PassEnd.done ⟨MONGO_ERR, none, reuses + 1, g⟩)
      ∨ x = PassEnd.done ⟨MONGO_OK, some p, reuses, g⟩ := by
    intro x hx
    rcases connectFinish_cases blocking o p reuses g with h | h
    · exact Or.inr (Or.inr (Or.inl (by rw [hx, h])))
    · exact Or.inr (Or.inr (Or.inr (Or.inr (by rw [hx, h]))))
  unfold connectPass
  split
  · exact Or.inl rfl
  · split
    · exact Or.inr (Or.inr (Or.inl rfl))
    · split
      · exact Or.inr (Or.inr (Or.inl rfl))
      · split
        · exact Or.inr (Or.inr (Or.inl rfl))
        · split
          · exact Or.inr (Or.inr (Or.inl rfl))
          · split
            · exact hfin _ rfl
            · rename_i e he
              split
              · exact Or.inl rfl
              · split
                · exact hfin _ rfl
                · split
                  · rename_i hea
                    split
                    · rename_i hge
                      exact Or.inr (Or.inr (Or.inr (Or.inl ⟨hge, rfl⟩)))
                    · rename_i hlt
                      refine Or.inr (Or.inl ⟨rfl, hea.2, ?_, by omega⟩)
                      rw [he, hea.1]
                  · split
                    · exact Or.inr (Or.inr (Or.inl rfl))
                    · exact hfin _ rfl

/-- What the loop guarantees from a counter below the budget: the counter
never exceeds the budget, and when it reaches the budget the function fails;
the label `addrretry` is reached by `goto` at most as often as the counter
was incremented, and at most `9 - reuses` times; a successful connect is to
one of the candidates; the number of passes is at most the number of
candidates plus `9 - reuses`. -/
theorem connectLoop_budget (blocking reuseaddr source : Bool) (outs : List Pass) :
    ∀ (cands : List Nat) (reuses : Nat) (g : TcpGhost) (run : TcpRun),
      reuses < MONGO_CONNECT_RETRIES →
      connectLoop blocking reuseaddr source cands outs reuses g = some run →
      reuses ≤ run.reuses ∧ run.reuses ≤ MONGO_CONNECT_RETRIES
        ∧ (run.reuses = MONGO_CONNECT_RETRIES → run.status = MONGO_ERR)
        ∧ g.retries ≤ run.ghost.retries
        ∧ run.ghost.retries - g.retries ≤ run.reuses - reuses
        ∧ run.ghost.retries + reuses + 1 ≤ g.retries + MONGO_CONNECT_RETRIES
        ∧ (run.status = MONGO_OK → ∃ p ∈ cands, run.connectedTo = some p)
        ∧ run.ghost.passes.length + reuses + 1
            ≤ g.passes.length + cands.length + MONGO_CONNECT_RETRIES := by
  have hR : MONGO_CONNECT_RETRIES = 10 := rfl
  induction outs with
  | nil =>
    intro cands reuses g run hr h
    cases cands with
    | nil =>
      simp only [connectLoop, Option.some.injEq] at h
      subst h
      refine ⟨Nat.le_refl _, Nat.le_of_lt hr, ?_, Nat.le_refl _, ?_, ?_, ?_, ?_⟩
      · intro _; rfl
      · simp
      · simp only; omega
      · intro hs; exact absurd hs MONGO_ERR_ne_OK
      · simp only [List.length_nil]; omega
    | cons p ps => simp [connectLoop] at h
  | cons o os ih =>
    intro cands reuses g run hr h
    cases cands with
    | nil =>
      simp only [connectLoop, Option.some.injEq] at h
      subst h
      refine ⟨Nat.le_refl _, Nat.le_of_lt hr, ?_, Nat.le_refl _, ?_, ?_, ?_, ?_⟩
      · intro _; rfl
      · simp
      · simp only; omega
      · intro hs; exact absurd hs MONGO_ERR_ne_OK
      · simp only [List.length_nil]; omega
    | cons p ps =>
      simp only [connectLoop] at h
      rcases connectPass_cases blocking reuseaddr source o p reuses
          ⟨g.passes ++ [p], g.retries⟩ with hc | ⟨hc, _, _, hlt⟩ | hc | ⟨hge, hc⟩ | hc
      · rw [hc] at h
        simp only at h
        obtain ⟨h1, h2, h3, h4, h5, h6, h7, h8⟩ := ih ps reuses _ run hr h
        simp only [List.length_append, List.length_cons, List.length_nil] at h8 h4 h5 h6 ⊢
        refine ⟨h1, h2, h3, h4, h5, h6, ?_, by omega⟩
        intro hs
        obtain ⟨q, hq, hqc⟩ := h7 hs
        exact ⟨q, List.mem_cons_of_mem _ hq, hqc⟩
      · rw [hc] at h
        simp only at h
        obtain ⟨h1, h2, h3, h4, h5, h6, h7, h8⟩ := ih (p :: ps) (reuses + 1) _ run hlt h
        simp only [List.length_append, List.length_cons, List.length_nil] at h8 h4 h5 h6 ⊢
        exact ⟨by omega, h2, h3, by omega, by omega, by omega, h7, by omega⟩
      · rw [hc] at h
        simp only [Option.some.injEq] at h
        subst h
        simp only [List.length_append, List.length_cons, List.length_nil]
        refine ⟨Nat.le_refl _, Nat.le_of_lt hr, ?_, Nat.le_refl _, by simp, by omega, ?_, by omega⟩
        · intro _; trivial
        · intro hs; exact absurd hs MONGO_ERR_ne_OK
      · rw [hc] at h
        simp only [Option.some.injEq] at h
        subst h
        simp only [List.length_append, List.length_cons, List.length_nil]
        refine ⟨by omega, by omega, ?_, Nat.le_refl _, by simp, by omega, ?_, by omega⟩
        · intro _; trivial
        · intro hs; exact absurd hs MONGO_ERR_ne_OK
      · rw [hc] at h
        simp only [Option.some.injEq] at h
        subst h
        simp only [List.length_append, List.length_cons, List.length_nil]
        refine ⟨Nat.le_refl _, Nat.le_of_lt hr, ?_, Nat.le_refl _, by simp, by omega, ?_, by omega⟩
        · intro hq
          omega
        · intro _
          exact ⟨p, List.mem_cons_self _ _, rfl⟩

/-- The loop ends as soon as the system calls of enough passes are described:
as many as there are candidates, plus `9 - reuses`. -/
theorem connectLoop_returns (blocking reuseaddr source : Bool) (outs : List Pass) :
    ∀ (cands : List Nat) (reuses : Nat) (g : TcpGhost),
      reuses < MONGO_CONNECT_RETRIES →
      cands.length + MONGO_CONNECT_RETRIES ≤ outs.length + reuses + 1 →
      ∃ run, connectLoop blocking reuseaddr source cands outs reuses g = some run := by
  have hR : MONGO_CONNECT_RETRIES = 10 := rfl
  induction outs with
  | nil =>
    intro cands reuses g hr hlen
    cases cands with
    | nil => exact ⟨_, rfl⟩
    | cons p ps =>
      simp only [List.length_cons, List.length_nil] at hlen
      omega
  | cons o os ih =>
    intro cands reuses g hr hlen
    cases cands with
    | nil => exact ⟨_, rfl⟩
    | cons p ps =>
      simp only [List.length_cons] at hlen
      simp only [connectLoop]
      rcases connectPass_cases blocking reuseaddr source o p reuses
          ⟨g.passes ++ [p], g.retries⟩ with hc | ⟨hc, _, _, hlt⟩ | hc | ⟨hge, hc⟩ | hc
      · rw [hc]
        exact ih ps reuses _ hr (by omega)
      · rw [hc]
        exact ih (p :: ps) (reuses + 1) _ hlt (by simp only [List.length_cons]; omega)
      · rw [hc]; exact ⟨_, rfl⟩
      · rw [hc]; exact ⟨_, rfl⟩
      · rw [hc]; exact ⟨_, rfl⟩


/-- A pass in which the calls before `connect` succeed and `connect` fails with
`e`: what the body of the loop does. -/
theorem connectPass_connect_failed (blocking reuseaddr source : Bool) (o : Pass)
    (p reuses : Nat) (g : TcpGhost) (e : ConnectErrno)
    (h1 : o.socket = true) (h2 : o.nonBlocking = true)
    (h3 : source = true → o.sourceInfo = true ∧ o.setReuse = true ∧ o.bound = true)
    (he : o.connect = some e) :
    (e = ConnectErrno.ehostunreach →
      connectPass blocking reuseaddr source o p reuses g = PassEnd.next)
    ∧ (e = ConnectErrno.eaddrnotavail → reuseaddr = true →
        connectPass blocking reuseaddr source o p reuses g
          = if reuses + 1 ≥ MONGO_CONNECT_RETRIES then
              PassEnd.done ⟨MONGO_ERR, none, reuses + 1, g⟩
            else PassEnd.retry) := by
  obtain ⟨sock, nb, si, sr, bd, conn, wr, bl, nd⟩ := o
  simp only at h1 h2 h3 he
  subst h1 h2 he
  constructor
  · intro hx
    subst hx
    cases source with
    | false => simp [connectPass]
    | true =>
      obtain ⟨a, b, c⟩ := h3 rfl
      subst a b c
      simp [connectPass]
  · intro hx hre
    subst hx hre
    cases source with
    | false => simp [connectPass]
    | true =>
      obtain ⟨a, b, c⟩ := h3 rfl
      subst a b c
      simp [connectPass]

/-- C31: in the loop of `_mongoContextConnectTcp` over the candidate addresses,
a pass whose `connect` fails with `EADDRNOTAVAIL` while `REUSEADDR` is enabled
increments the counter `reuses` and, while the counter is below
`MONGO_CONNECT_RETRIES` = 10, runs the body again on the same candidate; when
the counter reaches 10 the function fails.  A pass whose `connect` fails with
`EHOSTUNREACH` goes on with the next candidate.  For every sequence of
outcomes of the system calls the function takes `goto addrretry` at most 9
times in total (hence at most 10), the counter never exceeds 10 and the
function fails when it reaches 10, and the loop makes at most as many passes
as there are candidates plus 9; it ends as soon as the outcomes of that many
passes are given.  Ten failures with `EADDRNOTAVAIL` on the first of two
candidates give 9 retries on that candidate and then the error. -/
theorem C31_connect_retry_budget (blocking reuseaddr source : Bool)
    (timeout : Option (Int × Int)) (cands : List Nat) :
    (∀ (p : Nat) (ps : List Nat) (o : Pass) (os : List Pass) (reuses : Nat) (g : TcpGhost),
        reuseaddr = true → o.socket = true → o.nonBlocking = true →
        (source = true → o.sourceInfo = true ∧ o.setReuse = true ∧ o.bound = true) →
        o.connect = some ConnectErrno.eaddrnotavail →
        (reuses + 1 < MONGO_CONNECT_RETRIES →
          connectLoop blocking reuseaddr source (p :: ps) (o :: os) reuses g
            = connectLoop blocking reuseaddr source (p :: ps) os (reuses + 1)
                ⟨g.passes ++ [p], g.retries + 1⟩)
        ∧ (MONGO_CONNECT_RETRIES ≤ reuses + 1 →
          connectLoop blocking reuseaddr source (p :: ps) (o :: os) reuses g
            = some ⟨MONGO_ERR, none, reuses + 1, ⟨g.passes ++ [p], g.retries⟩⟩))
    ∧ (∀ (p : Nat) (ps : List Nat) (o : Pass) (os : List Pass) (reuses : Nat) (g : TcpGhost),
        o.socket = true → o.nonBlocking = true →
        (source = true → o.sourceInfo = true ∧ o.setReuse = true ∧ o.bound = true) →
        o.connect = some ConnectErrno.ehostunreach →
        connectLoop blocking reuseaddr source (p :: ps) (o :: os) reuses g
          = connectLoop blocking reuseaddr source ps os reuses ⟨g.passes ++ [p], g.retries⟩)
    ∧ (∀ (outs : List Pass) (run : TcpRun),
        _mongoContextConnectTcp blocking reuseaddr source timeout (some cands) outs = some run →
        run.ghost.retries + 1 ≤ MONGO_CONNECT_RETRIES ∧ run.ghost.retries ≤ 10
          ∧ run.ghost.retries ≤ run.reuses ∧ run.reuses ≤ MONGO_CONNECT_RETRIES
          ∧ (run.reuses = MONGO_CONNECT_RETRIES → run.status = MONGO_ERR)
          ∧ run.ghost.passes.length + 1 ≤ cands.length + MONGO_CONNECT_RETRIES)
    ∧ (∀ outs : List Pass, cands.length + MONGO_CONNECT_RETRIES ≤ outs.length + 1 →
        ∃ run, _mongoContextConnectTcp blocking reuseaddr source timeout (some cands) outs
          = some run)
    ∧ (_mongoContextConnectTcp false true true none (some [7, 8])
          (List.replicate 10 (passFailing ConnectErrno.eaddrnotavail))
        = some ⟨MONGO_ERR, none, 10, ⟨[7, 7, 7, 7, 7, 7, 7, 7, 7, 7], 9⟩⟩) := by
  have hR : MONGO_CONNECT_RETRIES = 10 := rfl
  refine ⟨?_, ?_, ?_, ?_, by decide⟩
  · intro p ps o os reuses g hre h1 h2 h3 he
    have hp := (connectPass_connect_failed blocking reuseaddr source o p reuses
      ⟨g.passes ++ [p], g.retries⟩ _ h1 h2 h3 he).2 rfl hre
    constructor
    · intro hlt
      rw [if_neg (by omega)] at hp
      simp only [connectLoop, hp]
    · intro hge
      rw [if_pos (by omega)] at hp
      simp only [connectLoop, hp]
  · intro p ps o os reuses g h1 h2 h3 he
    have hp := (connectPass_connect_failed blocking reuseaddr source o p reuses
      ⟨g.passes ++ [p], g.retries⟩ _ h1 h2 h3 he).1 rfl
    simp only [connectLoop, hp]
  · intro outs run h
    unfold _mongoContextConnectTcp at h
    split at h
    · simp only [Option.some.injEq] at h
      subst h
      simp only [List.length_nil]
      refine ⟨by omega, by omega, Nat.le_refl _, by omega, ?_, by omega⟩
      intro hq
      omega
    · simp only at h
      obtain ⟨_, h2, h3, _, h5, h6, _, h8⟩ :=
        connectLoop_budget blocking reuseaddr source outs cands 0 ⟨[], 0⟩ run (by decide) h
      simp only [List.length_nil] at h5 h6 h8
      exact ⟨by omega, by omega, by omega, h2, h3, by omega⟩
  · intro outs hlen
    unfold _mongoContextConnectTcp
    split
    · exact ⟨_, rfl⟩
    · exact connectLoop_returns blocking reuseaddr source outs cands 0 ⟨[], 0⟩ (by decide)
        (by omega)

/-! ## C32: the two packers agree -/

theorem selector_little (c : Char) : selector ByteOrder.little c = sdsSelector c := by
  unfold selector sdsSelector
  split_ifs <;> simp

theorem splice_splice (buf bs bs' : List Nat) (pos : Nat)
    (h : pos + bs.length + bs'.length ≤ buf.length) :
    List.take (pos + bs.length) (List.take pos buf ++ bs ++ List.drop (pos + bs.length) buf)
        ++ bs'
        ++ List.drop (pos + bs.length + bs'.length)
            (List.take pos buf ++ bs ++ List.drop (pos + bs.length) buf)
      = List.take pos buf ++ (bs ++ bs') ++ List.drop (pos + (bs ++ bs').length) buf := by
  rw [(take_splice buf bs pos (by omega)).2]
  have hl : (List.take pos buf ++ bs).length = pos + bs.length := by
    simp only [List.length_append, List.length_take]
    omega
  have hd : List.drop (pos + bs.length + bs'.length)
      (List.take pos buf ++ bs ++ List.drop (pos + bs.length) buf)
      = List.drop (pos + bs.length + bs'.length) buf := by
    rw [← hl, List.drop_append, List.drop_drop, hl]
  rw [hd]
  simp only [List.length_append, List.append_assoc, Nat.add_assoc]

/-- A `break` out of the data switch of `mongoSdscatpack` has appended the
bytes of the field. -/
theorem sdsCode_next_field (c : Char) (st st' : SdsSt) (args a : List Arg)
    (h : sdsCode c st args = Step.next st' a) :
    ∃ k bs, dataCode c = some k
      ∧ fieldBytes ByteOrder.little st.need_rev k args = some (bs, a)
      ∧ st' = { st with s := st.s ++ bs } := by
  unfold sdsCode at h
  cases hk : dataCode c with
  | none => rw [hk] at h; simp at h
  | some k =>
    rw [hk] at h
    refine ⟨k, ?_⟩
    cases k with
    | byte =>
      cases args with
      | nil => simp at h
      | cons x xs =>
        cases x with
        | num v =>
          simp only [Step.next.injEq] at h
          obtain ⟨h1, h2⟩ := h
          subst h1 h2
          exact ⟨[v % 256], rfl, rfl, rfl⟩
        | ptr m => simp at h
        | size n => simp at h
    | int w =>
      cases args with
      | nil => simp [sdsInt] at h
      | cons x xs =>
        cases x with
        | num v =>
          simp only [sdsInt, Step.next.injEq] at h
          obtain ⟨h1, h2⟩ := h
          subst h1 h2
          exact ⟨_, rfl, rfl, rfl⟩
        | ptr m => simp [sdsInt] at h
        | size n => simp [sdsInt] at h
    | str upper =>
      cases args with
      | nil => simp at h
      | cons x xs =>
        cases x with
        | num v => simp at h
        | size n => simp at h
        | ptr m =>
          simp only at h
          cases hs : strlen m with
          | none => rw [hs] at h; simp at h
          | some n =>
            rw [hs] at h
            simp only [Step.next.injEq] at h
            obtain ⟨h1, h2⟩ := h
            subst h1 h2
            exact ⟨_, rfl, by simp [fieldBytes, hs], rfl⟩
    | mem upper =>
      cases args with
      | nil => simp at h
      | cons x xs =>
        cases x with
        | num v => simp at h
        | size n => simp at h
        | ptr m =>
          cases xs with
          | nil => simp at h
          | cons y ys =>
            cases y with
            | num v => simp at h
            | ptr m2 => simp at h
            | size n =>
              simp only at h
              by_cases h0 : n = 0
              · rw [if_pos h0] at h
                simp only [Step.next.injEq] at h
                obtain ⟨h1, h2⟩ := h
                subst h1 h2 h0
                exact ⟨[], rfl, by simp [fieldBytes], by simp⟩
              · rw [if_neg h0] at h
                by_cases hle : n ≤ m.length
                · rw [if_pos hle] at h
                  simp only [Step.next.injEq] at h
                  obtain ⟨h1, h2⟩ := h
                  subst h1 h2
                  exact ⟨_, rfl, by simp [fieldBytes, hle], rfl⟩
                · rw [if_neg hle] at h
                  simp at h

/-- The data switch of `mongoSdscatpack` on a field: the bytes are appended. -/
theorem sdsCode_field (c : Char) (k : Code) (st : SdsSt) (args a : List Arg) (bs : List Nat)
    (hk : dataCode c = some k)
    (hb : fieldBytes ByteOrder.little st.need_rev k args = some (bs, a)) :
    sdsCode c st args = Step.next { st with s := st.s ++ bs } a := by
  unfold sdsCode
  rw [hk]
  cases k with
  | byte =>
    cases args with
    | nil => simp [fieldBytes] at hb
    | cons x xs =>
      cases x with
      | num v =>
        simp only [fieldBytes, Option.some.injEq, Prod.mk.injEq] at hb
        obtain ⟨h1, h2⟩ := hb
        subst h1 h2
        rfl
      | ptr m => simp [fieldBytes] at hb
      | size n => simp [fieldBytes] at hb
  | int w =>
    cases args with
    | nil => simp [fieldBytes] at hb
    | cons x xs =>
      cases x with
      | num v =>
        simp only [fieldBytes, Option.some.injEq, Prod.mk.injEq] at hb
        obtain ⟨h1, h2⟩ := hb
        subst h1 h2
        rfl
      | ptr m => simp [fieldBytes] at hb
      | size n => simp [fieldBytes] at hb
  | str upper =>
    cases args with
    | nil => simp [fieldBytes] at hb
    | cons x xs =>
      cases x with
      | num v => simp [fieldBytes] at hb
      | size n => simp [fieldBytes] at hb
      | ptr m =>
        cases hs : strlen m with
        | none => simp [fieldBytes, hs] at hb
        | some n =>
          simp only [fieldBytes, hs, Option.map_some', Option.some.injEq, Prod.mk.injEq] at hb
          obtain ⟨h1, h2⟩ := hb
          subst h1 h2
          simp only [hs, sdscatlen]
  | mem upper =>
    cases args with
    | nil => simp [fieldBytes] at hb
    | cons x xs =>
      cases x with
      | num v => simp [fieldBytes] at hb
      | size n => simp [fieldBytes] at hb
      | ptr m =>
        cases xs with
        | nil => simp [fieldBytes] at hb
        | cons y ys =>
          cases y with
          | num v => simp [fieldBytes] at hb
          | ptr m2 => simp [fieldBytes] at hb
          | size n =>
            simp only [fieldBytes] at hb
            by_cases hle : n ≤ m.length
            · rw [if_pos hle] at hb
              simp only [Option.some.injEq, Prod.mk.injEq] at hb
              obtain ⟨h1, h2⟩ := hb
              subst h1 h2
              by_cases h0 : n = 0
              · subst h0
                simp
              · simp only [if_neg h0, if_pos hle, sdscatlen]
            · rw [if_neg hle] at hb
              simp at hb

/-- The loop of `mongoSdscatpack` never takes a `goto error`. -/
theorem sdsLoop_no_error (fmt : List Char) :
    ∀ (b : Bool) (st st' : SdsSt) (args : List Arg), sdsLoop fmt b st args ≠ Step.error st' := by
  induction fmt with
  | nil =>
    intro b st st' args
    cases b <;> simp [sdsLoop]
  | cons c f ih =>
    intro b st st' args
    have hcode : (match sdsCode c st args with
        | Step.next st1 a1 => sdsLoop f false st1 a1
        | e => e) ≠ Step.error st' := by
      cases hc : sdsCode c st args with
      | next st1 a1 => exact ih false st1 st' a1
      | error st1 =>
        exfalso
        unfold sdsCode sdsInt at hc
        repeat' split at hc
        all_goals simp at hc
      | abort => simp
      | undef => simp
    cases b with
    | true =>
      simp only [sdsLoop]
      exact hcode
    | false =>
      simp only [sdsLoop]
      split
      · simp
      · split
        · exact ih true _ st' args
        · exact hcode

/-- Whenever the loop of `mongoSdscatpack` ends, the loop of `mongoSnpack` on
a little-endian host, started with the same `need_rev` and room for the bytes
that were appended, writes these bytes at `ptr`. -/
theorem sds_pack_agree (fmt : List Char) :
    ∀ (b : Bool) (stS stS' : SdsSt) (args a' : List Arg),
      sdsLoop fmt b stS args = Step.next stS' a' →
      ∃ bytes, stS'.s = stS.s ++ bytes ∧
        ∀ stP : PackSt, stP.need_rev = stS.need_rev → stP.remain < SIZE_MOD →
          stP.pos + stP.remain ≤ stP.buf.length → bytes.length ≤ stP.remain →
          packLoop ByteOrder.little fmt b stP args
            = Step.next { need_rev := stS'.need_rev, pos := stP.pos + bytes.length,
                          remain := stP.remain - bytes.length,
                          buf := stP.buf.take stP.pos ++ bytes
                            ++ stP.buf.drop (stP.pos + bytes.length) } a' := by
  induction fmt with
  | nil =>
    intro b stS stS' args a' h
    cases b with
    | true => simp [sdsLoop] at h
    | false =>
      simp only [sdsLoop, Step.next.injEq] at h
      obtain ⟨h1, h2⟩ := h
      subst h1 h2
      refine ⟨[], by simp, ?_⟩
      intro stP hnr _ _ _
      obtain ⟨nr, pos, rem, buf⟩ := stP
      simp only at hnr
      subst hnr
      simp [packLoop]
  | cons c f ih =>
    intro b stS stS' args a' h
    have hcode : (match sdsCode c stS args with
        | Step.next st1 a1 => sdsLoop f false st1 a1
        | e => e) = Step.next stS' a' →
        ∃ bytes, stS'.s = stS.s ++ bytes ∧
          ∀ stP : PackSt, stP.need_rev = stS.need_rev → stP.remain < SIZE_MOD →
            stP.pos + stP.remain ≤ stP.buf.length → bytes.length ≤ stP.remain →
            (match packCode ByteOrder.little c stP args with
              | Step.next st1 a1 => packLoop ByteOrder.little f false st1 a1
              | e => e)
              = Step.next { need_rev := stS'.need_rev, pos := stP.pos + bytes.length,
                            remain := stP.remain - bytes.length,
                            buf := stP.buf.take stP.pos ++ bytes
                              ++ stP.buf.drop (stP.pos + bytes.length) } a' := by
      intro h
      cases hc : sdsCode c stS args with
      | next st1 a1 =>
        rw [hc] at h
        simp only at h
        obtain ⟨k, bs, hk, hfb, hst1⟩ := sdsCode_next_field c stS st1 args a1 hc
        obtain ⟨bytes', hs', hP⟩ := ih false st1 stS' a1 a' h
        refine ⟨bs ++ bytes', ?_, ?_⟩
        · rw [hs', hst1]
          simp
        · intro stP hnr hrem hbuf hlen
          simp only [List.length_append] at hlen
          rw [← hnr] at hfb
          rw [packCode_field ByteOrder.little c k stP args a1 bs hk hfb hrem hbuf,
            if_neg (by omega)]
          simp only
          have hl := splice_length stP.buf bs stP.pos (by omega)
          rw [hP _ (by simp only [hst1, hnr]) (by simp only; omega)
            (by simp only [hl]; omega) (by simp only; omega)]
          simp only [Step.next.injEq, PackSt.mk.injEq, and_true, true_and]
          refine ⟨by simp only [List.length_append]; omega,
            by simp only [List.length_append]; omega, ?_⟩
          exact splice_splice stP.buf bs bytes' stP.pos (by omega)
      | error st1 => rw [hc] at h; simp at h
      | abort => rw [hc] at h; simp at h
      | undef => rw [hc] at h; simp at h
    cases b with
    | true =>
      simp only [sdsLoop] at h
      simp only [packLoop]
      exact hcode h
    | false =>
      simp only [sdsLoop] at h
      simp only [packLoop]
      by_cases hc0 : c = Char.ofNat 0
      · rw [if_pos hc0] at h
        simp only [Step.next.injEq] at h
        obtain ⟨h1, h2⟩ := h
        subst h1 h2
        refine ⟨[], by simp, ?_⟩
        intro stP hnr _ _ _
        obtain ⟨nr, pos, rem, buf⟩ := stP
        simp only at hnr
        subst hnr
        simp [hc0]
      · rw [if_neg hc0] at h
        rw [selector_little]
        cases hs : sdsSelector c with
        | some r =>
          rw [hs] at h
          simp only at h
          obtain ⟨bytes, h1, h2⟩ := ih true _ stS' args a' h
          refine ⟨bytes, h1, ?_⟩
          intro stP hnr hrem hbuf hlen
          rw [if_neg hc0]
          exact h2 { stP with need_rev := r } rfl hrem hbuf hlen
        | none =>
          rw [hs] at h
          simp only at h
          obtain ⟨bytes, h1, h2⟩ := hcode h
          refine ⟨bytes, h1, ?_⟩
          intro stP hnr hrem hbuf hlen
          rw [if_neg hc0]
          exact h2 stP hnr hrem hbuf hlen

/-- For a format that is a sequence of items with matching arguments, the loop
of `mongoSdscatpack` ends and has appended as many bytes as the widths of the
data directives sum to. -/
theorem sdsLoop_width (fmt : List Char) :
    ∀ (b : Bool) (st : SdsSt) (args : List Arg) (W : Nat),
      fmtWidth fmt b args = some W →
      ∃ st' a' bytes, sdsLoop fmt b st args = Step.next st' a' ∧ st'.s = st.s ++ bytes
        ∧ bytes.length = W := by
  induction fmt with
  | nil =>
    intro b st args W hW
    cases b with
    | true => simp [fmtWidth] at hW
    | false =>
      simp only [fmtWidth, Option.some.injEq] at hW
      subst hW
      exact ⟨st, args, [], rfl, by simp, rfl⟩
  | cons c f ih =>
    intro b st args W hW
    have hcode : ∀ (st : SdsSt),
        (match dataCode c with
          | some k =>
            match fieldWidth k args with
            | some (w, args') => (fmtWidth f false args').map (w + ·)
            | none => none
          | none => none) = some W →
        ∃ st' a' bytes,
          (match sdsCode c st args with
            | Step.next st1 args1 => sdsLoop f false st1 args1
            | e => e) = Step.next st' a' ∧ st'.s = st.s ++ bytes ∧ bytes.length = W := by
      intro st hW
      cases hk : dataCode c with
      | none => simp [hk] at hW
      | some k =>
        rw [hk] at hW
        simp only at hW
        cases hf : fieldWidth k args with
        | none => simp [hf] at hW
        | some p =>
          obtain ⟨w, args'⟩ := p
          rw [hf] at hW
          simp only at hW
          cases hW' : fmtWidth f false args' with
          | none => simp [hW'] at hW
          | some W' =>
            simp only [hW', Option.map_some', Option.some.injEq] at hW
            subst hW
            obtain ⟨bs, hbs, hlen⟩ :=
              fieldBytes_of_width ByteOrder.little st.need_rev k args args' w hf
            rw [sdsCode_field c k st args args' bs hk hbs]
            simp only
            obtain ⟨st', a', bytes, h1, h2, h3⟩ := ih false { st with s := st.s ++ bs } args' W' hW'
            refine ⟨st', a', bs ++ bytes, h1, ?_, ?_⟩
            · rw [h2]
              simp
            · simp only [List.length_append]
              omega
    cases b with
    | true =>
      simp only [fmtWidth] at hW
      simp only [sdsLoop]
      exact hcode st hW
    | false =>
      simp only [fmtWidth] at hW
      simp only [sdsLoop]
      by_cases hs : isSelector c = true
      · rw [if_pos hs] at hW
        obtain ⟨r, hr⟩ := sdsSelector_isSome c hs
        rw [if_neg (isSelector_ne_nul c hs), hr]
        exact ih true { st with need_rev := r } args W hW
      · rw [if_neg hs] at hW
        have hn := (sdsSelector_eq_none_iff ByteOrder.little c).mpr
          ((selector_eq_none_iff ByteOrder.little c).mpr (by simpa using hs))
        have hc0 : c ≠ Char.ofNat 0 := by
          rintro rfl
          simp [dataCode] at hW
        rw [if_neg hc0, hn]
        exact hcode st hW


/-- Whenever `mongoSdscatpack` returns, it has appended some bytes, and
`mongoSnpack` on a little-endian host writes the same bytes at the offset of
a buffer that has room for them, and returns the conversion to `int` of the
offset behind them. -/
theorem snpack_of_sdscatpack (s s' : List Nat) (fmt : List Char) (args : List Arg)
    (h : mongoSdscatpack s fmt args = Outcome.ret s') :
    ∃ bytes, s' = s ++ bytes ∧
      ∀ (buf : List Nat) (off size : Nat), off + bytes.length ≤ size → size ≤ buf.length →
        size < SIZE_MOD →
        mongoSnpack ByteOrder.little buf off size fmt args
          = Outcome.ret (toInt32 (off + bytes.length),
              buf.take off ++ bytes ++ buf.drop (off + bytes.length)) := by
  unfold mongoSdscatpack at h
  cases hl : sdsLoop fmt false { need_rev := false, s := s } args with
  | error st => exact absurd hl (sdsLoop_no_error fmt false _ st args)
  | abort => rw [hl] at h; simp at h
  | undef => rw [hl] at h; simp at h
  | next st a =>
    rw [hl] at h
    simp only [Outcome.ret.injEq] at h
    obtain ⟨bytes, hb, hP⟩ := sds_pack_agree fmt false _ st args a hl
    simp only at hb
    refine ⟨bytes, by rw [← h, hb], ?_⟩
    intro buf off size hfit hbuf hsz
    have hrem : sizeSub size off = size - off := sizeSub_of_le _ _ hsz (by omega)
    have hp := hP (packInit buf off size) rfl (by simp only [packInit, hrem]; omega)
      (by simp only [packInit, hrem]; omega) (by simp only [packInit, hrem]; omega)
    unfold mongoSnpack
    rw [hp]
    simp only [packInit, hrem]
    have hs : sizeSub size (size - off - bytes.length) = off + bytes.length := by
      rw [sizeSub_of_le size _ hsz (by omega)]
      omega
    rw [hs]

/-- C32 (counterexample): with a buffer of 2^31 bytes and the offset
`INT_MAX`, `mongoSdscatpack` appends the one byte of the format `b` and
`mongoSnpack` writes the same byte at the offset, but the new offset 2^31
does not fit the returned `int`: the value returned is -2^31, and the
returned value minus the starting offset is not the length 1. -/
theorem C32_offset_above_int_max :
    mongoSdscatpack [] ['b'] [Arg.num 7] = Outcome.ret [7]
    ∧ mongoSnpack ByteOrder.little (List.replicate (2 ^ 31) 0) (2 ^ 31 - 1) (2 ^ 31) ['b']
          [Arg.num 7]
        = Outcome.ret (-2147483648, List.replicate (2 ^ 31 - 1) 0 ++ [7])
    ∧ (-2147483648 : Int) - ((2 ^ 31 - 1 : Nat) : Int) ≠ (([7] : List Nat).length : Int) := by
  have h1 : mongoSdscatpack [] ['b'] [Arg.num 7] = Outcome.ret [7] := by decide
  refine ⟨h1, ?_, by decide⟩
  obtain ⟨bytes, hb, hP⟩ := snpack_of_sdscatpack [] [7] ['b'] [Arg.num 7] h1
  rw [List.nil_append] at hb
  subst hb
  have hlen : (List.replicate (2 ^ 31) (0 : Nat)).length = 2 ^ 31 := List.length_replicate _ _
  have hp := hP (List.replicate (2 ^ 31) 0) (2 ^ 31 - 1) (2 ^ 31) (by decide)
    (by rw [hlen]) (by decide)
  rw [hp]
  have ht : List.take (2 ^ 31 - 1) (List.replicate (2 ^ 31) (0 : Nat))
      = List.replicate (2 ^ 31 - 1) 0 := by
    rw [List.take_replicate]
    rfl
  have hd : List.drop (2 ^ 31 - 1 + ([7] : List Nat).length) (List.replicate (2 ^ 31) (0 : Nat))
      = [] := by
    rw [List.drop_replicate]
    rfl
  have hi : toInt32 (2 ^ 31 - 1 + ([7] : List Nat).length) = -2147483648 := by decide
  rw [ht, hd, hi, List.append_nil]

/-- C32 (amended): whenever `mongoSdscatpack` returns for a format and an
argument tuple, it has appended some bytes to the sequence, and `mongoSnpack`
(on a little-endian host, where `mongoSdscatpack` is a program), run with the
same format and arguments on a buffer of any capacity that has room for these
bytes behind the offset, writes exactly these bytes at the offset and leaves
the rest of the buffer alone; and when the capacity does not exceed
`INT_MAX`, the value it returns differs from the starting offset by the
number of bytes appended.  For every format that is a sequence of items with
matching arguments `mongoSdscatpack` does return, with as many bytes appended
as the widths sum to. -/
theorem C32_packers_agree (s : List Nat) (fmt : List Char) (args : List Arg) :
    (∀ s', mongoSdscatpack s fmt args = Outcome.ret s' →
      ∃ bytes, s' = s ++ bytes ∧
        ∀ (buf : List Nat) (off size : Nat), off + bytes.length ≤ size → size ≤ buf.length →
          size < SIZE_MOD →
          ∃ r, mongoSnpack ByteOrder.little buf off size fmt args
              = Outcome.ret (r, buf.take off ++ bytes ++ buf.drop (off + bytes.length))
            ∧ r = toInt32 (off + bytes.length)
            ∧ (size < 2 ^ 31 → r - (off : Int) = (bytes.length : Int)))
    ∧ (∀ W, fmtWidth fmt false args = some W →
        ∃ bytes, bytes.length = W ∧ mongoSdscatpack s fmt args = Outcome.ret (s ++ bytes))
    ∧ (mongoSdscatpack [9] ['>', 'h', 'S', 'm'] [Arg.num 0x1234, Arg.ptr [65, 0], Arg.ptr [1, 2, 3],
          Arg.size 2] = Outcome.ret ([9] ++ [0x12, 0x34, 65, 0, 1, 2])
      ∧ mongoSnpack ByteOrder.little [0, 0, 0, 0, 0, 0, 0, 0] 1 8 ['>', 'h', 'S', 'm']
          [Arg.num 0x1234, Arg.ptr [65, 0], Arg.ptr [1, 2, 3], Arg.size 2]
          = Outcome.ret (7, [0] ++ [0x12, 0x34, 65, 0, 1, 2] ++ [0])) := by
  refine ⟨?_, ?_, by decide⟩
  · intro s' h
    obtain ⟨bytes, hb, hP⟩ := snpack_of_sdscatpack s s' fmt args h
    refine ⟨bytes, hb, ?_⟩
    intro buf off size hfit hbuf hsz
    refine ⟨_, hP buf off size hfit hbuf hsz, rfl, ?_⟩
    intro hsz'
    rw [toInt32_of_lt _ (by omega)]
    push_cast
    omega
  · intro W hW
    obtain ⟨st', a', bytes, h1, h2, h3⟩ :=
      sdsLoop_width fmt false { need_rev := false, s := s } args W hW
    refine ⟨bytes, h3, ?_⟩
    unfold mongoSdscatpack
    rw [h1]
    simp only [h2]

/-! ## C33: strings through the packer and the unpacker -/

/-- C33 (counterexample): for the code `s` the pack side emits the two
characters of `"AB"` and returns the offset 2, and the unpack side, run with
`s` on these bytes, advances by `strlen + 1` and returns 3.  When the string
is followed by another field, the unpack side takes the bytes of that field
for the string: `"AB"` and the byte 7 packed with `sb` are unpacked with `sb`
as a string of length 3, and the call fails on `b`. -/
theorem C33_lower_s_not_inverted :
    mongoSnpack ByteOrder.little [0, 0, 0, 0] 0 4 ['s'] [Arg.ptr [65, 66, 0]]
        = Outcome.ret (2, [65, 66, 0, 0])
    ∧ mongoSnunpack ByteOrder.little [65, 66, 0, 0] 0 4 ['s'] [UArg.dst]
        = Outcome.ret (3, [Val.ptr 0])
    ∧ mongoSnpack ByteOrder.little [0, 0, 0, 0] 0 4 ['s', 'b'] [Arg.ptr [65, 66, 0], Arg.num 7]
        = Outcome.ret (3, [65, 66, 7, 0])
    ∧ mongoSnunpack ByteOrder.little [65, 66, 7, 0] 0 4 ['s', 'b'] [UArg.dst, UArg.dst]
        = Outcome.ret (-1, [Val.ptr 0]) := by
  decide

/-- Unpacking one string with `s` or `S` from a buffer that holds the
characters `x` and a zero byte at the offset. -/
theorem snunpack_str (host : ByteOrder) (B x post : List Nat) (off size : Nat) (c : Char)
    (upper : Bool) (hc : dataCode c = some (Code.str upper)) (h0 : ∀ b ∈ x, b ≠ 0)
    (hB : B.drop off = x ++ 0 :: post)
    (hfit : off + x.length + 1 ≤ size) (hsz : size < SIZE_MOD) :
    mongoSnunpack host B off size [c] [UArg.dst]
      = Outcome.ret (toInt32 (off + (x.length + 1)),
          [if upper then Val.dup (x ++ [0]) else Val.ptr off]) := by
  obtain ⟨hs1, _, hs0⟩ := dataCode_not_selector host c _ hc
  have hss := sizeSub_sizeSub size off (x.length + 1) hsz (by omega)
  have ht := (take_cstring x post).2
  simp [mongoSnunpack, unpackLoop, unpackInit, hs0, hs1, unpackCode, hc, hB,
    strlen_cstring x post h0, unpackAdvance, hss, ht]

/-- C33 (amended): for every string `x` without an interior NUL, packed with
`S` by `mongoSnpack` into a buffer that has room for it, the buffer holds at
the offset the characters of `x` and the terminator; unpacking these bytes
with `S` yields a copy equal to `x` (with its terminator), unpacking them with
`s` yields the pointer to the offset, where the string `x` stands, and both
return the same new offset as the pack: the unpack side advances the offset by
`strlen + 1`, the number of bytes the pack side emitted for `S`. -/
theorem C33_string_round_trip (host : ByteOrder) (buf x tail : List Nat) (off size : Nat)
    (h0 : ∀ b ∈ x, b ≠ 0) (hfit : off + x.length + 1 ≤ size) (hbuf : size ≤ buf.length)
    (hsz : size < SIZE_MOD) :
    ∃ r buf', mongoSnpack host buf off size ['S'] [Arg.ptr (x ++ 0 :: tail)]
        = Outcome.ret (r, buf')
      ∧ r = toInt32 (off + (x.length + 1))
      ∧ (buf'.drop off).take (x.length + 1) = x ++ [0]
      ∧ strlen (buf'.drop off) = some x.length
      ∧ mongoSnunpack host buf' off size ['S'] [UArg.dst]
          = Outcome.ret (r, [Val.dup (x ++ [0])])
      ∧ mongoSnunpack host buf' off size ['s'] [UArg.dst] = Outcome.ret (r, [Val.ptr off]) := by
  have hS : dataCode 'S' = some (Code.str true) := by decide
  have hs : dataCode 's' = some (Code.str false) := by decide
  have hp := snpack_str host buf x tail off size 'S' true hS h0
    (by simp only [strFieldLen, if_true]; omega) hbuf hsz
  have hf : strFieldLen true x.length = x.length + 1 := rfl
  rw [hf, (take_cstring x tail).2] at hp
  have hl : (List.take off buf).length = off := by
    rw [List.length_take]
    omega
  have hB : (List.take off buf ++ (x ++ [0]) ++ List.drop (off + (x.length + 1)) buf).drop off
      = x ++ 0 :: List.drop (off + (x.length + 1)) buf := by
    rw [List.append_assoc]
    have h2 := List.drop_left (List.take off buf)
      ((x ++ [0]) ++ List.drop (off + (x.length + 1)) buf)
    rw [hl] at h2
    rw [h2]
    simp
  refine ⟨_, _, hp, rfl, ?_, ?_, ?_, ?_⟩
  · rw [hB]
    exact (take_cstring x _).2
  · rw [hB]
    exact strlen_cstring x _ h0
  · have h := snunpack_str host _ x _ off size 'S' true hS h0 hB hfit hsz
    simpa using h
  · have h := snunpack_str host _ x _ off size 's' false hs h0 hB hfit hsz
    simpa using h

theorem C33_string_round_trip_witness :
    ∃ r buf', mongoSnpack ByteOrder.little [0, 0, 0, 0, 0] 1 5 ['S']
          [Arg.ptr ([104, 105] ++ 0 :: [7])] = Outcome.ret (r, buf')
      ∧ r = toInt32 (1 + (([104, 105] : List Nat).length + 1))
      ∧ (buf'.drop 1).take (([104, 105] : List Nat).length + 1) = [104, 105] ++ [0]
      ∧ strlen (buf'.drop 1) = some ([104, 105] : List Nat).length
      ∧ mongoSnunpack ByteOrder.little buf' 1 5 ['S'] [UArg.dst]
          = Outcome.ret (r, [Val.dup ([104, 105] ++ [0])])
      ∧ mongoSnunpack ByteOrder.little buf' 1 5 ['s'] [UArg.dst]
          = Outcome.ret (r, [Val.ptr 1]) :=
  C33_string_round_trip ByteOrder.little [0, 0, 0, 0, 0] [104, 105] [7] 1 5
    (by decide) (by decide) (by decide) (by decide)

/-! ## C37: the callback list as linked records -/

theorem chain_frame (heap heap' : Nat → Option Node) :
    ∀ (addrs : List Nat) (p : Option Nat) (q : List mongoCallback),
      Chain heap p addrs q → (∀ a ∈ addrs, heap' a = heap a) → Chain heap' p addrs q := by
  intro addrs
  induction addrs with
  | nil =>
    intro p q h _
    cases q with
    | nil => exact h
    | cons c q => exact h
  | cons a as ih =>
    intro p q h hf
    cases q with
    | nil => exact h
    | cons c q =>
      obtain ⟨hp, nxt, hh, hc⟩ := h
      refine ⟨hp, nxt, ?_, ih nxt q hc (fun x hx => hf x (List.mem_cons_of_mem _ hx))⟩
      rw [hf a (List.mem_cons_self _ _)]
      exact hh

theorem chain_length (heap : Nat → Option Node) :
    ∀ (addrs : List Nat) (p : Option Nat) (q : List mongoCallback),
      Chain heap p addrs q → addrs.length = q.length := by
  intro addrs
  induction addrs with
  | nil =>
    intro p q h
    cases q with
    | nil => rfl
    | cons c q => exact absurd h id
  | cons a as ih =>
    intro p q h
    cases q with
    | nil => exact absurd h id
    | cons c q =>
      obtain ⟨_, nxt, _, hc⟩ := h
      simp only [List.length_cons, ih nxt q hc]

theorem chain_head (heap : Nat → Option Node) (addrs : List Nat) (p : Option Nat)
    (q : List mongoCallback) (h : Chain heap p addrs q) :
    p = addrs.head? ∧ (p = none ↔ q = []) ∧ (p = none ↔ addrs = []) := by
  cases addrs with
  | nil =>
    cases q with
    | nil =>
      have hp : p = none := h
      simp [hp]
    | cons c q => exact absurd h id
  | cons a as =>
    cases q with
    | nil => exact absurd h id
    | cons c q =>
      obtain ⟨hp, _⟩ := h
      simp [hp]

theorem chain_last (heap : Nat → Option Node) :
    ∀ (addrs : List Nat) (p : Option Nat) (q : List mongoCallback) (t : Nat),
      Chain heap p addrs q → addrs.getLast? = some t →
      ∃ c, q.getLast? = some c ∧ heap t = some { cb := c, next := none } := by
  intro addrs
  induction addrs with
  | nil =>
    intro p q t _ ht
    simp at ht
  | cons a as ih =>
    intro p q t h ht
    cases q with
    | nil => exact absurd h id
    | cons c q =>
      obtain ⟨_, nxt, hh, hc⟩ := h
      cases as with
      | nil =>
        cases q with
        | nil =>
          have hn : nxt = none := hc
          simp only [List.getLast?_singleton, Option.some.injEq] at ht
          subst ht hn
          exact ⟨c, by simp, hh⟩
        | cons c2 q => exact absurd hc id
      | cons b bs =>
        cases q with
        | nil => exact absurd hc id
        | cons c2 q =>
          rw [List.getLast?_cons_cons] at ht
          obtain ⟨c3, h3, h4⟩ := ih nxt (c2 :: q) t hc ht
          exact ⟨c3, by rw [List.getLast?_cons_cons]; exact h3, h4⟩

theorem chain_walk (heap : Nat → Option Node) :
    ∀ (addrs : List Nat) (p : Option Nat) (q : List mongoCallback) (n : Nat),
      Chain heap p addrs q → q.length ≤ n → walk heap n p = q := by
  intro addrs
  induction addrs with
  | nil =>
    intro p q n h _
    cases q with
    | nil =>
      have hp : p = none := h
      subst hp
      cases n <;> rfl
    | cons c q => exact absurd h id
  | cons a as ih =>
    intro p q n h hn
    cases q with
    | nil => exact absurd h id
    | cons c q =>
      obtain ⟨hp, nxt, hh, hc⟩ := h
      subst hp
      cases n with
      | zero => simp at hn
      | succ n =>
        simp only [walk, hh]
        rw [ih nxt q n hc (by simpa using hn)]

/-- Appending a record: the heap `heap'` holds the new record at `a`, the
record that was last now points to `a`, and the other records are as before. -/
theorem chain_snoc (heap heap' : Nat → Option Node) (a : Nat) (s : mongoCallback)
    (ha : heap' a = some { cb := s, next := none }) :
    ∀ (addrs : List Nat) (p : Option Nat) (q : List mongoCallback),
      Chain heap p addrs q → addrs.Nodup → a ∉ addrs →
      (∀ y ∈ addrs, addrs.getLast? ≠ some y → heap' y = heap y) →
      (∀ t tn, addrs.getLast? = some t → heap t = some tn →
        heap' t = some { tn with next := some a }) →
      Chain heap' (if p = none then some a else p) (addrs ++ [a]) (q ++ [s]) := by
  intro addrs
  induction addrs with
  | nil =>
    intro p q h _ _ _ _
    cases q with
    | nil =>
      have hp : p = none := h
      subst hp
      exact ⟨rfl, none, ha, rfl⟩
    | cons c q => exact absurd h id
  | cons x xs ih =>
    intro p q h hnd hna hother hlast
    cases q with
    | nil => exact absurd h id
    | cons c q =>
      obtain ⟨hp, nxt, hh, hc⟩ := h
      subst hp
      have hxa : a ≠ x := fun e => hna (e ▸ List.mem_cons_self _ _)
      have hna' : a ∉ xs := fun e => hna (List.mem_cons_of_mem _ e)
      obtain ⟨hxn, hnd'⟩ := List.nodup_cons.mp hnd
      cases xs with
      | nil =>
        cases q with
        | nil =>
          have hn : nxt = none := hc
          subst hn
          have h1 := hlast x _ (by simp) hh
          exact ⟨by simp, some a, h1, rfl, none, ha, rfl⟩
        | cons c2 q => exact absurd hc id
      | cons y ys =>
        have hx1 : heap' x = heap x := by
          apply hother x (List.mem_cons_self _ _)
          rw [List.getLast?_cons_cons]
          intro e
          exact hxn (List.mem_of_getLast?_eq_some e)
        have hnx : nxt ≠ none := by
          intro e
          have := (chain_head heap (y :: ys) nxt q hc).2.2.mp e
          simp at this
        have ih' := ih nxt q hc hnd' hna'
          (fun z hz hl => hother z (List.mem_cons_of_mem _ hz)
            (by rw [List.getLast?_cons_cons]; exact hl))
          (fun t tn ht htn => hlast t tn (by rw [List.getLast?_cons_cons]; exact ht) htn)
        rw [if_neg hnx] at ih'
        refine ⟨by simp, nxt, ?_, ih'⟩
        rw [hx1]
        exact hh

theorem represents_empty : Represents emptyCallbackList [] :=
  ⟨[], rfl, List.nodup_nil, rfl⟩

theorem represents_head_tail (l : CallbackList) (q : List mongoCallback)
    (h : Represents l q) :
    (l.head = none ↔ l.tail = none) ∧ (l.head = none ↔ q = [])
      ∧ (∀ t, l.tail = some t →
          ∃ c, q.getLast? = some c ∧ l.heap t = some { cb := c, next := none })
      ∧ ∀ n, q.length ≤ n → walk l.heap n l.head = q := by
  obtain ⟨addrs, hc, _, ht⟩ := h
  obtain ⟨_, h2, h3⟩ := chain_head l.heap addrs l.head q hc
  refine ⟨?_, h2, ?_, fun n hn => chain_walk l.heap addrs l.head q n hc hn⟩
  · rw [h3, ht]
    exact List.getLast?_eq_none_iff.symm
  · intro t htl
    exact chain_last l.heap addrs l.head q t hc (by rw [← ht, htl])

theorem chain_alloc (heap : Nat → Option Node) :
    ∀ (addrs : List Nat) (p : Option Nat) (q : List mongoCallback),
      Chain heap p addrs q → ∀ y ∈ addrs, heap y ≠ none := by
  intro addrs
  induction addrs with
  | nil =>
    intro p q _ y hy
    simp at hy
  | cons x xs ih =>
    intro p q h y hy
    cases q with
    | nil => exact absurd h id
    | cons c q =>
      obtain ⟨_, nxt, hh, hc⟩ := h
      rcases List.mem_cons.mp hy with rfl | hy'
      · rw [hh]
        simp
      · exact ih nxt q hc y hy'

theorem represents_push (l : CallbackList) (q : List mongoCallback) (h : Represents l q)
    (a : Nat) (junk : Node) (source : mongoCallback) (ha : l.heap a = none) :
    (Linked.__mongoPushCallback l (some a) junk (some source)).1 = MONGO_OK
    ∧ Represents (Linked.__mongoPushCallback l (some a) junk (some source)).2
        (q ++ [source]) := by
  refine ⟨rfl, ?_⟩
  obtain ⟨heap, head, tail⟩ := l
  obtain ⟨addrs, hc, hnd, ht⟩ := h
  simp only at hc ht ha
  subst ht
  have hna : a ∉ addrs := fun e => chain_alloc heap addrs head q hc a e ha
  have hlast_ne : ∀ t, addrs.getLast? = some t → t ≠ a := by
    intro t e1 e2
    exact hna (e2 ▸ List.mem_of_getLast?_eq_some e1)
  refine ⟨addrs ++ [a], ?_, ?_, ?_⟩
  · simp only [Linked.__mongoPushCallback]
    apply chain_snoc heap _ a source ?_ addrs head q hc hnd hna
    · intro y hy hl
      have hya : y ≠ a := fun e => hna (e ▸ hy)
      cases hg : addrs.getLast? with
      | none => simp [heapStore, hya]
      | some t =>
        have hta : t ≠ a := hlast_ne t hg
        have hyt : y ≠ t := fun e => hl (by rw [hg, e])
        cases hh : heap t with
        | none => simp [heapStore, hya, hta, hh]
        | some tn => simp [heapStore, hya, hta, hh, hyt]
    · intro t tn hg hh
      have hta : t ≠ a := hlast_ne t hg
      simp [hg, heapStore, hta, hh]
    · cases hg : addrs.getLast? with
      | none => simp [heapStore]
      | some t =>
        have hta : t ≠ a := hlast_ne t hg
        have hat : a ≠ t := fun e => hta e.symm
        cases hh : heap t with
        | none => simp [heapStore, hta, hh]
        | some tn => simp [heapStore, hta, hh, hat]
  · rw [List.nodup_append]
    refine ⟨hnd, List.nodup_singleton a, ?_⟩
    intro x hx hx'
    rw [List.mem_singleton] at hx'
    exact hna (hx' ▸ hx)
  · simp [Linked.__mongoPushCallback]

theorem represents_shift (l : CallbackList) (q : List mongoCallback) (h : Represents l q)
    (rpl : Option mongoReply) (target : mongoCallback) :
    (q = [] → Linked.__mongoShiftCallback l rpl target = (MONGO_ERR, target, l))
    ∧ (∀ c rest, q = c :: rest →
        (Linked.__mongoShiftCallback l rpl target).1 = MONGO_OK
        ∧ (Linked.__mongoShiftCallback l rpl target).2.1 = c)
    ∧ Represents (Linked.__mongoShiftCallback l rpl target).2.2
        (fifoCall q (QueueCall.shift rpl target)) := by
  obtain ⟨heap, head, tail⟩ := l
  obtain ⟨addrs, hc, hnd, ht⟩ := h
  simp only at hc ht
  subst ht
  cases addrs with
  | nil =>
    cases q with
    | cons c q => exact absurd hc id
    | nil =>
      have hp : head = none := hc
      subst hp
      refine ⟨fun _ => rfl, fun c rest e => by simp at e, ?_⟩
      exact ⟨[], rfl, List.nodup_nil, rfl⟩
  | cons a as =>
    cases q with
    | nil => exact absurd hc id
    | cons c q =>
      obtain ⟨hp, nxt, hh, hc'⟩ := hc
      subst hp
      obtain ⟨han, hnd'⟩ := List.nodup_cons.mp hnd
      refine ⟨fun e => by simp at e, ?_, ?_⟩
      · intro c' rest e
        simp only [List.cons.injEq] at e
        obtain ⟨e1, _⟩ := e
        subst e1
        simp only [Linked.__mongoShiftCallback, hh]
        split <;> exact ⟨rfl, rfl⟩
      · simp only [Linked.__mongoShiftCallback, hh, fifoCall]
        have key : ∀ b : Bool,
            Represents
              (if b = true then
                ((MONGO_OK, c, ⟨heap, some a, (a :: as).getLast?⟩) :
                  Int × mongoCallback × CallbackList)
              else
                (MONGO_OK, c, ⟨heapFree heap a, nxt,
                  if (a :: as).getLast? = some a then none else (a :: as).getLast?⟩)).2.2
              (if b = true then c :: q else q) := by
          intro b
          cases b with
          | true => exact ⟨a :: as, ⟨rfl, nxt, hh, hc'⟩, hnd, rfl⟩
          | false =>
            show Represents (⟨heapFree heap a, nxt,
              if (a :: as).getLast? = some a then none else (a :: as).getLast?⟩ : CallbackList) q
            refine ⟨as, ?_, hnd', ?_⟩
            · apply chain_frame heap _ as nxt q hc'
              intro x hx
              have hxa : x ≠ a := fun e => han (e ▸ hx)
              simp [heapFree, hxa]
            · cases as with
              | nil => simp
              | cons b bs =>
                have hne : (b :: bs).getLast? ≠ some a :=
                  fun e => han (List.mem_of_getLast?_eq_some e)
                simp only [List.getLast?_cons_cons, if_neg hne]
        exact key _

theorem represents_call (l : CallbackList) (q : List mongoCallback) (h : Represents l q)
    (c : QueueCall) (hf : mallocFresh l [c] = true) :
    Represents (Linked.call l c) (fifoCall q c) := by
  cases c with
  | push cb junk source =>
    cases cb with
    | none => exact h
    | some a =>
      simp only [mallocFresh, Bool.and_true, Option.isNone_iff_eq_none] at hf
      exact (represents_push l q h a junk source hf).2
  | shift rpl target => exact (represents_shift l q h rpl target).2.2

theorem represents_calls (cs : List QueueCall) :
    ∀ (l : CallbackList) (q : List mongoCallback), Represents l q → mallocFresh l cs = true →
      Represents (Linked.calls l cs) (cs.foldl fifoCall q) := by
  induction cs with
  | nil =>
    intro l q h _
    exact h
  | cons c cs ih =>
    intro l q h hf
    simp only [mallocFresh, Bool.and_eq_true] at hf
    simp only [Linked.calls, List.foldl_cons]
    exact ih _ _ (represents_call l q h c (by simp only [mallocFresh, Bool.and_true]; exact hf.1))
      hf.2


theorem fifoCall_shift (ac : mongoAsyncContext) (rpl : Option mongoReply)
    (target : mongoCallback) :
    (__mongoShiftCallback ac rpl target).2.2.replies
      = fifoCall ac.replies (QueueCall.shift rpl target) := by
  unfold __mongoShiftCallback fifoCall
  cases hq : ac.replies with
  | nil => simp only [hq]
  | cons c rest =>
    simp only
    have key : ∀ b : Bool,
        (if b = true then ac else { ac with replies := rest }).replies
          = if b = true then c :: rest else rest := by
      intro b
      cases b with
      | true => exact hq
      | false => rfl
    exact key _

/-- C37: for a callback list whose records are linked as the queue `q`
(`head` leads through the `next` pointers to distinct records holding the
records of `q` in order, the last `next` is NULL and `tail` points to the last
record): `head` is NULL if and only if `tail` is NULL, and if and only if the
queue is empty; the record at `tail` is the last one and its `next` is NULL;
following `next` from `head` reads `q`.  `__mongoPushCallback` with a fresh
block from `malloc` returns `MONGO_OK` and links the copy of the source as the
one new record behind the tail, and returns `MONGO_ERR_OOM` and leaves the
list alone when `malloc` fails.  `__mongoShiftCallback` on the empty list
returns `MONGO_ERR` and leaves target and list alone; on a non-empty list it
returns `MONGO_OK` with the head record in the target, and then, if it
removes, the list holds the rest of the queue, and otherwise the same queue.
Hence every sequence of calls keeps the invariant, and the list holds what the
FIFO list holds; status, target and contents agree with the functions on
`ac.replies` as a list. -/
theorem C37_callback_queue_well_formed (l : CallbackList) (q : List mongoCallback)
    (h : Represents l q) :
    ((l.head = none ↔ l.tail = none) ∧ (l.head = none ↔ q = [])
      ∧ (∀ t, l.tail = some t →
          ∃ c, q.getLast? = some c ∧ l.heap t = some { cb := c, next := none })
      ∧ ∀ n, q.length ≤ n → walk l.heap n l.head = q)
    ∧ (∀ (a : Nat) (junk : Node) (source : mongoCallback), l.heap a = none →
        (Linked.__mongoPushCallback l (some a) junk (some source)).1 = MONGO_OK
        ∧ Represents (Linked.__mongoPushCallback l (some a) junk (some source)).2
            (q ++ [source]))
    ∧ (∀ (junk : Node) (source : Option mongoCallback),
        Linked.__mongoPushCallback l none junk source = (MONGO_ERR_OOM, l))
    ∧ (∀ (rpl : Option mongoReply) (target : mongoCallback),
        (q = [] → Linked.__mongoShiftCallback l rpl target = (MONGO_ERR, target, l))
        ∧ (∀ c rest, q = c :: rest →
            (Linked.__mongoShiftCallback l rpl target).1 = MONGO_OK
            ∧ (Linked.__mongoShiftCallback l rpl target).2.1 = c
            ∧ (Represents (Linked.__mongoShiftCallback l rpl target).2.2 rest
                ∨ Represents (Linked.__mongoShiftCallback l rpl target).2.2 (c :: rest))
            ∧ Represents (Linked.__mongoShiftCallback l none target).2.2 rest))
    ∧ (∀ cs : List QueueCall, mallocFresh l cs = true →
        Represents (Linked.calls l cs) (cs.foldl fifoCall q))
    ∧ (∀ (ac : mongoAsyncContext) (rpl : Option mongoReply) (target source : mongoCallback)
        (a : Nat) (junk : Node), ac.replies = q → l.heap a = none →
        (Linked.__mongoShiftCallback l rpl target).1 = (__mongoShiftCallback ac rpl target).1
        ∧ (Linked.__mongoShiftCallback l rpl target).2.1
            = (__mongoShiftCallback ac rpl target).2.1
        ∧ Represents (Linked.__mongoShiftCallback l rpl target).2.2
            (__mongoShiftCallback ac rpl target).2.2.replies
        ∧ Represents (Linked.__mongoPushCallback l (some a) junk (some source)).2
            (__mongoPushCallback ac source).replies) := by
  have hshift : ∀ (rpl : Option mongoReply) (target : mongoCallback) (c : mongoCallback)
      (rest : List mongoCallback), q = c :: rest →
      Represents (Linked.__mongoShiftCallback l rpl target).2.2 rest
        ∨ Represents (Linked.__mongoShiftCallback l rpl target).2.2 (c :: rest) := by
    intro rpl target c rest e
    have h3 := (represents_shift l q h rpl target).2.2
    subst e
    simp only [fifoCall] at h3
    split at h3
    · exact Or.inr h3
    · exact Or.inl h3
  have hrem : ∀ (target : mongoCallback) (c : mongoCallback) (rest : List mongoCallback),
      q = c :: rest → Represents (Linked.__mongoShiftCallback l none target).2.2 rest := by
    intro target c rest e
    have h3 := (represents_shift l q h none target).2.2
    subst e
    simpa [fifoCall] using h3
  refine ⟨represents_head_tail l q h, fun a junk source ha => represents_push l q h a junk source ha,
    fun _ _ => rfl, ?_, fun cs hf => represents_calls cs l q h hf, ?_⟩
  · intro rpl target
    obtain ⟨h1, h2, _⟩ := represents_shift l q h rpl target
    refine ⟨h1, ?_⟩
    intro c rest e
    exact ⟨(h2 c rest e).1, (h2 c rest e).2, hshift rpl target c rest e, hrem target c rest e⟩
  · intro ac rpl target source a junk hq ha
    obtain ⟨h1, h2, h3⟩ := represents_shift l q h rpl target
    refine ⟨?_, ?_, ?_, ?_⟩
    · cases hq' : q with
      | nil =>
        rw [h1 hq']
        simp [__mongoShiftCallback, hq, hq']
      | cons c rest =>
        rw [(h2 c rest hq').1]
        simp [__mongoShiftCallback, hq, hq']
    · cases hq' : q with
      | nil =>
        rw [h1 hq']
        simp [__mongoShiftCallback, hq, hq']
      | cons c rest =>
        rw [(h2 c rest hq').2]
        simp [__mongoShiftCallback, hq, hq']
    · rw [fifoCall_shift, hq]
      exact h3
    · have hp : (__mongoPushCallback ac source).replies = ac.replies ++ [source] := rfl
      rw [hp, hq]
      exact (represents_push l q h a junk source ha).2

theorem C37_callback_queue_well_formed_witness :
    Represents emptyCallbackList []
    ∧ Represents
        (Linked.calls emptyCallbackList
          [QueueCall.push (some 1) ⟨⟨none, 0, 0⟩, some 9⟩ ⟨some 1, 0, 11⟩,
           QueueCall.push (some 2) ⟨⟨none, 0, 0⟩, some 9⟩ ⟨some 2, 0, 12⟩,
           QueueCall.shift none ⟨none, 0, 0⟩])
        ([QueueCall.push (some 1) ⟨⟨none, 0, 0⟩, some 9⟩ ⟨some 1, 0, 11⟩,
           QueueCall.push (some 2) ⟨⟨none, 0, 0⟩, some 9⟩ ⟨some 2, 0, 12⟩,
           QueueCall.shift none ⟨none, 0, 0⟩].foldl fifoCall []) :=
  ⟨represents_empty,
    (C37_callback_queue_well_formed emptyCallbackList [] represents_empty).2.2.2.2.1 _
      (by decide)⟩

/-! ## C4: a selector stays in force until the next selector -/

/-- One data code under the rule of the most recent selector. -/
theorem stickyBytes_code (host : ByteOrder) (rev : Bool) (c : Char) (k : Code) (f : List Char)
    (args a : List Arg) (bs : List Nat) (hk : dataCode c = some k)
    (hb : fieldBytes host rev k args = some (bs, a)) :
    stickyBytes host rev (c :: f) args = (stickyBytes host rev f a).map (bs ++ ·) := by
  simp only [stickyBytes, (dataCode_not_selector host c k hk).1, hk, hb]

/-- A selector replaces the one in force. -/
theorem stickyBytes_selector (host : ByteOrder) (rev r : Bool) (e : Char) (f : List Char)
    (args : List Arg) (he : selector host e = some r) :
    stickyBytes host rev (e :: f) args = stickyBytes host r f args := by
  simp only [stickyBytes, he]

theorem take_append_split (X bs bytes : List Nat)
    (h : X.take (bs ++ bytes).length = bs ++ bytes) :
    X.take bs.length = bs ∧ (X.drop bs.length).take bytes.length = bytes := by
  rw [List.length_append] at h
  constructor
  · have h1 : X.take bs.length = (X.take (bs.length + bytes.length)).take bs.length := by
      rw [List.take_take, Nat.min_eq_left (Nat.le_add_right _ _)]
    rw [h1, h, List.take_left]
  · exact drop_take_of_take_eq X bs bytes bs.length rfl h

/-- The loop of `mongoSnpack` on a format of items with matching arguments
writes the bytes of the rule of the most recent selector. -/
theorem packLoop_sticky (host : ByteOrder) (fmt : List Char) :
    ∀ (b : Bool) (st : PackSt) (args : List Arg) (W : Nat),
      fmtWidth fmt b args = some W → W ≤ st.remain → st.remain < SIZE_MOD →
      st.pos + st.remain ≤ st.buf.length →
      ∃ bytes rev' a', stickyBytes host st.need_rev fmt args = some bytes ∧ bytes.length = W
        ∧ packLoop host fmt b st args
          = Step.next { need_rev := rev', pos := st.pos + W, remain := st.remain - W,
                        buf := st.buf.take st.pos ++ bytes ++ st.buf.drop (st.pos + W) } a' := by
  induction fmt with
  | nil =>
    intro b st args W hW _ _ _
    cases b with
    | true => simp [fmtWidth] at hW
    | false =>
      simp only [fmtWidth, Option.some.injEq] at hW
      subst hW
      refine ⟨[], st.need_rev, args, rfl, rfl, ?_⟩
      obtain ⟨nr, pos, rem, buf⟩ := st
      simp [packLoop]
  | cons c f ih =>
    intro b st args W hW hfit hrem hbuf
    have hcode : ∀ (st : PackSt), W ≤ st.remain → st.remain < SIZE_MOD →
        st.pos + st.remain ≤ st.buf.length →
        (match dataCode c with
          | some k =>
            match fieldWidth k args with
            | some (w, args') => (fmtWidth f false args').map (w + ·)
            | none => none
          | none => none) = some W →
        ∃ bytes rev' a', stickyBytes host st.need_rev (c :: f) args = some bytes
          ∧ bytes.length = W
          ∧ (match packCode host c st args with
              | Step.next st1 args1 => packLoop host f false st1 args1
              | e => e)
            = Step.next { need_rev := rev', pos := st.pos + W, remain := st.remain - W,
                          buf := st.buf.take st.pos ++ bytes ++ st.buf.drop (st.pos + W) } a' := by
      intro st hfit hrem hbuf hW
      cases hk : dataCode c with
      | none => simp [hk] at hW
      | some k =>
        rw [hk] at hW
        simp only at hW
        cases hf : fieldWidth k args with
        | none => simp [hf] at hW
        | some p =>
          obtain ⟨w, args'⟩ := p
          rw [hf] at hW
          simp only at hW
          cases hW' : fmtWidth f false args' with
          | none => simp [hW'] at hW
          | some W' =>
            simp only [hW', Option.map_some', Option.some.injEq] at hW
            subst hW
            obtain ⟨bs, hbs, hlen⟩ := fieldBytes_of_width host st.need_rev k args args' w hf
            subst hlen
            have hnlt : ¬ st.remain < bs.length := by omega
            have hl := splice_length st.buf bs st.pos (by omega)
            rw [packCode_field host c k st args args' bs hk hbs hrem hbuf, if_neg hnlt,
              stickyBytes_code host st.need_rev c k f args args' bs hk hbs]
            simp only
            obtain ⟨bytes', rev', a', hsb, hbl, hp⟩ := ih false
              { need_rev := st.need_rev, pos := st.pos + bs.length,
                remain := st.remain - bs.length,
                buf := st.buf.take st.pos ++ bs ++ st.buf.drop (st.pos + bs.length) }
              args' W' hW' (by simp only; omega) (by simp only; omega)
              (by simp only [hl]; omega)
            simp only at hsb hp
            subst hbl
            refine ⟨bs ++ bytes', rev', a', by rw [hsb]; rfl, by simp, ?_⟩
            rw [hp]
            simp only [Step.next.injEq, PackSt.mk.injEq, and_true, true_and]
            refine ⟨by omega, by omega, ?_⟩
            have := splice_splice st.buf bs bytes' st.pos (by omega)
            simp only [List.length_append] at this
            rw [Nat.add_assoc] at this ⊢
            exact this
    cases b with
    | true =>
      simp only [fmtWidth] at hW
      simp only [packLoop]
      exact hcode st hfit hrem hbuf hW
    | false =>
      simp only [fmtWidth] at hW
      simp only [packLoop]
      by_cases hs : isSelector c = true
      · rw [if_pos hs] at hW
        obtain ⟨r, hr⟩ := selector_isSome host c hs
        rw [if_neg (isSelector_ne_nul c hs), hr, stickyBytes_selector host st.need_rev r c f args hr]
        exact ih true { st with need_rev := r } args W hW hfit hrem hbuf
      · rw [if_neg hs] at hW
        have hn := (selector_eq_none_iff host c).mpr (by simpa using hs)
        have hc0 : c ≠ Char.ofNat 0 := by
          rintro rfl
          simp [dataCode] at hW
        rw [if_neg hc0, hn]
        exact hcode st hfit hrem hbuf hW

/-- The loop of `mongoSdscatpack` on a format of items with matching
arguments appends the bytes of the rule of the most recent selector. -/
theorem sdsLoop_sticky (fmt : List Char) :
    ∀ (b : Bool) (st : SdsSt) (args : List Arg) (W : Nat),
      fmtWidth fmt b args = some W →
      ∃ bytes rev' a', stickyBytes ByteOrder.little st.need_rev fmt args = some bytes
        ∧ bytes.length = W
        ∧ sdsLoop fmt b st args = Step.next { need_rev := rev', s := st.s ++ bytes } a' := by
  induction fmt with
  | nil =>
    intro b st args W hW
    cases b with
    | true => simp [fmtWidth] at hW
    | false =>
      simp only [fmtWidth, Option.some.injEq] at hW
      subst hW
      refine ⟨[], st.need_rev, args, rfl, rfl, ?_⟩
      simp [sdsLoop]
  | cons c f ih =>
    intro b st args W hW
    have hcode : ∀ (st : SdsSt),
        (match dataCode c with
          | some k =>
            match fieldWidth k args with
            | some (w, args') => (fmtWidth f false args').map (w + ·)
            | none => none
          | none => none) = some W →
        ∃ bytes rev' a', stickyBytes ByteOrder.little st.need_rev (c :: f) args = some bytes
          ∧ bytes.length = W
          ∧ (match sdsCode c st args with
              | Step.next st1 args1 => sdsLoop f false st1 args1
              | e => e) = Step.next { need_rev := rev', s := st.s ++ bytes } a' := by
      intro st hW
      cases hk : dataCode c with
      | none => simp [hk] at hW
      | some k =>
        rw [hk] at hW
        simp only at hW
        cases hf : fieldWidth k args with
        | none => simp [hf] at hW
        | some p =>
          obtain ⟨w, args'⟩ := p
          rw [hf] at hW
          simp only at hW
          cases hW' : fmtWidth f false args' with
          | none => simp [hW'] at hW
          | some W' =>
            simp only [hW', Option.map_some', Option.some.injEq] at hW
            subst hW
            obtain ⟨bs, hbs, hlen⟩ :=
              fieldBytes_of_width ByteOrder.little st.need_rev k args args' w hf
            subst hlen
            rw [sdsCode_field c k st args args' bs hk hbs,
              stickyBytes_code ByteOrder.little st.need_rev c k f args args' bs hk hbs]
            simp only
            obtain ⟨bytes', rev', a', hsb, hbl, hp⟩ :=
              ih false { st with s := st.s ++ bs } args' W' hW'
            simp only at hsb hp
            subst hbl
            refine ⟨bs ++ bytes', rev', a', by rw [hsb]; rfl, by simp, ?_⟩
            rw [hp, List.append_assoc]
    cases b with
    | true =>
      simp only [fmtWidth] at hW
      simp only [sdsLoop]
      exact hcode st hW
    | false =>
      simp only [fmtWidth] at hW
      simp only [sdsLoop]
      by_cases hs : isSelector c = true
      · rw [if_pos hs] at hW
        obtain ⟨r, hr⟩ := sdsSelector_isSome c hs
        have hr' : selector ByteOrder.little c = some r := by rw [selector_little]; exact hr
        rw [if_neg (isSelector_ne_nul c hs), hr,
          stickyBytes_selector ByteOrder.little st.need_rev r c f args hr']
        exact ih true { st with need_rev := r } args W hW
      · rw [if_neg hs] at hW
        have hn := (sdsSelector_eq_none_iff ByteOrder.little c).mpr
          ((selector_eq_none_iff ByteOrder.little c).mpr (by simpa using hs))
        have hc0 : c ≠ Char.ofNat 0 := by
          rintro rfl
          simp [dataCode] at hW
        rw [if_neg hc0, hn]
        exact hcode st hW

/-- The loop of `mongoSnunpack` on a buffer that holds, at `ptr`, the bytes
of the rule of the most recent selector: it recovers the values. -/
theorem unpackLoop_sticky (host : ByteOrder) (B : List Nat) (fmt : List Char) :
    ∀ (b : Bool) (ust : UnpackSt) (args : List Arg) (W : Nat) (bytes : List Nat),
      fmtWidth fmt b args = some W → (∀ c ∈ fmt, c ≠ 's' ∧ c ≠ 'S') →
      stickyBytes host ust.need_rev fmt args = some bytes →
      (B.drop ust.pos).take bytes.length = bytes → ust.pos + bytes.length ≤ B.length →
      bytes.length ≤ ust.remain → ust.remain < SIZE_MOD →
      ∃ ust' ua' vals, unpackLoop host B fmt b ust (unpackArgs args) = Step.next ust' ua'
        ∧ ust'.remain = ust.remain - bytes.length ∧ ust'.out = ust.out ++ vals
        ∧ Recovered B (fmt.filterMap dataCode) args vals := by
  induction fmt with
  | nil =>
    intro b ust args W bytes hW _ hsb _ _ _ _
    cases b with
    | true => simp [fmtWidth] at hW
    | false =>
      simp only [stickyBytes, Option.some.injEq] at hsb
      subst hsb
      exact ⟨ust, unpackArgs args, [], rfl, rfl, by simp, by simp [Recovered]⟩
  | cons c f ih =>
    intro b ust args W bytes hW hrt hsb hB hlen hfit hrem
    have hrt' : ∀ x ∈ f, x ≠ 's' ∧ x ≠ 'S' := fun x hx => hrt x (List.mem_cons_of_mem _ hx)
    have hcode : ∀ (ust : UnpackSt),
        stickyBytes host ust.need_rev (c :: f) args = some bytes →
        (B.drop ust.pos).take bytes.length = bytes → ust.pos + bytes.length ≤ B.length →
        bytes.length ≤ ust.remain → ust.remain < SIZE_MOD →
        (match dataCode c with
          | some k =>
            match fieldWidth k args with
            | some (w, args') => (fmtWidth f false args').map (w + ·)
            | none => none
          | none => none) = some W →
        ∃ ust' ua' vals,
          (match unpackCode host B c ust (unpackArgs args) with
            | Step.next st1 args1 => unpackLoop host B f false st1 args1
            | e => e) = Step.next ust' ua'
          ∧ ust'.remain = ust.remain - bytes.length ∧ ust'.out = ust.out ++ vals
          ∧ Recovered B ((c :: f).filterMap dataCode) args vals := by
      intro ust hsb hB hlen hfit hrem hW
      cases hk : dataCode c with
      | none => simp [hk] at hW
      | some k =>
        rw [hk] at hW
        simp only at hW
        cases hf : fieldWidth k args with
        | none => simp [hf] at hW
        | some p =>
          obtain ⟨w, args'⟩ := p
          rw [hf] at hW
          simp only at hW
          cases hW' : fmtWidth f false args' with
          | none => simp [hW'] at hW
          | some W' =>
            have hstr : ∀ u, k ≠ Code.str u := by
              rintro u rfl
              have hc := hrt c (List.mem_cons_self _ _)
              rcases dataCode_str_cases c u hk with h | h
              · exact hc.1 h
              · exact hc.2 h
            obtain ⟨bs, hbs, _⟩ := fieldBytes_of_width host ust.need_rev k args args' w hf
            rw [stickyBytes_code host ust.need_rev c k f args args' bs hk hbs] at hsb
            cases hsb' : stickyBytes host ust.need_rev f args' with
            | none => simp [hsb'] at hsb
            | some bytes' =>
              simp only [hsb', Option.map_some', Option.some.injEq] at hsb
              subst hsb
              obtain ⟨hB1, hB2⟩ := take_append_split (B.drop ust.pos) bs bytes' hB
              rw [List.drop_drop] at hB2
              simp only [List.length_append] at hlen hfit
              obtain ⟨v, hu, hrec⟩ := unpackCode_field host B c k ust args args' bs hk hstr
                hbs hB1 (by omega) (by omega) hrem
              rw [hu]
              simp only
              obtain ⟨ust', ua', vals, hul, hur, huo, huv⟩ := ih false
                { need_rev := ust.need_rev, pos := ust.pos + bs.length,
                  remain := ust.remain - bs.length, out := ust.out ++ [v] }
                args' W' bytes' hW' hrt' hsb'
                (by simp only; exact hB2) (by simp only; omega)
                (by simp only; omega) (by simp only; omega)
              refine ⟨ust', ua', v :: vals, hul, ?_, ?_, ?_⟩
              · rw [hur]
                simp only [List.length_append]
                omega
              · rw [huo]; simp
              · simp only [List.filterMap_cons, hk]
                exact hrec _ _ huv
    cases b with
    | true =>
      simp only [fmtWidth] at hW
      simp only [unpackLoop]
      exact hcode ust hsb hB hlen hfit hrem hW
    | false =>
      simp only [fmtWidth] at hW
      simp only [unpackLoop]
      by_cases hs : isSelector c = true
      · rw [if_pos hs] at hW
        obtain ⟨r, hr⟩ := selector_isSome host c hs
        have hdc : dataCode c = none := selector_not_dataCode host c r hr
        rw [stickyBytes_selector host ust.need_rev r c f args hr] at hsb
        rw [if_neg (isSelector_ne_nul c hs), hr]
        obtain ⟨ust', ua', vals, hul, hur, huo, huv⟩ := ih true { ust with need_rev := r } args W
          bytes hW hrt' hsb hB hlen hfit hrem
        refine ⟨ust', ua', vals, hul, hur, huo, ?_⟩
        simp only [List.filterMap_cons, hdc]
        exact huv
      · rw [if_neg hs] at hW
        have hn := (selector_eq_none_iff host c).mpr (by simpa using hs)
        have hc0 : c ≠ Char.ofNat 0 := by
          rintro rfl
          simp [dataCode] at hW
        rw [if_neg hc0, hn]
        exact hcode ust hsb hB hlen hfit hrem hW


/-- C4: an endianness selector is sticky, until another selector appears.
For a selector `e` and numeric codes `c1 .. cn` (n ≥ 1), the format
`e c1 .. cn` makes `mongoSnpack`, `mongoSdscatpack` and `mongoSnunpack` do
exactly what the format `e c1 e c2 .. e cn` makes them do; and a format that
starts with numeric codes behaves as if it started with the native selector
`=`.  And for every format that is a sequence of items with matching
arguments, the two packers emit the bytes `stickyBytes`, in which every code
is packed in the order of the most recent selector before it (the native
order before any selector) and a selector replaces the one in force whatever
that was; `mongoSnunpack`, run on a buffer that holds these bytes, recovers
the packed values.  For example `>h<hh>h` packs 0x1234 four times as
`12 34`, `34 12`, `34 12`, `12 34` on a little-endian host. -/
theorem C4_selector_sticky (host : ByteOrder) (e c1 : Char) (cs : List Char)
    (buf s : List Nat) (off size : Nat) (args : List Arg) (uargs : List UArg)
    (he : isSelector e = true) (hcs : ∀ c ∈ c1 :: cs, isNumCode c = true) :
    mongoSnpack host buf off size (e :: c1 :: cs) args
        = mongoSnpack host buf off size (selEach e (c1 :: cs)) args
    ∧ mongoSdscatpack s (e :: c1 :: cs) args = mongoSdscatpack s (selEach e (c1 :: cs)) args
    ∧ mongoSnunpack host buf off size (e :: c1 :: cs) uargs
        = mongoSnunpack host buf off size (selEach e (c1 :: cs)) uargs
    ∧ mongoSnpack host buf off size (c1 :: cs) args
        = mongoSnpack host buf off size ('=' :: c1 :: cs) args
    ∧ mongoSdscatpack s (c1 :: cs) args = mongoSdscatpack s ('=' :: c1 :: cs) args
    ∧ mongoSnunpack host buf off size (c1 :: cs) uargs
        = mongoSnunpack host buf off size ('=' :: c1 :: cs) uargs
    ∧ (∀ (fmt : List Char) (a : List Arg) (W : Nat), fmtWidth fmt false a = some W →
        ∃ bytes, stickyBytes ByteOrder.little false fmt a = some bytes ∧ bytes.length = W
          ∧ mongoSdscatpack s fmt a = Outcome.ret (s ++ bytes))
    ∧ (∀ (fmt : List Char) (a : List Arg) (W : Nat), fmtWidth fmt false a = some W →
        off + W ≤ size → size ≤ buf.length → size < SIZE_MOD →
        ∃ bytes, stickyBytes host false fmt a = some bytes ∧ bytes.length = W
          ∧ mongoSnpack host buf off size fmt a
            = Outcome.ret (toInt32 (off + W), buf.take off ++ bytes ++ buf.drop (off + W)))
    ∧ (∀ (fmt : List Char) (a : List Arg) (W : Nat) (bytes : List Nat),
        fmtWidth fmt false a = some W → (∀ c ∈ fmt, c ≠ 's' ∧ c ≠ 'S') →
        stickyBytes host false fmt a = some bytes →
        (buf.drop off).take bytes.length = bytes → off + bytes.length ≤ size →
        size ≤ buf.length → size < SIZE_MOD →
        ∃ vals, mongoSnunpack host buf off size fmt (unpackArgs a)
            = Outcome.ret (toInt32 (off + bytes.length), vals)
          ∧ Recovered buf (fmt.filterMap dataCode) a vals)
    ∧ (∀ (rev r : Bool) (e2 : Char) (f : List Char) (a : List Arg),
        selector host e2 = some r → stickyBytes host rev (e2 :: f) a = stickyBytes host r f a)
    ∧ (∀ (rev : Bool) (c : Char) (k : Code) (f : List Char) (a a2 : List Arg) (bs : List Nat),
        dataCode c = some k → fieldBytes host rev k a = some (bs, a2) →
        stickyBytes host rev (c :: f) a = (stickyBytes host rev f a2).map (bs ++ ·))
    ∧ (stickyBytes ByteOrder.little false ['>', 'h', '<', 'h', 'h', '>', 'h']
          [Arg.num 0x1234, Arg.num 0x1234, Arg.num 0x1234, Arg.num 0x1234]
          = some [0x12, 0x34, 0x34, 0x12, 0x34, 0x12, 0x12, 0x34]
      ∧ mongoSdscatpack [] ['>', 'h', '<', 'h', 'h', '>', 'h']
          [Arg.num 0x1234, Arg.num 0x1234, Arg.num 0x1234, Arg.num 0x1234]
          = Outcome.ret [0x12, 0x34, 0x34, 0x12, 0x34, 0x12, 0x12, 0x34]
      ∧ mongoSnpack ByteOrder.little [0, 0, 0, 0, 0, 0, 0, 0] 0 8
          ['>', 'h', '<', 'h', 'h', '>', 'h']
          [Arg.num 0x1234, Arg.num 0x1234, Arg.num 0x1234, Arg.num 0x1234]
          = Outcome.ret (8, [0x12, 0x34, 0x34, 0x12, 0x34, 0x12, 0x12, 0x34])
      ∧ mongoSnunpack ByteOrder.little [0x12, 0x34, 0x34, 0x12, 0x34, 0x12, 0x12, 0x34] 0 8
          ['>', 'h', '<', 'h', 'h', '>', 'h'] [UArg.dst, UArg.dst, UArg.dst, UArg.dst]
          = Outcome.ret (8, [Val.num 0x1234, Val.num 0x1234, Val.num 0x1234, Val.num 0x1234]))
    := by
  obtain ⟨r, hr⟩ := selector_isSome host e he
  obtain ⟨r', hr'⟩ := sdsSelector_isSome e he
  obtain ⟨k, hk⟩ := numCode_dataCode c1 (hcs c1 (List.mem_cons_self _ _))
  obtain ⟨hc1, hc1', hc0⟩ := dataCode_not_selector host c1 k hk
  have hcs' : ∀ c ∈ cs, isNumCode c = true := fun x hx => hcs x (List.mem_cons_of_mem _ hx)
  have he0 := selector_ne_nul host e r hr
  have heq : selector host '=' = some false := by simp [selector]
  have heq' : sdsSelector '=' = some false := by simp [sdsSelector]
  have h0 : '=' ≠ Char.ofNat 0 := by decide
  refine ⟨?_, ?_, ?_, ?_, ?_, ?_, ?_, ?_, ?_, ?_, ?_, by decide⟩
  · unfold mongoSnpack
    simp only [selEach, packLoop, he0, hr, if_false]
    cases hp : packCode host c1 { packInit buf off size with need_rev := r } args with
    | next st' args' =>
      simp only
      rw [packLoop_selEach host e r cs hr hcs' st' args'
        (packCode_need_rev host c1 _ st' args args' hp)]
    | error st' => rfl
    | abort => rfl
    | undef => rfl
  · unfold mongoSdscatpack
    simp only [selEach, sdsLoop, he0, hr', if_false]
    cases hp : sdsCode c1 { need_rev := r', s := s } args with
    | next st' args' =>
      simp only
      rw [sdsLoop_selEach e r' cs hr' hcs' st' args' (sdsCode_need_rev c1 _ st' args args' hp)]
    | error st' => rfl
    | abort => rfl
    | undef => rfl
  · unfold mongoSnunpack
    simp only [selEach, unpackLoop, he0, hr, if_false]
    cases hp : unpackCode host buf c1 { unpackInit off size with need_rev := r } uargs with
    | next st' args' =>
      simp only
      rw [unpackLoop_selEach host buf e r cs hr hcs' st' args'
        (unpackCode_need_rev host buf c1 _ st' uargs args' hp)]
    | error st' => rfl
    | abort => rfl
    | undef => rfl
  · unfold mongoSnpack
    simp only [packLoop, h0, heq, hc0, hc1, if_false, packInit]
  · unfold mongoSdscatpack
    simp only [sdsLoop, h0, heq', hc0, hc1', if_false]
  · unfold mongoSnunpack
    simp only [unpackLoop, h0, heq, hc0, hc1, if_false, unpackInit]
  · intro fmt a W hW
    obtain ⟨bytes, rev', a', h1, h2, h3⟩ :=
      sdsLoop_sticky fmt false { need_rev := false, s := s } a W hW
    refine ⟨bytes, h1, h2, ?_⟩
    unfold mongoSdscatpack
    rw [h3]
  · intro fmt a W hW hfit hbuf hsz
    have hrem : sizeSub size off = size - off := sizeSub_of_le _ _ hsz (by omega)
    obtain ⟨bytes, rev', a', h1, h2, h3⟩ := packLoop_sticky host fmt false (packInit buf off size)
      a W hW (by simp only [packInit, hrem]; omega) (by simp only [packInit, hrem]; omega)
      (by simp only [packInit, hrem]; omega)
    refine ⟨bytes, h1, h2, ?_⟩
    unfold mongoSnpack
    rw [h3]
    simp only [packInit, hrem]
    have hs : sizeSub size (size - off - W) = off + W := by
      rw [sizeSub_of_le size _ hsz (by omega)]
      omega
    rw [hs]
  · intro fmt a W bytes hW hrt hsb hB hfit hbuf hsz
    have hrem : sizeSub size off = size - off := sizeSub_of_le _ _ hsz (by omega)
    obtain ⟨ust', ua', vals, h1, h2, h3, h4⟩ := unpackLoop_sticky host buf fmt false
      (unpackInit off size) a W bytes hW hrt hsb hB (by simp only [unpackInit]; omega)
      (by simp only [unpackInit, hrem]; omega) (by simp only [unpackInit, hrem]; omega)
    refine ⟨vals, ?_, h4⟩
    unfold mongoSnunpack
    rw [h1]
    simp only [unpackInit, hrem, List.nil_append] at h2 h3
    have hs : sizeSub size (size - off - bytes.length) = off + bytes.length := by
      rw [sizeSub_of_le size _ hsz (by omega)]
      omega
    simp only [h2, h3, hs]
  · intro rev r e2 f a he2
    exact stickyBytes_selector host rev r e2 f a he2
  · intro rev c k f a a2 bs hk hb
    exact stickyBytes_code host rev c k f a a2 bs hk hb

theorem C4_selector_sticky_witness :
    mongoSnpack ByteOrder.little [0, 0, 0, 0, 0, 0] 0 6 ['>', 'h', 'i'] [Arg.num 1, Arg.num 2]
      = mongoSnpack ByteOrder.little [0, 0, 0, 0, 0, 0] 0 6 (selEach '>' ['h', 'i'])
          [Arg.num 1, Arg.num 2] :=
  (C4_selector_sticky ByteOrder.little '>' 'h' ['i'] [0, 0, 0, 0, 0, 0] [] 0 6
    [Arg.num 1, Arg.num 2] [] (by decide) (by decide)).1

end Himongo
